import Mathlib

/-!
# Save-file marshalling of Dungeon Crawl (`crawl-ref/source/tags.cc`)

A shallow embedding of the buffer-backed `writer` / `reader` pair and of the
primitive and container codecs built on them, followed by the properties
proved about them.

Conventions of the embedding:

* an `unsigned char` is a `Fin 256`; the in-memory buffer `vector<unsigned char>`
  is a `List byte`;
* unsigned machine integers are `Nat`, signed ones are `Int`; every narrowing
  conversion the C++ performs is written out (`int8_of`, `int16_of`, ...,
  `bits32`, `bits64`);
* the bitwise operators of C++ act on two's-complement bit patterns, so an
  expression such as `data & 0xFF00` on a signed operand is evaluated on the
  bit pattern (`bits32 data`) of the promoted operand;
* a `writer` operation is a function `writer → writer`; a `reader` operation
  returns `Except error (value × reader)`, the error being the exception thrown
  or the `die` that ends the load.
-/

namespace Crawl

set_option autoImplicit false

/-! ## Machine integers -/

/-- One `unsigned char`. -/
abbrev byte := Fin 256

/-- Conversion of an unsigned value to `unsigned char`. -/
def toByte (n : Nat) : byte := ⟨n % 256, Nat.mod_lt _ (by decide)⟩

/-- Conversion to `int8_t` (two's complement wrap-around). -/
def int8_of (n : Int) : Int := (n + 128) % 256 - 128

/-- Conversion to `int16_t` / `short`. -/
def int16_of (n : Int) : Int := (n + 32768) % 65536 - 32768

/-- Conversion to `int32_t` / `int`. -/
def int32_of (n : Int) : Int := (n + 2147483648) % 4294967296 - 2147483648

/-- Conversion to `int64_t`. -/
def int64_of (n : Int) : Int :=
  (n + 9223372036854775808) % 18446744073709551616 - 9223372036854775808

/-- The 8-bit two's-complement bit pattern of a value (conversion to `uint8_t`). -/
def bits8 (n : Int) : Nat := (n % 256).toNat

/-- The 32-bit two's-complement bit pattern of a value (conversion to `unsigned`). -/
def bits32 (n : Int) : Nat := (n % 4294967296).toNat

/-- The 64-bit two's-complement bit pattern of a value (conversion to `uint64_t`). -/
def bits64 (n : Int) : Nat := (n % 18446744073709551616).toNat

/-! ## Errors -/

/-- The ways a load can stop: the `short_read_exception`, a `die` / failed
`ASSERT`, the `corrupted_save` exception, the exception the helper `fail(...)`
(declared outside the sources) raises, and `fuel_exhausted`, the outcome of a
loop of the embedding that was cut off (the embedding hands every loop over a
reader more iterations than the buffer has bytes). -/
inductive error where
  | short_read_exception
  | die (msg : String)
  | corrupted_save (msg : String)
  | fail (msg : String)
  | fuel_exhausted
deriving DecidableEq, Repr

/-! ## `writer` (buffer-backed) -/

/-- A `writer` over an in-memory buffer: `_pbuf` and the `failed` flag. -/
structure writer where
  pbuf : List byte
  failed : Bool
deriving DecidableEq, Repr

/-- The `writer(vector<unsigned char>*)` constructor applied to an empty buffer,
as in `vector<unsigned char> buf; writer th(&buf);`. -/
def writer.on_empty_buffer : writer := ⟨[], false⟩

/-- The `writer::writeByte` member, buffer branch: `_pbuf->push_back(ch)`. -/
def writer.writeByte (th : writer) (ch : byte) : writer :=
  if th.failed then th
  else { th with pbuf := th.pbuf ++ [ch] }

/-- The `writer::write` member, buffer branch: `_pbuf->insert(_pbuf->end(), cdata, cdata+size)`;
`data` is the `size` bytes starting at the pointer. -/
def writer.write (th : writer) (data : List byte) : writer :=
  if th.failed then th
  else { th with pbuf := th.pbuf ++ data }

/-- The `writer::tell` member, buffer branch: `_pbuf->size()`. -/
def writer.tell (th : writer) : Nat := th.pbuf.length

/-! ## `reader` (buffer-backed) -/

/-- A `reader` over an in-memory buffer: `_pbuf`, `_read_offset`,
`_minorVersion`, `_safe_read`; `need_save` is the value of the global
`crawl_state.need_save` that `_short_read` consults. -/
structure reader where
  pbuf : List byte
  read_offset : Nat
  minorVersion : Int
  safe_read : Bool
  need_save : Bool
deriving DecidableEq, Repr

/-- The `_short_read` helper: the recoverable exception when no save is needed
or the reader is in safe mode, `die_noline` otherwise. -/
def _short_read (need_save safe_read : Bool) : error :=
  if !need_save || safe_read then error.short_read_exception
  else error.die "short read while reading save"

/-- The `reader::readByte` member, buffer branch. -/
def reader.readByte (th : reader) : Except error (byte × reader) :=
  if h : th.read_offset ≥ th.pbuf.length then
    .error (_short_read th.need_save th.safe_read)
  else
    .ok (th.pbuf.get ⟨th.read_offset, Nat.lt_of_not_le h⟩,
         { th with read_offset := th.read_offset + 1 })

/-- The `size_t` sum `_read_offset + size` of `reader::read`. A `size_t` has 64
bits, so the sum wraps once `size` is at or above 2^64 less `_read_offset`. It
is taken modulo 2^64 on every reader the program can have: the cursor within
the buffer, the buffer a `vector<unsigned char>`, of fewer than 2^63 bytes, and
`size` a `size_t`. On other values, which no reader of the program has, it is
the exact sum. -/
def reader.read_offset_plus (th : reader) (size : Nat) : Nat :=
  if th.read_offset ≤ th.pbuf.length ∧ th.pbuf.length < 9223372036854775808
      ∧ size < 18446744073709551616 then
    (th.read_offset + size) % 18446744073709551616
  else
    th.read_offset + size

/-- The `reader::read` member, buffer branch: the `size` bytes copied out, and
the reader advanced by `size`, both sums being the `size_t` sum. When the sum
wraps to a position within the buffer no short read is raised; what `memcpy`
then copies from beyond the end of the buffer is not modelled, the bytes up to
the end are returned. -/
def reader.read (th : reader) (size : Nat) : Except error (List byte × reader) :=
  if th.read_offset_plus size > th.pbuf.length then
    .error (_short_read th.need_save th.safe_read)
  else
    .ok ((th.pbuf.drop th.read_offset).take size,
         { th with read_offset := th.read_offset_plus size })

/-- The `reader::readByte` member as a step on the reader object: the object
after the call and the outcome. The short read is raised before `_read_offset`
is touched. -/
def reader.readByte_step (th : reader) : reader × Except error byte :=
  if h : th.read_offset ≥ th.pbuf.length then
    (th, .error (_short_read th.need_save th.safe_read))
  else
    ({ th with read_offset := th.read_offset + 1 },
     .ok (th.pbuf.get ⟨th.read_offset, Nat.lt_of_not_le h⟩))

/-- The `reader::read` member as a step on the reader object: the object after
the call and the outcome. The short read is raised before `_read_offset` is
touched. -/
def reader.read_step (th : reader) (size : Nat) : reader × Except error (List byte) :=
  if th.read_offset_plus size > th.pbuf.length then
    (th, .error (_short_read th.need_save th.safe_read))
  else
    ({ th with read_offset := th.read_offset_plus size },
     .ok ((th.pbuf.drop th.read_offset).take size))

/-- The `reader::getMinorVersion` member; `TAG_MINOR_INVALID` is a constant
declared outside the sources and is passed in. -/
def reader.getMinorVersion (th : reader) (TAG_MINOR_INVALID : Int) : Except error Int :=
  if ¬ th.minorVersion ≠ TAG_MINOR_INVALID then
    .error (error.die "ASSERT(_minorVersion != TAG_MINOR_INVALID)")
  else
    .ok th.minorVersion

/-- The `reader::fail_if_not_eof` member, buffer branch: the condition of the
`if` is `_read_offset >= _pbuf->size()`. -/
def reader.fail_if_not_eof (th : reader) (name : String) : Except error Unit :=
  if th.read_offset ≥ th.pbuf.length then
    .error (error.fail ("Incomplete read of \"" ++ name ++ "\" - aborting."))
  else
    .ok ()

/-! ## Fixed-width primitives -/

/-- `void marshallByte(writer &th, int8_t data)`. -/
def marshallByte (th : writer) (data : Int) : writer :=
  th.writeByte (toByte (bits8 data))

/-- `int8_t unmarshallByte(reader &th)`. -/
def unmarshallByte (th : reader) : Except error (Int × reader) := do
  let (b, th) ← th.readByte
  pure (int8_of b.val, th)

/-- `void marshallUByte(writer &th, uint8_t data)`. -/
def marshallUByte (th : writer) (data : Nat) : writer :=
  th.writeByte (toByte data)

/-- `uint8_t unmarshallUByte(reader &th)`. -/
def unmarshallUByte (th : reader) : Except error (Nat × reader) := do
  let (b, th) ← th.readByte
  pure (b.val, th)

/-- `void marshallShort(writer &th, short data)`: two bytes, network order. -/
def marshallShort (th : writer) (data : Int) : writer :=
  let u := bits32 data
  let b2 := toByte (u &&& 0x00FF)
  let b1 := toByte ((u &&& 0xFF00) >>> 8)
  let th := th.writeByte b1
  th.writeByte b2

/-- `int16_t unmarshallShort(reader &th)`. -/
def unmarshallShort (th : reader) : Except error (Int × reader) := do
  let (b1, th) ← th.readByte
  let (b2, th) ← th.readByte
  let data := int16_of (((b1.val <<< 8) ||| (b2.val &&& 0x00FF) : Nat) : Int)
  pure (data, th)

/-- `void marshallInt(writer &th, int32_t data)`: four bytes, network order. -/
def marshallInt (th : writer) (data : Int) : writer :=
  let u := bits32 data
  let b4 := toByte (u &&& 0x000000FF)
  let b3 := toByte ((u &&& 0x0000FF00) >>> 8)
  let b2 := toByte ((u &&& 0x00FF0000) >>> 16)
  let b1 := toByte ((u &&& 0xFF000000) >>> 24)
  let th := th.writeByte b1
  let th := th.writeByte b2
  let th := th.writeByte b3
  th.writeByte b4

/-- `int32_t unmarshallInt(reader &th)`. -/
def unmarshallInt (th : reader) : Except error (Int × reader) := do
  let (b1, th) ← th.readByte
  let (b2, th) ← th.readByte
  let (b3, th) ← th.readByte
  let (b4, th) ← th.readByte
  let data : Nat := (b1.val <<< 24) ||| ((b2.val &&& 0x000000FF) <<< 16)
  let data : Nat := data ||| (((b3.val &&& 0x000000FF) <<< 8) ||| (b4.val &&& 0x000000FF))
  pure (int32_of (data : Int), th)

/-- `void marshallBoolean(writer &th, bool data)`. -/
def marshallBoolean (th : writer) (data : Bool) : writer :=
  th.writeByte (if data then 1 else 0)

/-- `bool unmarshallBoolean(reader &th)`. -/
def unmarshallBoolean (th : reader) : Except error (Bool × reader) := do
  let (b, th) ← th.readByte
  pure (b.val != 0, th)

/-! ## Variable-width integers -/

/-- `void marshallUnsigned(writer& th, uint64_t v)`: the `do ... while (v)` loop,
seven value bits per byte, low group first, `0x80` set while more follows. -/
def marshallUnsigned (th : writer) (v : Nat) : writer :=
  let b := toByte (v &&& 0x7f)
  if _h : v >>> 7 ≠ 0 then
    let b := toByte (b.val ||| 0x80)
    marshallUnsigned (th.writeByte b) (v >>> 7)
  else
    th.writeByte b
termination_by v
decreasing_by
  have h : v >>> 7 ≠ 0 := by assumption
  rw [Nat.shiftRight_eq_div_pow] at h ⊢
  exact Nat.div_lt_self (Nat.pos_of_ne_zero (fun h0 => h (by rw [h0]))) (by decide)

/-- The `uint64_t` shift `x << i`: the low 64 bits of the shifted value. C++
defines it for `i < 64` only; from 64 on the embedding yields 0. -/
def shl64 (x i : Nat) : Nat := (x <<< i) % 18446744073709551616

/-- The `for (;;)` loop of `unmarshallUnsigned`, with the locals `i` (an
`unsigned`) and `v`; `fuel` bounds the number of iterations. -/
def unmarshallUnsigned_loop : Nat → reader → Nat → Nat → Except error (Nat × reader)
  | 0, _, _, _ => .error error.fuel_exhausted
  | fuel + 1, th, i, v => do
    let (b, th) ← th.readByte
    let v := v ||| shl64 (b.val &&& 0x7f) i
    let i := (i + 7) % 4294967296
    if b.val &&& 0x80 = 0 then
      pure (v, th)
    else
      unmarshallUnsigned_loop fuel th i v

/-- `uint64_t unmarshallUnsigned(reader& th)`. Every iteration consumes a byte,
so one iteration more than there are unread bytes is never cut off. -/
def unmarshallUnsigned (th : reader) : Except error (Nat × reader) :=
  unmarshallUnsigned_loop (th.pbuf.length - th.read_offset + 1) th 0 0

/-- `void marshallSigned(writer& th, int64_t v)`: zig-zag, then the unsigned
form. `-v`, `- 1` and `<< 1` are taken in 64-bit two's complement. -/
def marshallSigned (th : writer) (v : Int) : writer :=
  if v < 0 then
    marshallUnsigned th (bits64 (int64_of (int64_of (int64_of (-v) - 1) * 2)) ||| 1)
  else
    marshallUnsigned th (bits64 (int64_of (v * 2)))

/-- `int64_t unmarshallSigned(reader& th)`; `unmarshallUnsigned(th, u)` is the
overload (declared in `tags.h`) that stores the decoded value in `u`, here a
`uint64_t`. `-(u >> 1) - 1` is unsigned 64-bit arithmetic. -/
def unmarshallSigned (th : reader) : Except error (Int × reader) := do
  let (u, th) ← unmarshallUnsigned th
  if u &&& 1 ≠ 0 then
    pure (int64_of (bits64 (-((u >>> 1 : Nat) : Int) - 1) : Nat), th)
  else
    pure (int64_of ((u >>> 1 : Nat) : Int), th)

/-! ## Strings -/

/-- `void marshallString(writer &th, const string &data)`: 2-byte length, then
the characters; `die`s on more than `SHRT_MAX` characters. -/
def marshallString (th : writer) (data : List byte) : Except error writer :=
  let len := data.length
  if len > 32767 then
    .error (error.die "trying to marshall too long a string")
  else
    let th := marshallShort th (int16_of len)
    .ok (th.write (data.take len))

/-- `string unmarshallString(reader &th)`; a failed `ASSERT` is a `die`. -/
def unmarshallString (th : reader) : Except error (List byte × reader) := do
  let (len, th) ← unmarshallShort th
  if ¬ len ≥ 0 then
    throw (error.die "ASSERT(len >= 0)")
  if ¬ len ≤ 32767 then
    throw (error.die "ASSERT(len <= (ssize_t)sizeof(buffer))")
  let (buffer, th) ← th.read len.toNat
  pure (buffer, th)

/-- `void marshallString4(writer &th, const string &data)`: 4-byte length, then
the characters; `die`s on more than `numeric_limits<int32_t>::max()` characters. -/
def marshallString4 (th : writer) (data : List byte) : Except error writer :=
  let len := data.length
  if len > 2147483647 then
    .error (error.die "trying to marshall too long a string")
  else
    let th := marshallInt th (int32_of len)
    .ok (th.write (data.take len))

/-- `void unmarshallString4(reader &th, string& s)`, returning the new `s`. -/
def unmarshallString4 (th : reader) : Except error (List byte × reader) := do
  let (len, th) ← unmarshallInt th
  if ¬ len ≥ 0 then
    throw (error.die "ASSERT(len >= 0)")
  if len ≠ 0 then
    let (s, th) ← th.read len.toNat
    pure (s, th)
  else
    pure ([], th)

/-! ## Fixed-size bit vectors -/

/-- Modelled from the spec: the class template `FixedBitVector<SIZE>` is declared
in a header that is not among the sources; `tags.cc` uses it as a "fixed-size
bit-vector" of `SIZE` bits with `operator[]`, `set` and `reset`. -/
abbrev FixedBitVector (SIZE : Nat) := Fin SIZE → Bool

/-- The `arr[i]` access, used at indices below `SIZE` only. -/
def FixedBitVector.get {SIZE : Nat} (arr : FixedBitVector SIZE) (i : Nat) : Bool :=
  if h : i < SIZE then arr ⟨i, h⟩ else false

/-- The `arr.set(i, value)` member. -/
def FixedBitVector.set {SIZE : Nat} (arr : FixedBitVector SIZE) (i : Nat) (value : Bool) :
    FixedBitVector SIZE :=
  fun k => if k.val = i then value else arr k

/-- The `arr.reset()` member: all bits cleared. -/
def FixedBitVector.reset (SIZE : Nat) : FixedBitVector SIZE := fun _ => false

/-- The scan `for (last_bit = k; last_bit > 0; last_bit--) if (arr[last_bit]) break;`
for a start `k ≥ 0`: the value of `last_bit` after it. -/
def last_bit_scan {SIZE : Nat} (arr : FixedBitVector SIZE) : Nat → Nat
  | 0 => 0
  | k + 1 => if arr.get (k + 1) then k + 1 else last_bit_scan arr k

/-- The local `last_bit` of `marshallFixedBitVector`: the scan starts at
`SIZE - 1` and does not run when that is not positive. -/
def last_bit_of {SIZE : Nat} (arr : FixedBitVector SIZE) : Int :=
  if (SIZE : Int) - 1 > 0 then (last_bit_scan arr (SIZE - 1) : Nat) else (SIZE : Int) - 1

/-- The iterations `j, j+1, ..., j+n-1` of
`for (int j = 0; j < 7; j++) if (i < SIZE && arr[i++]) byte |= 1 << j;`
on the locals `i` and `byte` (a `uint8_t`). -/
def marshall_bits {SIZE : Nat} (arr : FixedBitVector SIZE) :
    Nat → Nat → Nat → Nat → Nat × Nat
  | _, 0, i, byte => (i, byte)
  | j, n + 1, i, byte =>
    if i < SIZE then
      if arr.get i then marshall_bits arr (j + 1) n (i + 1) ((byte ||| (1 <<< j)) % 256)
      else marshall_bits arr (j + 1) n (i + 1) byte
    else marshall_bits arr (j + 1) n i byte

/-- The `while (1)` loop of `marshallFixedBitVector` on the local `i`; `fuel`
bounds the number of iterations. -/
def marshallFixedBitVector_loop {SIZE : Nat} (arr : FixedBitVector SIZE) (last_bit : Int) :
    Nat → writer → Nat → writer
  | 0, th, _ => th
  | fuel + 1, th, i =>
    let r := marshall_bits arr 0 7 i 0
    if (r.1 : Int) ≤ last_bit then
      marshallFixedBitVector_loop arr last_bit fuel (marshallUByte th r.2) r.1
    else
      marshallUByte th (r.2 ||| 0x80)

/-- `template<int SIZE> void marshallFixedBitVector(writer& th, const FixedBitVector<SIZE>& arr)`.
Every iteration but the last moves `i` seven bits up and stays below `SIZE`, so
`SIZE + 1` iterations are never cut off. -/
def marshallFixedBitVector (SIZE : Nat) (th : writer) (arr : FixedBitVector SIZE) : writer :=
  marshallFixedBitVector_loop arr (last_bit_of arr) (SIZE + 1) th 0

/-- The iterations `j, j+1, ..., j+n-1` of
`for (int j = 0; j < 7; j++) if (i < SIZE) arr.set(i++, !!(byte & (1 << j)));`. -/
def unmarshall_bits {SIZE : Nat} (byte : Nat) :
    Nat → Nat → Nat → FixedBitVector SIZE → Nat × FixedBitVector SIZE
  | _, 0, i, arr => (i, arr)
  | j, n + 1, i, arr =>
    if i < SIZE then
      unmarshall_bits byte (j + 1) n (i + 1) (arr.set i (byte &&& (1 <<< j) != 0))
    else unmarshall_bits byte (j + 1) n i arr

/-- The `while (1)` loop of `unmarshallFixedBitVector`; `fuel` bounds the number
of iterations. -/
def unmarshallFixedBitVector_loop {SIZE : Nat} :
    Nat → reader → Nat → FixedBitVector SIZE → Except error (FixedBitVector SIZE × reader)
  | 0, _, _, _ => .error error.fuel_exhausted
  | fuel + 1, th, i, arr => do
    let (byte, th) ← unmarshallUByte th
    let r := unmarshall_bits byte 0 7 i arr
    if byte &&& 0x80 ≠ 0 then
      pure (r.2, th)
    else
      unmarshallFixedBitVector_loop fuel th r.1 r.2

/-- `template<int SIZE> void unmarshallFixedBitVector(reader& th, FixedBitVector<SIZE>& arr)`,
returning the new value of `arr`. Every iteration consumes a byte. -/
def unmarshallFixedBitVector (SIZE : Nat) (th : reader) :
    Except error (FixedBitVector SIZE × reader) :=
  unmarshallFixedBitVector_loop (th.pbuf.length - th.read_offset + 1) th 0
    (FixedBitVector.reset SIZE)

/-! ## Run-length coded grids -/

/-- A two-dimensional grid `g[x][y]`. The cell type is a template parameter of
the codec; the embedding takes the `int` values the codec reads from and
assigns to the cells. -/
abbrev grid := Nat → Nat → Int

/-- The assignment `g[x][y] = value`. -/
def grid.set (g : grid) (x y : Nat) (value : Int) : grid :=
  fun x' y' => if x' = x ∧ y' = y then value else g x' y'

/-- The body of the double loop of `_run_length_encode` at a cell holding
`cell`, on the stream and the locals `last` and `nlast`. -/
def _run_length_encode_cell (m : writer → Int → writer) (st : writer × Int × Nat)
    (cell : Int) : writer × Int × Nat :=
  let th := st.1
  let nlast := st.2.2
  let last := if nlast = 0 then cell else st.2.1
  if last = cell ∧ nlast < 255 then
    (th, last, nlast + 1)
  else
    let th := marshallByte th nlast
    let th := m th last
    (th, cell, 1)

/-- `_run_length_encode(th, m, g, width, height)`: rows `y` outside, columns `x`
inside, then the pending run. -/
def _run_length_encode (th : writer) (m : writer → Int → writer) (g : grid)
    (width height : Nat) : writer :=
  let st := (List.range height).foldl
    (fun st y => (List.range width).foldl
      (fun st x => _run_length_encode_cell m st (g x y)) st)
    (th, 0, 0)
  let th := marshallByte st.1 st.2.2
  m th st.2.1

/-- The loop `for (int i = 0; i < run; ++i)` of `_run_length_decode`, with `run`
iterations to go, on the local `offset` and the grid. -/
def _run_length_decode_run (width : Nat) (value : Int) : Nat → Nat → grid → Nat × grid
  | 0, offset, g => (offset, g)
  | run + 1, offset, g =>
    let y := offset / width
    let x := offset % width
    _run_length_decode_run width value run (offset + 1) (g.set x y value)

/-- The loop `while (offset < end)` of `_run_length_decode`; `fuel` bounds the
number of iterations. -/
def _run_length_decode_loop (um : reader → Except error (Int × reader)) (width end_ : Nat) :
    Nat → reader → Nat → grid → Except error (grid × reader)
  | 0, th, offset, g =>
    if offset < end_ then .error error.fuel_exhausted else pure (g, th)
  | fuel + 1, th, offset, g =>
    if offset < end_ then do
      let (run, th) ← unmarshallUByte th
      let (value, th) ← um th
      let r := _run_length_decode_run width value run offset g
      _run_length_decode_loop um width end_ fuel th r.1 r.2
    else pure (g, th)

/-- `_run_length_decode(th, um, g, width, height)`, returning the grid. The `int`s
`end` and `offset` are computed exactly (a grid has fewer than 2^31 cells).
Every iteration consumes the run-length byte and `um` only moves the cursor
forward, so one iteration more than there are unread bytes is never cut off. -/
def _run_length_decode (th : reader) (um : reader → Except error (Int × reader)) (g : grid)
    (width height : Nat) : Except error (grid × reader) :=
  _run_length_decode_loop um width (width * height)
    (th.pbuf.length - th.read_offset + 1) th 0 g

/-! ## Containers -/

/-- `marshall_iterator(th, beg, end, T_marshall)`: the `int32_t` distance, then
the elements of the range `[beg, end)`, here the list `xs`, in order. -/
def marshall_iterator {α : Type} (th : writer) (xs : List α)
    (T_marshall : writer → α → writer) : writer :=
  let th := marshallInt th (int32_of xs.length)
  xs.foldl T_marshall th

/-- The loop `for (int i = 0; i < num_to_read; ++i) vec.push_back(T_unmarshall(th));`
with the given number of iterations to go. -/
def unmarshall_vector_loop {α : Type} (T_unmarshall : reader → Except error (α × reader)) :
    Nat → reader → List α → Except error (List α × reader)
  | 0, th, vec => pure (vec, th)
  | n + 1, th, vec => do
    let (x, th) ← T_unmarshall th
    unmarshall_vector_loop T_unmarshall n th (vec ++ [x])

/-- `unmarshall_vector(th, vec, T_unmarshall)`, returning the new `vec`. -/
def unmarshall_vector {α : Type} (th : reader)
    (T_unmarshall : reader → Except error (α × reader)) : Except error (List α × reader) := do
  let (num_to_read, th) ← unmarshallInt th
  unmarshall_vector_loop T_unmarshall num_to_read.toNat th []

/-- The `std::map::insert` member on a map held as the list of its entries in
ascending key order: the pair is put at its place, and dropped when its key is
already present. -/
def map_insert {K V : Type} [LinearOrder K] : List (K × V) → K × V → List (K × V)
  | [], p => [p]
  | q :: d, p =>
    if p.1 < q.1 then p :: q :: d
    else if p.1 = q.1 then q :: d
    else q :: map_insert d p

/-- `marshallMap(th, data, key_marshall, value_marshall)`; `data` is the list of
the entries of the `std::map` in iteration (ascending key) order. -/
def marshallMap {K V : Type} (th : writer) (data : List (K × V))
    (key_marshall : writer → K → writer) (value_marshall : writer → V → writer) : writer :=
  let th := marshallInt th (int32_of data.length)
  data.foldl (fun th entry => value_marshall (key_marshall th entry.1) entry.2) th

/-- `marshallMap(th, data, key_marshall, value_marshall)` with a `value_marshall`
that can `die`: the count is written, then the entries in order up to the
first one on which `value_marshall` dies. -/
def marshallMap_or_die {K V : Type} (th : writer) (data : List (K × V))
    (key_marshall : writer → K → writer)
    (value_marshall : writer → V → Except error writer) : Except error writer :=
  let th := marshallInt th (int32_of data.length)
  data.foldlM (fun th entry => value_marshall (key_marshall th entry.1) entry.2) th

/-- The loop of `unmarshallMap` with the given number of iterations to go. -/
def unmarshallMap_loop {K V : Type} [LinearOrder K]
    (key_unmarshall : reader → Except error (K × reader))
    (value_unmarshall : reader → Except error (V × reader)) :
    Nat → reader → List (K × V) → Except error (List (K × V) × reader)
  | 0, th, data => pure (data, th)
  | n + 1, th, data => do
    let (k, th) ← key_unmarshall th
    let (v, th) ← value_unmarshall th
    unmarshallMap_loop key_unmarshall value_unmarshall n th (map_insert data (k, v))

/-- `unmarshallMap(th, data, key_unmarshall, value_unmarshall)`, returning the
new `data`; the destination is not cleared. -/
def unmarshallMap {K V : Type} [LinearOrder K] (th : reader) (data : List (K × V))
    (key_unmarshall : reader → Except error (K × reader))
    (value_unmarshall : reader → Except error (V × reader)) :
    Except error (List (K × V) × reader) := do
  let (len, th) ← unmarshallInt th
  unmarshallMap_loop key_unmarshall value_unmarshall len.toNat th data

/-! ## Tags -/

/-- Modelled from the spec: the enumeration `tag_type` is declared in `tags.h`,
which is not among the sources. `tag_write` and `tag_read` name the four
"top-level units" `TAG_CHR`, `TAG_YOU`, `TAG_LEVEL` and `TAG_GHOST`; every other
identifier is an `other` one. -/
inductive tag_type where
  | TAG_CHR
  | TAG_YOU
  | TAG_LEVEL
  | TAG_GHOST
  | other (id : Nat)
deriving DecidableEq, Repr

/-- The `tag_construct_*` functions `tag_write` calls. They serialise the global
game state, which the embedding does not hold: each is taken as the effect it
has on the stream handed to it. -/
structure tag_constructors where
  tag_construct_char : writer → writer
  tag_construct_you : writer → writer
  tag_construct_you_items : writer → writer
  tag_construct_you_dungeon : writer → writer
  tag_construct_lost_monsters : writer → writer
  tag_construct_companions : writer → writer
  tag_construct_level : writer → writer
  tag_construct_level_items : writer → writer
  tag_construct_level_monsters : writer → writer
  tag_construct_level_tiles : writer → writer
  tag_construct_ghost : writer → writer

/-- The macro `CANARY`: `marshallUByte(th, 171)`. -/
def CANARY (th : writer) : writer := marshallUByte th 171

/-- The first half of `tag_write`: the `switch` that fills the temporary
buffer `buf` through `writer th(&buf)`; the result is `th`. -/
def tag_write_payload (c : tag_constructors) (tagID : tag_type) : writer :=
  let th := writer.on_empty_buffer
  match tagID with
  | .TAG_CHR => c.tag_construct_char th
  | .TAG_YOU =>
    let th := c.tag_construct_you th
    let th := CANARY th
    let th := c.tag_construct_you_items th
    let th := CANARY th
    let th := c.tag_construct_you_dungeon th
    let th := CANARY th
    let th := c.tag_construct_lost_monsters th
    let th := CANARY th
    c.tag_construct_companions th
  | .TAG_LEVEL =>
    let th := c.tag_construct_level th
    let th := CANARY th
    let th := c.tag_construct_level_items th
    let th := CANARY th
    let th := c.tag_construct_level_monsters th
    let th := CANARY th
    c.tag_construct_level_tiles th
  | .TAG_GHOST => c.tag_construct_ghost th
  | .other _ => th

/-- `void tag_write(tag_type tagID, writer &outf)`: nothing when `buf` is empty,
else the `int32_t` size of `buf` and then its bytes. -/
def tag_write (c : tag_constructors) (tagID : tag_type) (outf : writer) : writer :=
  let buf := (tag_write_payload c tagID).pbuf
  if buf.isEmpty then
    outf
  else
    let outf := marshallInt outf (int32_of buf.length)
    outf.write (buf.take buf.length)

/-- The `tag_read_*` functions `tag_read` calls, and the calls it makes between
them. They rebuild the global game state, which the embedding does not hold:
each decoder is taken as the effect it has on the stream handed to it (the
stream after it, or the error that stops it), each call that does not touch
the stream as its outcome. `TAG_MINOR_INVALID` is the constant of that name,
declared outside the sources. -/
structure tag_readers where
  TAG_MINOR_INVALID : Int
  tag_read_you : reader → Except error reader
  tag_read_you_items : reader → Except error reader
  tag_read_you_dungeon : reader → Except error reader
  tag_read_lost_monsters : reader → Except error reader
  tag_read_companions : reader → Except error reader
  init_can_currently_train : Except error Unit
  check_selected_skills : Except error Unit
  tag_read_level : reader → Except error reader
  tag_read_level_items : reader → Except error reader
  link_items : Except error Unit
  tag_read_level_monsters : reader → Except error reader
  _add_missing_branches : Except error Unit
  _shunt_monsters_out_of_walls : Except error Unit
  player_in_branch_abyss : Bool
  check_map_validity : Except error Unit
  tag_read_level_tiles : reader → Except error reader
  tag_read_ghost : reader → Except error reader

/-- The macro `EAT_CANARY`:
`do if (unmarshallUByte(th) != 171) die("save corrupted: canary gone"); while (0)`. -/
def EAT_CANARY (th : reader) : Except error reader := do
  let (b, th) ← unmarshallUByte th
  if b ≠ 171 then
    throw (error.die "save corrupted: canary gone")
  pure th

/-- The first half of `tag_read`: the size is read from `inf`, then that many
bytes into `buf`, and the reader `th(buf, inf.getMinorVersion())` is built (a
fresh buffer-backed reader, not in safe mode). The result is `th` and `inf`. -/
def tag_read_header (d : tag_readers) (inf : reader) : Except error (reader × reader) := do
  let (data_size, inf) ← unmarshallInt inf
  if ¬ data_size ≥ 0 then
    throw (error.die "ASSERT(data_size >= 0)")
  let (buf, inf) ← inf.read data_size.toNat
  let minorVersion ← inf.getMinorVersion d.TAG_MINOR_INVALID
  pure (⟨buf, 0, minorVersion, false, inf.need_save⟩, inf)

/-- The second half of `tag_read`: the `switch (tag_id)` on the reader `th` of
the temporary buffer; the result is `th` after it. -/
def tag_read_switch (d : tag_readers) (tag_id : tag_type) (th : reader) : Except error reader :=
  match tag_id with
  | .TAG_YOU => do
    let th ← d.tag_read_you th
    let th ← EAT_CANARY th
    let th ← d.tag_read_you_items th
    let th ← EAT_CANARY th
    let th ← d.tag_read_you_dungeon th
    let th ← EAT_CANARY th
    let th ← d.tag_read_lost_monsters th
    let th ← EAT_CANARY th
    let th ← d.tag_read_companions th
    d.init_can_currently_train
    d.check_selected_skills
    pure th
  | .TAG_LEVEL => do
    let th ← d.tag_read_level th
    let th ← EAT_CANARY th
    let th ← d.tag_read_level_items th
    d.link_items
    let th ← EAT_CANARY th
    let th ← d.tag_read_level_monsters th
    let th ← EAT_CANARY th
    d._add_missing_branches
    d._shunt_monsters_out_of_walls
    if !d.player_in_branch_abyss then
      d.check_map_validity
    d.tag_read_level_tiles th
  | .TAG_GHOST => d.tag_read_ghost th
  | _ => throw (error.die "unknown tag type")

/-- `void tag_read(reader &inf, tag_type tag_id)`; the result is `inf` after the
call. -/
def tag_read (d : tag_readers) (inf : reader) (tag_id : tag_type) : Except error reader := do
  let (th, inf) ← tag_read_header d inf
  let _ ← tag_read_switch d tag_id th
  pure inf

/-- `marshallString` as a step on the stream: the writer after the call and the
outcome. The `die` comes before the first write. -/
def marshallString_step (th : writer) (data : List byte) : writer × Except error Unit :=
  let len := data.length
  if len > 32767 then
    (th, .error (error.die "trying to marshall too long a string"))
  else
    let th := marshallShort th (int16_of len)
    (th.write (data.take len), .ok ())

/-! ## Monsters -/

/-- A `monster` as `marshallMonster` and `unmarshallMonster` see it: the data
member `type`, a `monster_type` taken as its integer value, and the other data
members, whose class is declared outside the sources. -/
structure monster (F : Type) where
  type : Int
  fields : F

/-- What `marshallMonster` and `unmarshallMonster` take from outside the
sources, and the statements of their bodies behind the test for an absent
monster: the constant `MONS_NO_MONSTER`, the members `alive()` and `reset()`,
the function `invalid_monster_type`; `marshall_alive` stands for the statements
of `marshallMonster` behind `if (!m.alive())`, which write the fields of a live
monster, and `unmarshall_fields` for those of `unmarshallMonster` behind the
`ASSERT` on the type, which read them. -/
structure monster_members (F : Type) where
  MONS_NO_MONSTER : Int
  alive : monster F → Bool
  reset : monster F → monster F
  invalid_monster_type : Int → Bool
  marshall_alive : writer → monster F → Except error writer
  unmarshall_fields : reader → monster F → Except error (monster F × reader)

/-- `void marshallMonster(writer &th, const monster& m)`. -/
def marshallMonster {F : Type} (c : monster_members F) (th : writer) (m : monster F) :
    Except error writer :=
  if !c.alive m then
    .ok (marshallShort th c.MONS_NO_MONSTER)
  else
    c.marshall_alive th m

/-- `static monster_type unmarshallMonType(reader &th)`: both branches return `x`. -/
def unmarshallMonType (MONS_NO_MONSTER : Int) (th : reader) : Except error (Int × reader) := do
  let (x, th) ← unmarshallShort th
  if x ≥ MONS_NO_MONSTER then
    pure (x, th)
  else
    pure (x, th)

/-- `void unmarshallMonster(reader &th, monster& m)`, returning the new `m`. -/
def unmarshallMonster {F : Type} (c : monster_members F) (th : reader) (m : monster F) :
    Except error (monster F × reader) := do
  let m := c.reset m
  let (type, th) ← unmarshallMonType c.MONS_NO_MONSTER th
  let m := { m with type := type }
  if m.type = c.MONS_NO_MONSTER then
    pure (m, th)
  else if ¬ (!c.invalid_monster_type m.type) then
    throw (error.die "ASSERT(!invalid_monster_type(m.type))")
  else
    c.unmarshall_fields th m

/-! ## Items -/

/-- The `coord_def` of a position. -/
structure coord_def where
  x : Int
  y : Int
deriving DecidableEq, Repr

/-- The data members of `item_def` that `marshallItem` writes and
`unmarshallItem` assigns, as the integer values they hold; `L` is the class
`level_id` of `orig_place` and `P` the class of the property table `props`,
both declared outside the sources. -/
structure item_def (L P : Type) where
  base_type : Int
  sub_type : Int
  plus : Int
  plus2 : Int
  special : Int
  quantity : Int
  rnd : Int
  pos : coord_def
  flags : Int
  link : Int
  slot : Int
  orig_place : L
  orig_monnum : Int
  inscription : List byte
  props : P

/-- What `marshallItem` and `unmarshallItem` take from outside the sources: the
constant `OBJ_UNASSIGNED`, the member `is_valid`, the item grid `igrd`, the
members `save` and `load` of `level_id`, the members `write`, `clear` and
`read` of the property table, and the functions `is_artefact`,
`artefact_fixup_props` and `bind_item_tile`. -/
structure item_members (L P : Type) where
  OBJ_UNASSIGNED : Int
  is_valid : item_def L P → Bool → Bool
  igrd : coord_def → Int
  level_id_save : writer → L → writer
  level_id_load : reader → L → Except error (L × reader)
  props_write : writer → P → writer
  props_clear : P → P
  props_read : reader → P → Except error (P × reader)
  is_artefact : item_def L P → Bool
  artefact_fixup_props : item_def L P → item_def L P
  bind_item_tile : item_def L P → item_def L P

/-- `void marshallItem(writer &th, const item_def &item, bool iinfo)`. An item
that is not valid is left after its `base_type`: the `die` that stood there is
commented out and a `return` put in its place. -/
def marshallItem {L P : Type} (c : item_members L P) (th : writer) (item : item_def L P)
    (iinfo : Bool) : Except error writer :=
  let th := marshallByte th item.base_type
  if item.base_type = c.OBJ_UNASSIGNED then
    .ok th
  else if !c.is_valid item iinfo then
    .ok th
  else if ¬ c.is_valid item iinfo then
    .error (error.die "ASSERT(item.is_valid(iinfo))")
  else do
    let th := marshallByte th item.sub_type
    let th := marshallShort th item.plus
    let th := marshallShort th item.plus2
    let th := marshallInt th item.special
    let th := marshallShort th item.quantity
    let th := marshallByte th item.rnd
    let th := marshallShort th item.pos.x
    let th := marshallShort th item.pos.y
    let th := marshallInt th item.flags
    let th := marshallShort th item.link
    let th :=
      if item.pos.x ≥ 0 ∧ item.pos.y ≥ 0 then marshallShort th (c.igrd item.pos)
      else marshallShort th (-1)
    let th := marshallByte th item.slot
    let th := c.level_id_save th item.orig_place
    let th := marshallShort th item.orig_monnum
    let th ← marshallString th item.inscription
    pure (c.props_write th item.props)

/-- `void unmarshallItem(reader &th, item_def &item)`, returning the new `item`:
the values read, in the order of the reads, and then the item they are
assigned to. -/
def unmarshallItem {L P : Type} (c : item_members L P) (th : reader) (item : item_def L P) :
    Except error (item_def L P × reader) := do
  let (base_type, th) ← unmarshallByte th
  if base_type = c.OBJ_UNASSIGNED then
    pure ({ item with base_type := base_type }, th)
  else do
    let (sub_type, th) ← unmarshallUByte th
    let (plus, th) ← unmarshallShort th
    let (plus2, th) ← unmarshallShort th
    let (special, th) ← unmarshallInt th
    let (quantity, th) ← unmarshallShort th
    let (rnd, th) ← unmarshallUByte th
    let (pos_x, th) ← unmarshallShort th
    let (pos_y, th) ← unmarshallShort th
    let (flags, th) ← unmarshallInt th
    let (link, th) ← unmarshallShort th
    let (_, th) ← unmarshallShort th
    let (slot, th) ← unmarshallByte th
    let (orig_place, th) ← c.level_id_load th item.orig_place
    let (orig_monnum, th) ← unmarshallShort th
    let (inscription, th) ← unmarshallString th
    let (props, th) ← c.props_read th (c.props_clear item.props)
    let item : item_def L P :=
      ⟨base_type, sub_type, plus, plus2, special, quantity, rnd, ⟨pos_x, pos_y⟩, flags, link,
        slot, orig_place, orig_monnum, inscription, props⟩
    let item := if c.is_artefact item then c.artefact_fixup_props item else item
    pure (c.bind_item_tile item, th)

/-! ## Map cells -/

/-- The `cloud_info` of a map cell: the members `marshallMapCell` writes. -/
structure cloud_info where
  type : Int
  colour : Nat
  duration : Nat
  tile : Int
  killer : Int
deriving DecidableEq, Repr

/-- A `map_cell` as `marshallMapCell` and `unmarshallMapCell` see it: the public
data member `flags`, a `uint32_t`, and what the cell holds besides, which is
reached through member functions only; the class is declared outside the
sources. -/
structure map_cell (K : Type) where
  flags : Nat
  knowledge : K

/-- What `marshallMapCell` and `unmarshallMapCell` take from outside the
sources: constants of the enumerations and of the minor versions, the member
functions of `map_cell`, the functions `feat_is_trap` and
`is_valid_feature_type`, the codec of `monster_info` (`MI`), and the values of
a default-constructed `cloud_info`, `item_def` and `monster_info`. -/
structure map_cell_members (K MI L P : Type) where
  DNGN_UNSEEN : Int
  CLOUD_NONE : Int
  MONS_NO_MONSTER : Int
  TRAP_UNASSIGNED : Int
  TRAP_TELEPORT : Int
  TRAP_ALARM : Int
  TRAP_ZOT : Int
  TRAP_GOLUBRIA : Int
  DNGN_TRAP_ALARM : Int
  DNGN_TRAP_ZOT : Int
  DNGN_PASSAGE_OF_GOLUBRIA : Int
  TAG_MINOR_0_11 : Int
  TAG_MINOR_CLOUD_OWNER : Int
  TAG_MINOR_INVALID : Int
  feat : map_cell K → Int
  feat_colour : map_cell K → Nat
  trap : map_cell K → Int
  cloud : map_cell K → Int
  cloudinfo : map_cell K → cloud_info
  item : map_cell K → Option (item_def L P)
  monster : map_cell K → Int
  monsterinfo : map_cell K → MI
  clear : map_cell K → map_cell K
  set_feature : map_cell K → Int → Nat → Int → map_cell K
  set_cloud : map_cell K → cloud_info → map_cell K
  set_item : map_cell K → item_def L P → Bool → map_cell K
  set_monster : map_cell K → MI → map_cell K
  feat_is_trap : Int → Bool
  is_valid_feature_type : Int → Bool
  marshallMonsterInfo : writer → MI → Except error writer
  unmarshallMonsterInfo : reader → MI → Except error (MI × reader)
  new_cloud_info : cloud_info
  new_item_def : item_def L P
  new_monster_info : MI

/-- `static dungeon_feature_type rewrite_feature(dungeon_feature_type x, int minor_version)`. -/
def rewrite_feature (x : Int) (_minor_version : Int) : Int := x

/-- `static dungeon_feature_type unmarshallFeatureType_Info(reader &th)`. -/
def unmarshallFeatureType_Info (DNGN_UNSEEN TAG_MINOR_INVALID : Int)
    (is_valid_feature_type : Int → Bool) (th : reader) : Except error (Int × reader) := do
  let (x, th) ← unmarshallUnsigned th
  let x : Int := x
  let minor ← th.getMinorVersion TAG_MINOR_INVALID
  let x := rewrite_feature x minor
  pure (if is_valid_feature_type x then x else DNGN_UNSEEN, th)

/-- The local `flags` of `marshallMapCell`: the width of the cell's flags in
the two low bits, and a bit for each part the cell has. -/
def marshallMapCell_flags {K MI L P : Type} (c : map_cell_members K MI L P)
    (cell : map_cell K) : Nat :=
  let flags : Nat := 0
  let flags :=
    if cell.flags > 0xffff then flags ||| 3
    else if cell.flags > 0xff then flags ||| 2
    else if cell.flags ≠ 0 then flags ||| 1
    else flags
  let flags := if c.feat cell ≠ c.DNGN_UNSEEN then flags ||| 4 else flags
  let flags := if c.feat_colour cell ≠ 0 then flags ||| 8 else flags
  let flags := if c.cloud cell ≠ c.CLOUD_NONE then flags ||| 0x20 else flags
  let flags := if (c.item cell).isSome then flags ||| 0x10 else flags
  let flags := if c.monster cell ≠ c.MONS_NO_MONSTER then flags ||| 0x40 else flags
  flags

/-- `void marshallMapCell(writer &th, const map_cell &cell)`; `ci` holds what
`marshallItem` takes from outside the sources. The arguments `cell.flags` of
`marshallByte`, `marshallShort` and `marshallInt` are converted to `int8_t`,
`short` and `int32_t`. -/
def marshallMapCell {K MI L P : Type} (c : map_cell_members K MI L P) (ci : item_members L P)
    (th : writer) (cell : map_cell K) : Except error writer := do
  let flags := marshallMapCell_flags c cell
  let th := marshallUnsigned th flags
  let th :=
    if flags &&& 3 = 1 then marshallByte th (int8_of cell.flags)
    else if flags &&& 3 = 2 then marshallShort th (int16_of cell.flags)
    else if flags &&& 3 = 3 then marshallInt th (int32_of cell.flags)
    else th
  let th := if flags &&& 4 ≠ 0 then marshallUnsigned th (bits64 (c.feat cell)) else th
  let th := if flags &&& 8 ≠ 0 then marshallUnsigned th (c.feat_colour cell) else th
  let th := if c.feat_is_trap (c.feat cell) then marshallByte th (c.trap cell) else th
  let th :=
    if flags &&& 0x20 ≠ 0 then
      let ci := c.cloudinfo cell
      let th := marshallUnsigned th (bits64 ci.type)
      let th := marshallUnsigned th ci.colour
      let th := marshallUnsigned th ci.duration
      let th := marshallShort th ci.tile
      marshallUByte th (bits8 ci.killer)
    else th
  let th ←
    if flags &&& 0x10 ≠ 0 then
      match c.item cell with
      | some item => marshallItem ci th item true
      | none => .error (error.die "null item")
    else pure th
  if flags &&& 0x40 ≠ 0 then
    c.marshallMonsterInfo th (c.monsterinfo cell)
  else pure th

/-- The `switch (flags & MAP_SERIALIZE_FLAGS_MASK)` of `unmarshallMapCell`: the
local `cell_flags`, an `unsigned`, takes the `int8_t`, `int16_t` or `int32_t`
read. -/
def unmarshallMapCell_flags (flags : Nat) (th : reader) : Except error (Nat × reader) :=
  if flags &&& 3 = 1 then do
    let (v, th) ← unmarshallByte th
    pure (bits32 v, th)
  else if flags &&& 3 = 2 then do
    let (v, th) ← unmarshallShort th
    pure (bits32 v, th)
  else if flags &&& 3 = 3 then do
    let (v, th) ← unmarshallInt th
    pure (bits32 v, th)
  else pure (0, th)

/-- The block `if (feat_is_trap(feature))` of `unmarshallMapCell`: the new
values of `trap` and `feature`. -/
def unmarshallMapCell_trap {K MI L P : Type} (c : map_cell_members K MI L P)
    (feature : Int) (th : reader) : Except error ((Int × Int) × reader) :=
  if c.feat_is_trap feature then do
    let (trap, th) ← unmarshallByte th
    let minor ← th.getMinorVersion c.TAG_MINOR_INVALID
    let trap := if minor = c.TAG_MINOR_0_11 ∧ trap ≥ c.TRAP_TELEPORT then trap - 1 else trap
    let feature :=
      if trap = c.TRAP_ALARM then c.DNGN_TRAP_ALARM
      else if trap = c.TRAP_ZOT then c.DNGN_TRAP_ZOT
      else if trap = c.TRAP_GOLUBRIA then c.DNGN_PASSAGE_OF_GOLUBRIA
      else feature
    pure ((trap, feature), th)
  else pure ((c.TRAP_UNASSIGNED, feature), th)

/-- The block `if (flags & MAP_SERIALIZE_CLOUD)` of `unmarshallMapCell`. -/
def unmarshallMapCell_cloud {K MI L P : Type} (c : map_cell_members K MI L P)
    (th : reader) (cell : map_cell K) : Except error (map_cell K × reader) := do
  let ci := c.new_cloud_info
  let (v, th) ← unmarshallUnsigned th
  let ci := { ci with type := v }
  let (v, th) ← unmarshallUnsigned th
  let ci := { ci with colour := v }
  let (v, th) ← unmarshallUnsigned th
  let ci := { ci with duration := v }
  let (v, th) ← unmarshallShort th
  let ci := { ci with tile := v }
  let minor ← th.getMinorVersion c.TAG_MINOR_INVALID
  if minor ≥ c.TAG_MINOR_CLOUD_OWNER then do
    let (v, th) ← unmarshallUByte th
    let ci := { ci with killer := v }
    pure (c.set_cloud cell ci, th)
  else
    pure (c.set_cloud cell ci, th)

/-- `void unmarshallMapCell(reader &th, map_cell& cell)`, returning the new
`cell`; its flags are set last. -/
def unmarshallMapCell {K MI L P : Type} (c : map_cell_members K MI L P) (ci : item_members L P)
    (th : reader) (cell : map_cell K) : Except error (map_cell K × reader) := do
  let (flags, th) ← unmarshallUnsigned th
  let flags := flags % 4294967296
  let cell := c.clear cell
  let (cell_flags, th) ← unmarshallMapCell_flags flags th
  let feature := c.DNGN_UNSEEN
  let feat_colour : Nat := 0
  let (feature, th) ←
    if flags &&& 4 ≠ 0 then
      unmarshallFeatureType_Info c.DNGN_UNSEEN c.TAG_MINOR_INVALID c.is_valid_feature_type th
    else pure (feature, th)
  let (feat_colour, th) ←
    if flags &&& 8 ≠ 0 then do
      let (v, th) ← unmarshallUnsigned th
      pure (v % 4294967296, th)
    else pure (feat_colour, th)
  let ((trap, feature), th) ← unmarshallMapCell_trap c feature th
  let cell := c.set_feature cell feature feat_colour trap
  let (cell, th) ←
    if flags &&& 0x20 ≠ 0 then unmarshallMapCell_cloud c th cell
    else pure (cell, th)
  let (cell, th) ←
    if flags &&& 0x10 ≠ 0 then do
      let (item, th) ← unmarshallItem ci th c.new_item_def
      pure (c.set_item cell item false, th)
    else pure (cell, th)
  let (cell, th) ←
    if flags &&& 0x40 ≠ 0 then do
      let (mi, th) ← c.unmarshallMonsterInfo th c.new_monster_info
      pure (c.set_monster cell mi, th)
    else pure (cell, th)
  pure ({ cell with flags := cell_flags }, th)

/-! ## The tiles of a level -/

/-- The members of a `tile_flavour` that the level tile section holds, as the
integer values they have; the structure is declared outside the sources. -/
structure tile_flavour where
  wall_idx : Int
  floor_idx : Int
  feat_idx : Int
  wall : Int
  floor : Int
  feat : Int
  special : Int
deriving DecidableEq, Repr

/-- The part of the global `env` that the level tile section holds:
`env.tile_names`, `env.tile_default` and the grid `env.tile_flv`. -/
structure level_tiles where
  tile_names : List (List byte)
  tile_default : tile_flavour
  tile_flv : Nat → Nat → tile_flavour

/-- The body of the double loop of `tag_construct_level_tiles`: the seven
members of `env.tile_flv[count_x][count_y]`. -/
def tag_construct_level_tiles_cell (th : writer) (f : tile_flavour) : writer :=
  let th := marshallShort th f.wall_idx
  let th := marshallShort th f.floor_idx
  let th := marshallShort th f.feat_idx
  let th := marshallShort th f.wall
  let th := marshallShort th f.floor
  let th := marshallShort th f.feat
  marshallShort th f.special

/-- `void tag_construct_level_tiles(writer &th)` on the tile part `env` of the
global state; the grid dimensions `GXM`, `GYM` and `TILE_WALL_MAX` are constants
declared outside the sources. The last statement writes `TILE_WALL_MAX`. -/
def tag_construct_level_tiles (GXM GYM : Nat) (TILE_WALL_MAX : Int) (env : level_tiles)
    (th : writer) : Except error writer := do
  let th := marshallShort th GXM
  let th := marshallShort th GYM
  let th := marshallShort th (int16_of env.tile_names.length)
  let th ← env.tile_names.foldlM (fun th name => marshallString th name) th
  let th := marshallShort th env.tile_default.wall_idx
  let th := marshallShort th env.tile_default.floor_idx
  let th := marshallShort th env.tile_default.wall
  let th := marshallShort th env.tile_default.floor
  let th := marshallShort th env.tile_default.special
  let th := (List.range GXM).foldl
    (fun th count_x => (List.range GYM).foldl
      (fun th count_y => tag_construct_level_tiles_cell th (env.tile_flv count_x count_y)) th)
    th
  pure (marshallInt th TILE_WALL_MAX)

/-- The body of the double loop of `tag_read_level_tiles`: the seven members of
`env.tile_flv[x][y]`, in the order they are read. -/
def tag_read_level_tiles_cell (th : reader) : Except error (tile_flavour × reader) := do
  let (wall_idx, th) ← unmarshallShort th
  let (floor_idx, th) ← unmarshallShort th
  let (feat_idx, th) ← unmarshallShort th
  let (wall, th) ← unmarshallShort th
  let (floor, th) ← unmarshallShort th
  let (feat, th) ← unmarshallShort th
  let (special, th) ← unmarshallShort th
  pure (⟨wall_idx, floor_idx, feat_idx, wall, floor, feat, special⟩, th)

/-- The loop `for (int y = 0; y < gy; y++)` of `tag_read_level_tiles` at column
`x`, with the given number of iterations to go from `y` on. -/
def tag_read_level_tiles_column (x : Nat) :
    Nat → Nat → reader → (Nat → Nat → tile_flavour) →
      Except error ((Nat → Nat → tile_flavour) × reader)
  | 0, _, th, flv => pure (flv, th)
  | n + 1, y, th, flv => do
    let (f, th) ← tag_read_level_tiles_cell th
    tag_read_level_tiles_column x n (y + 1) th
      (fun x' y' => if x' = x ∧ y' = y then f else flv x' y')

/-- The loop `for (int x = 0; x < gx; x++)` of `tag_read_level_tiles`, with the
given number of iterations to go from `x` on. -/
def tag_read_level_tiles_grid (gy : Nat) :
    Nat → Nat → reader → (Nat → Nat → tile_flavour) →
      Except error ((Nat → Nat → tile_flavour) × reader)
  | 0, _, th, flv => pure (flv, th)
  | n + 1, x, th, flv => do
    let (flv, th) ← tag_read_level_tiles_column x gy 0 th flv
    tag_read_level_tiles_grid gy n (x + 1) th flv

/-- `void tag_read_level_tiles(reader &th)`, returning the new tile part of
`env`. The loop over the tile names has the shape of the loop of
`unmarshall_vector`, its count being the `unsigned int` the 2-byte count is
converted to. `_debug_count_tiles`, `_regenerate_tile_flavour` and
`_draw_tiles`, which do not take the reader, are defined outside the sources.
Nothing is read behind the grid. -/
def tag_read_level_tiles
    (_debug_count_tiles _regenerate_tile_flavour _draw_tiles : level_tiles → level_tiles)
    (th : reader) (env : level_tiles) : Except error (level_tiles × reader) := do
  let (gx, th) ← unmarshallShort th
  let (gy, th) ← unmarshallShort th
  let (n, th) ← unmarshallShort th
  let num_tilenames := bits32 n
  let (tile_names, th) ← unmarshall_vector_loop unmarshallString num_tilenames th []
  let (wall_idx, th) ← unmarshallShort th
  let (floor_idx, th) ← unmarshallShort th
  let (wall, th) ← unmarshallShort th
  let (floor, th) ← unmarshallShort th
  let (special, th) ← unmarshallShort th
  let tile_default : tile_flavour :=
    { env.tile_default with
      wall_idx := wall_idx, floor_idx := floor_idx, wall := wall, floor := floor,
      special := special }
  let (tile_flv, th) ← tag_read_level_tiles_grid gy.toNat gx.toNat 0 th env.tile_flv
  let env : level_tiles := ⟨tile_names, tile_default, tile_flv⟩
  pure (_draw_tiles (_regenerate_tile_flavour (_debug_count_tiles env)), th)

/-! ## The ghost list -/

/-- `static void tag_construct_ghost(writer &th, vector<ghost_demon> &ghosts)`;
the record encoder `marshallGhost` is passed in. The `size_t` count is
converted to `short`. -/
def tag_construct_ghost {G : Type} (marshallGhost : writer → G → Except error writer)
    (th : writer) (ghosts : List G) : Except error writer := do
  let th := marshallShort th (int16_of ghosts.length)
  ghosts.foldlM (fun th ghost => marshallGhost th ghost) th

/-- `static vector<ghost_demon> tag_read_ghost(reader &th)`; `MAX_GHOSTS` is a
constant declared outside the sources and the record decoder `unmarshallGhost`
is passed in. The loop `for (int i = 0; i < nghosts; ++i)
result.push_back(unmarshallGhost(th));` has the shape of the loop of
`unmarshall_vector`. -/
def tag_read_ghost {G : Type} (MAX_GHOSTS : Int)
    (unmarshallGhost : reader → Except error (G × reader)) (th : reader) :
    Except error (List G × reader) := do
  let (nghosts, th) ← unmarshallShort th
  if nghosts < 1 ∨ nghosts > MAX_GHOSTS then
    throw (error.corrupted_save
      ("Bones file has an invalid ghost count (" ++ toString nghosts ++ ")"))
  else
    unmarshall_vector_loop unmarshallGhost nghosts.toNat th []

/-! ## The event timers of the player -/

/-- The part of the global `you` that the timer code of `tag_read_you` works
on: the arrays `last_timer_effect` and `next_timer_effect`, indexed by the
`int` loop variable, and the times `elapsed_time` and
`elapsed_time_at_last_input`. -/
structure player_timers where
  last_timer_effect : Int → Int
  next_timer_effect : Int → Int
  elapsed_time : Int
  elapsed_time_at_last_input : Int

/-- The loop `for (int j = 0; j < timer_count; ++j)` of `tag_read_you`, with the
given number of iterations to go from `j` on. -/
def tag_read_you_timers_loop :
    Nat → Int → reader → player_timers → Except error (player_timers × reader)
  | 0, _, th, you => pure (you, th)
  | n + 1, j, th, you => do
    let (last, th) ← unmarshallInt th
    let you := { you with
      last_timer_effect := fun k => if k = j then last else you.last_timer_effect k }
    let (next, th) ← unmarshallInt th
    let you := { you with
      next_timer_effect := fun k => if k = j then next else you.next_timer_effect k }
    tag_read_you_timers_loop n (j + 1) th you

/-- The statements of `tag_read_you` that read the timers: the count, its
`ASSERT`, and the timers the payload carries. `NUM_TIMERS` is a constant
declared outside the sources. Returns the local `timer_count` with the state. -/
def tag_read_you_timers (NUM_TIMERS : Int) (th : reader) (you : player_timers) :
    Except error ((Int × player_timers) × reader) := do
  let (timer_count, th) ← unmarshallByte th
  if ¬ timer_count ≤ NUM_TIMERS then
    throw (error.die "ASSERT(timer_count <= NUM_TIMERS)")
  else do
    let (you, th) ← tag_read_you_timers_loop timer_count.toNat 0 th you
    pure ((timer_count, you), th)

/-- The loop `for (int j = timer_count; j < NUM_TIMERS; ++j)` of `tag_read_you`
that initializes the new timers, with the given number of iterations to go from
`j` on. The sum `last_20_turns + 200` is an `int`. -/
def tag_read_you_new_timers_loop (last_20_turns : Int) :
    Nat → Int → player_timers → player_timers
  | 0, _, you => you
  | n + 1, j, you =>
    tag_read_you_new_timers_loop last_20_turns n (j + 1)
      { you with
        last_timer_effect := fun k => if k = j then last_20_turns else you.last_timer_effect k
        next_timer_effect := fun k =>
          if k = j then int32_of (last_20_turns + 200) else you.next_timer_effect k }

/-- The statements of `tag_read_you` under "Initialize new timers now that we
know the time": `%` is the remainder of the division that truncates, and the
difference is an `int`. -/
def tag_read_you_new_timers (NUM_TIMERS timer_count : Int) (you : player_timers) :
    player_timers :=
  let last_20_turns := int32_of (you.elapsed_time - you.elapsed_time.tmod 200)
  tag_read_you_new_timers_loop last_20_turns (NUM_TIMERS - timer_count).toNat timer_count you

/-- The loop of `tag_read_you` under "Verify that timers aren't scheduled for
the past", with the given number of iterations to go from `j` on. -/
def tag_read_you_verify_timers_loop : Nat → Int → player_timers → Except error Unit
  | 0, _, _ => pure ()
  | n + 1, j, you =>
    if you.next_timer_effect j < you.elapsed_time then
      throw (error.die ("Timer " ++ toString j ++ " next trigger in the past ["
        ++ toString (you.next_timer_effect j) ++ " < " ++ toString you.elapsed_time ++ "]"))
    else
      tag_read_you_verify_timers_loop n (j + 1) you

/-- The statements of `tag_read_you` from "elapsed time" to the end of the
verification of the timers. -/
def tag_read_you_elapsed_time (NUM_TIMERS timer_count : Int) (th : reader)
    (you : player_timers) : Except error (player_timers × reader) := do
  let (elapsed_time, th) ← unmarshallInt th
  let you := { you with elapsed_time := elapsed_time }
  let you := { you with elapsed_time_at_last_input := you.elapsed_time }
  let you := tag_read_you_new_timers NUM_TIMERS timer_count you
  tag_read_you_verify_timers_loop NUM_TIMERS.toNat 0 you
  pure (you, th)

/-! ## The companion registry -/

/-- `void fixup_bad_companions()` of `god-companions.cc` on the global
`companion_list`, a `map<mid_t, companion>` held as the list of its entries in
key order: the loop erases the entries whose monster type is invalid and keeps
the others. `type_of` is the member access `i->second.mons.mons.type`, the
classes and `invalid_monster_type` being declared outside the sources. -/
def fixup_bad_companions {C : Type} (invalid_monster_type : Int → Bool) (type_of : C → Int) :
    List (Int × C) → List (Int × C)
  | [] => []
  | i :: rest =>
    if invalid_monster_type (type_of i.2) then
      fixup_bad_companions invalid_monster_type type_of rest
    else
      i :: fixup_bad_companions invalid_monster_type type_of rest

/-- `template<typename T> static void _marshall_as_int(writer& th, const T& t)`
at `T = mid_t`. -/
def _marshall_as_int (th : writer) (t : Int) : writer :=
  marshallInt th (int32_of t)

/-- `static void tag_construct_companions(writer &th)`: the outcome of the write
and the global `companion_list` after the call; `marshall_companion`, which can
`die`, is passed in. The registry is fixed up before anything is written, so
it is fixed up also when the write dies. -/
def tag_construct_companions {C : Type} (invalid_monster_type : Int → Bool)
    (type_of : C → Int) (marshall_companion : writer → C → Except error writer)
    (th : writer) (companion_list : List (Int × C)) :
    Except error writer × List (Int × C) :=
  let companion_list := fixup_bad_companions invalid_monster_type type_of companion_list
  (marshallMap_or_die th companion_list _marshall_as_int marshall_companion, companion_list)

/-! ## Sets -/

/-- The `std::set::insert` member on a set held as the list of its elements in
ascending order: the element is put at its place, and dropped when it is
already present. -/
def set_insert {K : Type} [LinearOrder K] : List K → K → List K
  | [], p => [p]
  | q :: d, p =>
    if p < q then p :: q :: d
    else if p = q then q :: d
    else q :: set_insert d p

/-- The loop of `unmarshallSet` with the given number of iterations to go. -/
def unmarshallSet_loop {K : Type} [LinearOrder K]
    (data_unmarshall : reader → Except error (K × reader)) :
    Nat → reader → List K → Except error (List K × reader)
  | 0, th, dset => pure (dset, th)
  | n + 1, th, dset => do
    let (k, th) ← data_unmarshall th
    unmarshallSet_loop data_unmarshall n th (set_insert dset k)

/-- `unmarshallSet(th, dset, data_unmarshall)`, returning the new `dset`; the
destination is cleared first. -/
def unmarshallSet {K : Type} [LinearOrder K] (th : reader) (_dset : List K)
    (data_unmarshall : reader → Except error (K × reader)) :
    Except error (List K × reader) := do
  let dset : List K := []
  let (len, th) ← unmarshallInt th
  unmarshallSet_loop data_unmarshall len.toNat th dset

/-! ## Monster enchantments -/

/-- The data members of `mon_enchant` that `marshall_mon_enchant` writes and
`unmarshall_mon_enchant` assigns, as the integer values they hold; `source` is
a `mid_t`, an unsigned 32-bit number. -/
structure mon_enchant where
  ench : Int
  degree : Int
  duration : Int
  maxduration : Int
  who : Int
  source : Nat
deriving DecidableEq, Repr

/-- `static void marshall_mon_enchant(writer &th, const mon_enchant &me)`;
`INFINITE_DURATION` is a constant declared outside the sources. -/
def marshall_mon_enchant (INFINITE_DURATION : Int) (th : writer) (me : mon_enchant) : writer :=
  let th := marshallShort th me.ench
  let th := marshallShort th me.degree
  let th := marshallShort th me.who
  let th := marshallInt th (int32_of me.source)
  let th := marshallShort th (min me.duration INFINITE_DURATION)
  marshallShort th (min me.maxduration INFINITE_DURATION)

/-- `static mon_enchant unmarshall_mon_enchant(reader &th)`. -/
def unmarshall_mon_enchant (th : reader) : Except error (mon_enchant × reader) := do
  let (ench, th) ← unmarshallShort th
  let (degree, th) ← unmarshallShort th
  let (who, th) ← unmarshallShort th
  let (source, th) ← unmarshallInt th
  let (duration, th) ← unmarshallShort th
  let (maxduration, th) ← unmarshallShort th
  pure ({ ench := ench, degree := degree, duration := duration, maxduration := maxduration,
          who := who, source := bits32 source }, th)

/-! ## Monster spells -/

/-- A `mon_spell_slot`: the `spell_type` as its integer value, the 8-bit
unsigned `freq`, and the bits of `flags.flags`, an unsigned number. The class
is declared outside the sources. -/
structure mon_spell_slot where
  spell : Int
  freq : Nat
  flags : Nat
deriving DecidableEq, Repr

/-- What the spell codec takes from outside the sources: the minor versions and
the spell and flag constants it tests, the slot `resize` value-initialises, and
the function `normalize_spell_freq`. -/
structure spell_members where
  TAG_MINOR_INVALID : Int
  TAG_MINOR_ARB_SPELL_SLOTS : Int
  TAG_MINOR_MALMUTATE : Int
  TAG_MINOR_MONSTER_SPELL_SLOTS : Int
  TAG_MINOR_DEMONIC_SPELLS : Int
  SPELL_NO_SPELL : Int
  SPELL_POLYMORPH : Int
  SPELL_MALMUTATE : Int
  SPELL_FAKE_RAKSHASA_SUMMON : Int
  SPELL_PHANTOM_MIRROR : Int
  SPELL_SUNRAY : Int
  SPELL_STONE_ARROW : Int
  MON_SPELL_DEMONIC : Nat
  MON_SPELL_MAGICAL : Nat
  MON_SPELL_WIZARD : Nat
  MON_SPELL_EMERGENCY : Nat
  slot_of_resize : mon_spell_slot
  normalize_spell_freq : List mon_spell_slot → Int → List mon_spell_slot

/-- `static void marshallSpells(writer &th, const monster_spells &spells)`: the
size goes through `uint8_t`, and that many slots are written. -/
def marshallSpells (th : writer) (spells : List mon_spell_slot) : writer :=
  let spellsize := spells.length % 256
  let th := marshallByte th spellsize
  (spells.take spellsize).foldl
    (fun th slot =>
      let th := marshallShort th slot.spell
      let th := marshallByte th slot.freq
      marshallShort th slot.flags)
    th

/-- `static const int NUM_MONSTER_SPELL_SLOTS = 6;`. -/
def NUM_MONSTER_SPELL_SLOTS : Nat := 6

/-- `static void _fixup_spells(monster_spells &spells, int hd)`, returning the
new `spells`. The quotient `(hd + 50) / spells.size()` is taken in `size_t` and
stored in the 8-bit `freq`. -/
def _fixup_spells (c : spell_members) (spells : List mon_spell_slot) (hd : Int) :
    List mon_spell_slot :=
  let count := (spells.filter (fun s => decide (s.spell ≠ c.SPELL_NO_SPELL))).length
  let spells := spells.enum.map (fun (p : Nat × mon_spell_slot) =>
    if p.2.spell = c.SPELL_NO_SPELL then p.2
    else
      let flags := p.2.flags ||| c.MON_SPELL_WIZARD
      let flags := if p.1 = NUM_MONSTER_SPELL_SLOTS - 1 then flags ||| c.MON_SPELL_EMERGENCY
        else flags
      { p.2 with flags := flags })
  if count = 0 then []
  else
    let spells := spells.filter (fun t => !decide (t.spell = c.SPELL_NO_SPELL))
    if spells.length = 0 then spells
    else
      let spells := spells.map (fun slot =>
        { slot with freq := (bits64 (hd + 50) / spells.length) % 256 })
      c.normalize_spell_freq spells hd

/-- `static spell_type unmarshallSpellType(reader &th)`. -/
def unmarshallSpellType (th : reader) : Except error (Int × reader) := do
  let (x, th) ← unmarshallShort th
  pure (x, th)

/-- The body of the loop of `unmarshallSpells`: the slot `spells[j]` after it.
The `short` read for the flags is converted to the unsigned 32-bit member, in
which `~MON_SPELL_DEMONIC` is the complement; a slot whose frequency and flags
are not read keeps those `resize` gave it. -/
def unmarshallSpells_slot (c : spell_members) (th : reader) :
    Except error (mon_spell_slot × reader) := do
  let (spell, th) ← unmarshallSpellType th
  let minor ← th.getMinorVersion c.TAG_MINOR_INVALID
  let spell := if minor < c.TAG_MINOR_MALMUTATE ∧ spell = c.SPELL_POLYMORPH
    then c.SPELL_MALMUTATE else spell
  let spell := if spell = c.SPELL_FAKE_RAKSHASA_SUMMON then c.SPELL_PHANTOM_MIRROR else spell
  let spell := if spell = c.SPELL_SUNRAY then c.SPELL_STONE_ARROW else spell
  let minor ← th.getMinorVersion c.TAG_MINOR_INVALID
  if minor ≥ c.TAG_MINOR_MONSTER_SPELL_SLOTS then
    let (freq, th) ← unmarshallByte th
    let (flags, th) ← unmarshallShort th
    let flags := bits32 flags
    let minor ← th.getMinorVersion c.TAG_MINOR_INVALID
    let flags :=
      if minor < c.TAG_MINOR_DEMONIC_SPELLS then
        if flags &&& c.MON_SPELL_DEMONIC ≠ 0 then
          (flags &&& (4294967295 ^^^ c.MON_SPELL_DEMONIC)) ||| c.MON_SPELL_MAGICAL
        else flags
      else flags
    pure ({ spell := spell, freq := bits8 freq, flags := flags }, th)
  else
    pure ({ c.slot_of_resize with spell := spell }, th)

/-- `static void unmarshallSpells(reader &th, monster_spells &spells, unsigned hd)`,
returning the new `spells`. The loop `for (int j = 0; j < spellsize; ++j)`
fills the slots in order and has the shape of the loop of `unmarshall_vector`. -/
def unmarshallSpells (c : spell_members) (th : reader) (hd : Nat) :
    Except error (List mon_spell_slot × reader) := do
  let minor ← th.getMinorVersion c.TAG_MINOR_INVALID
  let (spellsize, th) ←
    if minor < c.TAG_MINOR_ARB_SPELL_SLOTS then
      (pure (NUM_MONSTER_SPELL_SLOTS, th) : Except error (Nat × reader))
    else do
      let (v, th) ← unmarshallByte th
      pure (bits8 v, th)
  let (spells, th) ← unmarshall_vector_loop (unmarshallSpells_slot c) spellsize th []
  let minor ← th.getMinorVersion c.TAG_MINOR_INVALID
  if minor < c.TAG_MINOR_MONSTER_SPELL_SLOTS then
    pure (_fixup_spells c spells (int32_of hd), th)
  else
    pure (spells, th)

/-- What the spell fix-up of `unmarshallMonster` takes from outside the
sources: the spell and monster constants it tests, and the functions
`mons_is_zombified`, `mons_enslaved_soul`, `mons_genus`, `drac_breath`,
`draco_or_demonspawn_subspecies` and the member `get_experience_level`. -/
structure monster_spell_members (F : Type) where
  SPELL_CREATE_TENTACLES : Int
  SPELL_DRACONIAN_BREATH : Int
  SPELL_MALIGN_GATEWAY : Int
  SPELL_CHANT_FIRE_STORM : Int
  SPELL_FIRE_STORM : Int
  SPELL_SERPENT_OF_HELL_BREATH_REMOVED : Int
  SPELL_SERPENT_OF_HELL_GEH_BREATH : Int
  SPELL_SERPENT_OF_HELL_COC_BREATH : Int
  SPELL_SERPENT_OF_HELL_DIS_BREATH : Int
  SPELL_SERPENT_OF_HELL_TAR_BREATH : Int
  SPELL_DELAYED_FIREBALL : Int
  SPELL_MELEE : Int
  SPELL_CORRUPT_BODY : Int
  SPELL_CORRUPTING_PULSE : Int
  MONS_DRACONIAN : Int
  MONS_MNOLEG : Int
  MONS_SERPENT_OF_HELL : Int
  MONS_SERPENT_OF_HELL_COCYTUS : Int
  MONS_SERPENT_OF_HELL_DIS : Int
  MONS_SERPENT_OF_HELL_TARTARUS : Int
  mons_is_zombified : monster F → Bool
  mons_enslaved_soul : monster F → Bool
  mons_genus : Int → Int
  drac_breath : Int → mon_spell_slot
  draco_or_demonspawn_subspecies : monster F → Int
  get_experience_level : monster F → Nat

/-- `static spell_type _fixup_soh_breath(monster_type mtyp)`; the first label of
the `switch` that matches decides. -/
def _fixup_soh_breath {F : Type} (d : monster_spell_members F) (mtyp : Int) : Int :=
  if mtyp = d.MONS_SERPENT_OF_HELL then d.SPELL_SERPENT_OF_HELL_GEH_BREATH
  else if mtyp = d.MONS_SERPENT_OF_HELL_COCYTUS then d.SPELL_SERPENT_OF_HELL_COC_BREATH
  else if mtyp = d.MONS_SERPENT_OF_HELL_DIS then d.SPELL_SERPENT_OF_HELL_DIS_BREATH
  else if mtyp = d.MONS_SERPENT_OF_HELL_TARTARUS then d.SPELL_SERPENT_OF_HELL_TAR_BREATH
  else d.SPELL_SERPENT_OF_HELL_GEH_BREATH

/-- The body of the loop `for (mon_spell_slot &slot : oldspells)` of
`unmarshallMonster`: the list `m.spells` after it. The branches are tried in
the order of the source: the one that keeps every spell other than
`SPELL_DELAYED_FIREBALL` and `SPELL_MELEE` stands before the one for
`SPELL_CORRUPT_BODY`. -/
def unmarshallMonster_spell_slot {F : Type} (d : monster_spell_members F) (m : monster F)
    (spells : List mon_spell_slot) (slot : mon_spell_slot) : List mon_spell_slot :=
  if d.mons_is_zombified m = true ∧ d.mons_enslaved_soul m = false
      ∧ slot.spell ≠ d.SPELL_CREATE_TENTACLES then
    spells
  else if slot.spell = d.SPELL_DRACONIAN_BREATH then
    if d.mons_genus m.type = d.MONS_DRACONIAN then
      spells ++ [d.drac_breath (d.draco_or_demonspawn_subspecies m)]
    else spells
  else if slot.spell = d.SPELL_CREATE_TENTACLES ∧ m.type = d.MONS_MNOLEG then
    spells ++ [{ slot with spell := d.SPELL_MALIGN_GATEWAY, freq := 27 }]
  else if slot.spell = d.SPELL_CHANT_FIRE_STORM then
    spells ++ [{ slot with spell := d.SPELL_FIRE_STORM }]
  else if slot.spell = d.SPELL_SERPENT_OF_HELL_BREATH_REMOVED then
    spells ++ [{ slot with spell := _fixup_soh_breath d m.type }]
  else if slot.spell ≠ d.SPELL_DELAYED_FIREBALL ∧ slot.spell ≠ d.SPELL_MELEE then
    spells ++ [slot]
  else if slot.spell = d.SPELL_CORRUPT_BODY then
    spells ++ [{ slot with spell := d.SPELL_CORRUPTING_PULSE }]
  else spells

/-- The statements of `unmarshallMonster` under `if (parts & MP_SPELLS)`: the
spells are read, and `m.spells` is rebuilt from them slot by slot; the list
`m.spells` after them is returned. -/
def unmarshallMonster_spells {F : Type} (c : spell_members) (d : monster_spell_members F)
    (th : reader) (m : monster F) : Except error (List mon_spell_slot × reader) := do
  let (oldspells, th) ← unmarshallSpells c th (d.get_experience_level m)
  pure (oldspells.foldl (unmarshallMonster_spell_slot d m) [], th)

/-! ## Ghosts -/

/-- The data members of `ghost_demon` that `marshallGhost` writes and
`unmarshallGhost` assigns, the enumerations as their integer values; `colour`
is an 8-bit unsigned `colour_t`. The class is declared outside the sources. -/
structure ghost_demon where
  name : List byte
  species : Int
  job : Int
  religion : Int
  best_skill : Int
  best_skill_level : Int
  xl : Int
  max_hp : Int
  ev : Int
  ac : Int
  damage : Int
  speed : Int
  move_energy : Int
  see_invis : Bool
  brand : Int
  att_type : Int
  att_flav : Int
  resists : Int
  colour : Nat
  flies : Bool
  spells : List mon_spell_slot

/-- The constants `unmarshallGhost` takes from outside the sources. -/
structure ghost_members where
  FASTEST_PLAYER_MOVE_SPEED : Int
  TAG_MINOR_GHOST_ENERGY : Int
  TAG_MINOR_NO_GHOST_SPELLCASTER : Int
  TAG_MINOR_MON_COLOUR_LOOKUP : Int
  TAG_MINOR_BOOL_FLIGHT : Int

/-- `static void marshallGhost(writer &th, const ghost_demon &ghost)`. -/
def marshallGhost (th : writer) (ghost : ghost_demon) : Except error writer := do
  let th ← marshallString th ghost.name
  let th := marshallShort th ghost.species
  let th := marshallShort th ghost.job
  let th := marshallByte th ghost.religion
  let th := marshallShort th ghost.best_skill
  let th := marshallShort th ghost.best_skill_level
  let th := marshallShort th ghost.xl
  let th := marshallShort th ghost.max_hp
  let th := marshallShort th ghost.ev
  let th := marshallShort th ghost.ac
  let th := marshallShort th ghost.damage
  let th := marshallShort th ghost.speed
  let th := marshallShort th ghost.move_energy
  let th := marshallByte th (if ghost.see_invis then 1 else 0)
  let th := marshallShort th ghost.brand
  let th := marshallShort th ghost.att_type
  let th := marshallShort th ghost.att_flav
  let th := marshallInt th ghost.resists
  let th := marshallByte th ghost.colour
  let th := marshallBoolean th ghost.flies
  pure (marshallSpells th ghost.spells)

/-- `static ghost_demon unmarshallGhost(reader &th)`. -/
def unmarshallGhost (c : spell_members) (d : ghost_members) (th : reader) :
    Except error (ghost_demon × reader) := do
  let (name, th) ← unmarshallString th
  let (species, th) ← unmarshallShort th
  let (job, th) ← unmarshallShort th
  let (religion, th) ← unmarshallByte th
  let (best_skill, th) ← unmarshallShort th
  let (best_skill_level, th) ← unmarshallShort th
  let (xl, th) ← unmarshallShort th
  let (max_hp, th) ← unmarshallShort th
  let (ev, th) ← unmarshallShort th
  let (ac, th) ← unmarshallShort th
  let (damage, th) ← unmarshallShort th
  let (speed, th) ← unmarshallShort th
  let minor ← th.getMinorVersion c.TAG_MINOR_INVALID
  let (move_energy, th) ←
    if minor < d.TAG_MINOR_GHOST_ENERGY then
      (pure (10, th) : Except error (Int × reader))
    else
      unmarshallShort th
  let move_energy :=
    if move_energy < d.FASTEST_PLAYER_MOVE_SPEED ∨ move_energy > 15 then 10 else move_energy
  let (see_invis, th) ← unmarshallByte th
  let (brand, th) ← unmarshallShort th
  let (att_type, th) ← unmarshallShort th
  let (att_flav, th) ← unmarshallShort th
  let (resists, th) ← unmarshallInt th
  let minor ← th.getMinorVersion c.TAG_MINOR_INVALID
  let th ←
    if minor < d.TAG_MINOR_NO_GHOST_SPELLCASTER then do
      let (_, th) ← unmarshallByte th
      pure th
    else (pure th : Except error reader)
  let minor ← th.getMinorVersion c.TAG_MINOR_INVALID
  let th ←
    if minor < d.TAG_MINOR_MON_COLOUR_LOOKUP then do
      let (_, th) ← unmarshallByte th
      pure th
    else (pure th : Except error reader)
  let (colour, th) ← unmarshallByte th
  let minor ← th.getMinorVersion c.TAG_MINOR_INVALID
  let (flies, th) ←
    if minor < d.TAG_MINOR_BOOL_FLIGHT then do
      let (v, th) ← unmarshallShort th
      (pure (decide (v ≠ 0), th) : Except error (Bool × reader))
    else
      unmarshallBoolean th
  let (spells, th) ← unmarshallSpells c th (bits32 xl)
  pure ({ name := name, species := species, job := job, religion := religion,
          best_skill := best_skill, best_skill_level := best_skill_level, xl := xl,
          max_hp := max_hp, ev := ev, ac := ac, damage := damage, speed := speed,
          move_energy := move_energy, see_invis := decide (see_invis ≠ 0), brand := brand,
          att_type := att_type, att_flav := att_flav, resists := resists,
          colour := bits8 colour, flies := flies, spells := spells }, th)
/-! ## Followers and companions -/

/-- A `level_id`: the branch, as its integer value, and the depth. -/
structure level_id where
  branch : Int
  depth : Int
deriving DecidableEq, Repr

/-- A `follower`: the stored monster, the time it went into transit, and the
`NUM_MONSTER_SLOTS` items of the array `items`; `P` is the class of the
property table of an item. -/
structure follower (F P : Type) where
  mons : monster F
  transit_start_time : Int
  items : List (item_def level_id P)

/-- A `companion`: the stored follower, the level it was last seen on, and the
game time of the snapshot. -/
structure companion (F P : Type) where
  mons : follower F P
  level : level_id
  timestamp : Int

/-- `static unsigned short _pack(const level_id& id)`: the low byte of the
depth under the branch shifted by 8 bits, cut to 16 bits. -/
def _pack (id : level_id) : Nat :=
  ((id.branch * 256 + id.depth % 256) % 65536).toNat

/-- `void marshall_level_id(writer& th, const level_id& id)`. -/
def marshall_level_id (th : writer) (id : level_id) : writer :=
  marshallShort th (int16_of (_pack id))

/-- `static void marshall_follower(writer &th, const follower &f)`; a failed
`ASSERT` is a `die`. -/
def marshall_follower {F P : Type} (c : monster_members F) (ci : item_members level_id P)
    (th : writer) (f : follower F P) : Except error writer := do
  if ¬ (!c.invalid_monster_type f.mons.type) = true then
    throw (error.die "ASSERT(!invalid_monster_type(f.mons.type))")
  if ¬ c.alive f.mons = true then
    throw (error.die "ASSERT(f.mons.alive())")
  let th ← marshallMonster c th f.mons
  let th := marshallInt th f.transit_start_time
  f.items.foldlM (fun th item => marshallItem ci th item false) th

/-- `static void marshall_companion(writer &th, const companion &c)`. -/
def marshall_companion {F P : Type} (c : monster_members F) (ci : item_members level_id P)
    (th : writer) (comp : companion F P) : Except error writer := do
  let th ← marshall_follower c ci th comp.mons
  let th := marshall_level_id th comp.level
  pure (marshallInt th comp.timestamp)

/-! ## Recalling a companion -/

/-- Modelled from the spec: `div_rand_round` is defined outside the sources.
The healing of a recalled companion is the elapsed time times the rate over
100; the function divides `num` by `den` and rounds a quotient that is not
whole up or down at random, `roll` being the number drawn, from 0 on and below
`den`. -/
def div_rand_round (roll : Int) (num den : Int) : Int :=
  let rem := Int.tmod num den
  if rem ≠ 0 then Int.tdiv num den + (if roll < rem then 1 else 0)
  else Int.tdiv num den

/-- What `recall_offlevel_ally` and `companion_is_elsewhere` take from outside
the sources, `M` being a monster on the level: the constants `ENCH_CONFUSION`
and `BRANCH_PANDEMONIUM`, `level_id::current()`, the functions
`player_in_branch`, `monster_by_mid`, `remove_monster_from_transit` (on the
transit lists `T`) and `recall_orders`, the member `place` of `follower`, and
the members `alive`, `pos`, `apply_location_effects`, `off_level_regen_rate`,
`heal`, `del_ench` and `timeout_enchantments` of `monster`. -/
structure recall_members (F P M T : Type) where
  ENCH_CONFUSION : Int
  BRANCH_PANDEMONIUM : Int
  current : level_id
  player_in_branch : Int → Bool
  monster_by_mid : Int → Option M
  remove_monster_from_transit : T → level_id → Int → T
  recall_orders : M → M
  place : follower F P → Bool → Option M
  alive : M → Bool
  pos : M → coord_def
  apply_location_effects : M → coord_def → M
  off_level_regen_rate : M → Int
  heal : M → Int → M
  del_ench : M → Int → Bool → M
  timeout_enchantments : M → Int → M

/-- The globals `recall_offlevel_ally` works on: `companion_list`, a
`map<mid_t, companion>` held as the list of its entries in key order, the
transit lists, and `you.elapsed_time` and the position of `you`. -/
structure recall_world (F P T : Type) where
  companion_list : List (Int × companion F P)
  transit : T
  elapsed_time : Int
  you_pos : coord_def

/-- `bool companion_is_elsewhere(mid_t mid, bool must_exist)` of
`god-companions.cc`. -/
def companion_is_elsewhere {F P M T : Type} (c : recall_members F P M T)
    (companion_list : List (Int × companion F P)) (mid : Int) (must_exist : Bool) : Bool :=
  match companion_list.find? (fun entry => decide (entry.1 = mid)) with
  | some entry =>
    decide (entry.2.level ≠ c.current)
      || (c.player_in_branch c.BRANCH_PANDEMONIUM
          && decide (entry.2.level.branch = c.BRANCH_PANDEMONIUM)
          && (c.monster_by_mid mid).isNone)
  | none => !must_exist

/-- `bool recall_offlevel_ally(mid_t mid)` of `god-companions.cc`: the value
returned, the globals after the call, and the monster `mons` as the call leaves
it, when the companion was placed. `roll` is the number `div_rand_round` draws.
The message of the recall is not part of the state. When
`companion_is_elsewhere(mid, true)` holds the entry `companion_list[mid]`
exists. The difference `turns` and the product of `turns` and the rate are
`int`s. -/
def recall_offlevel_ally {F P M T : Type} (c : recall_members F P M T) (roll : Int)
    (w : recall_world F P T) (mid : Int) : Bool × recall_world F P T × Option M :=
  if !companion_is_elsewhere c w.companion_list mid true then (false, w, none)
  else
    match w.companion_list.find? (fun entry => decide (entry.1 = mid)) with
    | none => (false, w, none)
    | some entry =>
      let comp := entry.2
      match c.place comp.mons true with
      | none => (false, w, none)
      | some mons =>
        let transit := c.remove_monster_from_transit w.transit comp.level mid
        let companion_list := w.companion_list.map (fun e =>
          if e.1 = mid then (e.1, { e.2 with level := c.current }) else e)
        let w := { w with transit := transit, companion_list := companion_list }
        let mons := c.apply_location_effects mons (c.pos mons)
        if !c.alive mons then (true, w, some mons)
        else
          let old_pos := w.you_pos
          let w := { w with you_pos := ⟨0, 0⟩ }
          let turns := int32_of (w.elapsed_time - comp.timestamp)
          let mons := c.heal mons
            (div_rand_round roll (int32_of (turns * c.off_level_regen_rate mons)) 100)
          let mons :=
            if turns ≥ 10 ∧ c.alive mons = true then
              let mons := c.del_ench mons c.ENCH_CONFUSION true
              c.timeout_enchantments mons (Int.tdiv turns 10)
            else mons
          let w := { w with you_pos := old_pos }
          let mons := c.recall_orders mons
          (true, w, some mons)
/-! ## The caps on abominations -/

/-- `static int _player_abomination_cap()` of `god-companions.cc`; `skill` is
the value of `you.skill(SK_INVOCATIONS)`. -/
def _player_abomination_cap (skill : Int) : Int :=
  3 + Int.tdiv skill 6

/-- `static int _player_large_abom_cap()` of `god-companions.cc`; `skill` is
the value of `you.skill(SK_INVOCATIONS)`. In `skill - 3 / 6` the division binds
tighter than the subtraction. -/
def _player_large_abom_cap (skill : Int) : Int :=
  if skill < 3 then 0
  else 1 + (skill - Int.tdiv 3 6)

/-- `bool player_allowed_abom(bool large)` of `god-companions.cc` on the global
`companion_list`; `monster_by_mid` and the constants `MONS_ABOMINATION_SMALL`
and `MONS_ABOMINATION_LARGE` are declared outside the sources, `stored` is the
member access `entry.second.mons.mons`, and `skill` is the value of
`you.skill(SK_INVOCATIONS)`. -/
def player_allowed_abom {F C : Type} (MONS_ABOMINATION_SMALL MONS_ABOMINATION_LARGE : Int)
    (monster_by_mid : Int → Option (monster F)) (stored : C → monster F) (skill : Int)
    (companion_list : List (Int × C)) (large : Bool) : Bool :=
  let abom_count : Int := companion_list.foldl
    (fun abom_count entry =>
      let mons := match monster_by_mid entry.1 with
        | some mons => mons
        | none => stored entry.2
      let abom_count :=
        if !large && mons.type = MONS_ABOMINATION_SMALL then abom_count + 1 else abom_count
      if mons.type = MONS_ABOMINATION_LARGE then abom_count + 1 else abom_count)
    0
  if abom_count ≥ _player_abomination_cap skill then false
  else if large && (abom_count ≥ _player_large_abom_cap skill) then false
  else true

/-! ## Vocabulary of the statements -/

/-- The bytes a marshalling step `f` leaves in a buffer that was empty. -/
def output (f : writer → writer) : List byte := (f writer.on_empty_buffer).pbuf

/-- The bytes of the buffer the reader has not consumed yet. -/
def reader.remaining (th : reader) : List byte := th.pbuf.drop th.read_offset

/-- The reader with its cursor moved `n` bytes forward. -/
def reader.skip (th : reader) (n : Nat) : reader :=
  { th with read_offset := th.read_offset + n }

/-- The decoder `dec` undoes the encoder `enc` at `x`: a non-failed writer gets
exactly the bytes `output (enc · x)` appended, and on every reader whose unread
bytes start with them, whatever follows, `dec` returns `x` and leaves the
cursor right behind them. -/
def round_trips {α : Type} (enc : writer → α → writer)
    (dec : reader → Except error (α × reader)) (x : α) : Prop :=
  (∀ w : writer, w.failed = false →
      enc w x = ⟨w.pbuf ++ output (fun t => enc t x), false⟩) ∧
  ∀ (th : reader) (rest : List byte),
    th.remaining = output (fun t => enc t x) ++ rest →
    dec th = .ok (x, th.skip (output (fun t => enc t x)).length) ∧
    (th.skip (output (fun t => enc t x)).length).remaining = rest

/-- The encoder `enc` appends exactly `bytes` to a writer that has not failed,
and the decoder `dec`, on every reader whose unread bytes start with `bytes`,
whatever follows, returns `x` and leaves the cursor right behind them. -/
def codec_pair {α : Type} (bytes : List byte) (enc : writer → Except error writer)
    (dec : reader → Except error (α × reader)) (x : α) : Prop :=
  (∀ w : writer, w.failed = false → enc w = .ok ⟨w.pbuf ++ bytes, false⟩) ∧
  ∀ (th : reader) (rest : List byte),
    th.remaining = bytes ++ rest →
    dec th = .ok (x, th.skip bytes.length) ∧ (th.skip bytes.length).remaining = rest

/-- The end of `_run_length_encode`: the pending run is written out. -/
def rle_finish (m : writer → Int → writer) (st : writer × Int × Nat) : writer :=
  m (marshallByte st.1 st.2.2) st.2.1

/-- The encoder of `_run_length_encode` run over the `n` cells from scan position
`p` on, the cell at position `idx` holding `val idx`, and then finished. -/
def rle_tail (m : writer → Int → writer) (val : Nat → Int) (p n : Nat)
    (st : writer × Int × Nat) : writer :=
  rle_finish m ((List.range' p n).foldl (fun st idx => _run_length_encode_cell m st (val idx)) st)

/-- The encoder `m` appends the same bytes for `v` to every writer that has not failed. -/
def appends {α : Type} (m : writer → α → writer) (v : α) : Prop :=
  ∀ w : writer, w.failed = false → m w v = ⟨w.pbuf ++ output (fun t => m t v), false⟩

/-- The map of the `n` keys 0, 1, ..., `n - 1`, each with the value 0. -/
def map_of_keys (n : Nat) : List (Int × Int) :=
  (List.range n).map (fun (i : Nat) => ((i : Int), (0 : Int)))

/-- Constructors of which only `tag_construct_you` writes anything: it writes
the bytes `data`. -/
def you_writes (data : List byte) : tag_constructors where
  tag_construct_char := fun th => th
  tag_construct_you := fun th => th.write data
  tag_construct_you_items := fun th => th
  tag_construct_you_dungeon := fun th => th
  tag_construct_lost_monsters := fun th => th
  tag_construct_companions := fun th => th
  tag_construct_level := fun th => th
  tag_construct_level_items := fun th => th
  tag_construct_level_monsters := fun th => th
  tag_construct_level_tiles := fun th => th
  tag_construct_ghost := fun th => th

/-- The decoders `rest` run one after the other, each behind an `EAT_CANARY`. -/
def run_behind_canaries : List (reader → Except error reader) → reader → Except error reader
  | [], th => pure th
  | s :: rest, th => do
    let th ← EAT_CANARY th
    let th ← s th
    run_behind_canaries rest th

/-- The decoders of the subsections of a payload run in order, with an
`EAT_CANARY` between every two of them. -/
def run_sections : List (reader → Except error reader) → reader → Except error reader
  | [], th => pure th
  | s :: rest, th => do
    let th ← s th
    run_behind_canaries rest th

/-- The subsections of the payload of a tag, as `tag_read` decodes them: what it
runs before the first `EAT_CANARY`, between two of them, and after the last. -/
def tag_sections (d : tag_readers) : tag_type → List (reader → Except error reader)
  | .TAG_YOU =>
    [d.tag_read_you, d.tag_read_you_items, d.tag_read_you_dungeon, d.tag_read_lost_monsters,
     fun th => do
       let th ← d.tag_read_companions th
       d.init_can_currently_train
       d.check_selected_skills
       pure th]
  | .TAG_LEVEL =>
    [d.tag_read_level,
     fun th => do
       let th ← d.tag_read_level_items th
       d.link_items
       pure th,
     d.tag_read_level_monsters,
     fun th => do
       d._add_missing_branches
       d._shunt_monsters_out_of_walls
       if !d.player_in_branch_abyss then
         d.check_map_validity
       d.tag_read_level_tiles th]
  | _ => []

/-- Decoders that each consume `n` bytes of the stream, between calls that all
succeed; `TAG_MINOR_INVALID` is -1. -/
def readers_consuming (n : Nat) : tag_readers where
  TAG_MINOR_INVALID := -1
  tag_read_you := fun th => do let (_, th) ← th.read n; pure th
  tag_read_you_items := fun th => do let (_, th) ← th.read n; pure th
  tag_read_you_dungeon := fun th => do let (_, th) ← th.read n; pure th
  tag_read_lost_monsters := fun th => do let (_, th) ← th.read n; pure th
  tag_read_companions := fun th => do let (_, th) ← th.read n; pure th
  init_can_currently_train := pure ()
  check_selected_skills := pure ()
  tag_read_level := fun th => do let (_, th) ← th.read n; pure th
  tag_read_level_items := fun th => do let (_, th) ← th.read n; pure th
  link_items := pure ()
  tag_read_level_monsters := fun th => do let (_, th) ← th.read n; pure th
  _add_missing_branches := pure ()
  _shunt_monsters_out_of_walls := pure ()
  player_in_branch_abyss := false
  check_map_validity := pure ()
  tag_read_level_tiles := fun th => do let (_, th) ← th.read n; pure th
  tag_read_ghost := fun th => do let (_, th) ← th.read n; pure th

/-- The bytes of a sequence of runs, each a run-length byte followed by the
value as the encoder `m` writes it. -/
def run_stream (m : writer → Int → writer) : List (Nat × Int) → List byte
  | [] => []
  | r :: rs => toByte r.1 :: (output (fun t => m t r.2) ++ run_stream m rs)

/-- Monsters with no data member but `type`, the sentinel being 1000: a monster
is alive when its type is not the sentinel, a live monster is written as its
type alone, and `reset` sets the type to the sentinel. -/
def monsters_of_type_only : monster_members Unit where
  MONS_NO_MONSTER := 1000
  alive := fun m => decide (m.type ≠ 1000)
  reset := fun _ => ⟨1000, ()⟩
  invalid_monster_type := fun _ => false
  marshall_alive := fun th m => .ok (marshallShort th m.type)
  unmarshall_fields := fun th m => pure (m, th)

/-- Items whose place of origin is one byte and whose property table is empty
(written as the byte of its size, 0); `OBJ_UNASSIGNED` is 100, and an item is
valid when its quantity is positive. -/
def items_of_plain_fields : item_members Int Unit where
  OBJ_UNASSIGNED := 100
  is_valid := fun item _ => decide (0 < item.quantity)
  igrd := fun _ => -1
  level_id_save := fun th l => marshallByte th l
  level_id_load := fun th _ => unmarshallByte th
  props_write := fun th _ => marshallUByte th 0
  props_clear := fun _ => ()
  props_read := fun th _ => do
    let (_, th) ← unmarshallUByte th
    pure ((), th)
  is_artefact := fun _ => false
  artefact_fixup_props := fun item => item
  bind_item_tile := fun item => item

/-- A weapon (`base_type` 0) with the quantity `q`, all other fields 0. -/
def weapon_of_quantity (q : Int) : item_def Int Unit where
  base_type := 0
  sub_type := 0
  plus := 0
  plus2 := 0
  special := 0
  quantity := q
  rnd := 0
  pos := ⟨0, 0⟩
  flags := 0
  link := 0
  slot := 0
  orig_place := 0
  orig_monnum := 0
  inscription := []
  props := ()

/-- The bytes `marshallItem` writes for `item` on the empty buffer, or none when
it dies. -/
def item_bytes {L P : Type} (c : item_members L P) (item : item_def L P) : List byte :=
  match marshallItem c writer.on_empty_buffer item false with
  | .ok th => th.pbuf
  | .error _ => []

/-- Map cells that hold their flags and nothing else: no feature
(`DNGN_UNSEEN`), no cloud, no item, no monster. -/
def cells_of_flags_only : map_cell_members Unit Unit Int Unit where
  DNGN_UNSEEN := 0
  CLOUD_NONE := 0
  MONS_NO_MONSTER := 1000
  TRAP_UNASSIGNED := 100
  TRAP_TELEPORT := 2
  TRAP_ALARM := 3
  TRAP_ZOT := 5
  TRAP_GOLUBRIA := 7
  DNGN_TRAP_ALARM := 1
  DNGN_TRAP_ZOT := 2
  DNGN_PASSAGE_OF_GOLUBRIA := 3
  TAG_MINOR_0_11 := 1
  TAG_MINOR_CLOUD_OWNER := 2
  TAG_MINOR_INVALID := -1
  feat := fun _ => 0
  feat_colour := fun _ => 0
  trap := fun _ => 100
  cloud := fun _ => 0
  cloudinfo := fun _ => ⟨0, 0, 0, 0, 0⟩
  item := fun _ => none
  monster := fun _ => 1000
  monsterinfo := fun _ => ()
  clear := fun _ => ⟨0, ()⟩
  set_feature := fun cell _ _ _ => cell
  set_cloud := fun cell _ => cell
  set_item := fun cell _ _ => cell
  set_monster := fun cell _ => cell
  feat_is_trap := fun _ => false
  is_valid_feature_type := fun _ => true
  marshallMonsterInfo := fun th _ => .ok th
  unmarshallMonsterInfo := fun th mi => pure (mi, th)
  new_cloud_info := ⟨0, 0, 0, 0, 0⟩
  new_item_def := weapon_of_quantity 0
  new_monster_info := ()

/-- The bytes `marshallMapCell` writes on the empty buffer for a cell that holds
the flags `flags` and nothing else. -/
def flags_cell_bytes (flags : Nat) : List byte :=
  match marshallMapCell cells_of_flags_only items_of_plain_fields writer.on_empty_buffer
      ⟨flags, ()⟩ with
  | .ok th => th.pbuf
  | .error _ => []

/-- The flags `unmarshallMapCell` restores from `bytes` for a cell that holds
flags only, and the number of bytes it consumes. -/
def flags_cell_read (bytes : List byte) : Except error (Nat × Nat) :=
  (unmarshallMapCell cells_of_flags_only items_of_plain_fields
    (reader.mk bytes 0 0 false false) ⟨0, ()⟩).map (fun r => (r.1.flags, r.2.read_offset))

/-- The tiles of a level with no tile names and every flavour 0. -/
def level_tiles_of_zeros : level_tiles where
  tile_names := []
  tile_default := ⟨0, 0, 0, 0, 0, 0, 0⟩
  tile_flv := fun _ _ => ⟨0, 0, 0, 0, 0, 0, 0⟩

/-- The decoder `um`, applied again and again from the reader `th` on, yields
the records `gs` in this order and leaves the reader `th'`. -/
def reads_in_order {G : Type} (um : reader → Except error (G × reader)) :
    reader → List G → reader → Prop
  | th, [], th' => th' = th
  | th, g :: gs, th' => ∃ th1, um th = .ok (g, th1) ∧ reads_in_order um th1 gs th'

/-- The encoder `m` only appends: a writer that has not failed, when `m`
returns, has its bytes followed by more, and has not failed. -/
def only_appends {G : Type} (m : writer → G → Except error writer) : Prop :=
  ∀ (w w' : writer) (g : G), w.failed = false → m w g = .ok w' →
    w'.failed = false ∧ ∃ bs, w'.pbuf = w.pbuf ++ bs

/-- A spell codec at minor version 0: every minor version the codec tests is 0,
the spell constants are numbered from 1 on with `SPELL_NO_SPELL` at -1, the
flag constants are single bits, and `normalize_spell_freq` changes nothing. -/
def spells_of_numbered_constants : spell_members where
  TAG_MINOR_INVALID := -1
  TAG_MINOR_ARB_SPELL_SLOTS := 0
  TAG_MINOR_MALMUTATE := 0
  TAG_MINOR_MONSTER_SPELL_SLOTS := 0
  TAG_MINOR_DEMONIC_SPELLS := 0
  SPELL_NO_SPELL := -1
  SPELL_POLYMORPH := 1
  SPELL_MALMUTATE := 2
  SPELL_FAKE_RAKSHASA_SUMMON := 3
  SPELL_PHANTOM_MIRROR := 4
  SPELL_SUNRAY := 5
  SPELL_STONE_ARROW := 6
  MON_SPELL_DEMONIC := 1
  MON_SPELL_MAGICAL := 2
  MON_SPELL_WIZARD := 4
  MON_SPELL_EMERGENCY := 8
  slot_of_resize := ⟨-1, 0, 0⟩
  normalize_spell_freq := fun spells _ => spells

/-- The spell fix-up of a monster that is never a zombie: the spell constants
are numbered from 7 on, `SPELL_CORRUPT_BODY` being 19 and
`SPELL_CORRUPTING_PULSE` 20, and the monster constants from 1 on. -/
def monsters_of_numbered_spells : monster_spell_members Unit where
  SPELL_CREATE_TENTACLES := 7
  SPELL_DRACONIAN_BREATH := 8
  SPELL_MALIGN_GATEWAY := 9
  SPELL_CHANT_FIRE_STORM := 10
  SPELL_FIRE_STORM := 11
  SPELL_SERPENT_OF_HELL_BREATH_REMOVED := 12
  SPELL_SERPENT_OF_HELL_GEH_BREATH := 13
  SPELL_SERPENT_OF_HELL_COC_BREATH := 14
  SPELL_SERPENT_OF_HELL_DIS_BREATH := 15
  SPELL_SERPENT_OF_HELL_TAR_BREATH := 16
  SPELL_DELAYED_FIREBALL := 17
  SPELL_MELEE := 18
  SPELL_CORRUPT_BODY := 19
  SPELL_CORRUPTING_PULSE := 20
  MONS_DRACONIAN := 1
  MONS_MNOLEG := 2
  MONS_SERPENT_OF_HELL := 3
  MONS_SERPENT_OF_HELL_COCYTUS := 4
  MONS_SERPENT_OF_HELL_DIS := 5
  MONS_SERPENT_OF_HELL_TARTARUS := 6
  mons_is_zombified := fun _ => false
  mons_enslaved_soul := fun _ => false
  mons_genus := fun t => t
  drac_breath := fun _ => ⟨8, 0, 0⟩
  draco_or_demonspawn_subspecies := fun m => m.type
  get_experience_level := fun _ => 1

/-- An enchantment whose duration, 31000, is above 30000 and whose source is
above 2^31. -/
def enchant_of_long_duration : mon_enchant where
  ench := 5
  degree := 2
  duration := 31000
  maxduration := -3
  who := 1
  source := 4000000000

/-- A monster on the level as the statements on a recall see it: its hit
points, whether it is confused, and the number of steps its timed enchantments
were moved forward. -/
structure ally where
  hit_points : Int
  confused : Bool
  steps : Int
deriving DecidableEq, Repr

/-- A level on which a stored follower is placed with the hit points of its
monster type, confused: it is alive while it has hit points, regenerates 7 per
100 units of time, healing adds hit points, `del_ench` ends the confusion and
`timeout_enchantments` counts the steps. The current level is depth 1 of
branch 0. -/
def allies_of_hit_points : recall_members Unit Unit ally Unit where
  ENCH_CONFUSION := 4
  BRANCH_PANDEMONIUM := 9
  current := ⟨0, 1⟩
  player_in_branch := fun _ => false
  monster_by_mid := fun _ => none
  remove_monster_from_transit := fun t _ _ => t
  recall_orders := fun m => m
  place := fun f _ => some ⟨f.mons.type, true, 0⟩
  alive := fun m => decide (0 < m.hit_points)
  pos := fun _ => ⟨1, 1⟩
  apply_location_effects := fun m _ => m
  off_level_regen_rate := fun _ => 7
  heal := fun m n => { m with hit_points := m.hit_points + n }
  del_ench := fun m e _ => if e = 4 then { m with confused := false } else m
  timeout_enchantments := fun m n => { m with steps := m.steps + n }

/-- The world at the game time `now` in which the companion 77, a monster of
type (and so of hit points) 20, was last seen on depth 3 of branch 0 at the
game time 5000. -/
def world_of_one_companion (now : Int) : recall_world Unit Unit Unit where
  companion_list := [(77, ⟨⟨⟨20, ()⟩, 0, []⟩, ⟨0, 3⟩, 5000⟩)]
  transit := ()
  elapsed_time := now
  you_pos := ⟨4, 4⟩

/-- The decoder of one entry of a map: the key, then the value. -/
def unmarshall_pair {K V : Type} (key_unmarshall : reader → Except error (K × reader))
    (value_unmarshall : reader → Except error (V × reader)) (th : reader) :
    Except error ((K × V) × reader) := do
  let (k, th) ← key_unmarshall th
  let (v, th) ← value_unmarshall th
  pure ((k, v), th)

/-- The spell `unmarshallSpells` stores for the spell it reads, at a minor
version that has `SPELL_MALMUTATE`: `SPELL_FAKE_RAKSHASA_SUMMON` is read as
`SPELL_PHANTOM_MIRROR`, and then `SPELL_SUNRAY` as `SPELL_STONE_ARROW`. -/
def spell_as_read (c : spell_members) (spell : Int) : Int :=
  let spell := if spell = c.SPELL_FAKE_RAKSHASA_SUMMON then c.SPELL_PHANTOM_MIRROR else spell
  if spell = c.SPELL_SUNRAY then c.SPELL_STONE_ARROW else spell

/-- The five bytes of a spell slot: the spell, the frequency, the flags. -/
def slot_layout (s : mon_spell_slot) : List byte :=
  [toByte (bits32 s.spell / 256), toByte (bits32 s.spell), toByte (bits8 s.freq),
   toByte (bits32 s.flags / 256), toByte (bits32 s.flags)]

/-- The bytes of a ghost record, field by field: the name behind its 2-byte
length, the fields from `species` to `flies`, the number of spell slots, and
the slots. -/
def ghost_layout (g : ghost_demon) : List byte :=
  (toByte (g.name.length / 256) :: toByte g.name.length :: g.name) ++
  ([toByte (bits32 g.species / 256), toByte (bits32 g.species),
    toByte (bits32 g.job / 256), toByte (bits32 g.job),
    toByte (bits8 g.religion),
    toByte (bits32 g.best_skill / 256), toByte (bits32 g.best_skill),
    toByte (bits32 g.best_skill_level / 256), toByte (bits32 g.best_skill_level),
    toByte (bits32 g.xl / 256), toByte (bits32 g.xl),
    toByte (bits32 g.max_hp / 256), toByte (bits32 g.max_hp),
    toByte (bits32 g.ev / 256), toByte (bits32 g.ev),
    toByte (bits32 g.ac / 256), toByte (bits32 g.ac),
    toByte (bits32 g.damage / 256), toByte (bits32 g.damage),
    toByte (bits32 g.speed / 256), toByte (bits32 g.speed),
    toByte (bits32 g.move_energy / 256), toByte (bits32 g.move_energy),
    toByte (bits8 (if g.see_invis then 1 else 0)),
    toByte (bits32 g.brand / 256), toByte (bits32 g.brand),
    toByte (bits32 g.att_type / 256), toByte (bits32 g.att_type),
    toByte (bits32 g.att_flav / 256), toByte (bits32 g.att_flav),
    toByte (bits32 g.resists / 16777216), toByte (bits32 g.resists / 65536),
    toByte (bits32 g.resists / 256), toByte (bits32 g.resists),
    toByte (bits8 g.colour),
    (if g.flies then 1 else 0),
    toByte (bits8 ((g.spells.length % 256 : Nat) : Int))] ++
   g.spells.flatMap slot_layout)

/-- The fields of a ghost fit the widths they are written in: the name has at
most 32767 characters, `religion` fits in 8 bits, `resists` in 32 bits and the
other numbers in 16 bits, `colour` is below 256, there are at most 255 spell
slots, and in each the spell fits in 16 bits, the frequency is below 256 and
the flags are at most 32767. -/
def ghost_fits (g : ghost_demon) : Prop :=
  g.name.length ≤ 32767 ∧
  (-32768 ≤ g.species ∧ g.species ≤ 32767) ∧
  (-32768 ≤ g.job ∧ g.job ≤ 32767) ∧
  (-128 ≤ g.religion ∧ g.religion ≤ 127) ∧
  (-32768 ≤ g.best_skill ∧ g.best_skill ≤ 32767) ∧
  (-32768 ≤ g.best_skill_level ∧ g.best_skill_level ≤ 32767) ∧
  (-32768 ≤ g.xl ∧ g.xl ≤ 32767) ∧
  (-32768 ≤ g.max_hp ∧ g.max_hp ≤ 32767) ∧
  (-32768 ≤ g.ev ∧ g.ev ≤ 32767) ∧
  (-32768 ≤ g.ac ∧ g.ac ≤ 32767) ∧
  (-32768 ≤ g.damage ∧ g.damage ≤ 32767) ∧
  (-32768 ≤ g.speed ∧ g.speed ≤ 32767) ∧
  (-32768 ≤ g.move_energy ∧ g.move_energy ≤ 32767) ∧
  (-32768 ≤ g.brand ∧ g.brand ≤ 32767) ∧
  (-32768 ≤ g.att_type ∧ g.att_type ≤ 32767) ∧
  (-32768 ≤ g.att_flav ∧ g.att_flav ≤ 32767) ∧
  (-2147483648 ≤ g.resists ∧ g.resists ≤ 2147483647) ∧
  g.colour ≤ 255 ∧
  g.spells.length ≤ 255 ∧
  ∀ s ∈ g.spells, -32768 ≤ s.spell ∧ s.spell ≤ 32767 ∧ s.freq ≤ 255 ∧ s.flags ≤ 32767

/-- The reader is at a minor version of the current format: the version is
valid and none of the minor versions `unmarshallGhost` and `unmarshallSpells`
test is above it. -/
def reads_current_format (c : spell_members) (d : ghost_members) (th : reader) : Prop :=
  th.minorVersion ≠ c.TAG_MINOR_INVALID ∧
  d.TAG_MINOR_GHOST_ENERGY ≤ th.minorVersion ∧
  d.TAG_MINOR_NO_GHOST_SPELLCASTER ≤ th.minorVersion ∧
  d.TAG_MINOR_MON_COLOUR_LOOKUP ≤ th.minorVersion ∧
  d.TAG_MINOR_BOOL_FLIGHT ≤ th.minorVersion ∧
  c.TAG_MINOR_ARB_SPELL_SLOTS ≤ th.minorVersion ∧
  c.TAG_MINOR_MALMUTATE ≤ th.minorVersion ∧
  c.TAG_MINOR_MONSTER_SPELL_SLOTS ≤ th.minorVersion ∧
  c.TAG_MINOR_DEMONIC_SPELLS ≤ th.minorVersion

/-- Ghost constants: the fastest player moves at 6, and every minor version
`unmarshallGhost` tests is 0. -/
def ghosts_of_minor_0 : ghost_members where
  FASTEST_PLAYER_MOVE_SPEED := 6
  TAG_MINOR_GHOST_ENERGY := 0
  TAG_MINOR_NO_GHOST_SPELLCASTER := 0
  TAG_MINOR_MON_COLOUR_LOOKUP := 0
  TAG_MINOR_BOOL_FLIGHT := 0

/-- A ghost with no name, the move energy `move_energy`, one spell slot holding
`spell`, and every other field 0. -/
def ghost_of_one_spell (move_energy spell : Int) : ghost_demon where
  name := []
  species := 0
  job := 0
  religion := 0
  best_skill := 0
  best_skill_level := 0
  xl := 0
  max_hp := 0
  ev := 0
  ac := 0
  damage := 0
  speed := 0
  move_energy := move_energy
  see_invis := false
  brand := 0
  att_type := 0
  att_flav := 0
  resists := 0
  colour := 0
  flies := false
  spells := [⟨spell, 10, 0⟩]

/-- Monsters of which only the type is written: the types below 0 are invalid,
`MONS_NO_MONSTER` is 1000, and a monster is alive when its type is not
`MONS_NO_MONSTER`. -/
def monsters_of_valid_types : monster_members Unit where
  MONS_NO_MONSTER := 1000
  alive := fun m => decide (m.type ≠ 1000)
  reset := fun _ => ⟨1000, ()⟩
  invalid_monster_type := fun t => decide (t < 0)
  marshall_alive := fun th m => .ok (marshallShort th m.type)
  unmarshall_fields := fun th m => pure (m, th)

/-- Items whose place of origin is a `level_id`, written by `marshall_level_id`,
and whose property table is empty; an item is valid when its quantity is
positive. -/
def items_of_level_ids : item_members level_id Unit where
  OBJ_UNASSIGNED := 100
  is_valid := fun item _ => decide (0 < item.quantity)
  igrd := fun _ => -1
  level_id_save := fun th l => marshall_level_id th l
  level_id_load := fun th l => do
    let (_, th) ← unmarshallShort th
    pure (l, th)
  props_write := fun th _ => marshallUByte th 0
  props_clear := fun _ => ()
  props_read := fun th _ => do
    let (_, th) ← unmarshallUByte th
    pure ((), th)
  is_artefact := fun _ => false
  artefact_fixup_props := fun item => item
  bind_item_tile := fun item => item

/-- The registry of the companion 1, whose monster type, -5, is invalid, and the
companion 2, a monster of type 7 without items, last seen on depth 3 of branch
0 at the game time 5000. -/
def registry_of_two : List (Int × companion Unit Unit) :=
  [(1, ⟨⟨⟨-5, ()⟩, 0, []⟩, ⟨0, 3⟩, 4000⟩), (2, ⟨⟨⟨7, ()⟩, 0, []⟩, ⟨0, 3⟩, 5000⟩)]

/-! # Theorems -/

/-! ## Buffer lemmas -/

theorem writeByte_ok (w : writer) (b : byte) (h : w.failed = false) :
    w.writeByte b = ⟨w.pbuf ++ [b], false⟩ := by
  cases w; simp_all [writer.writeByte]

theorem write_ok (w : writer) (bs : List byte) (h : w.failed = false) :
    w.write bs = ⟨w.pbuf ++ bs, false⟩ := by
  cases w; simp_all [writer.write]

theorem readByte_of_remaining (th : reader) (b : byte) (rest : List byte)
    (h : th.remaining = b :: rest) :
    th.readByte = .ok (b, th.skip 1) ∧ (th.skip 1).remaining = rest := by
  unfold reader.remaining at h
  have hlt : th.read_offset < th.pbuf.length := by
    by_contra hc
    rw [List.drop_eq_nil_of_le (by omega)] at h
    exact List.noConfusion h
  have hd := List.drop_eq_getElem_cons hlt
  rw [hd] at h
  injection h with h1 h2
  refine ⟨?_, ?_⟩
  · unfold reader.readByte
    rw [dif_neg (by omega)]
    simp only [List.get_eq_getElem, h1, reader.skip]
  · simpa [reader.remaining, reader.skip] using h2

theorem skip_skip (th : reader) (m n : Nat) : (th.skip m).skip n = th.skip (m + n) := by
  simp [reader.skip, Nat.add_assoc]

/-- The `size_t` sum of the cursor and a size is exact when it is below 2^64. -/
theorem read_offset_plus_of_lt (th : reader) (n : Nat)
    (h : th.read_offset + n < 18446744073709551616) :
    th.read_offset_plus n = th.read_offset + n := by
  unfold reader.read_offset_plus
  split_ifs
  · exact Nat.mod_eq_of_lt h
  · rfl

/-- The `size_t` sum of the cursor and a size is exact when it is within the
buffer. -/
theorem read_offset_plus_of_fits (th : reader) (n : Nat)
    (h : th.read_offset + n ≤ th.pbuf.length) :
    th.read_offset_plus n = th.read_offset + n := by
  unfold reader.read_offset_plus
  split_ifs with hc
  · exact Nat.mod_eq_of_lt (by omega)
  · rfl

/-- The `size_t` sum of the cursor and a size below 2^63 is exact. -/
theorem read_offset_plus_of_small (th : reader) (n : Nat) (h : n < 9223372036854775808) :
    th.read_offset_plus n = th.read_offset + n := by
  unfold reader.read_offset_plus
  split_ifs with hc
  · exact Nat.mod_eq_of_lt (by omega)
  · rfl

/-! ## Bit manipulation -/

theorem and_shl_shr (u m k : Nat) : (u &&& (m <<< k)) >>> k = (u >>> k) &&& m := by
  apply Nat.eq_of_testBit_eq
  intro j
  simp [Nat.testBit_shiftRight, Nat.testBit_and, Nat.testBit_shiftLeft]

theorem and_255 (u : Nat) : u &&& 255 = u % 256 := Nat.and_pow_two_sub_one_eq_mod u 8

theorem and_ff00 (u : Nat) : (u &&& 0xFF00) >>> 8 = u / 256 % 256 := by
  show (u &&& (255 <<< 8)) >>> 8 = _
  rw [and_shl_shr, and_255, Nat.shiftRight_eq_div_pow]

theorem and_ff0000 (u : Nat) : (u &&& 0xFF0000) >>> 16 = u / 65536 % 256 := by
  show (u &&& (255 <<< 16)) >>> 16 = _
  rw [and_shl_shr, and_255, Nat.shiftRight_eq_div_pow]

theorem and_ff000000 (u : Nat) : (u &&& 0xFF000000) >>> 24 = u / 16777216 % 256 := by
  show (u &&& (255 <<< 24)) >>> 24 = _
  rw [and_shl_shr, and_255, Nat.shiftRight_eq_div_pow]

theorem shl_or (a b k : Nat) (hb : b < 2 ^ k) : (a <<< k) ||| b = a * 2 ^ k + b := by
  rw [Nat.shiftLeft_eq, Nat.mul_comm, Nat.mul_add_lt_is_or hb]

theorem or_bytes2 (a b : Nat) (hb : b < 256) : (a <<< 8) ||| b = a * 256 + b :=
  shl_or a b 8 hb

theorem or_bytes4 (a b c d : Nat) (hb : b < 256) (hc : c < 256) (hd : d < 256) :
    ((a <<< 24) ||| (b <<< 16)) ||| ((c <<< 8) ||| d)
      = a * 16777216 + b * 65536 + c * 256 + d := by
  rw [or_bytes2 c d hd]
  have hb16 : b <<< 16 = b * 65536 := by rw [Nat.shiftLeft_eq]
  rw [hb16, shl_or a (b * 65536) 24 (by norm_num; omega)]
  have h2 : a * 2 ^ 24 + b * 65536 = (a * 256 + b) <<< 16 := by
    rw [Nat.shiftLeft_eq]; norm_num; ring
  rw [h2, shl_or _ _ 16 (by norm_num; omega)]
  norm_num; ring

theorem toByte_val (n : Nat) : (toByte n).val = n % 256 := rfl

/-! ## Fixed-width primitives -/

/-- The two bytes `marshallShort` writes. -/
theorem marshallShort_bytes (w : writer) (x : Int) (h : w.failed = false) :
    marshallShort w x
      = ⟨w.pbuf ++ [toByte (bits32 x / 256), toByte (bits32 x)], false⟩ := by
  have e1 : toByte ((bits32 x &&& 0xFF00) >>> 8) = toByte (bits32 x / 256) := by
    apply Fin.ext; rw [toByte_val, toByte_val, and_ff00]; omega
  have e2 : toByte (bits32 x &&& 0x00FF) = toByte (bits32 x) := by
    apply Fin.ext; rw [toByte_val, toByte_val, and_255]; omega
  simp only [marshallShort, e1, e2]
  rw [writeByte_ok _ _ h, writeByte_ok _ _ rfl]
  simp

/-- The four bytes `marshallInt` writes. -/
theorem marshallInt_bytes (w : writer) (x : Int) (h : w.failed = false) :
    marshallInt w x
      = ⟨w.pbuf ++ [toByte (bits32 x / 16777216), toByte (bits32 x / 65536),
                    toByte (bits32 x / 256), toByte (bits32 x)], false⟩ := by
  have e1 : toByte ((bits32 x &&& 0xFF000000) >>> 24) = toByte (bits32 x / 16777216) := by
    apply Fin.ext; rw [toByte_val, toByte_val, and_ff000000]; omega
  have e2 : toByte ((bits32 x &&& 0x00FF0000) >>> 16) = toByte (bits32 x / 65536) := by
    apply Fin.ext; rw [toByte_val, toByte_val, and_ff0000]; omega
  have e3 : toByte ((bits32 x &&& 0x0000FF00) >>> 8) = toByte (bits32 x / 256) := by
    apply Fin.ext; rw [toByte_val, toByte_val, and_ff00]; omega
  have e4 : toByte (bits32 x &&& 0x000000FF) = toByte (bits32 x) := by
    apply Fin.ext; rw [toByte_val, toByte_val, and_255]; omega
  simp only [marshallInt, e1, e2, e3, e4]
  rw [writeByte_ok _ _ h, writeByte_ok _ _ rfl, writeByte_ok _ _ rfl, writeByte_ok _ _ rfl]
  simp

/-- What `unmarshallShort` returns on a reader that has two bytes left. -/
theorem unmarshallShort_bytes (th : reader) (b1 b2 : byte) (rest : List byte)
    (h : th.remaining = b1 :: b2 :: rest) :
    unmarshallShort th = .ok (int16_of ((b1.val * 256 + b2.val : Nat) : Int), th.skip 2) ∧
    (th.skip 2).remaining = rest := by
  obtain ⟨r1, h1⟩ := readByte_of_remaining th b1 _ h
  obtain ⟨r2, h2⟩ := readByte_of_remaining _ b2 _ h1
  rw [skip_skip] at r2 h2
  refine ⟨?_, h2⟩
  have e : (b1.val <<< 8) ||| (b2.val &&& 0x00FF) = b1.val * 256 + b2.val := by
    rw [and_255, Nat.mod_eq_of_lt b2.isLt, or_bytes2 _ _ b2.isLt]
  simp only [unmarshallShort, r1, r2, bind, Except.bind, pure, Except.pure, e]

/-- What `unmarshallInt` returns on a reader that has four bytes left. -/
theorem unmarshallInt_bytes (th : reader) (b1 b2 b3 b4 : byte) (rest : List byte)
    (h : th.remaining = b1 :: b2 :: b3 :: b4 :: rest) :
    unmarshallInt th
      = .ok (int32_of ((b1.val * 16777216 + b2.val * 65536 + b3.val * 256 + b4.val : Nat) : Int),
             th.skip 4) ∧
    (th.skip 4).remaining = rest := by
  obtain ⟨r1, h1⟩ := readByte_of_remaining th b1 _ h
  obtain ⟨r2, h2⟩ := readByte_of_remaining _ b2 _ h1
  rw [skip_skip] at r2 h2
  obtain ⟨r3, h3⟩ := readByte_of_remaining _ b3 _ h2
  rw [skip_skip] at r3 h3
  obtain ⟨r4, h4⟩ := readByte_of_remaining _ b4 _ h3
  rw [skip_skip] at r4 h4
  refine ⟨?_, h4⟩
  have e : ((b1.val <<< 24) ||| ((b2.val &&& 0x000000FF) <<< 16))
            ||| (((b3.val &&& 0x000000FF) <<< 8) ||| (b4.val &&& 0x000000FF))
          = b1.val * 16777216 + b2.val * 65536 + b3.val * 256 + b4.val := by
    rw [and_255, and_255, and_255, Nat.mod_eq_of_lt b2.isLt, Nat.mod_eq_of_lt b3.isLt,
      Nat.mod_eq_of_lt b4.isLt, or_bytes4 _ _ _ _ b2.isLt b3.isLt b4.isLt]
  simp only [unmarshallInt, r1, r2, r3, r4, bind, Except.bind, pure, Except.pure, e]

theorem round_trips_byte (x : Int) (h1 : -128 ≤ x) (h2 : x ≤ 127) :
    round_trips marshallByte unmarshallByte x := by
  have hout : output (fun t => marshallByte t x) = [toByte (bits8 x)] := by
    simp [output, marshallByte, writer.on_empty_buffer, writeByte_ok]
  refine ⟨fun w hw => ?_, fun th rest h => ?_⟩
  · rw [hout]; exact writeByte_ok _ _ hw
  · rw [hout] at h ⊢
    obtain ⟨r1, h1⟩ := readByte_of_remaining th _ _ h
    refine ⟨?_, h1⟩
    have e : int8_of ((toByte (bits8 x)).val : Int) = x := by
      rw [toByte_val]; unfold int8_of bits8; omega
    simp only [unmarshallByte, r1, bind, Except.bind, pure, Except.pure, e, List.length_singleton]

theorem round_trips_ubyte (x : Nat) (h1 : x ≤ 255) :
    round_trips marshallUByte unmarshallUByte x := by
  have hout : output (fun t => marshallUByte t x) = [toByte x] := by
    simp [output, marshallUByte, writer.on_empty_buffer, writeByte_ok]
  refine ⟨fun w hw => ?_, fun th rest h => ?_⟩
  · rw [hout]; exact writeByte_ok _ _ hw
  · rw [hout] at h ⊢
    obtain ⟨r1, h1⟩ := readByte_of_remaining th _ _ h
    refine ⟨?_, h1⟩
    have e : (toByte x).val = x := by rw [toByte_val]; omega
    simp only [unmarshallUByte, r1, bind, Except.bind, pure, Except.pure, e, List.length_singleton]

theorem round_trips_short (x : Int) (h1 : -32768 ≤ x) (h2 : x ≤ 32767) :
    round_trips marshallShort unmarshallShort x := by
  have hout : output (fun t => marshallShort t x)
      = [toByte (bits32 x / 256), toByte (bits32 x)] := by
    simp [output, marshallShort_bytes, writer.on_empty_buffer]
  refine ⟨fun w hw => ?_, fun th rest h => ?_⟩
  · rw [hout]; exact marshallShort_bytes _ _ hw
  · rw [hout] at h ⊢
    obtain ⟨r, hr⟩ := unmarshallShort_bytes th _ _ rest h
    refine ⟨?_, hr⟩
    rw [r]
    have e : int16_of (((toByte (bits32 x / 256)).val * 256 + (toByte (bits32 x)).val : Nat) : Int)
        = x := by
      rw [toByte_val, toByte_val]; unfold int16_of bits32; omega
    rw [e]; rfl

theorem round_trips_int (x : Int) (h1 : -2147483648 ≤ x) (h2 : x ≤ 2147483647) :
    round_trips marshallInt unmarshallInt x := by
  have hout : output (fun t => marshallInt t x)
      = [toByte (bits32 x / 16777216), toByte (bits32 x / 65536),
         toByte (bits32 x / 256), toByte (bits32 x)] := by
    simp [output, marshallInt_bytes, writer.on_empty_buffer]
  refine ⟨fun w hw => ?_, fun th rest h => ?_⟩
  · rw [hout]; exact marshallInt_bytes _ _ hw
  · rw [hout] at h ⊢
    obtain ⟨r, hr⟩ := unmarshallInt_bytes th _ _ _ _ rest h
    refine ⟨?_, hr⟩
    rw [r]
    have e : int32_of (((toByte (bits32 x / 16777216)).val * 16777216
        + (toByte (bits32 x / 65536)).val * 65536
        + (toByte (bits32 x / 256)).val * 256 + (toByte (bits32 x)).val : Nat) : Int) = x := by
      rw [toByte_val, toByte_val, toByte_val, toByte_val]; unfold int32_of bits32; omega
    rw [e]; rfl

theorem round_trips_boolean (x : Bool) :
    round_trips marshallBoolean unmarshallBoolean x := by
  have hout : output (fun t => marshallBoolean t x) = [if x then 1 else 0] := by
    simp [output, marshallBoolean, writer.on_empty_buffer, writeByte_ok]
  refine ⟨fun w hw => ?_, fun th rest h => ?_⟩
  · rw [hout]; exact writeByte_ok _ _ hw
  · rw [hout] at h ⊢
    obtain ⟨r1, h1⟩ := readByte_of_remaining th _ _ h
    refine ⟨?_, h1⟩
    simp only [unmarshallBoolean, r1, bind, Except.bind, pure, Except.pure, List.length_singleton]
    cases x <;> rfl

theorem unmarshallBoolean_nonzero (th : reader) (b : byte) (rest : List byte)
    (h : th.remaining = b :: rest) (hb : b ≠ 0) :
    unmarshallBoolean th = .ok (true, th.skip 1) := by
  obtain ⟨r1, _⟩ := readByte_of_remaining th _ _ h
  have e : (b.val != 0) = true := by
    simp only [bne_iff_ne, ne_eq]
    intro hc; exact hb (Fin.ext hc)
  simp only [unmarshallBoolean, r1, bind, Except.bind, pure, Except.pure, e]

/-! ## Variable-width integers -/

set_option maxRecDepth 100000 in
theorem byte_and_80 : ∀ b : byte, (b.val &&& 0x80 = 0) ↔ b.val < 128 := by decide

theorem and_7f (u : Nat) : u &&& 0x7f = u % 128 := Nat.and_pow_two_sub_one_eq_mod u 7

theorem or_80 (u : Nat) (h : u < 128) : u ||| 0x80 = u + 128 := by
  have := shl_or 1 u 7 h
  rw [Nat.lor_comm]
  simpa [Nat.add_comm] using this

/-- One step of the encoder on a writer that has not failed. -/
theorem marshallUnsigned_step (w : writer) (v : Nat) (hw : w.failed = false) :
    marshallUnsigned w v
      = if v / 128 ≠ 0 then marshallUnsigned ⟨w.pbuf ++ [toByte (v % 128 + 128)], false⟩ (v / 128)
        else ⟨w.pbuf ++ [toByte (v % 128)], false⟩ := by
  rw [marshallUnsigned]
  have e7 : v >>> 7 = v / 128 := by rw [Nat.shiftRight_eq_div_pow]
  have eb : (toByte (v % 128)).val ||| 0x80 = v % 128 + 128 := by
    rw [toByte_val, Nat.mod_eq_of_lt (by omega), or_80 _ (by omega)]
  simp only [e7, and_7f, eb, writeByte_ok _ _ hw]
  split <;> rfl

/-- The encoder appends to the buffer and nothing else. -/
theorem marshallUnsigned_appends (v : Nat) : ∀ (w : writer), w.failed = false →
    marshallUnsigned w v = ⟨w.pbuf ++ output (fun t => marshallUnsigned t v), false⟩ := by
  induction v using Nat.strong_induction_on with
  | _ v ih =>
    intro w hw
    simp only [output]
    rw [marshallUnsigned_step w v hw, marshallUnsigned_step _ v rfl]
    by_cases h : v / 128 ≠ 0
    · have hlt : v / 128 < v := Nat.div_lt_self (by omega) (by decide)
      rw [if_pos h, if_pos h, ih _ hlt _ rfl, ih _ hlt ⟨_, false⟩ rfl]
      simp [writer.on_empty_buffer]
    · rw [if_neg h, if_neg h]
      simp [writer.on_empty_buffer]

/-- The bytes of the encoding, group by group. -/
theorem output_marshallUnsigned (v : Nat) :
    output (fun t => marshallUnsigned t v)
      = if v / 128 ≠ 0 then
          toByte (v % 128 + 128) :: output (fun t => marshallUnsigned t (v / 128))
        else [toByte (v % 128)] := by
  conv_lhs => simp only [output]
  rw [marshallUnsigned_step _ v rfl]
  by_cases h : v / 128 ≠ 0
  · rw [if_pos h, if_pos h, marshallUnsigned_appends _ _ rfl]
    simp [writer.on_empty_buffer]
  · rw [if_neg h, if_neg h]
    simp [writer.on_empty_buffer]

theorem shl64_small (x i : Nat) (h : x * 2 ^ i < 18446744073709551616) :
    shl64 x i = x * 2 ^ i := by
  unfold shl64
  rw [Nat.shiftLeft_eq, Nat.mod_eq_of_lt h]

theorem or_shifted (acc x i : Nat) (h : acc < 2 ^ i) : acc ||| (x * 2 ^ i) = acc + x * 2 ^ i := by
  rw [Nat.lor_comm, Nat.add_comm, ← shl_or x acc i h, Nat.shiftLeft_eq]

/-- The decoding loop, started in the middle of a value: with `acc` holding the
groups read so far (`i` bits of them), it adds the groups of `v`. -/
theorem unmarshallUnsigned_loop_spec (v : Nat) :
    ∀ (fuel i acc : Nat) (th : reader) (rest : List byte),
      th.remaining = output (fun t => marshallUnsigned t v) ++ rest →
      (output (fun t => marshallUnsigned t v)).length ≤ fuel →
      acc < 2 ^ i → acc + v * 2 ^ i < 18446744073709551616 →
      unmarshallUnsigned_loop fuel th i acc
        = .ok (acc + v * 2 ^ i, th.skip (output (fun t => marshallUnsigned t v)).length) ∧
      (th.skip (output (fun t => marshallUnsigned t v)).length).remaining = rest := by
  induction v using Nat.strong_induction_on with
  | _ v ih =>
    intro fuel i acc th rest hrem hfuel hacc hbound
    rw [output_marshallUnsigned] at hrem hfuel ⊢
    have hv : v = 128 * (v / 128) + v % 128 := (Nat.div_add_mod v 128).symm
    have hpos : 0 < 2 ^ i := Nat.two_pow_pos i
    by_cases h : v / 128 ≠ 0
    · rw [if_pos h] at hrem hfuel ⊢
      obtain ⟨r1, h1⟩ := readByte_of_remaining th _ _ hrem
      obtain ⟨fuel, rfl⟩ : ∃ f, fuel = f + 1 := ⟨fuel - 1, by simp at hfuel; omega⟩
      have hbv : (toByte (v % 128 + 128)).val = v % 128 + 128 := by rw [toByte_val]; omega
      have hlow : (toByte (v % 128 + 128)).val &&& 0x7f = v % 128 := by
        rw [hbv, and_7f]; omega
      have hhigh : ¬ ((toByte (v % 128 + 128)).val &&& 0x80 = 0) := by
        rw [byte_and_80, hbv]; omega
      have h27 : 2 ^ (i + 7) = 128 * 2 ^ i := by rw [pow_add]; ring
      have hmul : v * 2 ^ i = (v / 128) * 2 ^ (i + 7) + v % 128 * 2 ^ i := by
        conv_lhs => rw [hv]
        rw [h27]; ring
      have hsmall : v % 128 * 2 ^ i < 18446744073709551616 := by omega
      have hi : i + 7 < 64 := by
        have h128 : 1 * 2 ^ (i + 7) ≤ (v / 128) * 2 ^ (i + 7) :=
          Nat.mul_le_mul_right _ (by omega)
        have : 2 ^ (i + 7) < 2 ^ 64 := by omega
        exact (Nat.pow_lt_pow_iff_right (by decide)).mp this
      have hi' : (i + 7) % 4294967296 = i + 7 := Nat.mod_eq_of_lt (by omega)
      have hacc' : acc + v % 128 * 2 ^ i < 2 ^ (i + 7) := by
        have : v % 128 * 2 ^ i ≤ 127 * 2 ^ i := Nat.mul_le_mul_right _ (by omega)
        rw [h27]; omega
      have hlt : v / 128 < v := Nat.div_lt_self (by omega) (by decide)
      obtain ⟨r2, h2⟩ := ih _ hlt fuel (i + 7) (acc + v % 128 * 2 ^ i) (th.skip 1) rest h1
        (by simpa using hfuel) hacc' (by omega)
      rw [skip_skip] at r2 h2
      have hlen : (toByte (v % 128 + 128)
          :: output (fun t => marshallUnsigned t (v / 128))).length
          = 1 + (output (fun t => marshallUnsigned t (v / 128))).length := by
        simp [Nat.add_comm]
      rw [hlen]
      refine ⟨?_, h2⟩
      rw [unmarshallUnsigned_loop]
      simp only [r1, bind, Except.bind, hlow, hhigh, if_false, hi',
        shl64_small _ _ hsmall, or_shifted _ _ _ hacc, r2]
      congr 2; omega
    · rw [if_neg h] at hrem hfuel ⊢
      obtain ⟨r1, h1⟩ := readByte_of_remaining th _ _ hrem
      obtain ⟨fuel, rfl⟩ : ∃ f, fuel = f + 1 := ⟨fuel - 1, by simp at hfuel; omega⟩
      have hv0 : v / 128 = 0 := by omega
      have hvm : v % 128 = v := by omega
      have hbv : (toByte (v % 128)).val = v := by rw [toByte_val]; omega
      have hlow : (toByte (v % 128)).val &&& 0x7f = v := by
        rw [hbv, and_7f]; omega
      have hhigh : (toByte (v % 128)).val &&& 0x80 = 0 := by
        rw [byte_and_80, hbv]; omega
      have hsmall : v * 2 ^ i < 18446744073709551616 := by omega
      refine ⟨?_, h1⟩
      rw [unmarshallUnsigned_loop]
      simp only [r1, bind, Except.bind, hlow, hhigh, if_true, pure, Except.pure,
        shl64_small _ _ hsmall, or_shifted _ _ _ hacc, List.length_singleton]

theorem remaining_length (th : reader) :
    th.remaining.length = th.pbuf.length - th.read_offset := by
  simp [reader.remaining]

theorem round_trips_unsigned (v : Nat) (hv : v < 18446744073709551616) :
    round_trips marshallUnsigned unmarshallUnsigned v := by
  refine ⟨fun w hw => marshallUnsigned_appends v w hw, fun th rest h => ?_⟩
  have hlen := remaining_length th
  rw [h, List.length_append] at hlen
  have := unmarshallUnsigned_loop_spec v (th.pbuf.length - th.read_offset + 1) 0 0 th rest h
    (by omega) (by decide) (by simpa using hv)
  simpa [unmarshallUnsigned] using this

theorem double_or_one (m : Nat) : (2 * m) ||| 1 = 2 * m + 1 :=
  (Nat.mul_add_lt_is_or (show 1 < 2 ^ 1 by decide) m).symm

theorem and_one (u : Nat) : u &&& 1 = u % 2 := Nat.and_pow_two_sub_one_eq_mod u 1

/-- The unsigned value `marshallSigned` hands to `marshallUnsigned`. -/
theorem marshallSigned_eq (w : writer) (n : Int)
    (h1 : -9223372036854775808 ≤ n) (h2 : n ≤ 9223372036854775807) :
    marshallSigned w n
      = marshallUnsigned w (if n < 0 then 2 * (-n - 1).toNat + 1 else 2 * n.toNat) := by
  unfold marshallSigned
  by_cases hn : n < 0
  · rw [if_pos hn, if_pos hn]
    have e : bits64 (int64_of (int64_of (int64_of (-n) - 1) * 2)) = 2 * (-n - 1).toNat := by
      unfold bits64 int64_of; omega
    rw [e, double_or_one]
  · rw [if_neg hn, if_neg hn]
    have e : bits64 (int64_of (n * 2)) = 2 * n.toNat := by
      unfold bits64 int64_of; omega
    rw [e]

theorem round_trips_signed (n : Int)
    (h1 : -9223372036854775808 ≤ n) (h2 : n ≤ 9223372036854775807) :
    round_trips marshallSigned unmarshallSigned n := by
  have hu : (if n < 0 then 2 * (-n - 1).toNat + 1 else 2 * n.toNat) < 18446744073709551616 := by
    split <;> omega
  obtain ⟨ha, hb⟩ := round_trips_unsigned _ hu
  have hout : output (fun t => marshallSigned t n)
      = output (fun t => marshallUnsigned t
          (if n < 0 then 2 * (-n - 1).toNat + 1 else 2 * n.toNat)) := by
    simp only [output, marshallSigned_eq _ n h1 h2]
  refine ⟨fun w hw => ?_, fun th rest h => ?_⟩
  · rw [hout, marshallSigned_eq _ n h1 h2]; exact ha w hw
  · rw [hout] at h ⊢
    obtain ⟨r, hr⟩ := hb th rest h
    refine ⟨?_, hr⟩
    simp only [unmarshallSigned, r, bind, Except.bind, and_one, Nat.shiftRight_eq_div_pow]
    by_cases hn : n < 0
    · simp only [if_pos hn]
      have hodd : ¬ ((2 * (-n - 1).toNat + 1) % 2 = 0) := by omega
      have e : int64_of (bits64 (-(((2 * (-n - 1).toNat + 1) / 2 ^ 1 : Nat) : Int) - 1) : Nat)
          = n := by
        unfold bits64 int64_of; omega
      simp only [ne_eq, hodd, not_false_eq_true, if_true, e, pure, Except.pure]
    · simp only [if_neg hn]
      have heven : (2 * n.toNat) % 2 = 0 := by omega
      have e : int64_of (((2 * n.toNat) / 2 ^ 1 : Nat) : Int) = n := by
        unfold int64_of; omega
      simp only [ne_eq, heven, not_true_eq_false, if_false, e, pure, Except.pure]

/-! ## The codec round trips -/

/-- C1: for every 64-bit unsigned `v`, `unmarshallUnsigned` on a reader whose
unread bytes are the output of `marshallUnsigned v` followed by any bytes
returns `v` and leaves the cursor right after the last byte written. -/
theorem unsigned_round_trip (v : Nat) (hv : v < 18446744073709551616) :
    round_trips marshallUnsigned unmarshallUnsigned v :=
  round_trips_unsigned v hv

/-- Witness of C1 at the largest 64-bit value. -/
theorem unsigned_round_trip_witness :
    (18446744073709551615 : Nat) < 18446744073709551616 ∧
    round_trips marshallUnsigned unmarshallUnsigned 18446744073709551615 :=
  ⟨by decide, unsigned_round_trip 18446744073709551615 (by decide)⟩

/-- C2: for every 64-bit signed `n`, the minimum and the maximum included,
`unmarshallSigned` on the output of `marshallSigned n` returns `n` and consumes
exactly the bytes written. -/
theorem signed_round_trip (n : Int)
    (h1 : -9223372036854775808 ≤ n) (h2 : n ≤ 9223372036854775807) :
    round_trips marshallSigned unmarshallSigned n :=
  round_trips_signed n h1 h2

/-- Witness of C2 at the smallest and the largest 64-bit signed value. -/
theorem signed_round_trip_witness :
    round_trips marshallSigned unmarshallSigned (-9223372036854775808) ∧
    round_trips marshallSigned unmarshallSigned 9223372036854775807 :=
  ⟨signed_round_trip (-9223372036854775808) (by decide) (by decide),
   signed_round_trip 9223372036854775807 (by decide) (by decide)⟩

/-- C4: each fixed-width codec decodes what it encoded and consumes exactly the
bytes written: `marshallByte` on all `int8`, `marshallUByte` on all `uint8`,
`marshallShort` on all `int16`, `marshallInt` on all `int32`, `marshallBoolean`
on both booleans; and `unmarshallBoolean` returns true on every non-zero byte. -/
theorem fixed_width_round_trip :
    (∀ x : Int, -128 ≤ x → x ≤ 127 → round_trips marshallByte unmarshallByte x) ∧
    (∀ x : Nat, x ≤ 255 → round_trips marshallUByte unmarshallUByte x) ∧
    (∀ x : Int, -32768 ≤ x → x ≤ 32767 → round_trips marshallShort unmarshallShort x) ∧
    (∀ x : Int, -2147483648 ≤ x → x ≤ 2147483647 →
      round_trips marshallInt unmarshallInt x) ∧
    (∀ x : Bool, round_trips marshallBoolean unmarshallBoolean x) ∧
    (∀ (th : reader) (b : byte) (rest : List byte), th.remaining = b :: rest → b ≠ 0 →
      unmarshallBoolean th = .ok (true, th.skip 1)) :=
  ⟨round_trips_byte, round_trips_ubyte, round_trips_short, round_trips_int,
   round_trips_boolean, unmarshallBoolean_nonzero⟩

/-- Witness of C4 at boundary values of each type and at the non-zero byte 2. -/
theorem fixed_width_round_trip_witness :
    round_trips marshallByte unmarshallByte (-128) ∧
    round_trips marshallUByte unmarshallUByte 255 ∧
    round_trips marshallShort unmarshallShort (-32768) ∧
    round_trips marshallInt unmarshallInt 2147483647 ∧
    unmarshallBoolean ⟨[2], 0, 0, false, false⟩ = .ok (true, ⟨[2], 1, 0, false, false⟩) :=
  ⟨fixed_width_round_trip.1 (-128) (by decide) (by decide),
   fixed_width_round_trip.2.1 255 (by decide),
   fixed_width_round_trip.2.2.1 (-32768) (by decide) (by decide),
   fixed_width_round_trip.2.2.2.1 2147483647 (by decide) (by decide),
   fixed_width_round_trip.2.2.2.2.2 ⟨[2], 0, 0, false, false⟩ 2 [] rfl (by decide)⟩

/-! ## Strings -/

theorem write_mk (buf bs : List byte) :
    writer.write ⟨buf, false⟩ bs = ⟨buf ++ bs, false⟩ := rfl

theorem read_of_remaining (th : reader) (bs rest : List byte)
    (hoff : th.read_offset ≤ th.pbuf.length) (h : th.remaining = bs ++ rest) :
    th.read bs.length = .ok (bs, th.skip bs.length) ∧ (th.skip bs.length).remaining = rest := by
  have hlen := remaining_length th
  rw [h, List.length_append] at hlen
  unfold reader.remaining at h
  refine ⟨?_, ?_⟩
  · unfold reader.read
    rw [read_offset_plus_of_fits th bs.length (by omega), if_neg (by omega), h]
    simp [reader.skip]
  · have : List.drop (th.read_offset + bs.length) th.pbuf
        = List.drop bs.length (List.drop th.read_offset th.pbuf) := by
      rw [List.drop_drop, Nat.add_comm]
    simp only [reader.remaining, reader.skip, this, h]
    simp

/-- The 2-byte form on strings of at most 32767 characters. -/
theorem string2_round_trip (s : List byte) (hs : s.length ≤ 32767) :
    (∀ w : writer, w.failed = false →
      marshallString w s
        = .ok ⟨w.pbuf ++ (toByte (s.length / 256) :: toByte s.length :: s), false⟩) ∧
    (∀ (th : reader) (rest : List byte),
      th.remaining = (toByte (s.length / 256) :: toByte s.length :: s) ++ rest →
      unmarshallString th = .ok (s, th.skip (2 + s.length)) ∧
      (th.skip (2 + s.length)).remaining = rest) := by
  refine ⟨fun w hw => ?_, fun th rest h => ?_⟩
  · unfold marshallString
    have hb : bits32 (int16_of (s.length : Int)) = s.length := by
      unfold bits32 int16_of; omega
    simp only [if_neg (show ¬ s.length > 32767 by omega), marshallShort_bytes _ _ hw,
      write_mk, hb, List.take_length]
    simp
  · obtain ⟨r1, h1⟩ := unmarshallShort_bytes th _ _ (s ++ rest) (by simpa using h)
    have hlen := remaining_length th
    rw [h] at hlen
    obtain ⟨r2, h2⟩ := read_of_remaining _ s rest
      (by simp [reader.skip] at hlen ⊢; omega) h1
    rw [skip_skip] at r2 h2
    refine ⟨?_, h2⟩
    have e : int16_of (((toByte (s.length / 256)).val * 256 + (toByte s.length).val : Nat) : Int)
        = (s.length : Int) := by
      rw [toByte_val, toByte_val]; unfold int16_of; omega
    simp only [unmarshallString, r1, e, bind, Except.bind, pure, Except.pure, Int.toNat_ofNat, r2,
      ge_iff_le, Int.ofNat_zero_le, not_true_eq_false, if_false,
      show ((s.length : Int) ≤ 32767) by omega]

/-- The 4-byte form on strings of at most 2147483647 characters. -/
theorem string4_round_trip (s : List byte) (hs : s.length ≤ 2147483647) :
    (∀ w : writer, w.failed = false →
      marshallString4 w s
        = .ok ⟨w.pbuf ++ (toByte (s.length / 16777216) :: toByte (s.length / 65536)
                :: toByte (s.length / 256) :: toByte s.length :: s), false⟩) ∧
    (∀ (th : reader) (rest : List byte),
      th.remaining = (toByte (s.length / 16777216) :: toByte (s.length / 65536)
                :: toByte (s.length / 256) :: toByte s.length :: s) ++ rest →
      unmarshallString4 th = .ok (s, th.skip (4 + s.length)) ∧
      (th.skip (4 + s.length)).remaining = rest) := by
  refine ⟨fun w hw => ?_, fun th rest h => ?_⟩
  · unfold marshallString4
    have hb : bits32 (int32_of (s.length : Int)) = s.length := by
      unfold bits32 int32_of; omega
    simp only [if_neg (show ¬ s.length > 2147483647 by omega), marshallInt_bytes _ _ hw,
      write_mk, hb, List.take_length]
    simp
  · obtain ⟨r1, h1⟩ := unmarshallInt_bytes th _ _ _ _ (s ++ rest) (by simpa using h)
    have e : int32_of (((toByte (s.length / 16777216)).val * 16777216
        + (toByte (s.length / 65536)).val * 65536
        + (toByte (s.length / 256)).val * 256 + (toByte s.length).val : Nat) : Int)
        = (s.length : Int) := by
      rw [toByte_val, toByte_val, toByte_val, toByte_val]; unfold int32_of; omega
    by_cases h0 : s.length = 0
    · have hnil : s = [] := List.length_eq_zero.mp h0
      subst hnil
      refine ⟨?_, by simpa using h1⟩
      simp only [unmarshallString4, r1, e, bind, Except.bind, pure, Except.pure]
      simp
    · have hlen := remaining_length th
      rw [h] at hlen
      obtain ⟨r2, h2⟩ := read_of_remaining _ s rest
        (by simp [reader.skip] at hlen ⊢; omega) h1
      rw [skip_skip] at r2 h2
      refine ⟨?_, h2⟩
      have hne : ¬ ((s.length : Int) = 0) := by omega
      simp only [unmarshallString4, r1, e, bind, Except.bind, pure, Except.pure, Int.toNat_ofNat,
        r2, ge_iff_le, Int.ofNat_zero_le, not_true_eq_false, if_false, ne_eq, hne,
        not_false_eq_true, if_true]

/-- C3, as amended: for every string `s` of at most 32767 bytes `marshallString`
writes the 2-byte big-endian length and then the bytes of `s`, nothing else, and
`unmarshallString` reads `s` back, consuming exactly those bytes; the same holds
of `marshallString4` / `unmarshallString4` with a 4-byte big-endian length, for
every `s` of at most 2147483647 bytes. -/
theorem string_round_trip :
    (∀ s : List byte, s.length ≤ 32767 →
      codec_pair (toByte (s.length / 256) :: toByte s.length :: s)
        (fun w => marshallString w s) unmarshallString s) ∧
    (∀ s : List byte, s.length ≤ 2147483647 →
      codec_pair (toByte (s.length / 16777216) :: toByte (s.length / 65536)
            :: toByte (s.length / 256) :: toByte s.length :: s)
        (fun w => marshallString4 w s) unmarshallString4 s) := by
  refine ⟨fun s hs => ⟨(string2_round_trip s hs).1, fun th rest h => ?_⟩,
          fun s hs => ⟨(string4_round_trip s hs).1, fun th rest h => ?_⟩⟩
  · have := (string2_round_trip s hs).2 th rest h
    have e : (toByte (s.length / 256) :: toByte s.length :: s).length = 2 + s.length := by
      simp only [List.length_cons]; omega
    rw [e]; exact this
  · have := (string4_round_trip s hs).2 th rest h
    have e : (toByte (s.length / 16777216) :: toByte (s.length / 65536)
        :: toByte (s.length / 256) :: toByte s.length :: s).length = 4 + s.length := by
      simp only [List.length_cons]; omega
    rw [e]; exact this

/-- Witness of C3 at the empty string and at a one-byte string. -/
theorem string_round_trip_witness :
    codec_pair (toByte (([] : List byte).length / 256) :: toByte ([] : List byte).length :: [])
      (fun w => marshallString w []) unmarshallString [] ∧
    codec_pair (toByte ([(7 : byte)].length / 16777216) :: toByte ([(7 : byte)].length / 65536)
          :: toByte ([(7 : byte)].length / 256) :: toByte [(7 : byte)].length :: [7])
      (fun w => marshallString4 w [7]) unmarshallString4 [7] :=
  ⟨string_round_trip.1 [] (by decide), string_round_trip.2 [7] (by decide)⟩

/-- C3, the claim as stated fails: a string of 2147483648 bytes is not round-tripped
by the 4-byte form, `marshallString4` dies on it. -/
theorem string4_rejects_long_string :
    marshallString4 writer.on_empty_buffer (List.replicate 2147483648 (0 : byte))
      = .error (error.die "trying to marshall too long a string") := by
  unfold marshallString4
  simp only [List.length_replicate]
  rfl

/-! ## Fixed-size bit vectors -/

theorem and_shl_one_ne_zero (x j : Nat) : (x &&& (1 <<< j) != 0) = x.testBit j := by
  rw [Nat.one_shiftLeft]
  cases hb : x.testBit j
  · have : x &&& 2 ^ j = 0 := by
      apply Nat.eq_of_testBit_eq
      intro m
      rw [Nat.testBit_and, Nat.testBit_two_pow, Nat.zero_testBit]
      by_cases hm : j = m
      · subst hm; simp [hb]
      · simp [hm]
    simp [this]
  · have : (x &&& 2 ^ j).testBit j = true := by
      rw [Nat.testBit_and, Nat.testBit_two_pow_self, hb]; rfl
    have hne : x &&& 2 ^ j ≠ 0 := by
      intro h0; rw [h0, Nat.zero_testBit] at this; exact Bool.noConfusion this
    simp [hne]

theorem get_of_ge {SIZE : Nat} (arr : FixedBitVector SIZE) (i : Nat) (h : SIZE ≤ i) :
    arr.get i = false := by
  unfold FixedBitVector.get
  rw [dif_neg (by omega)]

theorem get_of_lt {SIZE : Nat} (arr : FixedBitVector SIZE) (k : Fin SIZE) :
    arr.get k.val = arr k := by
  unfold FixedBitVector.get
  rw [dif_pos k.isLt]

/-- What the inner loop of the encoder leaves in `i` and `byte`. -/
theorem marshall_bits_spec {SIZE : Nat} (arr : FixedBitVector SIZE) :
    ∀ (n j i byte : Nat), i ≤ SIZE → j + n ≤ 7 → byte < 2 ^ j →
      (marshall_bits arr j n i byte).1 = min (i + n) SIZE ∧
      (marshall_bits arr j n i byte).2 < 2 ^ (j + n) ∧
      ∀ m, (marshall_bits arr j n i byte).2.testBit m
        = (byte.testBit m || (decide (j ≤ m ∧ m < j + n) && arr.get (i + (m - j)))) := by
  intro n
  induction n with
  | zero =>
    intro j i byte hi _ hb
    refine ⟨by simp [marshall_bits, hi], by simpa [marshall_bits] using hb, fun m => ?_⟩
    have : ¬ (j ≤ m ∧ m < j + 0) := by omega
    simp [marshall_bits, this]
  | succ n ih =>
    intro j i byte hi hj hb
    have hpow : 2 ^ j < 2 ^ (j + 1) := Nat.pow_lt_pow_right (by decide) (by omega)
    have hpow8 : 2 ^ (j + 1) ≤ 2 ^ 7 := Nat.pow_le_pow_right (by decide) (by omega)
    by_cases hlt : i < SIZE
    · by_cases hg : arr.get i = true
      · have hor : byte ||| (1 <<< j) < 2 ^ (j + 1) := by
          rw [Nat.one_shiftLeft]
          exact Nat.or_lt_two_pow (by omega) hpow
        have hmod : (byte ||| (1 <<< j)) % 256 = byte ||| (1 <<< j) :=
          Nat.mod_eq_of_lt (by norm_num at hpow8; omega)
        obtain ⟨h1, h2, h3⟩ := ih (j + 1) (i + 1) (byte ||| (1 <<< j)) (by omega) (by omega) hor
        have e : marshall_bits arr j (n + 1) i byte
            = marshall_bits arr (j + 1) n (i + 1) (byte ||| (1 <<< j)) := by
          rw [marshall_bits, if_pos hlt, if_pos hg, hmod]
        rw [e]
        refine ⟨by rw [h1]; congr 1; omega, by rw [show j + (n + 1) = j + 1 + n by omega]; exact h2,
          fun m => ?_⟩
        rw [h3, Nat.testBit_or, Nat.one_shiftLeft, Nat.testBit_two_pow]
        by_cases hm : j = m
        · subst hm
          have : ¬ (j + 1 ≤ j ∧ j < j + 1 + n) := by omega
          simp [this, hg]
        · by_cases hm2 : j + 1 ≤ m ∧ m < j + 1 + n
          · have hm3 : j ≤ m ∧ m < j + (n + 1) := by omega
            have : i + 1 + (m - (j + 1)) = i + (m - j) := by omega
            simp [hm, hm2, hm3, this]
          · have hm3 : ¬ (j ≤ m ∧ m < j + (n + 1)) := by omega
            simp [hm, hm2, hm3]
      · have hg' : arr.get i = false := by simpa using hg
        obtain ⟨h1, h2, h3⟩ := ih (j + 1) (i + 1) byte (by omega) (by omega) (by omega)
        have e : marshall_bits arr j (n + 1) i byte
            = marshall_bits arr (j + 1) n (i + 1) byte := by
          rw [marshall_bits, if_pos hlt, if_neg hg]
        rw [e]
        refine ⟨by rw [h1]; congr 1; omega, by rw [show j + (n + 1) = j + 1 + n by omega]; exact h2,
          fun m => ?_⟩
        rw [h3]
        by_cases hm : j = m
        · subst hm
          have : ¬ (j + 1 ≤ j ∧ j < j + 1 + n) := by omega
          simp [this, hg']
        · by_cases hm2 : j + 1 ≤ m ∧ m < j + 1 + n
          · have hm3 : j ≤ m ∧ m < j + (n + 1) := by omega
            have : i + 1 + (m - (j + 1)) = i + (m - j) := by omega
            simp [hm2, hm3, this]
          · have hm3 : ¬ (j ≤ m ∧ m < j + (n + 1)) := by omega
            simp [hm2, hm3]
    · obtain ⟨h1, h2, h3⟩ := ih (j + 1) i byte hi (by omega) (by omega)
      have e : marshall_bits arr j (n + 1) i byte = marshall_bits arr (j + 1) n i byte := by
        rw [marshall_bits, if_neg hlt]
      rw [e]
      refine ⟨by rw [h1]; omega, by rw [show j + (n + 1) = j + 1 + n by omega]; exact h2,
        fun m => ?_⟩
      rw [h3, get_of_ge arr _ (show SIZE ≤ i + (m - (j + 1)) by omega),
        get_of_ge arr _ (show SIZE ≤ i + (m - j) by omega)]
      simp

/-- What the inner loop of the decoder leaves in `i` and `arr`. -/
theorem unmarshall_bits_spec {SIZE : Nat} (byte : Nat) :
    ∀ (n j i : Nat) (arr : FixedBitVector SIZE), i ≤ SIZE →
      (unmarshall_bits byte j n i arr).1 = min (i + n) SIZE ∧
      ∀ k : Fin SIZE, (unmarshall_bits byte j n i arr).2 k
        = if i ≤ k.val ∧ k.val < i + n then byte.testBit (j + (k.val - i)) else arr k := by
  intro n
  induction n with
  | zero =>
    intro j i arr hi
    refine ⟨by simp [unmarshall_bits, hi], fun k => ?_⟩
    have : ¬ (i ≤ k.val ∧ k.val < i + 0) := by omega
    rw [if_neg this]; rfl
  | succ n ih =>
    intro j i arr hi
    by_cases hlt : i < SIZE
    · obtain ⟨h1, h2⟩ := ih (j + 1) (i + 1) (arr.set i (byte &&& (1 <<< j) != 0)) (by omega)
      have e : unmarshall_bits byte j (n + 1) i arr
          = unmarshall_bits byte (j + 1) n (i + 1) (arr.set i (byte &&& (1 <<< j) != 0)) := by
        rw [unmarshall_bits, if_pos hlt]
      rw [e]
      refine ⟨by rw [h1]; congr 1; omega, fun k => ?_⟩
      rw [h2, and_shl_one_ne_zero]
      by_cases hk : k.val = i
      · have a1 : ¬ (i + 1 ≤ k.val ∧ k.val < i + 1 + n) := by omega
        have a2 : i ≤ k.val ∧ k.val < i + (n + 1) := by omega
        rw [if_neg a1, if_pos a2]
        simp [FixedBitVector.set, hk]
      · by_cases hk2 : i + 1 ≤ k.val ∧ k.val < i + 1 + n
        · have a2 : i ≤ k.val ∧ k.val < i + (n + 1) := by omega
          rw [if_pos hk2, if_pos a2]
          congr 1; omega
        · have a2 : ¬ (i ≤ k.val ∧ k.val < i + (n + 1)) := by omega
          rw [if_neg hk2, if_neg a2]
          simp [FixedBitVector.set, hk]
    · obtain ⟨h1, h2⟩ := ih (j + 1) i arr hi
      have e : unmarshall_bits byte j (n + 1) i arr = unmarshall_bits byte (j + 1) n i arr := by
        rw [unmarshall_bits, if_neg hlt]
      rw [e]
      refine ⟨by rw [h1]; omega, fun k => ?_⟩
      have a1 : ¬ (i ≤ k.val ∧ k.val < i + n) := by have := k.isLt; omega
      have a2 : ¬ (i ≤ k.val ∧ k.val < i + (n + 1)) := by have := k.isLt; omega
      rw [h2, if_neg a1, if_neg a2]

theorem marshallUByte_ok (w : writer) (x : Nat) (h : w.failed = false) :
    marshallUByte w x = ⟨w.pbuf ++ [toByte x], false⟩ := by
  unfold marshallUByte; exact writeByte_ok _ _ h

theorem unmarshallUByte_of_remaining (th : reader) (b : byte) (rest : List byte)
    (h : th.remaining = b :: rest) :
    unmarshallUByte th = .ok (b.val, th.skip 1) ∧ (th.skip 1).remaining = rest := by
  obtain ⟨r1, h1⟩ := readByte_of_remaining th _ _ h
  refine ⟨?_, h1⟩
  simp only [unmarshallUByte, r1, bind, Except.bind, pure, Except.pure]

/-- The encoder loop appends to the buffer and nothing else. -/
theorem marshallFixedBitVector_loop_appends {SIZE : Nat} (arr : FixedBitVector SIZE)
    (lb : Int) : ∀ (fuel : Nat) (w : writer) (i : Nat), w.failed = false →
      marshallFixedBitVector_loop arr lb fuel w i
        = ⟨w.pbuf ++ output (fun t => marshallFixedBitVector_loop arr lb fuel t i), false⟩ := by
  intro fuel
  induction fuel with
  | zero =>
    intro w i hw
    cases w
    simp_all [output, marshallFixedBitVector_loop, writer.on_empty_buffer]
  | succ f ih =>
    intro w i hw
    simp only [output, marshallFixedBitVector_loop]
    by_cases hc : ((marshall_bits arr 0 7 i 0).1 : Int) ≤ lb
    · rw [if_pos hc, if_pos hc, marshallUByte_ok _ _ hw, marshallUByte_ok _ _ rfl,
        ih _ _ rfl, ih ⟨_, false⟩ _ rfl]
      simp [writer.on_empty_buffer]
    · rw [if_neg hc, if_neg hc, marshallUByte_ok _ _ hw, marshallUByte_ok _ _ rfl]
      simp [writer.on_empty_buffer]

/-- The bytes of one more iteration of the encoder loop. -/
theorem output_marshallFixedBitVector_loop {SIZE : Nat} (arr : FixedBitVector SIZE)
    (lb : Int) (fuel i : Nat) :
    output (fun t => marshallFixedBitVector_loop arr lb (fuel + 1) t i)
      = if ((marshall_bits arr 0 7 i 0).1 : Int) ≤ lb then
          toByte (marshall_bits arr 0 7 i 0).2
            :: output (fun t => marshallFixedBitVector_loop arr lb fuel t
                (marshall_bits arr 0 7 i 0).1)
        else [toByte ((marshall_bits arr 0 7 i 0).2 ||| 0x80)] := by
  conv_lhs => simp only [output, marshallFixedBitVector_loop]
  by_cases hc : ((marshall_bits arr 0 7 i 0).1 : Int) ≤ lb
  · rw [if_pos hc, if_pos hc, marshallUByte_ok _ _ rfl,
      marshallFixedBitVector_loop_appends arr lb _ ⟨_, false⟩ _ rfl]
    simp [writer.on_empty_buffer]
  · rw [if_neg hc, if_neg hc, marshallUByte_ok _ _ rfl]
    simp [writer.on_empty_buffer]

theorem testBit_or_80 (x m : Nat) (hm : m < 7) : (x ||| 0x80).testBit m = x.testBit m := by
  rw [Nat.testBit_or, show (0x80 : Nat) = 2 ^ 7 by rfl, Nat.testBit_two_pow]
  have : ¬ (7 = m) := by omega
  simp [this]

/-- The decoder loop undoes the encoder loop, both started at bit `i` with the
bits below `i` already transferred. -/
theorem fixedBitVector_loops {SIZE : Nat} (arr : FixedBitVector SIZE) (lb : Int)
    (hlb : lb < SIZE) (hzero : ∀ k : Fin SIZE, lb < k.val → arr k = false) :
    ∀ (fuelE i fuelD : Nat) (th : reader) (rest : List byte) (acc : FixedBitVector SIZE),
      i ≤ SIZE → SIZE - i < fuelE →
      (∀ k : Fin SIZE, acc k = if k.val < i then arr k else false) →
      th.remaining = output (fun t => marshallFixedBitVector_loop arr lb fuelE t i) ++ rest →
      (output (fun t => marshallFixedBitVector_loop arr lb fuelE t i)).length ≤ fuelD →
      unmarshallFixedBitVector_loop fuelD th i acc
        = .ok (arr, th.skip
            (output (fun t => marshallFixedBitVector_loop arr lb fuelE t i)).length) ∧
      (th.skip (output (fun t => marshallFixedBitVector_loop arr lb fuelE t i)).length).remaining
        = rest := by
  intro fuelE
  induction fuelE with
  | zero => intro i fuelD th rest acc _ hf; omega
  | succ f ih =>
    intro i fuelD th rest acc hi hf hacc hrem hfuel
    rw [output_marshallFixedBitVector_loop] at hrem hfuel ⊢
    obtain ⟨e1, e2, e3⟩ := marshall_bits_spec arr 7 0 i 0 hi (by omega) (by decide)
    have hbit : ∀ m, m < 7 → (marshall_bits arr 0 7 i 0).2.testBit m = arr.get (i + m) := by
      intro m hm
      rw [e3, Nat.zero_testBit]
      have : (0 ≤ m ∧ m < 0 + 7) := by omega
      simp [this]
    have hlt128 : (marshall_bits arr 0 7 i 0).2 < 128 := by simpa using e2
    by_cases hc : ((marshall_bits arr 0 7 i 0).1 : Int) ≤ lb
    · rw [if_pos hc] at hrem hfuel ⊢
      obtain ⟨fuelD, rfl⟩ : ∃ g, fuelD = g + 1 := ⟨fuelD - 1, by simp at hfuel; omega⟩
      obtain ⟨r1, h1⟩ := unmarshallUByte_of_remaining th _ _ hrem
      have hbv : (toByte (marshall_bits arr 0 7 i 0).2).val = (marshall_bits arr 0 7 i 0).2 := by
        rw [toByte_val]; omega
      obtain ⟨d1, d2⟩ := unmarshall_bits_spec (marshall_bits arr 0 7 i 0).2 7 0 i acc hi
      have hcont : (marshall_bits arr 0 7 i 0).2 &&& 0x80 = 0 := by
        have := (byte_and_80 (toByte (marshall_bits arr 0 7 i 0).2))
        rw [hbv] at this
        exact this.mpr hlt128
      have hi7 : (marshall_bits arr 0 7 i 0).1 = i + 7 := by rw [e1]; omega
      have hacc' : ∀ k : Fin SIZE,
          (unmarshall_bits (marshall_bits arr 0 7 i 0).2 0 7 i acc).2 k
            = if k.val < (marshall_bits arr 0 7 i 0).1 then arr k else false := by
        intro k
        rw [d2, hi7]
        by_cases hk : i ≤ k.val ∧ k.val < i + 7
        · rw [if_pos hk, if_pos hk.2, Nat.zero_add, hbit _ (by omega),
            show i + (k.val - i) = k.val by omega, get_of_lt]
        · rw [if_neg hk, hacc]
          by_cases hk2 : k.val < i
          · rw [if_pos hk2, if_pos (by omega)]
          · rw [if_neg hk2, if_neg (by omega)]
      obtain ⟨r2, h2⟩ := ih (marshall_bits arr 0 7 i 0).1 fuelD (th.skip 1) rest
        (unmarshall_bits (marshall_bits arr 0 7 i 0).2 0 7 i acc).2
        (by omega) (by omega) hacc' h1 (by simpa using hfuel)
      rw [skip_skip] at r2 h2
      have hlen : (toByte (marshall_bits arr 0 7 i 0).2
          :: output (fun t => marshallFixedBitVector_loop arr lb f t
              (marshall_bits arr 0 7 i 0).1)).length
          = 1 + (output (fun t => marshallFixedBitVector_loop arr lb f t
              (marshall_bits arr 0 7 i 0).1)).length := by
        simp [Nat.add_comm]
      rw [hlen]
      refine ⟨?_, h2⟩
      rw [unmarshallFixedBitVector_loop]
      simp only [r1, bind, Except.bind, hbv, hcont, ne_eq, not_true_eq_false, if_false]
      rw [d1, ← e1]
      exact r2
    · rw [if_neg hc] at hrem hfuel ⊢
      obtain ⟨fuelD, rfl⟩ : ∃ g, fuelD = g + 1 := ⟨fuelD - 1, by simp at hfuel; omega⟩
      obtain ⟨r1, h1⟩ := unmarshallUByte_of_remaining th _ _ hrem
      have hbv : (toByte ((marshall_bits arr 0 7 i 0).2 ||| 0x80)).val
          = (marshall_bits arr 0 7 i 0).2 ||| 0x80 := by
        rw [toByte_val, or_80 _ hlt128]; omega
      obtain ⟨d1, d2⟩ :=
        unmarshall_bits_spec ((marshall_bits arr 0 7 i 0).2 ||| 0x80) 7 0 i acc hi
      have hstop : ¬ (((marshall_bits arr 0 7 i 0).2 ||| 0x80) &&& 0x80 = 0) := by
        have := (byte_and_80 (toByte ((marshall_bits arr 0 7 i 0).2 ||| 0x80)))
        rw [hbv] at this
        rw [this, or_80 _ hlt128]; omega
      have hres : (unmarshall_bits ((marshall_bits arr 0 7 i 0).2 ||| 0x80) 0 7 i acc).2 = arr := by
        funext k
        rw [d2]
        by_cases hk : i ≤ k.val ∧ k.val < i + 7
        · rw [if_pos hk, Nat.zero_add, testBit_or_80 _ _ (by omega), hbit _ (by omega),
            show i + (k.val - i) = k.val by omega, get_of_lt]
        · rw [if_neg hk, hacc]
          by_cases hk2 : k.val < i
          · rw [if_pos hk2]
          · rw [if_neg hk2]
            symm
            apply hzero
            have := k.isLt
            have h17 : (marshall_bits arr 0 7 i 0).1 = i + 7 := by rw [e1]; omega
            omega
      refine ⟨?_, h1⟩
      rw [unmarshallFixedBitVector_loop]
      simp only [r1, bind, Except.bind, hbv, hstop, ne_eq, not_false_eq_true, if_true, hres,
        pure, Except.pure, List.length_singleton]

theorem last_bit_scan_le {SIZE : Nat} (arr : FixedBitVector SIZE) :
    ∀ k, last_bit_scan arr k ≤ k ∧
      ∀ m, last_bit_scan arr k < m → m ≤ k → arr.get m = false := by
  intro k
  induction k with
  | zero => exact ⟨by simp [last_bit_scan], fun m h1 h2 => by simp [last_bit_scan] at h1; omega⟩
  | succ k ih =>
    by_cases hg : arr.get (k + 1) = true
    · have e : last_bit_scan arr (k + 1) = k + 1 := by rw [last_bit_scan, if_pos hg]
      rw [e]
      exact ⟨Nat.le_refl _, fun m h1 h2 => by omega⟩
    · have e : last_bit_scan arr (k + 1) = last_bit_scan arr k := by rw [last_bit_scan, if_neg hg]
      rw [e]
      refine ⟨by have := ih.1; omega, fun m h1 h2 => ?_⟩
      by_cases hm : m = k + 1
      · subst hm; simpa using hg
      · exact ih.2 m h1 (by omega)

theorem last_bit_of_spec {SIZE : Nat} (arr : FixedBitVector SIZE) :
    last_bit_of arr < SIZE ∧ ∀ k : Fin SIZE, last_bit_of arr < k.val → arr k = false := by
  unfold last_bit_of
  by_cases h : (SIZE : Int) - 1 > 0
  · rw [if_pos h]
    obtain ⟨h1, h2⟩ := last_bit_scan_le arr (SIZE - 1)
    refine ⟨by omega, fun k hk => ?_⟩
    rw [← get_of_lt arr k]
    exact h2 k.val (by omega) (by have := k.isLt; omega)
  · rw [if_neg h]
    refine ⟨by omega, fun k hk => ?_⟩
    have := k.isLt
    omega

theorem round_trips_fixedBitVector (SIZE : Nat) (arr : FixedBitVector SIZE) :
    round_trips (marshallFixedBitVector SIZE) (unmarshallFixedBitVector SIZE) arr := by
  obtain ⟨hlb, hzero⟩ := last_bit_of_spec arr
  refine ⟨fun w hw => marshallFixedBitVector_loop_appends arr _ _ w 0 hw, fun th rest h => ?_⟩
  have hlen := remaining_length th
  rw [h, List.length_append] at hlen
  have := fixedBitVector_loops arr (last_bit_of arr) hlb hzero (SIZE + 1) 0
    (th.pbuf.length - th.read_offset + 1) th rest (FixedBitVector.reset SIZE)
    (by omega) (by omega) (fun k => by simp [FixedBitVector.reset]) h
    (by simp only [marshallFixedBitVector] at hlen; omega)
  exact this

/-- C5: for every `SIZE` (so for every `SIZE ≥ 1`) and every vector of `SIZE`
bits, all-zero and all-one included, `unmarshallFixedBitVector<SIZE>` on the
output of `marshallFixedBitVector<SIZE>` yields the same vector, bit for bit,
and consumes exactly the bytes written. -/
theorem fixedBitVector_round_trip (SIZE : Nat) (arr : FixedBitVector SIZE) :
    round_trips (marshallFixedBitVector SIZE) (unmarshallFixedBitVector SIZE) arr :=
  round_trips_fixedBitVector SIZE arr

/-! ## Run-length coded grids -/

/-- The double loop of the encoder is one loop over the scan positions. -/
theorem _run_length_encode_eq_tail (th : writer) (m : writer → Int → writer) (g : grid)
    (width height : Nat) (hw : 0 < width) :
    _run_length_encode th m g width height
      = rle_tail m (fun idx => g (idx % width) (idx / width)) 0 (width * height) (th, 0, 0) := by
  unfold _run_length_encode rle_tail rle_finish
  have key : ∀ h (st : writer × Int × Nat),
      (List.range h).foldl
        (fun st y => (List.range width).foldl
          (fun st x => _run_length_encode_cell m st (g x y)) st) st
      = (List.range' 0 (width * h)).foldl
        (fun st idx => _run_length_encode_cell m st (g (idx % width) (idx / width))) st := by
    intro h
    induction h with
    | zero => intro st; simp
    | succ h ih =>
      intro st
      rw [List.range_succ, List.foldl_append, ih, Nat.mul_succ,
        Nat.add_comm (width * h) width,
        ← List.range'_append_1 0 (width * h) width, List.foldl_append]
      simp only [List.foldl_cons, List.foldl_nil, Nat.zero_add]
      generalize List.foldl _ st (List.range' 0 (width * h)) = st'
      rw [List.range'_eq_map_range, List.foldl_map]
      apply List.foldl_ext
      intro a x hx
      have hx' : x < width := List.mem_range.mp hx
      have e1 : (width * h + x) % width = x := by
        rw [Nat.add_comm, Nat.add_mul_mod_self_left, Nat.mod_eq_of_lt hx']
      have e2 : (width * h + x) / width = h := by
        rw [Nat.add_comm, Nat.add_mul_div_left _ _ hw, Nat.div_eq_of_lt hx', Nat.zero_add]
      rw [e1, e2]
  rw [key]

theorem marshallByte_ok (w : writer) (x : Int) (h : w.failed = false) :
    marshallByte w x = ⟨w.pbuf ++ [toByte (bits8 x)], false⟩ := by
  unfold marshallByte; exact writeByte_ok _ _ h

theorem rle_tail_zero (m : writer → Int → writer) (val : Nat → Int) (p : Nat)
    (st : writer × Int × Nat) :
    rle_tail m val p 0 st = m (marshallByte st.1 st.2.2) st.2.1 := rfl

theorem rle_tail_succ (m : writer → Int → writer) (val : Nat → Int) (p n : Nat)
    (w : writer) (last : Int) (nlast : Nat) (hn : 1 ≤ nlast) :
    rle_tail m val p (n + 1) (w, last, nlast)
      = if last = val p ∧ nlast < 255 then rle_tail m val (p + 1) n (w, last, nlast + 1)
        else rle_tail m val (p + 1) n (m (marshallByte w nlast) last, val p, 1) := by
  unfold rle_tail
  rw [List.range'_succ, List.foldl_cons]
  have h0 : ¬ nlast = 0 := by omega
  by_cases hc : last = val p ∧ nlast < 255
  · rw [if_pos hc]
    simp only [_run_length_encode_cell, h0, if_false, hc, and_self, if_true]
  · rw [if_neg hc]
    simp only [_run_length_encode_cell, h0, if_false, hc, if_false]

theorem rle_tail_first (m : writer → Int → writer) (val : Nat → Int) (n : Nat) (w : writer) :
    rle_tail m val 0 (n + 1) (w, 0, 0) = rle_tail m val 1 n (w, val 0, 1) := by
  unfold rle_tail
  rw [List.range'_succ, List.foldl_cons]
  simp [_run_length_encode_cell]

/-- The encoder appends to the buffer and nothing else. -/
theorem rle_tail_appends (m : writer → Int → writer) (val : Nat → Int) :
    ∀ (n p : Nat) (w : writer) (last : Int) (nlast : Nat), 1 ≤ nlast →
      w.failed = false → appends m last →
      (∀ idx, p ≤ idx → idx < p + n → appends m (val idx)) →
      rle_tail m val p n (w, last, nlast)
        = ⟨w.pbuf ++ output (fun t => rle_tail m val p n (t, last, nlast)), false⟩ := by
  intro n
  induction n with
  | zero =>
    intro p w last nlast _ hw hl _
    simp only [output, rle_tail_zero]
    rw [marshallByte_ok _ _ hw, hl _ rfl, marshallByte_ok _ _ rfl, hl ⟨_, false⟩ rfl]
    simp [writer.on_empty_buffer]
  | succ n ih =>
    intro p w last nlast hn hw hl hv
    simp only [output, rle_tail_succ _ _ _ _ _ _ _ hn]
    by_cases hc : last = val p ∧ nlast < 255
    · rw [if_pos hc, if_pos hc]
      have := ih (p + 1) w last (nlast + 1) (by omega) hw hl (fun idx h1 h2 => hv idx (by omega) (by omega))
      rw [this]; rfl
    · rw [if_neg hc, if_neg hc]
      have hp := hv p (Nat.le_refl _) (by omega)
      have hrest : ∀ idx, p + 1 ≤ idx → idx < p + 1 + n → appends m (val idx) :=
        fun idx h1 h2 => hv idx (by omega) (by omega)
      rw [marshallByte_ok _ _ hw, hl _ rfl, marshallByte_ok _ _ rfl, hl ⟨_, false⟩ rfl,
        ih (p + 1) _ (val p) 1 (Nat.le_refl _) rfl hp hrest,
        ih (p + 1) ⟨_, false⟩ (val p) 1 (Nat.le_refl _) rfl hp hrest]
      simp [writer.on_empty_buffer]

theorem output_rle_tail_zero (m : writer → Int → writer) (val : Nat → Int) (p : Nat)
    (last : Int) (nlast : Nat) (hl : appends m last) :
    output (fun t => rle_tail m val p 0 (t, last, nlast))
      = toByte (bits8 nlast) :: output (fun t => m t last) := by
  conv_lhs => simp only [output, rle_tail_zero]
  rw [marshallByte_ok _ _ rfl, hl ⟨_, false⟩ rfl]
  simp [writer.on_empty_buffer]

theorem output_rle_tail_succ (m : writer → Int → writer) (val : Nat → Int) (p n : Nat)
    (last : Int) (nlast : Nat) (hn : 1 ≤ nlast) (hl : appends m last)
    (hv : ∀ idx, p ≤ idx → idx < p + (n + 1) → appends m (val idx)) :
    output (fun t => rle_tail m val p (n + 1) (t, last, nlast))
      = if last = val p ∧ nlast < 255 then
          output (fun t => rle_tail m val (p + 1) n (t, last, nlast + 1))
        else toByte (bits8 nlast) :: (output (fun t => m t last)
          ++ output (fun t => rle_tail m val (p + 1) n (t, val p, 1))) := by
  conv_lhs => simp only [output, rle_tail_succ _ _ _ _ _ _ _ hn]
  by_cases hc : last = val p ∧ nlast < 255
  · rw [if_pos hc, if_pos hc]; rfl
  · rw [if_neg hc, if_neg hc, marshallByte_ok _ _ rfl, hl ⟨_, false⟩ rfl,
      rle_tail_appends m val n (p + 1) ⟨_, false⟩ (val p) 1 (Nat.le_refl _) rfl
        (hv p (Nat.le_refl _) (by omega)) (fun idx h1 h2 => hv idx (by omega) (by omega))]
    simp [writer.on_empty_buffer]

theorem toByte_bits8_val (n : Nat) (h : n ≤ 255) : (toByte (bits8 (n : Int))).val = n := by
  rw [toByte_val]; unfold bits8; omega

theorem scan_position_lt (width height x y : Nat) (hx : x < width) :
    y * width + x < width * height ↔ y < height := by
  constructor
  · intro h
    by_contra hc
    have : height * width ≤ y * width := Nat.mul_le_mul_right _ (by omega)
    rw [Nat.mul_comm width height] at h
    omega
  · intro h
    have : (y + 1) * width ≤ height * width := Nat.mul_le_mul_right _ (by omega)
    rw [Nat.mul_comm width height]
    rw [Nat.add_mul] at this
    omega

theorem appends_of_round_trips {α : Type} {m : writer → α → writer}
    {um : reader → Except error (α × reader)} {x : α} (h : round_trips m um x) :
    appends m x := h.1

/-- Writing the elements one after the other appends their encodings in order. -/
theorem foldl_appends {α : Type} (m : writer → α → writer) :
    ∀ (xs : List α) (w : writer), w.failed = false → (∀ x ∈ xs, appends m x) →
      xs.foldl m w = ⟨w.pbuf ++ xs.flatMap (fun x => output (fun t => m t x)), false⟩ := by
  intro xs
  induction xs with
  | nil => intro w hw _; cases w; simp_all
  | cons x xs ih =>
    intro w hw h
    rw [List.foldl_cons, h x (List.mem_cons_self _ _) w hw,
      ih _ rfl (fun y hy => h y (List.mem_cons_of_mem _ hy))]
    simp

theorem bits32_int32_of (n : Nat) : bits32 (int32_of (n : Int)) = n % 4294967296 := by
  unfold bits32 int32_of; omega

/-- The four bytes of the 32-bit count `c`, most significant first. -/
theorem marshallInt_count (w : writer) (n : Nat) (h : w.failed = false) :
    marshallInt w (int32_of n)
      = ⟨w.pbuf ++ [toByte (n % 4294967296 / 16777216), toByte (n % 4294967296 / 65536),
                    toByte (n % 4294967296 / 256), toByte (n % 4294967296)], false⟩ := by
  rw [marshallInt_bytes _ _ h, bits32_int32_of]

/-- The value `unmarshallInt` reads back from the four bytes of a count. -/
theorem unmarshallInt_count (th : reader) (n : Nat) (rest : List byte)
    (h : th.remaining = toByte (n % 4294967296 / 16777216) :: toByte (n % 4294967296 / 65536)
          :: toByte (n % 4294967296 / 256) :: toByte (n % 4294967296) :: rest) :
    unmarshallInt th = .ok (int32_of ((n % 4294967296 : Nat) : Int), th.skip 4) ∧
    (th.skip 4).remaining = rest := by
  obtain ⟨r, hr⟩ := unmarshallInt_bytes th _ _ _ _ rest h
  refine ⟨?_, hr⟩
  rw [r]
  have e : (toByte (n % 4294967296 / 16777216)).val * 16777216
      + (toByte (n % 4294967296 / 65536)).val * 65536
      + (toByte (n % 4294967296 / 256)).val * 256 + (toByte (n % 4294967296)).val
      = n % 4294967296 := by
    rw [toByte_val, toByte_val, toByte_val, toByte_val]; omega
  rw [e]

/-- The wire form of `marshall_iterator`: the count, then the elements. -/
theorem marshall_iterator_bytes {α : Type} (m : writer → α → writer) (xs : List α)
    (hm : ∀ x ∈ xs, appends m x) (w : writer) (hw : w.failed = false) :
    marshall_iterator w xs m
      = ⟨w.pbuf ++ (toByte (xs.length % 4294967296 / 16777216)
            :: toByte (xs.length % 4294967296 / 65536)
            :: toByte (xs.length % 4294967296 / 256) :: toByte (xs.length % 4294967296)
            :: xs.flatMap (fun x => output (fun t => m t x))), false⟩ := by
  unfold marshall_iterator
  simp only
  rw [marshallInt_count _ _ hw, foldl_appends m xs _ rfl hm]
  simp

/-- The loop of `unmarshall_vector` reads back the elements written in a row. -/
theorem unmarshall_vector_loop_spec {α : Type} (m : writer → α → writer)
    (um : reader → Except error (α × reader)) :
    ∀ (xs vec : List α) (th : reader) (rest : List byte),
      (∀ x ∈ xs, round_trips m um x) →
      th.remaining = xs.flatMap (fun x => output (fun t => m t x)) ++ rest →
      unmarshall_vector_loop um xs.length th vec
        = .ok (vec ++ xs, th.skip (xs.flatMap (fun x => output (fun t => m t x))).length) ∧
      (th.skip (xs.flatMap (fun x => output (fun t => m t x))).length).remaining = rest := by
  intro xs
  induction xs with
  | nil =>
    intro vec th rest _ h
    have e : th.skip 0 = th := rfl
    simp only [List.flatMap_nil, List.length_nil, List.append_nil, e]
    exact ⟨rfl, by simpa using h⟩
  | cons x xs ih =>
    intro vec th rest hrt h
    rw [List.flatMap_cons, List.append_assoc] at h
    obtain ⟨r1, h1⟩ := (hrt x (List.mem_cons_self _ _)).2 th _ h
    obtain ⟨r2, h2⟩ := ih (vec ++ [x]) _ rest (fun y hy => hrt y (List.mem_cons_of_mem _ hy)) h1
    rw [skip_skip] at r2 h2
    rw [List.flatMap_cons, List.length_append]
    refine ⟨?_, h2⟩
    rw [List.length_cons, unmarshall_vector_loop]
    simp only [r1, bind, Except.bind, r2]
    simp

/-- What `unmarshall_vector` does with the count `marshall_iterator` wrote. -/
theorem unmarshall_vector_count {α : Type} (m : writer → α → writer)
    (um : reader → Except error (α × reader)) (xs : List α) (hm : ∀ x ∈ xs, appends m x)
    (th : reader) (rest : List byte)
    (h : th.remaining = output (fun t => marshall_iterator t xs m) ++ rest) :
    unmarshall_vector th um
      = unmarshall_vector_loop um (int32_of ((xs.length % 4294967296 : Nat) : Int)).toNat
          (th.skip 4) [] ∧
    (th.skip 4).remaining = xs.flatMap (fun x => output (fun t => m t x)) ++ rest := by
  have hout : output (fun t => marshall_iterator t xs m)
      = toByte (xs.length % 4294967296 / 16777216) :: toByte (xs.length % 4294967296 / 65536)
          :: toByte (xs.length % 4294967296 / 256) :: toByte (xs.length % 4294967296)
          :: xs.flatMap (fun x => output (fun t => m t x)) := by
    show (marshall_iterator writer.on_empty_buffer xs m).pbuf = _
    rw [marshall_iterator_bytes m xs hm writer.on_empty_buffer rfl]
    rfl
  rw [hout] at h
  obtain ⟨r, hr⟩ := unmarshallInt_count th xs.length _ (by simpa using h)
  refine ⟨?_, hr⟩
  simp only [unmarshall_vector, r, bind, Except.bind]

/-- C7, as amended: for every sequence of at most 2147483647 elements and every
per-element pair `m` / `um` that round-trips each of them, `marshall_iterator`
writes the 4-byte big-endian element count followed by the elements in order,
and `unmarshall_vector` on that output returns the same elements in the same
order, consuming exactly those bytes. -/
theorem vector_round_trip {α : Type} (m : writer → α → writer)
    (um : reader → Except error (α × reader)) (xs : List α)
    (hlen : xs.length ≤ 2147483647) (hrt : ∀ x ∈ xs, round_trips m um x) :
    (∀ w : writer, w.failed = false →
      marshall_iterator w xs m
        = ⟨w.pbuf ++ (toByte (xs.length / 16777216) :: toByte (xs.length / 65536)
              :: toByte (xs.length / 256) :: toByte xs.length
              :: xs.flatMap (fun x => output (fun t => m t x))), false⟩) ∧
    ∀ (th : reader) (rest : List byte),
      th.remaining = output (fun t => marshall_iterator t xs m) ++ rest →
      unmarshall_vector th um
        = .ok (xs, th.skip (output (fun t => marshall_iterator t xs m)).length) ∧
      (th.skip (output (fun t => marshall_iterator t xs m)).length).remaining = rest := by
  have hm : ∀ x ∈ xs, appends m x := fun x hx => (hrt x hx).1
  have hmod : xs.length % 4294967296 = xs.length := Nat.mod_eq_of_lt (by omega)
  have hbytes := marshall_iterator_bytes m xs hm
  rw [hmod] at hbytes
  refine ⟨hbytes, fun th rest h => ?_⟩
  obtain ⟨c1, c2⟩ := unmarshall_vector_count m um xs hm th rest h
  obtain ⟨l1, l2⟩ := unmarshall_vector_loop_spec m um xs [] _ rest hrt c2
  rw [skip_skip] at l1 l2
  have hcount : (int32_of ((xs.length % 4294967296 : Nat) : Int)).toNat = xs.length := by
    rw [hmod]; unfold int32_of; omega
  have hlen' : (output (fun t => marshall_iterator t xs m)).length
      = 4 + (xs.flatMap (fun x => output (fun t => m t x))).length := by
    show (marshall_iterator writer.on_empty_buffer xs m).pbuf.length = _
    rw [hbytes writer.on_empty_buffer rfl]
    simp only [writer.on_empty_buffer, List.nil_append, List.length_cons]
    omega
  rw [hlen', c1, hcount]
  exact ⟨by simpa using l1, l2⟩

/-- Witness of C7 on three `int8_t` elements followed by one more byte. -/
theorem vector_round_trip_witness :
    unmarshall_vector
        ⟨output (fun t => marshall_iterator t [-128, 0, 127] marshallByte) ++ [9], 0, 0,
          false, false⟩ unmarshallByte
      = .ok ([-128, 0, 127],
          (reader.mk (output (fun t => marshall_iterator t [-128, 0, 127] marshallByte) ++ [9])
            0 0 false false).skip
            (output (fun t => marshall_iterator t [-128, 0, 127] marshallByte)).length) ∧
    ((reader.mk (output (fun t => marshall_iterator t [-128, 0, 127] marshallByte) ++ [9])
        0 0 false false).skip
        (output (fun t => marshall_iterator t [-128, 0, 127] marshallByte)).length).remaining
      = [9] :=
  (vector_round_trip marshallByte unmarshallByte [-128, 0, 127] (by decide)
    (fun x hx => round_trips_byte x
      (by simp only [List.mem_cons, List.mem_singleton, List.not_mem_nil, or_false] at hx
          omega)
      (by simp only [List.mem_cons, List.mem_singleton, List.not_mem_nil, or_false] at hx
          omega))).2
    ⟨output (fun t => marshall_iterator t [-128, 0, 127] marshallByte) ++ [9], 0, 0,
      false, false⟩ [9] rfl

theorem appends_replicate {α : Type} (m : writer → α → writer) (n : Nat) (a : α)
    (h : appends m a) : ∀ x ∈ List.replicate n a, appends m x := by
  intro x hx
  rw [List.eq_of_mem_replicate hx]
  exact h

theorem remaining_at_start (buf : List byte) (mv : Int) (sr ns : Bool) :
    (reader.mk buf 0 mv sr ns).remaining = buf ++ [] := by
  simp [reader.remaining]

/-- A count of 2147483648 is read back as a negative `int`: the loop of
`unmarshall_vector` does not run. -/
theorem unmarshall_vector_of_2147483648 {α : Type} (m : writer → α → writer)
    (um : reader → Except error (α × reader)) (xs : List α) (hm : ∀ x ∈ xs, appends m x)
    (hlen : xs.length = 2147483648) (th : reader) (rest : List byte)
    (h : th.remaining = output (fun t => marshall_iterator t xs m) ++ rest) :
    unmarshall_vector th um = .ok ([], th.skip 4) := by
  obtain ⟨c1, _⟩ := unmarshall_vector_count m um xs hm th rest h
  rw [c1, hlen]
  have e : (int32_of ((2147483648 % 4294967296 : Nat) : Int)).toNat = 0 := by decide
  rw [e]
  rfl

/-- C7, the claim as stated fails: a sequence of 2147483648 elements, each of
which `marshallByte` / `unmarshallByte` round-trips, comes back from
`unmarshall_vector` as the empty vector, only the four count bytes consumed. -/
theorem vector_of_2147483648_elements_is_lost :
    (List.replicate 2147483648 (0 : Int)).length = 2147483648 ∧
    unmarshall_vector
        ⟨output (fun t => marshall_iterator t (List.replicate 2147483648 (0 : Int)) marshallByte),
          0, 0, false, false⟩ unmarshallByte
      = .ok ([], (reader.mk (output (fun t =>
          marshall_iterator t (List.replicate 2147483648 (0 : Int)) marshallByte))
          0 0 false false).skip 4) :=
  ⟨List.length_replicate _ _,
   unmarshall_vector_of_2147483648 marshallByte unmarshallByte
    (List.replicate 2147483648 (0 : Int))
    (appends_replicate marshallByte 2147483648 0 (round_trips_byte 0 (by decide) (by decide)).1)
    (List.length_replicate _ _) _ [] (remaining_at_start _ 0 false false)⟩

/-! ## Maps -/

/-- Inserting a pair whose key is above every key of the map puts it last. -/
theorem map_insert_last {K V : Type} [LinearOrder K] :
    ∀ (d : List (K × V)) (p : K × V), (∀ q ∈ d, q.1 < p.1) → map_insert d p = d ++ [p] := by
  intro d
  induction d with
  | nil => intro p _; rfl
  | cons q d ih =>
    intro p h
    have hq : q.1 < p.1 := h q (List.mem_cons_self _ _)
    rw [map_insert, if_neg (not_lt_of_lt hq), if_neg (ne_of_gt hq),
      ih p (fun r hr => h r (List.mem_cons_of_mem _ hr))]
    rfl

/-- `marshallMap` is `marshall_iterator` over the entries, key then value. -/
theorem marshallMap_eq_iterator {K V : Type} (w : writer) (d : List (K × V))
    (km : writer → K → writer) (vm : writer → V → writer) :
    marshallMap w d km vm = marshall_iterator w d (fun th e => vm (km th e.1) e.2) := rfl

theorem appends_entry {K V : Type} (km : writer → K → writer) (vm : writer → V → writer)
    (e : K × V) (hk : appends km e.1) (hv : appends vm e.2) :
    appends (fun th (e : K × V) => vm (km th e.1) e.2) e ∧
    output (fun t => vm (km t e.1) e.2)
      = output (fun t => km t e.1) ++ output (fun t => vm t e.2) := by
  have hout : output (fun t => vm (km t e.1) e.2)
      = output (fun t => km t e.1) ++ output (fun t => vm t e.2) := by
    show (vm (km writer.on_empty_buffer e.1) e.2).pbuf = _
    rw [hk _ rfl, hv _ rfl]
    rfl
  refine ⟨fun w hw => ?_, hout⟩
  show vm (km w e.1) e.2 = _
  rw [hout, hk w hw, hv _ rfl]
  simp

/-- The loop of `unmarshallMap` reads back the entries of a map written in a
row, and adds them, in their order, to a map whose keys are all smaller. -/
theorem unmarshallMap_loop_spec {K V : Type} [LinearOrder K]
    (km : writer → K → writer) (ku : reader → Except error (K × reader))
    (vm : writer → V → writer) (vu : reader → Except error (V × reader)) :
    ∀ (xs acc : List (K × V)) (th : reader) (rest : List byte),
      (∀ e ∈ xs, round_trips km ku e.1 ∧ round_trips vm vu e.2) →
      List.Pairwise (fun a b => a.1 < b.1) (acc ++ xs) →
      th.remaining = xs.flatMap (fun e => output (fun t => vm (km t e.1) e.2)) ++ rest →
      unmarshallMap_loop ku vu xs.length th acc
        = .ok (acc ++ xs,
            th.skip (xs.flatMap (fun e => output (fun t => vm (km t e.1) e.2))).length) ∧
      (th.skip (xs.flatMap (fun e => output (fun t => vm (km t e.1) e.2))).length).remaining
        = rest := by
  intro xs
  induction xs with
  | nil =>
    intro acc th rest _ _ h
    have e : th.skip 0 = th := rfl
    simp only [List.flatMap_nil, List.length_nil, List.append_nil, e]
    exact ⟨rfl, by simpa using h⟩
  | cons x xs ih =>
    intro acc th rest hrt hsorted h
    obtain ⟨hk, hv⟩ := hrt x (List.mem_cons_self _ _)
    obtain ⟨_, hout⟩ := appends_entry km vm x hk.1 hv.1
    rw [List.flatMap_cons, hout, List.append_assoc, List.append_assoc] at h
    obtain ⟨r1, h1⟩ := hk.2 th _ h
    obtain ⟨r2, h2⟩ := hv.2 _ _ h1
    rw [skip_skip] at r2 h2
    have hins : map_insert acc x = acc ++ [x] := by
      apply map_insert_last
      intro q hq
      exact (List.pairwise_append.mp hsorted).2.2 q hq x (List.mem_cons_self _ _)
    obtain ⟨r3, h3⟩ := ih (acc ++ [x]) _ rest (fun y hy => hrt y (List.mem_cons_of_mem _ hy))
      (by simpa using hsorted) h2
    rw [skip_skip] at r3 h3
    rw [List.flatMap_cons, hout, List.length_append, List.length_append]
    refine ⟨?_, h3⟩
    rw [List.length_cons, unmarshallMap_loop]
    simp only [r1, r2, bind, Except.bind, hins, r3]
    simp

/-- What `unmarshallMap` does with the count `marshallMap` wrote. -/
theorem unmarshallMap_count {K V : Type} [LinearOrder K]
    (km : writer → K → writer) (ku : reader → Except error (K × reader))
    (vm : writer → V → writer) (vu : reader → Except error (V × reader))
    (d : List (K × V)) (hm : ∀ e ∈ d, appends km e.1 ∧ appends vm e.2)
    (th : reader) (rest : List byte) (dest : List (K × V))
    (h : th.remaining = output (fun t => marshallMap t d km vm) ++ rest) :
    unmarshallMap th dest ku vu
      = unmarshallMap_loop ku vu (int32_of ((d.length % 4294967296 : Nat) : Int)).toNat
          (th.skip 4) dest ∧
    (th.skip 4).remaining
      = d.flatMap (fun e => output (fun t => vm (km t e.1) e.2)) ++ rest := by
  have hm' : ∀ e ∈ d, appends (fun th (e : K × V) => vm (km th e.1) e.2) e :=
    fun e he => (appends_entry km vm e (hm e he).1 (hm e he).2).1
  have hout : output (fun t => marshallMap t d km vm)
      = toByte (d.length % 4294967296 / 16777216) :: toByte (d.length % 4294967296 / 65536)
          :: toByte (d.length % 4294967296 / 256) :: toByte (d.length % 4294967296)
          :: d.flatMap (fun e => output (fun t => vm (km t e.1) e.2)) := by
    show (marshallMap writer.on_empty_buffer d km vm).pbuf = _
    rw [marshallMap_eq_iterator, marshall_iterator_bytes _ d hm' writer.on_empty_buffer rfl]
    rfl
  rw [hout] at h
  obtain ⟨r, hr⟩ := unmarshallInt_count th d.length _ (by simpa using h)
  refine ⟨?_, hr⟩
  simp only [unmarshallMap, r, bind, Except.bind]

/-- C8, as amended: for every map `d` (its entries in ascending key order) of at
most 2147483647 entries and key / value pairs of codecs that round-trip every
key and every value of `d`, `marshallMap` writes the 4-byte count followed by
key, value, key, value, ... in key order, and `unmarshallMap` into an empty
destination map, on that output, yields `d`, consuming exactly those bytes. -/
theorem map_round_trip {K V : Type} [LinearOrder K]
    (km : writer → K → writer) (ku : reader → Except error (K × reader))
    (vm : writer → V → writer) (vu : reader → Except error (V × reader))
    (d : List (K × V)) (hsorted : List.Pairwise (fun a b => a.1 < b.1) d)
    (hlen : d.length ≤ 2147483647)
    (hrt : ∀ e ∈ d, round_trips km ku e.1 ∧ round_trips vm vu e.2) :
    (∀ w : writer, w.failed = false →
      marshallMap w d km vm
        = ⟨w.pbuf ++ (toByte (d.length / 16777216) :: toByte (d.length / 65536)
              :: toByte (d.length / 256) :: toByte d.length
              :: d.flatMap (fun e => output (fun t => km t e.1) ++ output (fun t => vm t e.2))),
            false⟩) ∧
    ∀ (th : reader) (rest : List byte),
      th.remaining = output (fun t => marshallMap t d km vm) ++ rest →
      unmarshallMap th [] ku vu
        = .ok (d, th.skip (output (fun t => marshallMap t d km vm)).length) ∧
      (th.skip (output (fun t => marshallMap t d km vm)).length).remaining = rest := by
  have hm : ∀ e ∈ d, appends km e.1 ∧ appends vm e.2 :=
    fun e he => ⟨(hrt e he).1.1, (hrt e he).2.1⟩
  have hm' : ∀ e ∈ d, appends (fun th (e : K × V) => vm (km th e.1) e.2) e :=
    fun e he => (appends_entry km vm e (hm e he).1 (hm e he).2).1
  have hmod : d.length % 4294967296 = d.length := Nat.mod_eq_of_lt (by omega)
  have hflat : d.flatMap (fun e => output (fun t => vm (km t e.1) e.2))
      = d.flatMap (fun e => output (fun t => km t e.1) ++ output (fun t => vm t e.2)) := by
    apply List.flatMap_congr
    intro e he
    exact (appends_entry km vm e (hm e he).1 (hm e he).2).2
  have hbytes : ∀ w : writer, w.failed = false →
      marshallMap w d km vm
        = ⟨w.pbuf ++ (toByte (d.length / 16777216) :: toByte (d.length / 65536)
              :: toByte (d.length / 256) :: toByte d.length
              :: d.flatMap (fun e => output (fun t => vm (km t e.1) e.2))), false⟩ := by
    intro w hw
    have := marshall_iterator_bytes _ d hm' w hw
    rw [hmod] at this
    rw [marshallMap_eq_iterator, this]
  refine ⟨fun w hw => by rw [hbytes w hw, hflat], fun th rest h => ?_⟩
  obtain ⟨c1, c2⟩ := unmarshallMap_count km ku vm vu d hm th rest [] h
  obtain ⟨l1, l2⟩ := unmarshallMap_loop_spec km ku vm vu d [] _ rest hrt
    (by simpa using hsorted) c2
  rw [skip_skip] at l1 l2
  have hcount : (int32_of ((d.length % 4294967296 : Nat) : Int)).toNat = d.length := by
    rw [hmod]; unfold int32_of; omega
  have hlen' : (output (fun t => marshallMap t d km vm)).length
      = 4 + (d.flatMap (fun e => output (fun t => vm (km t e.1) e.2))).length := by
    show (marshallMap writer.on_empty_buffer d km vm).pbuf.length = _
    rw [hbytes writer.on_empty_buffer rfl]
    simp only [writer.on_empty_buffer, List.nil_append, List.length_cons]
    omega
  rw [hlen', c1, hcount]
  exact ⟨by simpa using l1, l2⟩

/-- Witness of C8 on a map of two entries followed by one more byte. -/
theorem map_round_trip_witness :
    unmarshallMap
        ⟨output (fun t => marshallMap t [((1 : Int), (10 : Int)), (2, -5)]
          marshallInt marshallByte) ++ [9], 0, 0, false, false⟩ [] unmarshallInt unmarshallByte
      = .ok ([((1 : Int), (10 : Int)), (2, -5)],
          (reader.mk (output (fun t => marshallMap t [((1 : Int), (10 : Int)), (2, -5)]
            marshallInt marshallByte) ++ [9]) 0 0 false false).skip
            (output (fun t => marshallMap t [((1 : Int), (10 : Int)), (2, -5)]
              marshallInt marshallByte)).length) ∧
    ((reader.mk (output (fun t => marshallMap t [((1 : Int), (10 : Int)), (2, -5)]
        marshallInt marshallByte) ++ [9]) 0 0 false false).skip
        (output (fun t => marshallMap t [((1 : Int), (10 : Int)), (2, -5)]
          marshallInt marshallByte)).length).remaining = [9] :=
  (map_round_trip marshallInt unmarshallInt marshallByte unmarshallByte
    [((1 : Int), (10 : Int)), (2, -5)] (by decide) (by decide)
    (fun e he => by
      simp only [List.mem_cons, List.mem_singleton, List.not_mem_nil, or_false] at he
      rcases he with rfl | rfl
      · exact ⟨round_trips_int _ (by decide) (by decide),
          round_trips_byte _ (by decide) (by decide)⟩
      · exact ⟨round_trips_int _ (by decide) (by decide),
          round_trips_byte _ (by decide) (by decide)⟩)).2
    ⟨output (fun t => marshallMap t [((1 : Int), (10 : Int)), (2, -5)]
      marshallInt marshallByte) ++ [9], 0, 0, false, false⟩ [9] rfl

/-- A count of 2147483648 is read back as a negative `int`: the loop of
`unmarshallMap` does not run. -/
theorem unmarshallMap_of_2147483648 {K V : Type} [LinearOrder K]
    (km : writer → K → writer) (ku : reader → Except error (K × reader))
    (vm : writer → V → writer) (vu : reader → Except error (V × reader))
    (d : List (K × V)) (hm : ∀ e ∈ d, appends km e.1 ∧ appends vm e.2)
    (hlen : d.length = 2147483648) (th : reader) (rest : List byte)
    (h : th.remaining = output (fun t => marshallMap t d km vm) ++ rest) :
    unmarshallMap th [] ku vu = .ok ([], th.skip 4) := by
  obtain ⟨c1, _⟩ := unmarshallMap_count km ku vm vu d hm th rest [] h
  rw [c1, hlen]
  have e : (int32_of ((2147483648 % 4294967296 : Nat) : Int)).toNat = 0 := by decide
  rw [e]
  rfl

theorem map_of_keys_codecs (n : Nat) (hn : n ≤ 2147483648) :
    ∀ e ∈ map_of_keys n,
      round_trips marshallInt unmarshallInt e.1 ∧ round_trips marshallByte unmarshallByte e.2 := by
  intro e he
  unfold map_of_keys at he
  obtain ⟨i, hi, rfl⟩ := List.mem_map.mp he
  have hi' : i < n := List.mem_range.mp hi
  exact ⟨round_trips_int _ (by show (-2147483648 : Int) ≤ (i : Int); omega)
      (by show (i : Int) ≤ 2147483647; omega),
    round_trips_byte 0 (by decide) (by decide)⟩

theorem map_of_keys_sorted (n : Nat) :
    List.Pairwise (fun a b => a.1 < b.1) (map_of_keys n) := by
  unfold map_of_keys
  rw [List.pairwise_map]
  exact (List.pairwise_lt_range n).imp (fun h => Int.ofNat_lt.mpr h)

theorem map_of_keys_length (n : Nat) : (map_of_keys n).length = n := by
  unfold map_of_keys
  rw [List.length_map, List.length_range]

/-- C8, the claim as stated fails: the map of the 2147483648 keys 0 .. 2147483647,
all of which, like the values, their codecs round-trip, is read back by
`unmarshallMap` into an empty map as the empty map, only the four count bytes
consumed. -/
theorem map_of_2147483648_entries_is_lost :
    List.Pairwise (fun a b => a.1 < b.1) (map_of_keys 2147483648) ∧
    (map_of_keys 2147483648).length = 2147483648 ∧
    unmarshallMap
        ⟨output (fun t => marshallMap t (map_of_keys 2147483648) marshallInt marshallByte),
          0, 0, false, false⟩ [] unmarshallInt unmarshallByte
      = .ok ([], (reader.mk
          (output (fun t => marshallMap t (map_of_keys 2147483648) marshallInt marshallByte))
          0 0 false false).skip 4) :=
  ⟨map_of_keys_sorted 2147483648, map_of_keys_length 2147483648,
   unmarshallMap_of_2147483648 marshallInt unmarshallInt marshallByte unmarshallByte
    (map_of_keys 2147483648)
    (fun e he => ⟨(map_of_keys_codecs 2147483648 (Nat.le_refl _) e he).1.1,
                  (map_of_keys_codecs 2147483648 (Nat.le_refl _) e he).2.1⟩)
    (map_of_keys_length 2147483648) _ [] (remaining_at_start _ 0 false false)⟩

/-! ## Tags -/

/-- What `tag_write` appends for a payload that is not empty: the four bytes of
the 32-bit size, most significant first, then the payload. -/
theorem tag_write_bytes (c : tag_constructors) (tagID : tag_type) (outf : writer)
    (hf : outf.failed = false) (hN : 1 ≤ (tag_write_payload c tagID).pbuf.length) :
    tag_write c tagID outf
      = ⟨outf.pbuf ++ (toByte ((tag_write_payload c tagID).pbuf.length % 4294967296 / 16777216)
          :: toByte ((tag_write_payload c tagID).pbuf.length % 4294967296 / 65536)
          :: toByte ((tag_write_payload c tagID).pbuf.length % 4294967296 / 256)
          :: toByte ((tag_write_payload c tagID).pbuf.length % 4294967296)
          :: (tag_write_payload c tagID).pbuf), false⟩ := by
  unfold tag_write
  have hne : (tag_write_payload c tagID).pbuf.isEmpty = false := by
    cases h : (tag_write_payload c tagID).pbuf with
    | nil => rw [h] at hN; simp at hN
    | cons a l => rfl
  simp only [hne, Bool.false_eq_true, if_false, marshallInt_count _ _ hf, write_mk,
    List.take_length]
  simp

theorem you_writes_payload (data : List byte) :
    (tag_write_payload (you_writes data) tag_type.TAG_YOU).pbuf
      = data ++ [171, 171, 171, 171] := by
  simp [tag_write_payload, you_writes, writer.on_empty_buffer, writer.write, CANARY,
    marshallUByte, writer.writeByte, toByte]

/-- C9, as amended: for every tag whose payload serializes to `N` bytes with
`1 ≤ N < 2^32`, `tag_write` appends to an outer stream that has not failed
exactly `4 + N` bytes: the 4-byte big-endian encoding of `N`, then the `N`
payload bytes unchanged and in order. -/
theorem tag_write_emits_length (c : tag_constructors) (tagID : tag_type) (outf : writer)
    (hf : outf.failed = false) (hN : 1 ≤ (tag_write_payload c tagID).pbuf.length)
    (hN' : (tag_write_payload c tagID).pbuf.length < 4294967296) :
    tag_write c tagID outf
      = ⟨outf.pbuf ++ (toByte ((tag_write_payload c tagID).pbuf.length / 16777216)
          :: toByte ((tag_write_payload c tagID).pbuf.length / 65536)
          :: toByte ((tag_write_payload c tagID).pbuf.length / 256)
          :: toByte (tag_write_payload c tagID).pbuf.length
          :: (tag_write_payload c tagID).pbuf), false⟩ ∧
    (tag_write c tagID outf).tell = outf.tell + (4 + (tag_write_payload c tagID).pbuf.length) ∧
    (toByte ((tag_write_payload c tagID).pbuf.length / 16777216)).val * 16777216
      + (toByte ((tag_write_payload c tagID).pbuf.length / 65536)).val * 65536
      + (toByte ((tag_write_payload c tagID).pbuf.length / 256)).val * 256
      + (toByte (tag_write_payload c tagID).pbuf.length).val
      = (tag_write_payload c tagID).pbuf.length := by
  have h := tag_write_bytes c tagID outf hf hN
  rw [Nat.mod_eq_of_lt hN'] at h
  refine ⟨h, ?_, ?_⟩
  · rw [h]
    simp only [writer.tell, List.length_append, List.length_cons]
    omega
  · rw [toByte_val, toByte_val, toByte_val, toByte_val]; omega

/-- Witness of C9 on a player payload of three bytes and the four canaries. -/
theorem tag_write_emits_length_witness :
    tag_write (you_writes [1, 2, 3]) tag_type.TAG_YOU ⟨[7], false⟩
      = ⟨[7] ++ (toByte ((tag_write_payload (you_writes [1, 2, 3])
              tag_type.TAG_YOU).pbuf.length / 16777216)
          :: toByte ((tag_write_payload (you_writes [1, 2, 3])
              tag_type.TAG_YOU).pbuf.length / 65536)
          :: toByte ((tag_write_payload (you_writes [1, 2, 3])
              tag_type.TAG_YOU).pbuf.length / 256)
          :: toByte (tag_write_payload (you_writes [1, 2, 3]) tag_type.TAG_YOU).pbuf.length
          :: (tag_write_payload (you_writes [1, 2, 3]) tag_type.TAG_YOU).pbuf), false⟩ ∧
    (tag_write (you_writes [1, 2, 3]) tag_type.TAG_YOU ⟨[7], false⟩).pbuf
      = [7, 0, 0, 0, 7, 1, 2, 3, 171, 171, 171, 171] :=
  ⟨(tag_write_emits_length (you_writes [1, 2, 3]) tag_type.TAG_YOU ⟨[7], false⟩ rfl
    (by decide) (by decide)).1, by decide⟩

theorem you_writes_payload_length (data : List byte) (n : Nat) (h : data.length = n) :
    (tag_write_payload (you_writes data) tag_type.TAG_YOU).pbuf.length = n + 4 := by
  rw [you_writes_payload, List.length_append, h]
  rfl

/-- The length prefix of a payload of 4294967296 bytes is 0. -/
theorem tag_write_of_4294967296 (c : tag_constructors) (tagID : tag_type) (outf : writer)
    (hf : outf.failed = false) (hN : (tag_write_payload c tagID).pbuf.length = 4294967296) :
    tag_write c tagID outf
      = ⟨outf.pbuf ++ (0 :: 0 :: 0 :: 0 :: (tag_write_payload c tagID).pbuf), false⟩ := by
  rw [tag_write_bytes c tagID outf hf (by omega), hN]
  rfl

/-- C9, the claim as stated fails: for a player payload of 4294967296 bytes
(4294967292 bytes and the four canaries) `tag_write` writes the length prefix 0,
not the payload length. -/
theorem tag_write_size_wraps :
    (tag_write_payload (you_writes (List.replicate 4294967292 0))
        tag_type.TAG_YOU).pbuf.length = 4294967296 ∧
    tag_write (you_writes (List.replicate 4294967292 0)) tag_type.TAG_YOU
        writer.on_empty_buffer
      = ⟨writer.on_empty_buffer.pbuf ++ (0 :: 0 :: 0 :: 0 ::
          (tag_write_payload (you_writes (List.replicate 4294967292 0))
            tag_type.TAG_YOU).pbuf), false⟩ :=
  have hN : (tag_write_payload (you_writes (List.replicate 4294967292 0))
      tag_type.TAG_YOU).pbuf.length = 4294967296 :=
    (you_writes_payload_length _ 4294967292 (List.length_replicate _ _)).trans
      (by decide : 4294967292 + 4 = 4294967296)
  ⟨hN, tag_write_of_4294967296 _ _ _ rfl hN⟩

/-- C10: when the payload built for a tag is empty, `tag_write` appends nothing
to the outer stream: the stream, and so its buffer and its position (`tell`),
are the same before and after the call. -/
theorem tag_write_empty_payload (c : tag_constructors) (tagID : tag_type) (outf : writer)
    (h : (tag_write_payload c tagID).pbuf = []) :
    tag_write c tagID outf = outf ∧
    (tag_write c tagID outf).pbuf = outf.pbuf ∧
    (tag_write c tagID outf).tell = outf.tell := by
  have e : tag_write c tagID outf = outf := by
    unfold tag_write
    simp [h]
  rw [e]
  exact ⟨rfl, rfl, rfl⟩

/-- Witness of C10 on a tag identifier `tag_write` has no constructor for. -/
theorem tag_write_empty_payload_witness :
    tag_write (you_writes [1, 2, 3]) (tag_type.other 0) ⟨[7], false⟩ = ⟨[7], false⟩ ∧
    (tag_write (you_writes [1, 2, 3]) (tag_type.other 0) ⟨[7], false⟩).pbuf
      = (writer.mk [7] false).pbuf ∧
    (tag_write (you_writes [1, 2, 3]) (tag_type.other 0) ⟨[7], false⟩).tell
      = (writer.mk [7] false).tell :=
  tag_write_empty_payload (you_writes [1, 2, 3]) (tag_type.other 0) ⟨[7], false⟩ rfl

/-! ## The loops over a reader are never cut off -/

theorem readByte_advances (th th' : reader) (b : byte) (h : th.readByte = .ok (b, th')) :
    th'.pbuf = th.pbuf ∧ th'.read_offset = th.read_offset + 1 ∧
    th.read_offset < th.pbuf.length := by
  unfold reader.readByte at h
  by_cases hc : th.read_offset ≥ th.pbuf.length
  · rw [dif_pos hc] at h; exact Except.noConfusion h
  · rw [dif_neg hc] at h
    injection h with h
    injection h with _ h2
    subst h2
    exact ⟨rfl, rfl, by omega⟩

theorem readByte_error (th : reader) (e : error) (h : th.readByte = .error e) :
    e ≠ error.fuel_exhausted := by
  unfold reader.readByte at h
  by_cases hc : th.read_offset ≥ th.pbuf.length
  · rw [dif_pos hc] at h
    injection h with h
    subst h
    unfold _short_read
    split <;> exact fun h' => error.noConfusion h'
  · rw [dif_neg hc] at h; exact Except.noConfusion h

/-- With more iterations allowed than there are unread bytes, the loop of
`unmarshallUnsigned` ends by itself: on a byte without `0x80` or on a short read. -/
theorem unmarshallUnsigned_loop_not_cut_off :
    ∀ (fuel : Nat) (th : reader) (i v : Nat), th.pbuf.length - th.read_offset < fuel →
      unmarshallUnsigned_loop fuel th i v ≠ .error error.fuel_exhausted := by
  intro fuel
  induction fuel with
  | zero => intro th i v h; omega
  | succ f ih =>
    intro th i v h
    rw [unmarshallUnsigned_loop]
    cases hr : th.readByte with
    | error e =>
      simp only [bind, Except.bind]
      intro hc
      injection hc with hc
      exact readByte_error th e hr hc
    | ok r =>
      obtain ⟨b, th'⟩ := r
      obtain ⟨h1, h2, h3⟩ := readByte_advances th th' b hr
      simp only [bind, Except.bind]
      split
      · intro hc; exact Except.noConfusion hc
      · exact ih th' _ _ (by rw [h1, h2]; omega)

theorem unmarshallUnsigned_not_cut_off (th : reader) :
    unmarshallUnsigned th ≠ .error error.fuel_exhausted :=
  unmarshallUnsigned_loop_not_cut_off _ th 0 0 (by omega)

/-- With more iterations allowed than there are unread bytes, the loop of
`unmarshallFixedBitVector` ends by itself. -/
theorem unmarshallFixedBitVector_loop_not_cut_off {SIZE : Nat} :
    ∀ (fuel : Nat) (th : reader) (i : Nat) (arr : FixedBitVector SIZE),
      th.pbuf.length - th.read_offset < fuel →
      unmarshallFixedBitVector_loop fuel th i arr ≠ .error error.fuel_exhausted := by
  intro fuel
  induction fuel with
  | zero => intro th i arr h; omega
  | succ f ih =>
    intro th i arr h
    rw [unmarshallFixedBitVector_loop]
    unfold unmarshallUByte
    cases hr : th.readByte with
    | error e =>
      simp only [bind, Except.bind]
      intro hc
      injection hc with hc
      exact readByte_error th e hr hc
    | ok r =>
      obtain ⟨b, th'⟩ := r
      obtain ⟨h1, h2, h3⟩ := readByte_advances th th' b hr
      simp only [bind, Except.bind, pure, Except.pure]
      split
      · intro hc; exact Except.noConfusion hc
      · exact ih th' _ _ (by rw [h1, h2]; omega)

theorem unmarshallFixedBitVector_not_cut_off (SIZE : Nat) (th : reader) :
    unmarshallFixedBitVector SIZE th ≠ .error error.fuel_exhausted :=
  unmarshallFixedBitVector_loop_not_cut_off _ th 0 _ (by omega)

/-- The loop of `marshallFixedBitVector` ends by itself within `SIZE - i + 1`
iterations: allowing one more changes nothing. -/
theorem marshallFixedBitVector_loop_not_cut_off {SIZE : Nat} (arr : FixedBitVector SIZE)
    (lb : Int) (hlb : lb < SIZE) :
    ∀ (fuel : Nat) (w : writer) (i : Nat), i ≤ SIZE → SIZE - i < fuel →
      marshallFixedBitVector_loop arr lb fuel w i
        = marshallFixedBitVector_loop arr lb (fuel + 1) w i := by
  intro fuel
  induction fuel with
  | zero => intro w i _ h; omega
  | succ f ih =>
    intro w i hi h
    obtain ⟨e1, _, _⟩ := marshall_bits_spec arr 7 0 i 0 hi (by omega) (by decide)
    rw [marshallFixedBitVector_loop, marshallFixedBitVector_loop]
    by_cases hc : ((marshall_bits arr 0 7 i 0).1 : Int) ≤ lb
    · simp only [if_pos hc]
      exact ih _ _ (by rw [e1]; omega) (by rw [e1]; omega)
    · simp only [if_neg hc]

/-- With more iterations allowed than there are unread bytes, the loop of
`_run_length_decode` ends by itself, as long as the per-cell decoder only moves
the cursor forward and ends by itself. -/
theorem _run_length_decode_loop_not_cut_off (um : reader → Except error (Int × reader))
    (width end_ : Nat)
    (hum : ∀ th v th', um th = .ok (v, th') →
      th'.pbuf = th.pbuf ∧ th.read_offset ≤ th'.read_offset)
    (hum' : ∀ th, um th ≠ .error error.fuel_exhausted) :
    ∀ (fuel : Nat) (th : reader) (offset : Nat) (g : grid),
      th.pbuf.length - th.read_offset < fuel →
      _run_length_decode_loop um width end_ fuel th offset g ≠ .error error.fuel_exhausted := by
  intro fuel
  induction fuel with
  | zero => intro th offset g h; omega
  | succ f ih =>
    intro th offset g h
    rw [_run_length_decode_loop]
    by_cases ho : offset < end_
    · rw [if_pos ho]
      unfold unmarshallUByte
      cases hr : th.readByte with
      | error e =>
        simp only [bind, Except.bind]
        intro hc
        injection hc with hc
        exact readByte_error th e hr hc
      | ok r =>
        obtain ⟨b, th1⟩ := r
        obtain ⟨h1, h2, h3⟩ := readByte_advances th th1 b hr
        simp only [bind, Except.bind, pure, Except.pure]
        cases hv : um th1 with
        | error e =>
          simp only
          intro hc
          injection hc with hc
          exact hum' th1 (by rw [hv, hc])
        | ok r2 =>
          obtain ⟨v, th2⟩ := r2
          obtain ⟨k1, k2⟩ := hum th1 v th2 hv
          simp only
          exact ih th2 _ _ (by rw [k1, h1]; omega)
    · rw [if_neg ho]
      intro hc; exact Except.noConfusion hc

/-! ## The reader -/

theorem readByte_ok (th th' : reader) (b : byte) (h : th.readByte = .ok (b, th')) :
    th' = th.skip 1 ∧ th.read_offset < th.pbuf.length := by
  unfold reader.readByte at h
  by_cases hc : th.read_offset ≥ th.pbuf.length
  · rw [dif_pos hc] at h; exact Except.noConfusion h
  · rw [dif_neg hc] at h
    injection h with h
    injection h with _ h2
    exact ⟨h2.symm, by omega⟩

theorem read_ok (th th' : reader) (n : Nat) (bs : List byte) (hn : n < 9223372036854775808)
    (h : th.read n = .ok (bs, th')) :
    th' = th.skip n ∧ bs = th.remaining.take n ∧ bs.length = n ∧
    th.read_offset + n ≤ th.pbuf.length := by
  unfold reader.read at h
  rw [read_offset_plus_of_small th n hn] at h
  by_cases hc : th.read_offset + n > th.pbuf.length
  · rw [if_pos hc] at h; exact Except.noConfusion h
  · rw [if_neg hc] at h
    injection h with h
    injection h with h1 h2
    refine ⟨h2.symm, h1.symm, ?_, by omega⟩
    rw [← h1, List.length_take, List.length_drop]
    omega

/-- `reader::read` and `reader::readByte` return what their steps on the reader
object yield. -/
theorem read_eq_step (th : reader) (n : Nat) :
    th.read n = (match th.read_step n with
      | (th', .ok bs) => .ok (bs, th')
      | (_, .error e) => .error e) ∧
    th.readByte = (match th.readByte_step with
      | (th', .ok b) => .ok (b, th')
      | (_, .error e) => .error e) := by
  constructor
  · unfold reader.read reader.read_step
    split <;> rfl
  · unfold reader.readByte reader.readByte_step
    split <;> rfl

/-- C13, as amended: on a buffer-backed reader with `r` bytes remaining,
`reader::read` of `n` bytes succeeds when `n ≤ r`, delivering the next `n`
bytes in order and advancing the cursor by exactly `n`, and, for `n` below 2^64
less the cursor, raises the short read when `n > r`, leaving the cursor where
it was; `reader::readByte` succeeds when `r > 0` and raises the short read when
`r = 0`; in safe-read mode the short read is always the
`short_read_exception`, never the `die`. -/
theorem reader_read_contract (th : reader) (r : Nat)
    (hr : th.read_offset + r = th.pbuf.length) :
    (∀ n, n ≤ r →
      th.read_step n = (th.skip n, .ok (th.remaining.take n)) ∧
      th.read n = .ok (th.remaining.take n, th.skip n) ∧
      (th.remaining.take n).length = n) ∧
    (∀ n, r < n → th.read_offset + n < 18446744073709551616 →
      th.read_step n = (th, .error (_short_read th.need_save th.safe_read)) ∧
      th.read n = .error (_short_read th.need_save th.safe_read)) ∧
    (0 < r → ∃ b, th.remaining.head? = some b ∧
      th.readByte_step = (th.skip 1, .ok b) ∧ th.readByte = .ok (b, th.skip 1)) ∧
    (r = 0 →
      th.readByte_step = (th, .error (_short_read th.need_save th.safe_read)) ∧
      th.readByte = .error (_short_read th.need_save th.safe_read)) ∧
    (th.safe_read = true →
      _short_read th.need_save th.safe_read = error.short_read_exception) := by
  refine ⟨fun n hn => ?_, fun n hn hlt => ?_, fun h0 => ?_, fun h0 => ?_, fun hs => ?_⟩
  · have hc : ¬ th.read_offset + n > th.pbuf.length := by omega
    have e := read_offset_plus_of_fits th n (by omega)
    refine ⟨?_, ?_, ?_⟩
    · unfold reader.read_step; rw [e, if_neg hc]; rfl
    · unfold reader.read; rw [e, if_neg hc]; rfl
    · rw [List.length_take, remaining_length]; omega
  · have hc : th.read_offset + n > th.pbuf.length := by omega
    have e := read_offset_plus_of_lt th n hlt
    refine ⟨?_, ?_⟩
    · unfold reader.read_step; rw [e, if_pos hc]
    · unfold reader.read; rw [e, if_pos hc]
  · have hc : ¬ th.read_offset ≥ th.pbuf.length := by omega
    have hd := List.drop_eq_getElem_cons (show th.read_offset < th.pbuf.length by omega)
    refine ⟨th.pbuf.get ⟨th.read_offset, by omega⟩, ?_, ?_, ?_⟩
    · unfold reader.remaining; rw [hd]; rfl
    · unfold reader.readByte_step; rw [dif_neg hc]; rfl
    · unfold reader.readByte; rw [dif_neg hc]; rfl
  · have hc : th.read_offset ≥ th.pbuf.length := by omega
    refine ⟨?_, ?_⟩
    · unfold reader.readByte_step; rw [dif_pos hc]
    · unfold reader.readByte; rw [dif_pos hc]
  · unfold _short_read; simp [hs]

/-- Witness of C13 on a safe-mode reader with two of three bytes remaining. -/
theorem reader_read_contract_witness :
    (reader.mk [1, 2, 3] 1 0 true true).read 2
      = .ok ([2, 3], reader.mk [1, 2, 3] 3 0 true true) ∧
    (reader.mk [1, 2, 3] 1 0 true true).read_step 3
      = (reader.mk [1, 2, 3] 1 0 true true, .error error.short_read_exception) :=
  have h := reader_read_contract (reader.mk [1, 2, 3] 1 0 true true) 2 rfl
  ⟨(h.1 2 (by decide)).2.1, (h.2.1 3 (by decide) (by decide)).1⟩

/-- C13, the claim as stated fails: on the reader at the end of its one-byte
buffer, where no byte remains, `reader::read` of 2^64 - 1 bytes raises no short
read: the sum of the cursor, 1, and the size wraps to 0, which is within the
buffer, and the cursor is left at 0. -/
theorem read_of_wrapping_size :
    (reader.mk [7] 1 0 true true).remaining = [] ∧
    (reader.mk [7] 1 0 true true).read 18446744073709551615
      = .ok ([], reader.mk [7] 0 0 true true) ∧
    (reader.mk [7] 1 0 true true).read_step 18446744073709551615
      = (reader.mk [7] 0 0 true true, .ok []) := by
  refine ⟨rfl, ?_, ?_⟩
  · rfl
  · rfl

/-- On a buffer the end-of-section check passes exactly when bytes remain. -/
theorem fail_if_not_eof_ok_iff (th : reader) (name : String) :
    th.fail_if_not_eof name = .ok () ↔ th.read_offset < th.pbuf.length := by
  unfold reader.fail_if_not_eof
  by_cases hc : th.read_offset ≥ th.pbuf.length
  · rw [if_pos hc]
    exact ⟨fun h => Except.noConfusion h, fun h => absurd h (by omega)⟩
  · rw [if_neg hc]
    exact ⟨fun _ => by omega, fun _ => rfl⟩

/-- C14, what the code does: on a buffer of two bytes `fail_if_not_eof` raises
"Incomplete read" when both bytes have been consumed, and raises nothing when
one byte is still unread. -/
theorem fail_if_not_eof_on_buffer :
    (reader.mk [1, 2] 2 0 false false).fail_if_not_eof "chr"
      = .error (error.fail ("Incomplete read of \"" ++ "chr" ++ "\" - aborting.")) ∧
    (reader.mk [1, 2] 1 0 false false).fail_if_not_eof "chr" = .ok () :=
  ⟨rfl, rfl⟩

/-! ## Reading a tag -/

theorem unmarshallInt_ok (th th' : reader) (x : Int) (h : unmarshallInt th = .ok (x, th')) :
    th' = th.skip 4 ∧ th.read_offset + 4 ≤ th.pbuf.length := by
  unfold unmarshallInt at h
  cases h1 : th.readByte with
  | error e => rw [h1] at h; exact Except.noConfusion h
  | ok r1 =>
    obtain ⟨b1, t1⟩ := r1
    obtain ⟨e1, l1⟩ := readByte_ok th t1 b1 h1
    subst e1
    cases h2 : (th.skip 1).readByte with
    | error e => rw [h1] at h; simp only [bind, Except.bind, h2] at h; exact Except.noConfusion h
    | ok r2 =>
      obtain ⟨b2, t2⟩ := r2
      obtain ⟨e2, l2⟩ := readByte_ok _ t2 b2 h2
      subst e2
      cases h3 : ((th.skip 1).skip 1).readByte with
      | error e =>
        rw [h1] at h; simp only [bind, Except.bind, h2, h3] at h; exact Except.noConfusion h
      | ok r3 =>
        obtain ⟨b3, t3⟩ := r3
        obtain ⟨e3, l3⟩ := readByte_ok _ t3 b3 h3
        subst e3
        cases h4 : (((th.skip 1).skip 1).skip 1).readByte with
        | error e =>
          rw [h1] at h; simp only [bind, Except.bind, h2, h3, h4] at h
          exact Except.noConfusion h
        | ok r4 =>
          obtain ⟨b4, t4⟩ := r4
          obtain ⟨e4, l4⟩ := readByte_ok _ t4 b4 h4
          subst e4
          rw [h1] at h
          simp only [bind, Except.bind, h2, h3, h4, pure, Except.pure] at h
          injection h with h
          injection h with _ hth
          refine ⟨?_, ?_⟩
          · rw [← hth, skip_skip, skip_skip, skip_skip]
          · simp only [reader.skip] at l4; omega

/-- What `unmarshallInt` returns is the `int32_t` of some number. -/
theorem unmarshallInt_range (th th' : reader) (x : Int)
    (h : unmarshallInt th = .ok (x, th')) : ∃ y : Int, x = int32_of y := by
  unfold unmarshallInt at h
  simp only [bind, Except.bind, pure, Except.pure] at h
  split at h
  · exact Except.noConfusion h
  · split at h
    · exact Except.noConfusion h
    · split at h
      · exact Except.noConfusion h
      · split at h
        · exact Except.noConfusion h
        · injection h with h
          injection h with h1 _
          exact ⟨_, h1.symm⟩

theorem remaining_skip (th : reader) (n : Nat) : (th.skip n).remaining = th.remaining.drop n := by
  simp only [reader.remaining, reader.skip, List.drop_drop]

/-- What the first half of `tag_read` has done when it succeeds. -/
theorem tag_read_header_ok (d : tag_readers) (inf th0 inf' : reader)
    (h : tag_read_header d inf = .ok (th0, inf')) :
    ∃ data_size : Nat,
      unmarshallInt inf = .ok ((data_size : Int), inf.skip 4) ∧
      inf.read_offset + 4 + data_size ≤ inf.pbuf.length ∧
      inf' = inf.skip (4 + data_size) ∧
      th0 = ⟨(inf.remaining.drop 4).take data_size, 0, inf.minorVersion, false, inf.need_save⟩ ∧
      th0.pbuf.length = data_size := by
  unfold tag_read_header at h
  cases h1 : unmarshallInt inf with
  | error e => rw [h1] at h; exact Except.noConfusion h
  | ok r1 =>
    obtain ⟨x, t1⟩ := r1
    obtain ⟨e1, l1⟩ := unmarshallInt_ok inf t1 x h1
    subst e1
    rw [h1] at h
    simp only [bind, Except.bind] at h
    by_cases hx : x ≥ 0
    · simp only [hx, not_true_eq_false, if_false, pure, Except.pure] at h
      cases h2 : (inf.skip 4).read x.toNat with
      | error e => rw [h2] at h; exact Except.noConfusion h
      | ok r2 =>
        obtain ⟨buf, t2⟩ := r2
        obtain ⟨e2, ebuf, elen, l2⟩ := read_ok _ t2 _ buf
          (by obtain ⟨y, hy⟩ := unmarshallInt_range inf _ x h1
              rw [hy]; unfold int32_of; omega) h2
        subst e2
        rw [h2] at h
        simp only at h
        cases h3 : ((inf.skip 4).skip x.toNat).getMinorVersion d.TAG_MINOR_INVALID with
        | error e => rw [h3] at h; exact Except.noConfusion h
        | ok mv =>
          rw [h3] at h
          simp only at h
          injection h with h
          injection h with hth hinf
          have hmv : mv = inf.minorVersion := by
            unfold reader.getMinorVersion at h3
            split at h3
            · exact Except.noConfusion h3
            · injection h3 with h3; exact h3.symm
          refine ⟨x.toNat, ?_, ?_, ?_, ?_, ?_⟩
          · rw [Int.toNat_of_nonneg hx]
          · simp only [reader.skip] at l2; omega
          · rw [← hinf, skip_skip]
          · rw [← hth, ebuf, remaining_skip, hmv]; rfl
          · rw [← hth]; exact elen
    · simp only [hx, not_false_eq_true, if_true, throw, throwThe, MonadExceptOf.throw,
        bind, Except.bind] at h
      exact Except.noConfusion h

/-- When `tag_read` returns, both of its halves have succeeded. -/
theorem tag_read_ok (d : tag_readers) (inf inf' : reader) (tag_id : tag_type)
    (h : tag_read d inf tag_id = .ok inf') :
    ∃ th0 th', tag_read_header d inf = .ok (th0, inf') ∧
      tag_read_switch d tag_id th0 = .ok th' := by
  unfold tag_read at h
  cases h1 : tag_read_header d inf with
  | error e => rw [h1] at h; exact Except.noConfusion h
  | ok r1 =>
    obtain ⟨th0, t1⟩ := r1
    rw [h1] at h
    simp only [bind, Except.bind] at h
    cases h2 : tag_read_switch d tag_id th0 with
    | error e => rw [h2] at h; exact Except.noConfusion h
    | ok th' =>
      rw [h2] at h
      simp only [pure, Except.pure] at h
      injection h with h
      exact ⟨th0, th', by rw [h], h2⟩

/-- C11: whenever `tag_read` returns, it has read the 4-byte length `N` from the
outer stream, has run the decoder of the tag on a private reader over exactly
the next `N` bytes, and has left the cursor of the outer reader advanced by
exactly `4 + N`, whatever the decoder consumed of the private reader. -/
theorem tag_read_advances (d : tag_readers) (inf inf' : reader) (tag_id : tag_type)
    (h : tag_read d inf tag_id = .ok inf') :
    ∃ N : Nat,
      unmarshallInt inf = .ok ((N : Int), inf.skip 4) ∧
      inf.read_offset + 4 + N ≤ inf.pbuf.length ∧
      inf' = inf.skip (4 + N) ∧
      inf'.read_offset = inf.read_offset + (4 + N) ∧
      ∃ th', tag_read_switch d tag_id
          ⟨(inf.remaining.drop 4).take N, 0, inf.minorVersion, false, inf.need_save⟩
        = .ok th' := by
  obtain ⟨th0, th', h1, h2⟩ := tag_read_ok d inf inf' tag_id h
  obtain ⟨N, a1, a2, a3, a4, _⟩ := tag_read_header_ok d inf th0 inf' h1
  refine ⟨N, a1, a2, a3, by rw [a3]; rfl, th', ?_⟩
  rw [← a4]; exact h2

/-- Witness of C11: a ghost tag of three payload bytes of which the decoder
consumes one, followed by one more byte in the outer stream. -/
theorem tag_read_advances_witness :
    ∃ N : Nat,
      unmarshallInt (reader.mk [0, 0, 0, 3, 7, 8, 9, 5] 0 0 false false)
        = .ok ((N : Int), (reader.mk [0, 0, 0, 3, 7, 8, 9, 5] 0 0 false false).skip 4) ∧
      (reader.mk [0, 0, 0, 3, 7, 8, 9, 5] 0 0 false false).read_offset + 4 + N
        ≤ (reader.mk [0, 0, 0, 3, 7, 8, 9, 5] 0 0 false false).pbuf.length ∧
      reader.mk [0, 0, 0, 3, 7, 8, 9, 5] 7 0 false false
        = (reader.mk [0, 0, 0, 3, 7, 8, 9, 5] 0 0 false false).skip (4 + N) ∧
      (reader.mk [0, 0, 0, 3, 7, 8, 9, 5] 7 0 false false).read_offset
        = (reader.mk [0, 0, 0, 3, 7, 8, 9, 5] 0 0 false false).read_offset + (4 + N) ∧
      ∃ th', tag_read_switch (readers_consuming 1) tag_type.TAG_GHOST
          ⟨((reader.mk [0, 0, 0, 3, 7, 8, 9, 5] 0 0 false false).remaining.drop 4).take N, 0,
            (reader.mk [0, 0, 0, 3, 7, 8, 9, 5] 0 0 false false).minorVersion, false,
            (reader.mk [0, 0, 0, 3, 7, 8, 9, 5] 0 0 false false).need_save⟩
        = .ok th' :=
  tag_read_advances (readers_consuming 1) (reader.mk [0, 0, 0, 3, 7, 8, 9, 5] 0 0 false false)
    (reader.mk [0, 0, 0, 3, 7, 8, 9, 5] 7 0 false false) tag_type.TAG_GHOST rfl

/-! ## Canaries -/

/-- The macro `EAT_CANARY` on a reader that has a byte left: it consumes that
byte, and dies unless it is 171. -/
theorem EAT_CANARY_spec (th : reader) (b : byte) (rest : List byte)
    (h : th.remaining = b :: rest) :
    EAT_CANARY th = if b = 171 then .ok (th.skip 1)
      else .error (error.die "save corrupted: canary gone") := by
  obtain ⟨r1, _⟩ := unmarshallUByte_of_remaining th b rest h
  unfold EAT_CANARY
  simp only [r1, bind, Except.bind]
  by_cases hb : b = 171
  · have hv : ¬ (b.val ≠ 171) := by rw [hb]; decide
    rw [if_pos hb]
    simp only [hv, if_false, pure, Except.pure]
  · have hv : b.val ≠ 171 := fun hc => hb (Fin.ext hc)
    rw [if_neg hb]
    simp only [hv, ne_eq, not_false_eq_true, if_true, throw, throwThe, MonadExceptOf.throw]

theorem run_behind_canaries_append (l1 l2 : List (reader → Except error reader)) :
    ∀ th : reader, run_behind_canaries (l1 ++ l2) th
      = (run_behind_canaries l1 th >>= run_behind_canaries l2) := by
  induction l1 with
  | nil => intro th; rfl
  | cons s l1 ih =>
    intro th
    simp only [List.cons_append, run_behind_canaries, bind_assoc, List.append_eq, ih]

/-- Decoding the subsections of a payload is decoding them up to a canary,
checking that canary, and decoding the subsections behind it. -/
theorem run_sections_split (pre post : List (reader → Except error reader))
    (s s' : reader → Except error reader) (th0 : reader) :
    run_sections (pre ++ s :: s' :: post) th0
      = (run_sections (pre ++ [s]) th0 >>= fun th =>
          (EAT_CANARY th >>= run_sections (s' :: post))) := by
  have hb : ∀ th : reader, run_behind_canaries (s' :: post) th
      = (EAT_CANARY th >>= run_sections (s' :: post)) := by
    intro th
    rfl
  cases pre with
  | nil =>
    simp only [List.nil_append, run_sections, run_behind_canaries, bind_assoc, pure_bind]
    rfl
  | cons p pre =>
    have e : p :: pre ++ s :: s' :: post = p :: ((pre ++ [s]) ++ s' :: post) := by simp
    rw [e]
    simp only [List.cons_append, run_sections, run_behind_canaries_append, bind_assoc]
    rw [show run_behind_canaries (s' :: post)
      = (fun th => EAT_CANARY th >>= run_sections (s' :: post)) from funext hb]

/-- The `switch` of `tag_read` decodes the subsections of a player or level
payload in order, with an `EAT_CANARY` between every two of them. -/
theorem tag_read_switch_sections (d : tag_readers) (tag_id : tag_type) (th : reader)
    (h : tag_id = tag_type.TAG_YOU ∨ tag_id = tag_type.TAG_LEVEL) :
    tag_read_switch d tag_id th = run_sections (tag_sections d tag_id) th := by
  rcases h with rfl | rfl
  · simp only [tag_read_switch, tag_sections, run_sections, run_behind_canaries, bind_assoc,
      bind_pure, pure_bind]
  · simp only [tag_read_switch, tag_sections, run_sections, run_behind_canaries, bind_assoc,
      bind_pure, pure_bind]

theorem tag_read_of_switch_error (d : tag_readers) (inf inf' th0 : reader) (tag_id : tag_type)
    (e : error) (h1 : tag_read_header d inf = .ok (th0, inf'))
    (h2 : tag_read_switch d tag_id th0 = .error e) :
    tag_read d inf tag_id = .error e := by
  unfold tag_read
  simp only [h1, h2, bind, Except.bind]

/-- C12: a player payload has five subsections and a level payload four, with a
canary between every two of them. At each of these positions, once the
subsections before it have been decoded, `tag_read` reads one byte `b`: when
`b` is not 171 it dies with "save corrupted: canary gone" and decodes nothing
more, when `b` is 171 it goes on with the next subsection right behind it. -/
theorem canary_is_checked (d : tag_readers) (tag_id : tag_type)
    (pre post : List (reader → Except error reader)) (s s' : reader → Except error reader)
    (hsec : tag_sections d tag_id = pre ++ s :: s' :: post)
    (inf inf' th0 th_k : reader) (b : byte) (rest : List byte)
    (hhdr : tag_read_header d inf = .ok (th0, inf'))
    (hrun : run_sections (pre ++ [s]) th0 = .ok th_k)
    (hrem : th_k.remaining = b :: rest) :
    ((tag_sections d tag_type.TAG_YOU).length = 5 ∧
      (tag_sections d tag_type.TAG_LEVEL).length = 4) ∧
    (EAT_CANARY th_k = if b = 171 then .ok (th_k.skip 1)
      else .error (error.die "save corrupted: canary gone")) ∧
    (b ≠ 171 →
      tag_read_switch d tag_id th0 = .error (error.die "save corrupted: canary gone") ∧
      tag_read d inf tag_id = .error (error.die "save corrupted: canary gone")) ∧
    (b = 171 →
      tag_read_switch d tag_id th0 = run_sections (s' :: post) (th_k.skip 1)) := by
  have htag : tag_id = tag_type.TAG_YOU ∨ tag_id = tag_type.TAG_LEVEL := by
    cases tag_id with
    | TAG_YOU => exact Or.inl rfl
    | TAG_LEVEL => exact Or.inr rfl
    | TAG_CHR => simp [tag_sections] at hsec
    | TAG_GHOST => simp [tag_sections] at hsec
    | other n => simp [tag_sections] at hsec
  have hcan := EAT_CANARY_spec th_k b rest hrem
  have hsw : tag_read_switch d tag_id th0
      = (EAT_CANARY th_k >>= run_sections (s' :: post)) := by
    rw [tag_read_switch_sections d tag_id th0 htag, hsec, run_sections_split, hrun]
    rfl
  refine ⟨⟨rfl, rfl⟩, hcan, fun hb => ?_, fun hb => ?_⟩
  · have e : tag_read_switch d tag_id th0
        = .error (error.die "save corrupted: canary gone") := by
      rw [hsw, hcan, if_neg hb]; rfl
    exact ⟨e, tag_read_of_switch_error d inf inf' th0 tag_id _ hhdr e⟩
  · rw [hsw, hcan, if_pos hb]; rfl

/-- Witness of C12: a player payload whose second canary is 170. -/
theorem canary_is_checked_witness :
    tag_read (readers_consuming 1)
        (reader.mk [0, 0, 0, 9, 7, 171, 7, 170, 7, 171, 7, 171, 7] 0 0 false false)
        tag_type.TAG_YOU
      = .error (error.die "save corrupted: canary gone") :=
  ((canary_is_checked (readers_consuming 1) tag_type.TAG_YOU
    [(readers_consuming 1).tag_read_you]
    [(readers_consuming 1).tag_read_lost_monsters,
     fun th => do
       let th ← (readers_consuming 1).tag_read_companions th
       (readers_consuming 1).init_can_currently_train
       (readers_consuming 1).check_selected_skills
       pure th]
    (readers_consuming 1).tag_read_you_items (readers_consuming 1).tag_read_you_dungeon rfl
    (reader.mk [0, 0, 0, 9, 7, 171, 7, 170, 7, 171, 7, 171, 7] 0 0 false false)
    (reader.mk [0, 0, 0, 9, 7, 171, 7, 170, 7, 171, 7, 171, 7] 13 0 false false)
    (reader.mk [7, 171, 7, 170, 7, 171, 7, 171, 7] 0 0 false false)
    (reader.mk [7, 171, 7, 170, 7, 171, 7, 171, 7] 3 0 false false)
    170 [7, 171, 7, 171, 7] rfl rfl rfl).2.2.1 (by decide)).2

/-! ## Bytes the decoder of a tag leaves unread -/

/-- C15, as amended: `tag_read` does not look at what the decoder of the tag left
unread. Whenever the decoder finishes, with whatever reader `th'` over the
payload, `tag_read` returns, the outer cursor past the whole payload. -/
theorem tag_read_ignores_leftover (d : tag_readers) (inf inf' th0 th' : reader)
    (tag_id : tag_type) (h1 : tag_read_header d inf = .ok (th0, inf'))
    (h2 : tag_read_switch d tag_id th0 = .ok th') :
    tag_read d inf tag_id = .ok inf' := by
  unfold tag_read
  simp only [h1, h2, bind, Except.bind, pure, Except.pure]

/-- Witness of C15: a level payload of nine bytes of which the decoders and the
canaries consume seven. -/
theorem tag_read_ignores_leftover_witness :
    tag_read (readers_consuming 1)
        (reader.mk [0, 0, 0, 9, 7, 171, 7, 171, 7, 171, 7, 1, 2] 0 0 false false)
        tag_type.TAG_LEVEL
      = .ok (reader.mk [0, 0, 0, 9, 7, 171, 7, 171, 7, 171, 7, 1, 2] 13 0 false false) :=
  tag_read_ignores_leftover (readers_consuming 1)
    (reader.mk [0, 0, 0, 9, 7, 171, 7, 171, 7, 171, 7, 1, 2] 0 0 false false)
    (reader.mk [0, 0, 0, 9, 7, 171, 7, 171, 7, 171, 7, 1, 2] 13 0 false false)
    (reader.mk [7, 171, 7, 171, 7, 171, 7, 1, 2] 0 0 false false)
    (reader.mk [7, 171, 7, 171, 7, 171, 7, 1, 2] 7 0 false false)
    tag_type.TAG_LEVEL rfl rfl

/-- C15, the claim as stated fails: a ghost payload of three bytes, of which the
ghost decoder consumes two, is accepted; the third byte is never looked at. -/
theorem ghost_tag_with_extra_byte_is_accepted :
    tag_read_switch (readers_consuming 2) tag_type.TAG_GHOST
        (reader.mk [0, 1, 9] 0 0 false false)
      = .ok (reader.mk [0, 1, 9] 2 0 false false) ∧
    (reader.mk [0, 1, 9] 2 0 false false).remaining = [9] ∧
    tag_read (readers_consuming 2) (reader.mk [0, 0, 0, 3, 0, 1, 9] 0 0 false false)
        tag_type.TAG_GHOST
      = .ok (reader.mk [0, 0, 0, 3, 0, 1, 9] 7 0 false false) :=
  ⟨rfl, rfl, rfl⟩

/-! ## The layout of a variable-width integer -/

theorem size_div_128 (v : Nat) (h : 128 ≤ v) : Nat.size v = Nat.size (v / 128) + 7 := by
  have h7 : 7 < Nat.size v := Nat.lt_size.mpr (by simpa using h)
  apply Nat.le_antisymm
  · rw [Nat.size_le, pow_add]
    have := Nat.lt_size_self (v / 128)
    rw [Nat.div_lt_iff_lt_mul (by decide)] at this
    simpa using this
  · have : Nat.size (v / 128) ≤ Nat.size v - 7 := by
      rw [Nat.size_le, Nat.div_lt_iff_lt_mul (by decide)]
      have h1 := Nat.lt_size_self v
      have h2 : 2 ^ Nat.size v = 2 ^ (Nat.size v - 7) * 128 := by
        rw [show (128 : Nat) = 2 ^ 7 by rfl, ← pow_add]
        congr 1; omega
      rw [h2] at h1
      exact h1
    omega

/-- The number of bytes of the encoding. -/
theorem marshallUnsigned_length (v : Nat) :
    (output (fun t => marshallUnsigned t v)).length = max 1 ((Nat.size v + 6) / 7) := by
  induction v using Nat.strong_induction_on with
  | _ v ih =>
    rw [output_marshallUnsigned]
    by_cases h : v / 128 ≠ 0
    · rw [if_pos h, List.length_cons, ih _ (Nat.div_lt_self (by omega) (by decide)),
        size_div_128 v (by omega)]
      have hp : 0 < Nat.size (v / 128) := Nat.size_pos.mpr (by omega)
      omega
    · rw [if_neg h, List.length_singleton]
      have hs : Nat.size v ≤ 7 := Nat.size_le.mpr (by norm_num; omega)
      omega

/-- The bytes of the encoding, one by one. -/
theorem marshallUnsigned_byte (v : Nat) :
    ∀ k, k < (output (fun t => marshallUnsigned t v)).length →
      (output (fun t => marshallUnsigned t v))[k]?
        = some (toByte (v / 128 ^ k % 128
            + if k + 1 < (output (fun t => marshallUnsigned t v)).length then 128 else 0)) := by
  induction v using Nat.strong_induction_on with
  | _ v ih =>
    intro k hk
    rw [output_marshallUnsigned] at hk ⊢
    by_cases h : v / 128 ≠ 0
    · rw [if_pos h] at hk ⊢
      have hlt : v / 128 < v := Nat.div_lt_self (by omega) (by decide)
      have hpos : 1 ≤ (output (fun t => marshallUnsigned t (v / 128))).length := by
        rw [marshallUnsigned_length]; omega
      cases k with
      | zero =>
        simp only [List.length_cons, List.getElem?_cons_zero, pow_zero, Nat.div_one]
        rw [if_pos (by omega)]
      | succ j =>
        simp only [List.length_cons] at hk
        simp only [List.length_cons, List.getElem?_cons_succ]
        rw [ih _ hlt j (by omega)]
        have e : v / 128 / 128 ^ j = v / 128 ^ (j + 1) := by
          rw [Nat.div_div_eq_div_mul, pow_succ, Nat.mul_comm]
        rw [e]
        by_cases hj : j + 1 < (output (fun t => marshallUnsigned t (v / 128))).length
        · rw [if_pos hj, if_pos (by omega)]
        · rw [if_neg hj, if_neg (by omega)]
    · rw [if_neg h] at hk ⊢
      simp only [List.length_singleton] at hk
      have hk0 : k = 0 := by omega
      subst hk0
      simp

/-- C16: for every 64-bit unsigned `v`, `marshallUnsigned` emits exactly
`max(1, ceil(bitlength(v) / 7))` bytes, between 1 and 10; byte `k` carries the
`k`-th 7-bit group of `v`, least significant group first, and has `0x80` set
exactly when it is not the last byte; a value up to 127 is the single byte `v`
and 128 is the two bytes `0x80`, `0x01`. -/
theorem marshallUnsigned_layout (v : Nat) (hv : v < 18446744073709551616) :
    (output (fun t => marshallUnsigned t v)).length = max 1 ((Nat.size v + 6) / 7) ∧
    1 ≤ (output (fun t => marshallUnsigned t v)).length ∧
    (output (fun t => marshallUnsigned t v)).length ≤ 10 ∧
    (∀ k, k < (output (fun t => marshallUnsigned t v)).length →
      ∃ b : byte, (output (fun t => marshallUnsigned t v))[k]? = some b ∧
        b.val &&& 0x7f = v / 128 ^ k % 128 ∧
        (b.val &&& 0x80 ≠ 0 ↔ k + 1 < (output (fun t => marshallUnsigned t v)).length)) ∧
    (v ≤ 127 → output (fun t => marshallUnsigned t v) = [toByte v]) ∧
    output (fun t => marshallUnsigned t 128) = [0x80, 0x01] := by
  have hlen := marshallUnsigned_length v
  have hsize : Nat.size v ≤ 64 := Nat.size_le.mpr (by norm_num; exact hv)
  refine ⟨hlen, by omega, by omega, fun k hk => ?_, fun h127 => ?_, ?_⟩
  · refine ⟨_, marshallUnsigned_byte v k hk, ?_, ?_⟩
    · rw [toByte_val, and_7f]; split <;> omega
    · rw [ne_eq, byte_and_80, toByte_val]
      by_cases hl : k + 1 < (output (fun t => marshallUnsigned t v)).length
      · rw [if_pos hl]
        exact ⟨fun _ => hl, fun _ => by omega⟩
      · rw [if_neg hl]
        exact ⟨fun hc => absurd (show v / 128 ^ k % 128 + 0 < 128 by omega)
          (by omega), fun hc => absurd hc hl⟩
  · rw [output_marshallUnsigned, if_neg (by omega), Nat.mod_eq_of_lt (by omega)]
  · rw [output_marshallUnsigned, if_pos (by decide), output_marshallUnsigned,
      if_neg (by decide)]
    decide

/-- Witness of C16 at the largest 64-bit value. -/
theorem marshallUnsigned_layout_witness :
    (output (fun t => marshallUnsigned t 18446744073709551615)).length
      = max 1 ((Nat.size 18446744073709551615 + 6) / 7) ∧
    (output (fun t => marshallUnsigned t 18446744073709551615)).length ≤ 10 :=
  have h := marshallUnsigned_layout 18446744073709551615 (by decide)
  ⟨h.1, h.2.2.1⟩

/-! ## The zig-zag form and the network order -/

/-- C17: for every 64-bit signed `n`, `marshallSigned` writes what
`marshallUnsigned` writes for `2n` when `n ≥ 0` and for `2 * (-n) - 1` when
`n < 0`, both taken modulo `2^64`; `-1` is written as unsigned 1 and `1` as
unsigned 2. -/
theorem marshallSigned_zigzag (w : writer) (n : Int)
    (h1 : -9223372036854775808 ≤ n) (h2 : n ≤ 9223372036854775807) :
    marshallSigned w n
      = marshallUnsigned w (if 0 ≤ n then bits64 (2 * n) else bits64 (2 * (-n) - 1)) ∧
    marshallSigned w (-1) = marshallUnsigned w 1 ∧
    marshallSigned w 1 = marshallUnsigned w 2 := by
  refine ⟨?_, ?_, ?_⟩
  · rw [marshallSigned_eq w n h1 h2]
    congr 1
    by_cases hn : n < 0
    · rw [if_pos hn, if_neg (by omega)]
      unfold bits64; omega
    · rw [if_neg hn, if_pos (by omega)]
      unfold bits64; omega
  · rw [marshallSigned_eq w (-1) (by decide) (by decide)]
    rfl
  · rw [marshallSigned_eq w 1 (by decide) (by decide)]
    rfl

/-- Witness of C17 at the least 64-bit value. -/
theorem marshallSigned_zigzag_witness :
    marshallSigned writer.on_empty_buffer (-9223372036854775808)
      = marshallUnsigned writer.on_empty_buffer 18446744073709551615 :=
  (marshallSigned_zigzag writer.on_empty_buffer (-9223372036854775808)
    (by decide) (by decide)).1

/-- C18: for every `short` argument `x` (so for every int16), `marshallShort`
writes exactly two bytes, and for every `int32_t` argument `y`, `marshallInt`
writes exactly four; read as base-256 digits, most significant first, the
bytes are the two's-complement value of the argument, so the first byte is its
most significant byte and the last its least significant. -/
theorem short_and_int_in_network_order (x y : Int) :
    (∃ b1 b2 : byte, output (fun t => marshallShort t x) = [b1, b2] ∧
      b1.val * 256 + b2.val = (x % 65536).toNat) ∧
    (∃ b1 b2 b3 b4 : byte, output (fun t => marshallInt t y) = [b1, b2, b3, b4] ∧
      b1.val * 16777216 + b2.val * 65536 + b3.val * 256 + b4.val
        = (y % 4294967296).toNat) := by
  constructor
  · refine ⟨toByte (bits32 x / 256), toByte (bits32 x), ?_, ?_⟩
    · simp only [output]
      rw [marshallShort_bytes _ _ rfl]
      rfl
    · rw [toByte_val, toByte_val]
      unfold bits32; omega
  · refine ⟨toByte (bits32 y / 16777216), toByte (bits32 y / 65536),
      toByte (bits32 y / 256), toByte (bits32 y), ?_, ?_⟩
    · simp only [output]
      rw [marshallInt_bytes _ _ rfl]
      rfl
    · rw [toByte_val, toByte_val, toByte_val, toByte_val]
      unfold bits32; omega

/-! ## The layout of a bit vector -/

theorem last_bit_scan_hit {SIZE : Nat} (arr : FixedBitVector SIZE) :
    ∀ k, last_bit_scan arr k = 0 ∨ arr.get (last_bit_scan arr k) = true := by
  intro k
  induction k with
  | zero => exact Or.inl rfl
  | succ k ih =>
    by_cases hg : arr.get (k + 1) = true
    · rw [last_bit_scan, if_pos hg]
      exact Or.inr hg
    · rw [last_bit_scan, if_neg hg]
      exact ih

/-- The local `last_bit` is the index of the highest set bit, and 0 when no bit
is set. -/
theorem last_bit_of_highest {SIZE : Nat} (arr : FixedBitVector SIZE) (h : Nat)
    (hh : (arr.get h = true ∧ ∀ k, h < k → arr.get k = false)
      ∨ (h = 0 ∧ ∀ k, arr.get k = false)) :
    (last_bit_of arr).toNat = h := by
  have hA : ∀ k : Nat, last_bit_of arr < k → arr.get k = false := by
    intro k hk
    by_cases hks : k < SIZE
    · have := (last_bit_of_spec arr).2 ⟨k, hks⟩ hk
      rw [← get_of_lt arr ⟨k, hks⟩] at this
      exact this
    · exact get_of_ge arr k (by omega)
  have hB : (last_bit_of arr).toNat = 0 ∨ arr.get (last_bit_of arr).toNat = true := by
    unfold last_bit_of
    by_cases hs : (SIZE : Int) - 1 > 0
    · rw [if_pos hs]
      simpa using last_bit_scan_hit arr (SIZE - 1)
    · rw [if_neg hs]
      left; omega
  rcases hh with ⟨hset, habove⟩ | ⟨h0, hnone⟩
  · have h1 : ¬ (last_bit_of arr < (h : Int)) := fun hc => by
      rw [hA h hc] at hset; exact Bool.noConfusion hset
    rcases hB with hz | ht
    · omega
    · have h2 : ¬ (h < (last_bit_of arr).toNat) := fun hc => by
        rw [habove _ hc] at ht; exact Bool.noConfusion ht
      omega
  · rcases hB with hz | ht
    · omega
    · rw [hnone] at ht; exact Bool.noConfusion ht

/-- The bytes the encoder loop writes from bit `7 * k` on: how many, which bits
of the vector each carries, and which of them has `0x80` set. -/
theorem marshallFixedBitVector_loop_layout {SIZE : Nat} (arr : FixedBitVector SIZE)
    (lb : Int) (hlb : lb < SIZE) :
    ∀ (fuel k : Nat), 7 * k ≤ SIZE → SIZE - 7 * k < fuel → (7 * (k : Int) ≤ lb ∨ k = 0) →
      (output (fun t => marshallFixedBitVector_loop arr lb fuel t (7 * k))).length
        = lb.toNat / 7 + 1 - k ∧
      ∀ j, j < lb.toNat / 7 + 1 - k → ∃ b : byte,
        (output (fun t => marshallFixedBitVector_loop arr lb fuel t (7 * k)))[j]? = some b ∧
        (∀ m, m < 7 → b.val.testBit m = arr.get (7 * (k + j) + m)) ∧
        (b.val &&& 0x80 = 0 ↔ j + 1 < lb.toNat / 7 + 1 - k) := by
  intro fuel
  induction fuel with
  | zero => intro k _ hf; omega
  | succ f ih =>
    intro k hk hf hpos
    rw [output_marshallFixedBitVector_loop]
    obtain ⟨e1, e2, e3⟩ := marshall_bits_spec arr 7 0 (7 * k) 0 hk (by omega) (by decide)
    have hbit : ∀ m, m < 7 →
        (marshall_bits arr 0 7 (7 * k) 0).2.testBit m = arr.get (7 * k + m) := by
      intro m hm
      rw [e3, Nat.zero_testBit]
      have : (0 ≤ m ∧ m < 0 + 7) := by omega
      simp [this]
    have hlt128 : (marshall_bits arr 0 7 (7 * k) 0).2 < 128 := by simpa using e2
    by_cases hc : ((marshall_bits arr 0 7 (7 * k) 0).1 : Int) ≤ lb
    · rw [if_pos hc]
      have hi7 : (marshall_bits arr 0 7 (7 * k) 0).1 = 7 * (k + 1) := by rw [e1]; omega
      rw [hi7] at hc ⊢
      obtain ⟨l1, l2⟩ := ih (k + 1) (by omega) (by omega) (Or.inl (by exact_mod_cast hc))
      have hbv : (toByte (marshall_bits arr 0 7 (7 * k) 0).2).val
          = (marshall_bits arr 0 7 (7 * k) 0).2 := by
        rw [toByte_val]; omega
      refine ⟨by rw [List.length_cons, l1]; omega, fun j hj => ?_⟩
      cases j with
      | zero =>
        refine ⟨_, List.getElem?_cons_zero, fun m hm => ?_, ?_⟩
        · rw [hbv, hbit m hm]; rfl
        · rw [byte_and_80, hbv]
          exact ⟨fun _ => by omega, fun _ => hlt128⟩
      | succ j =>
        obtain ⟨b, b1, b2, b3⟩ := l2 j (by omega)
        refine ⟨b, by rw [List.getElem?_cons_succ]; exact b1, fun m hm => ?_, ?_⟩
        · rw [b2 m hm, show 7 * (k + 1 + j) + m = 7 * (k + (j + 1)) + m by omega]
        · rw [b3]; omega
    · rw [if_neg hc]
      have hbv : (toByte ((marshall_bits arr 0 7 (7 * k) 0).2 ||| 0x80)).val
          = (marshall_bits arr 0 7 (7 * k) 0).2 ||| 0x80 := by
        rw [toByte_val, or_80 _ hlt128]; omega
      have hone : lb.toNat / 7 + 1 - k = 1 := by
        rw [e1] at hc; omega
      refine ⟨by rw [List.length_singleton, hone], fun j hj => ?_⟩
      have hj0 : j = 0 := by omega
      subst hj0
      refine ⟨_, List.getElem?_cons_zero, fun m hm => ?_, ?_⟩
      · rw [hbv, testBit_or_80 _ _ hm, hbit m hm]; rfl
      · rw [byte_and_80, hbv, or_80 _ hlt128]
        exact ⟨fun hc2 => by omega, fun hc2 => by omega⟩

/-- The bytes `marshallFixedBitVector` writes. -/
theorem marshallFixedBitVector_layout (SIZE : Nat) (arr : FixedBitVector SIZE) :
    (output (fun t => marshallFixedBitVector SIZE t arr)).length
        = (last_bit_of arr).toNat / 7 + 1 ∧
      ∀ j, j < (last_bit_of arr).toNat / 7 + 1 → ∃ b : byte,
        (output (fun t => marshallFixedBitVector SIZE t arr))[j]? = some b ∧
        (∀ m, m < 7 → b.val.testBit m = arr.get (7 * j + m)) ∧
        (b.val &&& 0x80 = 0 ↔ j + 1 < (last_bit_of arr).toNat / 7 + 1) := by
  have := marshallFixedBitVector_loop_layout arr (last_bit_of arr) (last_bit_of_spec arr).1
    (SIZE + 1) 0 (by omega) (by omega) (Or.inr rfl)
  simpa [marshallFixedBitVector] using this

/-- C19, as amended: in the output of `marshallFixedBitVector`, for
every bit vector, there is a last byte, the bit `0x80` of the last emitted byte
is 1, and it is 0 on every byte emitted before the last. -/
theorem fixedBitVector_flag_marks_last_byte (SIZE : Nat) (arr : FixedBitVector SIZE) :
    output (fun t => marshallFixedBitVector SIZE t arr) ≠ [] ∧
    ∀ (j : Nat) (b : byte), (output (fun t => marshallFixedBitVector SIZE t arr))[j]? = some b →
      (b.val &&& 0x80 ≠ 0 ↔ j + 1 = (output (fun t => marshallFixedBitVector SIZE t arr)).length) := by
  obtain ⟨l1, l2⟩ := marshallFixedBitVector_layout SIZE arr
  refine ⟨fun hnil => ?_, fun j b hb => ?_⟩
  · rw [hnil] at l1
    simp at l1
  · have hj : j < (output (fun t => marshallFixedBitVector SIZE t arr)).length := by
      by_contra hc
      rw [List.getElem?_eq_none (by omega)] at hb
      cases hb
    obtain ⟨b', b1, _, b3⟩ := l2 j (by omega)
    rw [hb] at b1
    cases b1
    rw [ne_eq, b3, l1]
    omega

/-- C19, the text as it stands fails on the vector of eight set bits: the last
of its two bytes has `0x80` set and the first has it clear. -/
theorem fixedBitVector_of_eight_ones :
    output (fun t => marshallFixedBitVector 8 t (fun _ => true)) = [0x7f, 0x81] ∧
    (0x81 : byte).val &&& 0x80 ≠ 0 ∧ (0x7f : byte).val &&& 0x80 = 0 := by
  decide

/-- C20: for every `SIZE` (so for every `SIZE ≥ 1`) and every bit vector, with
`h` the index of the highest set bit, and `h = 0` when no bit is set,
`marshallFixedBitVector` emits exactly `h / 7 + 1` bytes, and bit `i` of the
vector is bit `i mod 7` of byte `i / 7` for every `i` the bytes cover. -/
theorem fixedBitVector_byte_count (SIZE : Nat) (arr : FixedBitVector SIZE) (h : Nat)
    (hh : (arr.get h = true ∧ ∀ k, h < k → arr.get k = false)
      ∨ (h = 0 ∧ ∀ k, arr.get k = false)) :
    (output (fun t => marshallFixedBitVector SIZE t arr)).length = h / 7 + 1 ∧
    ∀ i, i / 7 < (output (fun t => marshallFixedBitVector SIZE t arr)).length →
      ∃ b : byte, (output (fun t => marshallFixedBitVector SIZE t arr))[i / 7]? = some b ∧
        b.val.testBit (i % 7) = arr.get i := by
  obtain ⟨l1, l2⟩ := marshallFixedBitVector_layout SIZE arr
  rw [last_bit_of_highest arr h hh] at l1 l2
  refine ⟨l1, fun i hi => ?_⟩
  obtain ⟨b, b1, b2, _⟩ := l2 (i / 7) (by omega)
  refine ⟨b, b1, ?_⟩
  rw [b2 (i % 7) (Nat.mod_lt _ (by decide)), show 7 * (i / 7) + i % 7 = i by omega]

/-- Witness of C20 on the vector of eight set bits, whose highest set bit is
bit 7: two bytes. -/
theorem fixedBitVector_byte_count_witness :
    (output (fun t => marshallFixedBitVector 8 t (fun _ => true))).length = 7 / 7 + 1 :=
  (fixedBitVector_byte_count 8 (fun _ => true) 7
    (Or.inl ⟨rfl, fun k hk => get_of_ge _ k (by omega)⟩)).1

/-! ## The runs of uniform and of alternating grids -/

/-- The encoder over `n` more cells of the value `c`, with a run of `c` of
length `nlast` pending. -/
theorem rle_tail_uniform (m : writer → Int → writer) (val : Nat → Int) (c : Int)
    (hm : appends m c) :
    ∀ (n p nlast : Nat), 1 ≤ nlast → nlast ≤ 255 →
      (∀ idx, p ≤ idx → idx < p + n → val idx = c) →
      output (fun t => rle_tail m val p n (t, c, nlast))
        = run_stream m (List.replicate ((nlast + n - 1) / 255) (255, c)
            ++ [((nlast + n - 1) % 255 + 1, c)]) := by
  intro n
  induction n with
  | zero =>
    intro p nlast h1 h2 _
    rw [output_rle_tail_zero m val p c nlast hm]
    have e1 : (nlast + 0 - 1) / 255 = 0 := by omega
    have e2 : (nlast + 0 - 1) % 255 + 1 = nlast := by omega
    rw [e1, e2]
    have e3 : toByte (bits8 (nlast : Int)) = toByte nlast := by
      apply Fin.ext; rw [toByte_bits8_val nlast h2, toByte_val]; omega
    simp [run_stream, e3]
  | succ n ih =>
    intro p nlast h1 h2 hv
    have hvp : val p = c := hv p (Nat.le_refl _) (by omega)
    have happ : ∀ idx, p ≤ idx → idx < p + (n + 1) → appends m (val idx) := by
      intro idx i1 i2; rw [hv idx i1 i2]; exact hm
    rw [output_rle_tail_succ m val p n c nlast h1 hm happ]
    by_cases hc : c = val p ∧ nlast < 255
    · rw [if_pos hc, ih (p + 1) (nlast + 1) (by omega) (by omega)
        (fun idx i1 i2 => hv idx (by omega) (by omega))]
      rw [show nlast + 1 + n - 1 = nlast + (n + 1) - 1 by omega]
    · rw [if_neg hc]
      have h255 : nlast = 255 := by
        by_contra hne
        exact hc ⟨hvp.symm, by omega⟩
      subst h255
      rw [hvp, ih (p + 1) 1 (Nat.le_refl _) (by omega)
        (fun idx i1 i2 => hv idx (by omega) (by omega))]
      have e1 : (255 + (n + 1) - 1) / 255 = (1 + n - 1) / 255 + 1 := by omega
      have e2 : (255 + (n + 1) - 1) % 255 = (1 + n - 1) % 255 := by omega
      have e3 : toByte (bits8 ((255 : Nat) : Int)) = toByte 255 := by decide
      rw [e1, e2, List.replicate_succ, e3]
      simp [run_stream]

/-- The encoder over `n` more cells, each different from the cell before it,
with a run of length 1 of `last` pending. -/
theorem rle_tail_alternating (m : writer → Int → writer) (val : Nat → Int) :
    ∀ (n p : Nat) (last : Int), appends m last →
      (∀ idx, p ≤ idx → idx < p + n → appends m (val idx)) →
      (1 ≤ n → last ≠ val p) →
      (∀ idx, p ≤ idx → idx + 1 < p + n → val idx ≠ val (idx + 1)) →
      output (fun t => rle_tail m val p n (t, last, 1))
        = run_stream m ((1, last) :: (List.range' p n).map (fun idx => (1, val idx))) := by
  intro n
  induction n with
  | zero =>
    intro p last hl _ _ _
    rw [output_rle_tail_zero m val p last 1 hl]
    have e3 : toByte (bits8 (1 : Int)) = toByte 1 := by decide
    simp [run_stream, e3]
  | succ n ih =>
    intro p last hl happ hne hcons
    rw [output_rle_tail_succ m val p n last 1 (Nat.le_refl _) hl happ]
    have hc : ¬ (last = val p ∧ 1 < 255) := fun h => hne (by omega) h.1
    rw [if_neg hc, ih (p + 1) (val p) (happ p (Nat.le_refl _) (by omega))
      (fun idx i1 i2 => happ idx (by omega) (by omega))
      (fun h1 => hcons p (Nat.le_refl _) (by omega))
      (fun idx i1 i2 => hcons idx (by omega) (by omega))]
    have e3 : toByte (bits8 ((1 : Nat) : Int)) = toByte 1 := by decide
    rw [List.range'_succ, List.map_cons, e3]
    simp [run_stream]

/-- C21: for every width and height at least 1, `_run_length_encode` of a grid
whose cells all hold the value `c` emits `ceil(W * H / 255)` runs of `c`, a run
being the run-length byte followed by the value as `m` writes it; every run
but the last has length 255, and the last has the length that is left. -/
theorem uniform_grid_runs (m : writer → Int → writer) (g : grid) (c : Int)
    (width height : Nat) (hw : 1 ≤ width) (hh : 1 ≤ height) (hm : appends m c)
    (hg : ∀ x y, x < width → y < height → g x y = c) :
    output (fun t => _run_length_encode t m g width height)
      = run_stream m (List.replicate ((width * height - 1) / 255) (255, c)
          ++ [((width * height - 1) % 255 + 1, c)]) ∧
    (List.replicate ((width * height - 1) / 255) (255, c)
        ++ [((width * height - 1) % 255 + 1, c)]).length = (width * height + 254) / 255 := by
  have hpos : 1 ≤ width * height := Nat.mul_le_mul hw hh
  have hval : ∀ idx, idx < width * height → g (idx % width) (idx / width) = c := by
    intro idx hidx
    have hx : idx % width < width := Nat.mod_lt _ hw
    apply hg _ _ hx
    rw [← scan_position_lt width height _ _ hx, Nat.mul_comm]
    rw [Nat.div_add_mod]; exact hidx
  obtain ⟨n, hn⟩ : ∃ n, width * height = n + 1 := ⟨width * height - 1, by omega⟩
  constructor
  · have henc : ∀ t : writer, _run_length_encode t m g width height
        = rle_tail m (fun idx => g (idx % width) (idx / width)) 1 n (t, c, 1) := by
      intro t
      rw [_run_length_encode_eq_tail _ _ _ _ _ hw, hn, rle_tail_first]
      have := hval 0 (by omega)
      simp only at this ⊢
      rw [this]
    simp only [output, henc]
    have := rle_tail_uniform m (fun idx => g (idx % width) (idx / width)) c hm n 1 1
      (Nat.le_refl _) (by omega) (fun idx _ i2 => hval idx (by omega))
    simp only [output] at this
    rw [this, hn, show 1 + n - 1 = n + 1 - 1 from by omega]
  · rw [List.length_append, List.length_replicate, List.length_singleton]
    omega

/-- Witness of C21: a 16 by 16 grid of the value 7 is written as the run of
length 255 and the run of length 1. -/
theorem uniform_grid_runs_witness :
    output (fun t => _run_length_encode t marshallByte (fun _ _ => 7) 16 16)
      = run_stream marshallByte (List.replicate ((16 * 16 - 1) / 255) (255, 7)
          ++ [((16 * 16 - 1) % 255 + 1, 7)]) :=
  (uniform_grid_runs marshallByte (fun _ _ => 7) 7 16 16 (by decide) (by decide)
    (round_trips_byte 7 (by decide) (by decide)).1 (fun _ _ _ _ => rfl)).1

/-- C22: for every width and height at least 1, `_run_length_encode` of a grid
in which every two cells consecutive in the scan order (rows outside, columns
inside) hold different values emits `W * H` runs, one per cell in scan order,
each of length 1. -/
theorem alternating_grid_runs (m : writer → Int → writer) (g : grid)
    (width height : Nat) (hw : 1 ≤ width) (hh : 1 ≤ height)
    (hm : ∀ x y, x < width → y < height → appends m (g x y))
    (hg : ∀ idx, idx + 1 < width * height →
      g (idx % width) (idx / width) ≠ g ((idx + 1) % width) ((idx + 1) / width)) :
    output (fun t => _run_length_encode t m g width height)
      = run_stream m ((List.range (width * height)).map
          (fun idx => (1, g (idx % width) (idx / width)))) ∧
    ((List.range (width * height)).map
      (fun idx => ((1 : Nat), g (idx % width) (idx / width)))).length = width * height := by
  have hpos : 1 ≤ width * height := Nat.mul_le_mul hw hh
  have hval : ∀ idx, idx < width * height → appends m (g (idx % width) (idx / width)) := by
    intro idx hidx
    have hx : idx % width < width := Nat.mod_lt _ hw
    apply hm _ _ hx
    rw [← scan_position_lt width height _ _ hx, Nat.mul_comm]
    rw [Nat.div_add_mod]; exact hidx
  obtain ⟨n, hn⟩ : ∃ n, width * height = n + 1 := ⟨width * height - 1, by omega⟩
  constructor
  · have henc : ∀ t : writer, _run_length_encode t m g width height
        = rle_tail m (fun idx => g (idx % width) (idx / width)) 1 n
            (t, g (0 % width) (0 / width), 1) := by
      intro t
      rw [_run_length_encode_eq_tail _ _ _ _ _ hw, hn, rle_tail_first]
    simp only [output, henc]
    have := rle_tail_alternating m (fun idx => g (idx % width) (idx / width)) n 1
      (g (0 % width) (0 / width)) (hval 0 (by omega))
      (fun idx _ i2 => hval idx (by omega))
      (fun h1 => hg 0 (by omega))
      (fun idx _ i2 => hg idx (by omega))
    simp only [output] at this
    rw [this, hn, List.range_eq_range', List.range'_succ, List.map_cons]
  · rw [List.length_map, List.length_range]

/-- Witness of C22: the 2 by 2 grid holding 0, 1, 2, 3 along the scan. -/
theorem alternating_grid_runs_witness :
    output (fun t => _run_length_encode t marshallByte
        (fun x y => ((y * 2 + x : Nat) : Int)) 2 2)
      = run_stream marshallByte ((List.range (2 * 2)).map
          (fun idx => (1, ((idx / 2 * 2 + idx % 2 : Nat) : Int)))) :=
  (alternating_grid_runs marshallByte (fun x y => ((y * 2 + x : Nat) : Int)) 2 2
    (by decide) (by decide)
    (fun x y hx hy => (round_trips_byte _
      (by show (-128 : Int) ≤ ((y * 2 + x : Nat) : Int); omega)
      (by show ((y * 2 + x : Nat) : Int) ≤ 127; omega)).1)
    (fun idx h => by
      have h4 : idx < 3 := by omega
      interval_cases idx <;> decide)).1

/-! ## The cap on the length of a string -/

theorem marshallString_eq_step (th : writer) (data : List byte) :
    marshallString th data = (match marshallString_step th data with
      | (th', .ok _) => .ok th'
      | (_, .error e) => .error e) := by
  unfold marshallString marshallString_step
  by_cases h : data.length > 32767
  · simp only [h, if_true]
  · simp only [h, if_false]

/-- C23: `marshallString` dies exactly when the string is longer than 32767
bytes, and then the stream is as it was before the call; on every shorter
string it succeeds, having written the 2-byte length and the bytes. -/
theorem marshallString_dies_iff (th : writer) (data : List byte) :
    ((∃ e, marshallString th data = .error e) ↔ 32767 < data.length) ∧
    (32767 < data.length →
      marshallString th data = .error (error.die "trying to marshall too long a string") ∧
      marshallString_step th data
        = (th, .error (error.die "trying to marshall too long a string"))) ∧
    (data.length ≤ 32767 →
      marshallString th data
        = .ok ((marshallShort th (int16_of data.length)).write data) ∧
      marshallString_step th data
        = ((marshallShort th (int16_of data.length)).write data, .ok ())) := by
  have hlong : 32767 < data.length →
      marshallString th data = .error (error.die "trying to marshall too long a string") ∧
      marshallString_step th data
        = (th, .error (error.die "trying to marshall too long a string")) := by
    intro h
    have h' : data.length > 32767 := h
    unfold marshallString marshallString_step
    simp only [h', if_true, and_self]
  have hshort : data.length ≤ 32767 →
      marshallString th data
        = .ok ((marshallShort th (int16_of data.length)).write data) ∧
      marshallString_step th data
        = ((marshallShort th (int16_of data.length)).write data, .ok ()) := by
    intro h
    have h' : ¬ data.length > 32767 := by omega
    unfold marshallString marshallString_step
    simp only [h', if_false, List.take_length, and_self]
  refine ⟨⟨fun ⟨e, he⟩ => ?_, fun h => ⟨_, (hlong h).1⟩⟩, hlong, hshort⟩
  by_contra hc
  rw [(hshort (by omega)).1] at he
  exact Except.noConfusion he

/-! ## The absent monster -/

theorem output_marshallShort (x : Int) :
    output (fun t => marshallShort t x) = [toByte (bits32 x / 256), toByte (bits32 x)] := by
  simp only [output]
  rw [marshallShort_bytes _ _ rfl]
  rfl

/-- C24: a monster that is not alive is written as the two bytes of
`MONS_NO_MONSTER` and nothing else; `unmarshallMonster`, on a stream that starts
with these two bytes, consumes exactly them and returns the monster as `reset()`
leaves it, with the type `MONS_NO_MONSTER`, whatever the statements that read
the fields of a live monster would do; that monster is not alive as soon as
`alive()` is false on the type `MONS_NO_MONSTER`. -/
theorem absent_monster_is_the_sentinel {F : Type} (c : monster_members F) (m m0 : monster F)
    (h1 : -32768 ≤ c.MONS_NO_MONSTER) (h2 : c.MONS_NO_MONSTER ≤ 32767)
    (hdead : c.alive m = false) :
    (∀ w : writer, w.failed = false →
      marshallMonster c w m
        = .ok ⟨w.pbuf ++ output (fun t => marshallShort t c.MONS_NO_MONSTER), false⟩) ∧
    (output (fun t => marshallShort t c.MONS_NO_MONSTER)).length = 2 ∧
    (∀ (th : reader) (rest : List byte),
      th.remaining = output (fun t => marshallShort t c.MONS_NO_MONSTER) ++ rest →
      unmarshallMonster c th m0
        = .ok ({ c.reset m0 with type := c.MONS_NO_MONSTER }, th.skip 2) ∧
      (th.skip 2).remaining = rest) ∧
    ((∀ m' : monster F, m'.type = c.MONS_NO_MONSTER → c.alive m' = false) →
      c.alive { c.reset m0 with type := c.MONS_NO_MONSTER } = false) := by
  refine ⟨fun w hw => ?_, ?_, fun th rest hrem => ?_, fun h => h _ rfl⟩
  · unfold marshallMonster
    rw [hdead, output_marshallShort, marshallShort_bytes _ _ hw]
    rfl
  · rw [output_marshallShort]; rfl
  · obtain ⟨r1, r2⟩ := (round_trips_short c.MONS_NO_MONSTER h1 h2).2 th rest hrem
    have hlen : (output (fun t => marshallShort t c.MONS_NO_MONSTER)).length = 2 := by
      rw [output_marshallShort]; rfl
    rw [hlen] at r1 r2
    refine ⟨?_, r2⟩
    unfold unmarshallMonster unmarshallMonType
    simp only [r1, bind, Except.bind, pure, Except.pure, ite_self, if_true]

/-- Witness of C24 on monsters that have a type only. -/
theorem absent_monster_is_the_sentinel_witness :
    marshallMonster monsters_of_type_only writer.on_empty_buffer ⟨1000, ()⟩
      = .ok ⟨[3, 232], false⟩ ∧
    unmarshallMonster monsters_of_type_only (reader.mk [3, 232, 9] 0 0 false false) ⟨5, ()⟩
      = .ok (⟨1000, ()⟩, reader.mk [3, 232, 9] 2 0 false false) :=
  have h := absent_monster_is_the_sentinel monsters_of_type_only ⟨1000, ()⟩ ⟨5, ()⟩
    (by decide) (by decide) (by decide)
  ⟨h.1 writer.on_empty_buffer rfl, (h.2.2.1 (reader.mk [3, 232, 9] 0 0 false false) [9] rfl).1⟩

/-! ## Items that are not valid -/

/-- An item that is not unassigned and not valid is written as its `base_type`
byte alone. -/
theorem marshallItem_of_invalid {L P : Type} (c : item_members L P) (item : item_def L P)
    (iinfo : Bool) (w : writer) (hw : w.failed = false)
    (h1 : item.base_type ≠ c.OBJ_UNASSIGNED) (h2 : c.is_valid item iinfo = false) :
    marshallItem c w item iinfo = .ok ⟨w.pbuf ++ [toByte (bits8 item.base_type)], false⟩ := by
  unfold marshallItem
  simp only [h1, h2, if_false, Bool.not_false, if_true]
  rw [marshallByte_ok _ _ hw]

/-- The decoder has no such case: behind a `base_type` that is not
`OBJ_UNASSIGNED` it goes on to read the `sub_type`. -/
theorem unmarshallItem_of_assigned {L P : Type} (c : item_members L P) (item : item_def L P)
    (th : reader) (b : byte) (h1 : int8_of b.val ≠ c.OBJ_UNASSIGNED)
    (hrem : th.remaining = [b]) :
    unmarshallItem c th item = .error (_short_read th.need_save th.safe_read) := by
  obtain ⟨r1, r2⟩ := readByte_of_remaining th b [] hrem
  have hlen := remaining_length th
  rw [hrem] at hlen
  have r3 : (th.skip 1).readByte = .error (_short_read th.need_save th.safe_read) := by
    unfold reader.readByte
    have : (th.skip 1).read_offset ≥ (th.skip 1).pbuf.length := by
      simp only [reader.skip, List.length_singleton] at hlen ⊢
      omega
    rw [dif_pos this]
    rfl
  unfold unmarshallItem
  simp only [unmarshallByte, unmarshallUByte, r1, r3, bind, Except.bind, pure, Except.pure, h1,
    if_false]

/-- C25, what the code does: a weapon of quantity 0, which is not valid, is
written as the single byte of its `base_type`, and a valid weapon behind it as
32 bytes; `unmarshallItem` on the byte of the first, alone, runs out of bytes,
and on the bytes of the two it consumes 32 bytes, 31 of them of the second
item, whose quantity byte ends up in the field `rnd` of the first. -/
theorem invalid_item_is_not_read_back :
    item_bytes items_of_plain_fields (weapon_of_quantity 0) = [0] ∧
    (item_bytes items_of_plain_fields (weapon_of_quantity 1)).length = 32 ∧
    (unmarshallItem items_of_plain_fields (reader.mk [0] 0 0 true false)
        (weapon_of_quantity 0)).map (fun r => r.2.read_offset)
      = .error error.short_read_exception ∧
    (unmarshallItem items_of_plain_fields
        (reader.mk (item_bytes items_of_plain_fields (weapon_of_quantity 0)
          ++ item_bytes items_of_plain_fields (weapon_of_quantity 1)) 0 0 true false)
        (weapon_of_quantity 0)).map (fun r => (r.1.rnd, r.2.read_offset))
      = .ok (1, 32) :=
  ⟨rfl, rfl, rfl, rfl⟩

/-! ## The flags of a map cell -/

/-- What `marshallMapCell` writes for a cell without feature, feature colour,
cloud, item and monster: the width code, then the flags in that width. -/
theorem marshallMapCell_of_flags_only {K MI L P : Type} (c : map_cell_members K MI L P)
    (ci : item_members L P) (w : writer) (cell : map_cell K)
    (hfeat : c.feat cell = c.DNGN_UNSEEN) (hcol : c.feat_colour cell = 0)
    (hcloud : c.cloud cell = c.CLOUD_NONE) (hitem : c.item cell = none)
    (hmon : c.monster cell = c.MONS_NO_MONSTER)
    (htrap : c.feat_is_trap (c.feat cell) = false) :
    marshallMapCell c ci w cell
      = .ok (if cell.flags > 0xffff then marshallInt (marshallUnsigned w 3) (int32_of cell.flags)
          else if cell.flags > 0xff then
            marshallShort (marshallUnsigned w 2) (int16_of cell.flags)
          else if cell.flags ≠ 0 then marshallByte (marshallUnsigned w 1) (int8_of cell.flags)
          else marshallUnsigned w 0) := by
  have hf : marshallMapCell_flags c cell
      = if cell.flags > 0xffff then 3 else if cell.flags > 0xff then 2
        else if cell.flags ≠ 0 then 1 else 0 := by
    unfold marshallMapCell_flags
    simp only [hfeat, hcol, hcloud, hitem, hmon, ne_eq, not_true_eq_false, if_false,
      Option.isSome_none, Bool.false_eq_true, Nat.zero_or]
  by_cases h1 : cell.flags > 0xffff
  · rw [if_pos h1] at hf ⊢
    simp only [marshallMapCell, hf, htrap, hitem]
    rfl
  · by_cases h2 : cell.flags > 0xff
    · rw [if_neg h1, if_pos h2] at hf ⊢
      simp only [marshallMapCell, hf, htrap, hitem]
      rfl
    · by_cases h3 : cell.flags ≠ 0
      · rw [if_neg h1, if_neg h2, if_pos h3] at hf ⊢
        simp only [marshallMapCell, hf, htrap, hitem]
        rfl
      · rw [if_neg h1, if_neg h2, if_neg h3] at hf ⊢
        simp only [marshallMapCell, hf, htrap, hitem]
        rfl

/-- C26, what the code does: a cell that holds the flags `0x80` and nothing
else is written as the width code 1 and the byte `0x80`, and read back with
the flags `0xFFFFFF80`; a cell that holds the flags `0x8000` is written as the
width code 2 and the bytes `0x80 0x00`, and read back with the flags
`0xFFFF8000`. -/
theorem map_cell_flags_are_sign_extended :
    flags_cell_bytes 0x80 = [1, 0x80] ∧
    flags_cell_read [1, 0x80] = .ok (0xFFFFFF80, 2) ∧
    flags_cell_bytes 0x8000 = [2, 0x80, 0x00] ∧
    flags_cell_read [2, 0x80, 0x00] = .ok (0xFFFF8000, 3) := by
  refine ⟨?_, rfl, ?_, rfl⟩
  · unfold flags_cell_bytes
    rw [marshallMapCell_of_flags_only _ _ _ _ rfl rfl rfl rfl rfl rfl]
    simp only [gt_iff_lt, Nat.reduceLT, if_false, ne_eq, Nat.reduceEqDiff, not_false_eq_true,
      if_true]
    rw [marshallUnsigned_step _ _ rfl]
    rfl
  · unfold flags_cell_bytes
    rw [marshallMapCell_of_flags_only _ _ _ _ rfl rfl rfl rfl rfl rfl]
    simp only [gt_iff_lt, Nat.reduceLT, if_false, ne_eq, Nat.reduceEqDiff, not_false_eq_true,
      if_true]
    rw [marshallUnsigned_step _ _ rfl]
    rfl

/-! ## The end of the level tile section -/

theorem unmarshallShort_of_room (th : reader) (h : th.read_offset + 2 ≤ th.pbuf.length) :
    ∃ v, unmarshallShort th = .ok (v, th.skip 2) := by
  have hlen := remaining_length th
  match hr : th.remaining with
  | [] => rw [hr] at hlen; simp at hlen; omega
  | [b] => rw [hr] at hlen; simp at hlen; omega
  | b1 :: b2 :: rest => exact ⟨_, (unmarshallShort_bytes th b1 b2 rest hr).1⟩

/-- One cell of the tile grid is read whenever 14 bytes are left. -/
theorem tag_read_level_tiles_cell_of_room (th : reader)
    (h : th.read_offset + 14 ≤ th.pbuf.length) :
    ∃ f, tag_read_level_tiles_cell th = .ok (f, th.skip 14) := by
  obtain ⟨v1, e1⟩ := unmarshallShort_of_room th (by omega)
  obtain ⟨v2, e2⟩ := unmarshallShort_of_room (th.skip 2) (by simp only [reader.skip]; omega)
  obtain ⟨v3, e3⟩ := unmarshallShort_of_room (th.skip 4) (by simp only [reader.skip]; omega)
  obtain ⟨v4, e4⟩ := unmarshallShort_of_room (th.skip 6) (by simp only [reader.skip]; omega)
  obtain ⟨v5, e5⟩ := unmarshallShort_of_room (th.skip 8) (by simp only [reader.skip]; omega)
  obtain ⟨v6, e6⟩ := unmarshallShort_of_room (th.skip 10) (by simp only [reader.skip]; omega)
  obtain ⟨v7, e7⟩ := unmarshallShort_of_room (th.skip 12) (by simp only [reader.skip]; omega)
  rw [skip_skip] at e2 e3 e4 e5 e6 e7
  refine ⟨⟨v1, v2, v3, v4, v5, v6, v7⟩, ?_⟩
  unfold tag_read_level_tiles_cell
  simp only [e1, e2, e3, e4, e5, e6, e7, bind, Except.bind, pure, Except.pure]

theorem tag_read_level_tiles_column_of_room (x : Nat) :
    ∀ (n y : Nat) (th : reader) (flv : Nat → Nat → tile_flavour),
      th.read_offset + 14 * n ≤ th.pbuf.length →
      ∃ flv', tag_read_level_tiles_column x n y th flv = .ok (flv', th.skip (14 * n)) := by
  intro n
  induction n with
  | zero => intro y th flv _; exact ⟨flv, rfl⟩
  | succ n ih =>
    intro y th flv h
    obtain ⟨f, e1⟩ := tag_read_level_tiles_cell_of_room th (by omega)
    obtain ⟨flv', e2⟩ := ih (y + 1) (th.skip 14)
      (fun x' y' => if x' = x ∧ y' = y then f else flv x' y')
      (by simp only [reader.skip]; omega)
    rw [skip_skip] at e2
    refine ⟨flv', ?_⟩
    rw [tag_read_level_tiles_column]
    simp only [e1, bind, Except.bind, e2]
    rw [show 14 * (n + 1) = 14 + 14 * n by omega]

theorem tag_read_level_tiles_grid_of_room (gy : Nat) :
    ∀ (n x : Nat) (th : reader) (flv : Nat → Nat → tile_flavour),
      th.read_offset + 14 * gy * n ≤ th.pbuf.length →
      ∃ flv', tag_read_level_tiles_grid gy n x th flv = .ok (flv', th.skip (14 * gy * n)) := by
  intro n
  induction n with
  | zero => intro x th flv _; exact ⟨flv, rfl⟩
  | succ n ih =>
    intro x th flv h
    rw [Nat.mul_succ] at h
    obtain ⟨flv1, e1⟩ := tag_read_level_tiles_column_of_room x gy 0 th flv (by omega)
    obtain ⟨flv', e2⟩ := ih (x + 1) (th.skip (14 * gy)) flv1
      (by simp only [reader.skip]; omega)
    rw [skip_skip] at e2
    refine ⟨flv', ?_⟩
    rw [tag_read_level_tiles_grid]
    simp only [e1, bind, Except.bind, e2]
    rw [Nat.mul_succ, Nat.add_comm]

/-- The tile names as the encoder writes them: each a 2-byte length and the
bytes. -/
theorem marshall_tile_names (names : List (List byte)) :
    ∀ w : writer, w.failed = false → (∀ s ∈ names, s.length ≤ 32767) →
      names.foldlM (fun th name => marshallString th name) w
        = .ok ⟨w.pbuf ++ names.flatMap
            (fun s => toByte (s.length / 256) :: toByte s.length :: s), false⟩ := by
  induction names with
  | nil => intro w hw _; cases w; simp_all [pure, Except.pure]
  | cons s names ih =>
    intro w hw h
    rw [List.foldlM_cons, (string2_round_trip s (h s (List.mem_cons_self _ _))).1 w hw]
    simp only [bind, Except.bind]
    rw [ih _ rfl (fun t ht => h t (List.mem_cons_of_mem _ ht))]
    simp

theorem unmarshall_tile_names :
    ∀ (names vec : List (List byte)) (th : reader) (rest : List byte),
      (∀ s ∈ names, s.length ≤ 32767) →
      th.remaining
        = names.flatMap (fun s => toByte (s.length / 256) :: toByte s.length :: s) ++ rest →
      unmarshall_vector_loop unmarshallString names.length th vec
        = .ok (vec ++ names, th.skip (names.flatMap
            (fun s => toByte (s.length / 256) :: toByte s.length :: s)).length) ∧
      (th.skip (names.flatMap
          (fun s => toByte (s.length / 256) :: toByte s.length :: s)).length).remaining
        = rest := by
  intro names
  induction names with
  | nil =>
    intro vec th rest _ h
    have e : th.skip 0 = th := rfl
    simp only [List.flatMap_nil, List.length_nil, List.append_nil, e]
    exact ⟨rfl, by simpa using h⟩
  | cons s names ih =>
    intro vec th rest hs h
    rw [List.flatMap_cons, List.append_assoc] at h
    obtain ⟨r1, h1⟩ := (string2_round_trip s (hs s (List.mem_cons_self _ _))).2 th _ h
    obtain ⟨r2, h2⟩ := ih (vec ++ [s]) _ rest (fun t ht => hs t (List.mem_cons_of_mem _ ht)) h1
    rw [skip_skip] at r2 h2
    have hl : ((s :: names).flatMap
        (fun s => toByte (s.length / 256) :: toByte s.length :: s)).length
        = 2 + s.length + (names.flatMap
            (fun s => toByte (s.length / 256) :: toByte s.length :: s)).length := by
      rw [List.flatMap_cons, List.length_append]
      simp only [List.length_cons]
      omega
    rw [hl]
    refine ⟨?_, h2⟩
    rw [List.length_cons, unmarshall_vector_loop]
    simp only [r1, bind, Except.bind, r2]
    simp

theorem length_flatMap_of_const {α : Type} (f : α → List byte) (k : Nat) :
    ∀ l : List α, (∀ a ∈ l, (f a).length = k) → (l.flatMap f).length = k * l.length := by
  intro l
  induction l with
  | nil => intro _; simp
  | cons a l ih =>
    intro h
    rw [List.flatMap_cons, List.length_append, h a (List.mem_cons_self _ _),
      ih (fun b hb => h b (List.mem_cons_of_mem _ hb)), List.length_cons, Nat.mul_succ]
    omega

theorem tag_construct_level_tiles_cell_appends (f : tile_flavour) :
    appends tag_construct_level_tiles_cell f ∧
    (output (fun t => tag_construct_level_tiles_cell t f)).length = 14 := by
  have key : ∀ w : writer, w.failed = false →
      tag_construct_level_tiles_cell w f
        = ⟨w.pbuf ++ [toByte (bits32 f.wall_idx / 256), toByte (bits32 f.wall_idx),
            toByte (bits32 f.floor_idx / 256), toByte (bits32 f.floor_idx),
            toByte (bits32 f.feat_idx / 256), toByte (bits32 f.feat_idx),
            toByte (bits32 f.wall / 256), toByte (bits32 f.wall),
            toByte (bits32 f.floor / 256), toByte (bits32 f.floor),
            toByte (bits32 f.feat / 256), toByte (bits32 f.feat),
            toByte (bits32 f.special / 256), toByte (bits32 f.special)], false⟩ := by
    intro w hw
    unfold tag_construct_level_tiles_cell
    simp only []
    rw [marshallShort_bytes _ _ hw, marshallShort_bytes _ _ rfl, marshallShort_bytes _ _ rfl,
      marshallShort_bytes _ _ rfl, marshallShort_bytes _ _ rfl, marshallShort_bytes _ _ rfl,
      marshallShort_bytes _ _ rfl]
    simp
  have hout : output (fun t => tag_construct_level_tiles_cell t f)
      = [toByte (bits32 f.wall_idx / 256), toByte (bits32 f.wall_idx),
            toByte (bits32 f.floor_idx / 256), toByte (bits32 f.floor_idx),
            toByte (bits32 f.feat_idx / 256), toByte (bits32 f.feat_idx),
            toByte (bits32 f.wall / 256), toByte (bits32 f.wall),
            toByte (bits32 f.floor / 256), toByte (bits32 f.floor),
            toByte (bits32 f.feat / 256), toByte (bits32 f.feat),
            toByte (bits32 f.special / 256), toByte (bits32 f.special)] := by
    simp only [output]
    rw [key _ rfl]
    rfl
  refine ⟨fun w hw => ?_, by rw [hout]; rfl⟩
  rw [hout, key w hw]

/-- The grid as the encoder writes it: 14 bytes a cell. -/
theorem tag_construct_level_tiles_grid (GXM GYM : Nat) (flv : Nat → Nat → tile_flavour) :
    ((List.range GXM).flatMap (fun x => output (fun t =>
        (List.range GYM).foldl
          (fun th count_y => tag_construct_level_tiles_cell th (flv x count_y)) t))).length
      = 14 * GYM * GXM ∧
    ∀ w : writer, w.failed = false →
      (List.range GXM).foldl
        (fun th count_x => (List.range GYM).foldl
          (fun th count_y => tag_construct_level_tiles_cell th (flv count_x count_y)) th) w
        = ⟨w.pbuf ++ (List.range GXM).flatMap (fun x => output (fun t =>
            (List.range GYM).foldl
              (fun th count_y => tag_construct_level_tiles_cell th (flv x count_y)) t)),
            false⟩ := by
  have hcol : ∀ (x : Nat) (t : writer), t.failed = false →
      (List.range GYM).foldl
          (fun th count_y => tag_construct_level_tiles_cell th (flv x count_y)) t
        = ⟨t.pbuf ++ (List.range GYM).flatMap
            (fun y => output (fun t => tag_construct_level_tiles_cell t (flv x y))), false⟩ := by
    intro x t ht
    exact foldl_appends (fun th y => tag_construct_level_tiles_cell th (flv x y))
      (List.range GYM) t ht (fun y _ => (tag_construct_level_tiles_cell_appends (flv x y)).1)
  have hcollen : ∀ x : Nat, ((List.range GYM).flatMap
      (fun y => output (fun t => tag_construct_level_tiles_cell t (flv x y)))).length
        = 14 * GYM := by
    intro x
    rw [length_flatMap_of_const _ 14 _
      (fun y _ => (tag_construct_level_tiles_cell_appends (flv x y)).2), List.length_range]
  have hrow : ∀ x : Nat, appends
      (fun th count_x => (List.range GYM).foldl
        (fun th count_y => tag_construct_level_tiles_cell th (flv count_x count_y)) th) x := by
    intro x t ht
    simp only [output]
    rw [hcol x t ht, hcol x _ rfl]
    simp [writer.on_empty_buffer]
  have hout : ∀ x : Nat, output (fun t => (List.range GYM).foldl
        (fun th count_y => tag_construct_level_tiles_cell th (flv x count_y)) t)
      = (List.range GYM).flatMap
          (fun y => output (fun t => tag_construct_level_tiles_cell t (flv x y))) := by
    intro x
    conv_lhs => simp only [output]
    rw [hcol x _ rfl]
    simp [writer.on_empty_buffer]
  refine ⟨?_, fun w hw => foldl_appends _ (List.range GXM) w hw (fun x _ => hrow x)⟩
  rw [length_flatMap_of_const _ (14 * GYM) _ (fun x _ => by rw [hout x, hcollen x]),
    List.length_range]
theorem output_marshallInt (x : Int) :
    output (fun t => marshallInt t x)
      = [toByte (bits32 x / 16777216), toByte (bits32 x / 65536),
          toByte (bits32 x / 256), toByte (bits32 x)] := by
  simp only [output]
  rw [marshallInt_bytes _ _ rfl]
  rfl

/-- The 2-byte form of a value that fits is read back as that value. -/
theorem unmarshallShort_of_value (x : Int) (h1 : -32768 ≤ x) (h2 : x ≤ 32767) (th : reader)
    (rest : List byte)
    (h : th.remaining = toByte (bits32 x / 256) :: toByte (bits32 x) :: rest) :
    unmarshallShort th = .ok (x, th.skip 2) ∧ (th.skip 2).remaining = rest := by
  obtain ⟨r1, r2⟩ := unmarshallShort_bytes th _ _ rest h
  refine ⟨?_, r2⟩
  rw [r1]
  have e : int16_of (((toByte (bits32 x / 256)).val * 256 + (toByte (bits32 x)).val : Nat) : Int)
      = x := by
    rw [toByte_val, toByte_val]
    unfold int16_of bits32
    omega
  rw [e]

/-- The level tile section, whatever the tiles: the decoder reads all that the
encoder wrote but the four bytes of `TILE_WALL_MAX` at the end. -/
theorem level_tiles_section (GXM GYM : Nat) (T : Int) (env : level_tiles)
    (hx : GXM ≤ 32767) (hy : GYM ≤ 32767) (hn : env.tile_names.length ≤ 32767)
    (hs : ∀ s ∈ env.tile_names, s.length ≤ 32767) :
    ∃ B : List byte,
      (∀ w : writer, w.failed = false →
        tag_construct_level_tiles GXM GYM T env w
          = .ok ⟨w.pbuf ++ (B ++ output (fun t => marshallInt t T)), false⟩) ∧
      (output (fun t => marshallInt t T)).length = 4 ∧
      ∀ (p1 p2 p3 : level_tiles → level_tiles) (env0 : level_tiles) (th : reader)
        (rest : List byte),
        th.remaining = B ++ (output (fun t => marshallInt t T) ++ rest) →
        ∃ env', tag_read_level_tiles p1 p2 p3 th env0 = .ok (env', th.skip B.length) ∧
          (th.skip B.length).remaining = output (fun t => marshallInt t T) ++ rest := by
  obtain ⟨hG, hgrid⟩ : ((List.range GXM).flatMap (fun x => output (fun t =>
        (List.range GYM).foldl
          (fun th count_y => tag_construct_level_tiles_cell th (env.tile_flv x count_y)) t))).length
        = 14 * GYM * GXM ∧
      ∀ w : writer, w.failed = false →
        (List.range GXM).foldl
          (fun th count_x => (List.range GYM).foldl
            (fun th count_y => tag_construct_level_tiles_cell th (env.tile_flv count_x count_y))
            th) w
          = ⟨w.pbuf ++ (List.range GXM).flatMap (fun x => output (fun t =>
              (List.range GYM).foldl
                (fun th count_y => tag_construct_level_tiles_cell th (env.tile_flv x count_y))
                t)), false⟩ :=
    tag_construct_level_tiles_grid GXM GYM env.tile_flv
  generalize hGdef : (List.range GXM).flatMap (fun x => output (fun t =>
        (List.range GYM).foldl
          (fun th count_y => tag_construct_level_tiles_cell th (env.tile_flv x count_y)) t))
      = G at hG hgrid
  have hcount : int16_of (env.tile_names.length : Int) = (env.tile_names.length : Int) := by
    unfold int16_of; omega
  generalize hNdef : env.tile_names.flatMap
      (fun s => toByte (s.length / 256) :: toByte s.length :: s) = NB
  refine ⟨[toByte (bits32 GXM / 256), toByte (bits32 GXM),
      toByte (bits32 GYM / 256), toByte (bits32 GYM),
      toByte (bits32 env.tile_names.length / 256), toByte (bits32 env.tile_names.length)]
      ++ (NB ++ ([toByte (bits32 env.tile_default.wall_idx / 256),
        toByte (bits32 env.tile_default.wall_idx),
        toByte (bits32 env.tile_default.floor_idx / 256),
        toByte (bits32 env.tile_default.floor_idx),
        toByte (bits32 env.tile_default.wall / 256), toByte (bits32 env.tile_default.wall),
        toByte (bits32 env.tile_default.floor / 256), toByte (bits32 env.tile_default.floor),
        toByte (bits32 env.tile_default.special / 256),
        toByte (bits32 env.tile_default.special)] ++ G)), fun w hw => ?_,
      by rw [output_marshallInt]; rfl, fun p1 p2 p3 env0 th rest hrem => ?_⟩
  · simp only [tag_construct_level_tiles]
    rw [hcount, marshallShort_bytes _ _ hw, marshallShort_bytes _ _ rfl,
      marshallShort_bytes _ _ rfl, marshall_tile_names _ _ rfl hs, hNdef]
    simp only [bind, Except.bind, pure, Except.pure]
    rw [marshallShort_bytes _ _ rfl, marshallShort_bytes _ _ rfl, marshallShort_bytes _ _ rfl,
      marshallShort_bytes _ _ rfl, marshallShort_bytes _ _ rfl, hgrid _ rfl,
      marshallInt_bytes _ _ rfl, output_marshallInt]
    simp
  · simp only [List.cons_append, List.nil_append, List.append_assoc] at hrem
    obtain ⟨r1, m1⟩ := unmarshallShort_of_value (GXM : Int) (by omega) (by omega) th _ hrem
    obtain ⟨r2, m2⟩ := unmarshallShort_of_value (GYM : Int) (by omega) (by omega) _ _ m1
    simp only [skip_skip, Nat.reduceAdd] at r2 m2
    obtain ⟨r3, m3⟩ := unmarshallShort_of_value (env.tile_names.length : Int)
      (by omega) (by omega) _ _ m2
    simp only [skip_skip, Nat.reduceAdd] at r3 m3
    rw [← hNdef] at m3
    obtain ⟨r4, m4⟩ := unmarshall_tile_names env.tile_names [] _ _ hs m3
    simp only [hNdef, skip_skip, List.nil_append] at r4 m4
    have hroom := remaining_length (th.skip (6 + NB.length))
    rw [m4] at hroom
    simp only [List.length_append, List.length_cons, List.length_nil, output_marshallInt,
      hG, reader.skip] at hroom
    obtain ⟨v1, e1⟩ := unmarshallShort_of_room (th.skip (6 + NB.length))
      (by simp only [reader.skip]; omega)
    obtain ⟨v2, e2⟩ := unmarshallShort_of_room (th.skip (6 + NB.length + 2))
      (by simp only [reader.skip]; omega)
    obtain ⟨v3, e3⟩ := unmarshallShort_of_room (th.skip (6 + NB.length + 2 + 2))
      (by simp only [reader.skip]; omega)
    obtain ⟨v4, e4⟩ := unmarshallShort_of_room (th.skip (6 + NB.length + 2 + 2 + 2))
      (by simp only [reader.skip]; omega)
    obtain ⟨v5, e5⟩ := unmarshallShort_of_room (th.skip (6 + NB.length + 2 + 2 + 2 + 2))
      (by simp only [reader.skip]; omega)
    obtain ⟨flv', e6⟩ := tag_read_level_tiles_grid_of_room GYM GXM 0
      (th.skip (6 + NB.length + 2 + 2 + 2 + 2 + 2)) env0.tile_flv
      (by simp only [reader.skip]; omega)
    simp only [skip_skip] at e1 e2 e3 e4 e5 e6
    have hB : ([toByte (bits32 GXM / 256), toByte (bits32 GXM),
      toByte (bits32 GYM / 256), toByte (bits32 GYM),
      toByte (bits32 env.tile_names.length / 256), toByte (bits32 env.tile_names.length)]
      ++ (NB ++ ([toByte (bits32 env.tile_default.wall_idx / 256),
        toByte (bits32 env.tile_default.wall_idx),
        toByte (bits32 env.tile_default.floor_idx / 256),
        toByte (bits32 env.tile_default.floor_idx),
        toByte (bits32 env.tile_default.wall / 256), toByte (bits32 env.tile_default.wall),
        toByte (bits32 env.tile_default.floor / 256), toByte (bits32 env.tile_default.floor),
        toByte (bits32 env.tile_default.special / 256),
        toByte (bits32 env.tile_default.special)] ++ G))).length
        = 6 + NB.length + 2 + 2 + 2 + 2 + 2 + 14 * GYM * GXM := by
      simp only [List.length_append, List.length_cons, List.length_nil, hG]
      omega
    rw [hB]
    have hn32 : bits32 (env.tile_names.length : Int) = env.tile_names.length := by
      unfold bits32; omega
    refine ⟨p3 (p2 (p1 ⟨env.tile_names,
      { env0.tile_default with
        wall_idx := v1, floor_idx := v2, wall := v3, floor := v4, special := v5 },
      flv'⟩)), ?_, ?_⟩
    · unfold tag_read_level_tiles
      simp only [r1, r2, r3, hn32, r4, e1, e2, e3, e4, e5, bind, Except.bind, pure, Except.pure,
        Int.toNat_ofNat, e6]
    · rw [show 6 + NB.length + 2 + 2 + 2 + 2 + 2 + 14 * GYM * GXM
          = (6 + NB.length) + (10 + 14 * GYM * GXM) by omega, ← skip_skip,
        remaining_skip, m4]
      have e : ∀ (a1 a2 a3 a4 a5 a6 a7 a8 a9 a10 : byte) (tl : List byte),
          (a1 :: a2 :: a3 :: a4 :: a5 :: a6 :: a7 :: a8 :: a9 :: a10 :: (G ++ tl)).drop
            (10 + 14 * GYM * GXM) = tl := by
        intro a1 a2 a3 a4 a5 a6 a7 a8 a9 a10 tl
        have : a1 :: a2 :: a3 :: a4 :: a5 :: a6 :: a7 :: a8 :: a9 :: a10 :: (G ++ tl)
            = ([a1, a2, a3, a4, a5, a6, a7, a8, a9, a10] ++ G) ++ tl := by simp
        rw [this]
        apply List.drop_left'
        simp only [List.length_append, List.length_cons, List.length_nil, hG]
      exact e _ _ _ _ _ _ _ _ _ _ _
theorem level_tiles_of_zeros_names :
    level_tiles_of_zeros.tile_names.length ≤ 32767 ∧
    ∀ s ∈ level_tiles_of_zeros.tile_names, s.length ≤ 32767 :=
  ⟨Nat.zero_le _, fun s hs => by cases hs⟩

theorem output_marshallInt_1500 : output (fun t => marshallInt t 1500) = [0, 0, 5, 220] := by
  rw [output_marshallInt]; decide

/-- C27, what the code does: on the 80 by 70 grid, with no tile names and every
flavour 0, the section `tag_construct_level_tiles` writes is some bytes `B`
and then the four bytes of `TILE_WALL_MAX` (here 1500), and
`tag_read_level_tiles` on that section returns behind `B`, with exactly these
four bytes unread. -/
theorem level_tiles_end_is_not_read :
    ∃ (B : List byte) (env' : level_tiles),
      tag_construct_level_tiles 80 70 1500 level_tiles_of_zeros writer.on_empty_buffer
        = .ok ⟨B ++ [0, 0, 5, 220], false⟩ ∧
      tag_read_level_tiles id id id (reader.mk (B ++ [0, 0, 5, 220]) 0 0 false false)
          level_tiles_of_zeros
        = .ok (env', (reader.mk (B ++ [0, 0, 5, 220]) 0 0 false false).skip B.length) ∧
      ((reader.mk (B ++ [0, 0, 5, 220]) 0 0 false false).skip B.length).remaining
        = [0, 0, 5, 220] := by
  obtain ⟨B, hB1, _, hB3⟩ := level_tiles_section 80 70 1500 level_tiles_of_zeros
    (by decide) (by decide) level_tiles_of_zeros_names.1 level_tiles_of_zeros_names.2
  rw [output_marshallInt_1500] at hB1 hB3
  obtain ⟨env', h1, h2⟩ := hB3 id id id level_tiles_of_zeros
    (reader.mk (B ++ [0, 0, 5, 220]) 0 0 false false) []
    (by rw [remaining_at_start]; simp)
  exact ⟨B, env', hB1 writer.on_empty_buffer rfl, h1, by simpa using h2⟩

/-! ## The count of a ghost list -/

/-- What the loop that collects the records returns, when it returns. -/
theorem unmarshall_vector_loop_ok {G : Type} (um : reader → Except error (G × reader)) :
    ∀ (n : Nat) (th th' : reader) (vec out : List G),
      unmarshall_vector_loop um n th vec = .ok (out, th') ↔
        ∃ gs, out = vec ++ gs ∧ gs.length = n ∧ reads_in_order um th gs th' := by
  intro n
  induction n with
  | zero =>
    intro th th' vec out
    simp only [unmarshall_vector_loop, pure, Except.pure]
    constructor
    · intro h
      injection h with h
      injection h with h1 h2
      exact ⟨[], by rw [List.append_nil, h1], rfl, h2.symm⟩
    · rintro ⟨gs, h1, h2, h3⟩
      have : gs = [] := List.eq_nil_of_length_eq_zero h2
      subst this
      simp only [reads_in_order] at h3
      rw [h1, h3, List.append_nil]
  | succ n ih =>
    intro th th' vec out
    rw [unmarshall_vector_loop]
    cases hum : um th with
    | error e =>
      simp only [bind, Except.bind]
      constructor
      · intro h; exact Except.noConfusion h
      · rintro ⟨gs, _, h2, h3⟩
        cases gs with
        | nil => simp at h2
        | cons g gs =>
          obtain ⟨th1, h4, _⟩ := h3
          rw [hum] at h4
          exact Except.noConfusion h4
    | ok r =>
      obtain ⟨g, th1⟩ := r
      simp only [bind, Except.bind]
      rw [ih th1 th' (vec ++ [g]) out]
      constructor
      · rintro ⟨gs, h1, h2, h3⟩
        exact ⟨g :: gs, by rw [h1, List.append_assoc]; rfl, by rw [List.length_cons, h2],
          th1, hum, h3⟩
      · rintro ⟨gs, h1, h2, h3⟩
        cases gs with
        | nil => simp at h2
        | cons g' gs =>
          obtain ⟨th1', h4, h5⟩ := h3
          rw [hum] at h4
          injection h4 with h4
          injection h4 with h6 h7
          subst h6 h7
          exact ⟨gs, by rw [h1, List.append_assoc]; rfl, by simpa using h2, h5⟩

/-- The loop that collects the records never raises `corrupted_save` when the
record decoder does not. -/
theorem unmarshall_vector_loop_not_corrupted {G : Type}
    (um : reader → Except error (G × reader))
    (hum : ∀ th msg, um th ≠ .error (error.corrupted_save msg)) :
    ∀ (n : Nat) (th : reader) (vec : List G) (msg : String),
      unmarshall_vector_loop um n th vec ≠ .error (error.corrupted_save msg) := by
  intro n
  induction n with
  | zero =>
    intro th vec msg h
    simp only [unmarshall_vector_loop, pure, Except.pure] at h
    exact Except.noConfusion h
  | succ n ih =>
    intro th vec msg h
    rw [unmarshall_vector_loop] at h
    cases hu : um th with
    | error e =>
      rw [hu] at h
      simp only [bind, Except.bind] at h
      injection h with h
      exact hum th msg (by rw [hu, h])
    | ok r =>
      obtain ⟨g, th1⟩ := r
      rw [hu] at h
      simp only [bind, Except.bind] at h
      exact ih th1 _ msg h

theorem foldlM_only_appends {G : Type} (m : writer → G → Except error writer)
    (hm : only_appends m) :
    ∀ (ghosts : List G) (w w' : writer), w.failed = false →
      ghosts.foldlM (fun th ghost => m th ghost) w = .ok w' →
      w'.failed = false ∧ ∃ bs, w'.pbuf = w.pbuf ++ bs := by
  intro ghosts
  induction ghosts with
  | nil =>
    intro w w' hw h
    simp only [List.foldlM_nil, pure, Except.pure] at h
    injection h with h
    subst h
    exact ⟨hw, [], by simp⟩
  | cons g ghosts ih =>
    intro w w' hw h
    rw [List.foldlM_cons] at h
    cases hg : m w g with
    | error e =>
      rw [hg] at h
      simp only [bind, Except.bind] at h
      exact Except.noConfusion h
    | ok w1 =>
      rw [hg] at h
      simp only [bind, Except.bind] at h
      obtain ⟨f1, bs1, e1⟩ := hm w w1 g hw hg
      obtain ⟨f2, bs2, e2⟩ := ih w1 w' f1 h
      exact ⟨f2, bs1 ++ bs2, by rw [e2, e1, List.append_assoc]⟩

/-- What `tag_read_ghost` does behind the count. -/
theorem tag_read_ghost_of_count {G : Type} (MAX_GHOSTS : Int)
    (um : reader → Except error (G × reader)) (th th1 : reader) (n : Int)
    (h : unmarshallShort th = .ok (n, th1)) :
    tag_read_ghost MAX_GHOSTS um th
      = if n < 1 ∨ n > MAX_GHOSTS then
          .error (error.corrupted_save
            ("Bones file has an invalid ghost count (" ++ toString n ++ ")"))
        else unmarshall_vector_loop um n.toNat th1 [] := by
  unfold tag_read_ghost
  simp only [h, bind, Except.bind]
  split <;> rfl

theorem readByte_not_corrupted (th : reader) (msg : String) :
    th.readByte ≠ .error (error.corrupted_save msg) := by
  intro h
  unfold reader.readByte at h
  by_cases hc : th.read_offset ≥ th.pbuf.length
  · rw [dif_pos hc] at h
    injection h with h
    unfold _short_read at h
    split at h <;> exact error.noConfusion h
  · rw [dif_neg hc] at h; exact Except.noConfusion h

theorem unmarshallShort_not_corrupted (th : reader) (msg : String) :
    unmarshallShort th ≠ .error (error.corrupted_save msg) := by
  intro h
  unfold unmarshallShort at h
  cases h1 : th.readByte with
  | error e =>
    rw [h1] at h
    simp only [bind, Except.bind] at h
    injection h with h
    exact readByte_not_corrupted th msg (by rw [h1, h])
  | ok r1 =>
    obtain ⟨b1, t1⟩ := r1
    rw [h1] at h
    simp only [bind, Except.bind] at h
    cases h2 : t1.readByte with
    | error e =>
      rw [h2] at h
      simp only at h
      injection h with h
      exact readByte_not_corrupted t1 msg (by rw [h2, h])
    | ok r2 =>
      rw [h2] at h
      simp only [pure, Except.pure] at h
      exact Except.noConfusion h

/-- C28, as amended: `tag_read_ghost` fails with a corrupted-save error exactly
when the 2-byte ghost count it reads is below 1 or above `MAX_GHOSTS`;
otherwise it returns exactly when that many records can be read one after
another, and then returns these records in stream order. Consequently a list of
at most 65536 ghosts written by `tag_construct_ghost` is readable only when it
holds between 1 and `MAX_GHOSTS` ghosts. The record decoder `um` is one that
never raises the corrupted-save error itself, the record encoder `m` one that
only appends. -/
theorem ghost_count_is_checked {G : Type} (MAX_GHOSTS : Int)
    (um : reader → Except error (G × reader)) (m : writer → G → Except error writer)
    (hum : ∀ th msg, um th ≠ .error (error.corrupted_save msg)) (hm : only_appends m) :
    (∀ th : reader,
      (∃ msg, tag_read_ghost MAX_GHOSTS um th = .error (error.corrupted_save msg)) ↔
        ∃ n th1, unmarshallShort th = .ok (n, th1) ∧ (n < 1 ∨ n > MAX_GHOSTS)) ∧
    (∀ (th th1 : reader) (n : Int), unmarshallShort th = .ok (n, th1) →
      1 ≤ n → n ≤ MAX_GHOSTS →
      ∀ (gs : List G) (th' : reader),
        tag_read_ghost MAX_GHOSTS um th = .ok (gs, th') ↔
          gs.length = n.toNat ∧ reads_in_order um th1 gs th') ∧
    (∀ (ghosts : List G) (B rest : List byte) (th th' : reader) (gs : List G),
      ghosts.length ≤ 65536 →
      tag_construct_ghost m writer.on_empty_buffer ghosts = .ok ⟨B, false⟩ →
      th.remaining = B ++ rest →
      tag_read_ghost MAX_GHOSTS um th = .ok (gs, th') →
      1 ≤ ghosts.length ∧ (ghosts.length : Int) ≤ MAX_GHOSTS) := by
  refine ⟨fun th => ⟨fun ⟨msg, h⟩ => ?_, fun ⟨n, th1, h1, h2⟩ => ?_⟩,
    fun th th1 n h1 h2 h3 gs th' => ?_, fun ghosts B rest th th' gs hlen henc hrem hread => ?_⟩
  · cases h1 : unmarshallShort th with
    | error e =>
      exfalso
      have : tag_read_ghost MAX_GHOSTS um th = .error e := by
        unfold tag_read_ghost
        simp only [h1, bind, Except.bind]
      rw [this] at h
      injection h with h
      exact unmarshallShort_not_corrupted th msg (by rw [h1, h])
    | ok r =>
      obtain ⟨n, th1⟩ := r
      refine ⟨n, th1, rfl, ?_⟩
      by_contra hc
      rw [tag_read_ghost_of_count MAX_GHOSTS um th th1 n h1, if_neg hc] at h
      exact unmarshall_vector_loop_not_corrupted um hum _ _ _ msg h
  · exact ⟨_, by rw [tag_read_ghost_of_count MAX_GHOSTS um th th1 n h1, if_pos h2]⟩
  · rw [tag_read_ghost_of_count MAX_GHOSTS um th th1 n h1, if_neg (by omega),
      unmarshall_vector_loop_ok]
    constructor
    · rintro ⟨gs', e1, e2, e3⟩
      rw [List.nil_append] at e1
      subst e1
      exact ⟨e2, e3⟩
    · rintro ⟨e2, e3⟩
      exact ⟨gs, by simp, e2, e3⟩
  · unfold tag_construct_ghost at henc
    rw [marshallShort_bytes _ _ rfl] at henc
    obtain ⟨_, bs, e1⟩ := foldlM_only_appends m hm ghosts _ _ rfl henc
    simp only [writer.on_empty_buffer, List.nil_append, List.cons_append] at e1
    rw [e1] at hrem
    have hr : -32768 ≤ int16_of (ghosts.length : Int) ∧ int16_of (ghosts.length : Int) ≤ 32767 := by
      unfold int16_of; omega
    obtain ⟨r1, _⟩ := unmarshallShort_of_value (int16_of (ghosts.length : Int)) hr.1 hr.2 th
      (bs ++ rest) (by simpa using hrem)
    rw [tag_read_ghost_of_count MAX_GHOSTS um th _ _ r1] at hread
    by_cases hc : int16_of (ghosts.length : Int) < 1 ∨ int16_of (ghosts.length : Int) > MAX_GHOSTS
    · rw [if_pos hc] at hread
      exact Except.noConfusion hread
    · unfold int16_of at hc
      omega

theorem unmarshallByte_not_corrupted (th : reader) (msg : String) :
    unmarshallByte th ≠ .error (error.corrupted_save msg) := by
  intro h
  unfold unmarshallByte at h
  cases h1 : th.readByte with
  | error e =>
    rw [h1] at h
    simp only [bind, Except.bind] at h
    injection h with h
    exact readByte_not_corrupted th msg (by rw [h1, h])
  | ok r1 =>
    rw [h1] at h
    simp only [bind, Except.bind, pure, Except.pure] at h
    exact Except.noConfusion h

theorem marshallByte_only_appends :
    only_appends (fun (w : writer) (g : Int) => Except.ok (marshallByte w g)) := by
  intro w w' g hw h
  injection h with h
  rw [marshallByte_ok _ _ hw] at h
  subst h
  exact ⟨rfl, _, rfl⟩

/-- Witness of C28: the count 0 is refused. -/
theorem ghost_count_is_checked_witness :
    ∃ msg, tag_read_ghost 127 unmarshallByte (reader.mk [0, 0] 0 0 false false)
      = .error (error.corrupted_save msg) :=
  ((ghost_count_is_checked 127 unmarshallByte
      (fun (w : writer) (g : Int) => Except.ok (marshallByte w g))
      unmarshallByte_not_corrupted marshallByte_only_appends).1
    (reader.mk [0, 0] 0 0 false false)).2
    ⟨0, reader.mk [0, 0] 2 0 false false, rfl, Or.inl (by decide)⟩

theorem foldlM_of_codec {G : Type} (m : writer → G → Except error writer)
    (bytes : G → List byte) :
    ∀ (l : List G) (w : writer), w.failed = false →
      (∀ x ∈ l, ∀ w : writer, w.failed = false → m w x = .ok ⟨w.pbuf ++ bytes x, false⟩) →
      l.foldlM (fun th ghost => m th ghost) w = .ok ⟨w.pbuf ++ l.flatMap bytes, false⟩ := by
  intro l
  induction l with
  | nil => intro w hw _; cases w; simp_all [pure, Except.pure]
  | cons x l ih =>
    intro w hw hm
    rw [List.foldlM_cons, hm x (List.mem_cons_self _ _) w hw]
    simp only [bind, Except.bind]
    rw [ih _ rfl (fun y hy => hm y (List.mem_cons_of_mem _ hy))]
    simp

/-- A list of `n + 1 = 65537` ghosts gets the count 1 and is read back as its
first ghost. -/
theorem ghost_list_count_wraps {G : Type} (m : writer → G → Except error writer)
    (um : reader → Except error (G × reader)) (MAX_GHOSTS : Int) (hmax : 1 ≤ MAX_GHOSTS)
    (bytes : G → List byte) (g : G) (gs : List G)
    (hc : ∀ x ∈ g :: gs, codec_pair (bytes x) (fun w => m w x) um x)
    (n : Nat) (hlen : gs.length = n) (hn : n = 65536) :
    ∃ B : List byte,
      tag_construct_ghost m writer.on_empty_buffer (g :: gs) = .ok ⟨B, false⟩ ∧
      (tag_read_ghost MAX_GHOSTS um (reader.mk B 0 0 false false)).map Prod.fst = .ok [g] := by
  have e : int16_of ((g :: gs).length : Int) = 1 := by
    rw [List.length_cons, hlen, hn]
    rfl
  refine ⟨[0, 1] ++ (bytes g ++ (gs.flatMap bytes ++ [])), ?_, ?_⟩
  · unfold tag_construct_ghost
    rw [e, marshallShort_bytes _ _ rfl,
      foldlM_of_codec m bytes _ _ rfl (fun x hx => (hc x hx).1)]
    simp only [writer.on_empty_buffer, List.flatMap_cons, List.nil_append, List.append_nil]
    rfl
  · have hrem := remaining_at_start ([0, 1] ++ (bytes g ++ (gs.flatMap bytes ++ []))) 0
      false false
    obtain ⟨r1, m1⟩ := unmarshallShort_of_value 1 (by decide) (by decide) _
      (bytes g ++ (gs.flatMap bytes ++ []) ++ []) (by rw [hrem]; rfl)
    rw [List.append_assoc] at m1
    obtain ⟨r2, _⟩ := (hc g (List.mem_cons_self _ _)).2 _ _ m1
    rw [tag_read_ghost_of_count MAX_GHOSTS um _ _ _ r1, if_neg (by omega)]
    simp only [Int.toNat_one, unmarshall_vector_loop, r2, bind, Except.bind, pure, Except.pure,
      Except.map, List.nil_append]

theorem codec_pair_of_round_trips {G : Type} (m : writer → G → writer)
    (um : reader → Except error (G × reader)) (x : G) (h : round_trips m um x) :
    codec_pair (output (fun t => m t x)) (fun w => Except.ok (m w x)) um x :=
  ⟨fun w hw => congrArg Except.ok (h.1 w hw), h.2⟩

/-- C28, the claim as stated fails: a list of 65537 ghosts (each written as one
byte, with `MAX_GHOSTS` at 127) is written with the count 1, and
`tag_read_ghost` reads it without an error, as a list of one ghost. -/
theorem ghost_list_of_65537_is_readable :
    ∃ B : List byte,
      tag_construct_ghost (fun (w : writer) (g : Int) => Except.ok (marshallByte w g))
          writer.on_empty_buffer (7 :: List.replicate 65536 7)
        = .ok ⟨B, false⟩ ∧
      (tag_read_ghost 127 unmarshallByte (reader.mk B 0 0 false false)).map Prod.fst
        = .ok [7] :=
  ghost_list_count_wraps (fun (w : writer) (g : Int) => Except.ok (marshallByte w g))
    unmarshallByte 127 (by decide) (fun x => output (fun t => marshallByte t x))
    7 (List.replicate 65536 7)
    (fun x hx => by
      have hx7 : x = 7 := by
        rcases List.mem_cons.mp hx with h | h
        · exact h
        · exact List.eq_of_mem_replicate h
      subst hx7
      exact codec_pair_of_round_trips marshallByte unmarshallByte 7
        (round_trips_byte 7 (by decide) (by decide)))
    65536 (List.length_replicate _ _) rfl

/-! ## Timers the payload does not carry -/

theorem tmod_200_bounds (a : Int) :
    (0 ≤ a → 0 ≤ a.tmod 200 ∧ a.tmod 200 < 200) ∧
    (a < 0 → -200 < a.tmod 200 ∧ a.tmod 200 ≤ 0) := by
  cases a with
  | ofNat m =>
    have e : (Int.ofNat m).tmod 200 = ((m % 200 : Nat) : Int) := rfl
    rw [e]
    constructor
    · intro _; omega
    · intro h; have : (0 : Int) ≤ Int.ofNat m := Int.ofNat_nonneg m; omega
  | negSucc m =>
    have e : (Int.negSucc m).tmod 200 = -(((m + 1) % 200 : Nat) : Int) := rfl
    rw [e]
    constructor
    · intro h; have : Int.negSucc m < 0 := Int.negSucc_lt_zero m; omega
    · intro _; omega

theorem tag_read_you_new_timers_loop_spec (last_20_turns : Int) :
    ∀ (n : Nat) (j : Int) (you : player_timers),
      (∀ k, (tag_read_you_new_timers_loop last_20_turns n j you).last_timer_effect k
        = if j ≤ k ∧ k < j + n then last_20_turns else you.last_timer_effect k) ∧
      (∀ k, (tag_read_you_new_timers_loop last_20_turns n j you).next_timer_effect k
        = if j ≤ k ∧ k < j + n then int32_of (last_20_turns + 200)
          else you.next_timer_effect k) ∧
      (tag_read_you_new_timers_loop last_20_turns n j you).elapsed_time = you.elapsed_time := by
  intro n
  induction n with
  | zero =>
    intro j you
    refine ⟨fun k => ?_, fun k => ?_, rfl⟩
    · rw [tag_read_you_new_timers_loop, if_neg (by omega)]
    · rw [tag_read_you_new_timers_loop, if_neg (by omega)]
  | succ n ih =>
    intro j you
    rw [tag_read_you_new_timers_loop]
    obtain ⟨i1, i2, i3⟩ := ih (j + 1)
      { you with
        last_timer_effect := fun k => if k = j then last_20_turns else you.last_timer_effect k
        next_timer_effect := fun k =>
          if k = j then int32_of (last_20_turns + 200) else you.next_timer_effect k }
    refine ⟨fun k => ?_, fun k => ?_, i3⟩
    · rw [i1 k]
      by_cases h1 : j + 1 ≤ k ∧ k < j + 1 + n
      · rw [if_pos h1, if_pos (by push_cast; omega)]
      · rw [if_neg h1]
        by_cases h2 : k = j
        · simp only [h2, if_true]
          rw [if_pos (by push_cast; omega)]
        · simp only [h2, if_false]
          rw [if_neg (by push_cast; omega)]
    · rw [i2 k]
      by_cases h1 : j + 1 ≤ k ∧ k < j + 1 + n
      · rw [if_pos h1, if_pos (by push_cast; omega)]
      · rw [if_neg h1]
        by_cases h2 : k = j
        · simp only [h2, if_true]
          rw [if_pos (by push_cast; omega)]
        · simp only [h2, if_false]
          rw [if_neg (by push_cast; omega)]

theorem tag_read_you_verify_timers_loop_ok :
    ∀ (n : Nat) (j : Int) (you : player_timers),
      tag_read_you_verify_timers_loop n j you = .ok () ↔
        ∀ k, j ≤ k → k < j + n → you.elapsed_time ≤ you.next_timer_effect k := by
  intro n
  induction n with
  | zero =>
    intro j you
    rw [tag_read_you_verify_timers_loop]
    exact ⟨fun _ k h1 h2 => by omega, fun _ => rfl⟩
  | succ n ih =>
    intro j you
    rw [tag_read_you_verify_timers_loop]
    by_cases hc : you.next_timer_effect j < you.elapsed_time
    · rw [if_pos hc]
      constructor
      · intro h; exact Except.noConfusion h
      · intro h
        have := h j (Int.le_refl _) (by push_cast; omega)
        omega
    · rw [if_neg hc, ih]
      constructor
      · intro h k h1 h2
        by_cases hk : k = j
        · subst hk; omega
        · exact h k (by omega) (by push_cast at h2; omega)
      · intro h k h1 h2
        exact h k (by omega) (by push_cast; omega)

/-- The statements that initialize the new timers, and the check behind them,
on a state whose elapsed time is an `int` at most 2^31 - 1 - 200. -/
theorem tag_read_you_new_timers_spec (NUM_TIMERS timer_count : Int)
    (you : player_timers)
    (h1 : -2147483648 ≤ you.elapsed_time) (h2 : you.elapsed_time ≤ 2147483647 - 200) :
    (∀ j, timer_count ≤ j → j < NUM_TIMERS →
      (tag_read_you_new_timers NUM_TIMERS timer_count you).last_timer_effect j
        = you.elapsed_time - you.elapsed_time.tmod 200 ∧
      (tag_read_you_new_timers NUM_TIMERS timer_count you).next_timer_effect j
        = you.elapsed_time - you.elapsed_time.tmod 200 + 200 ∧
      you.elapsed_time
        ≤ (tag_read_you_new_timers NUM_TIMERS timer_count you).next_timer_effect j) ∧
    (∀ j, j < timer_count →
      (tag_read_you_new_timers NUM_TIMERS timer_count you).last_timer_effect j
        = you.last_timer_effect j ∧
      (tag_read_you_new_timers NUM_TIMERS timer_count you).next_timer_effect j
        = you.next_timer_effect j) ∧
    (tag_read_you_verify_timers_loop NUM_TIMERS.toNat 0
        (tag_read_you_new_timers NUM_TIMERS timer_count you) = .ok () ↔
      ∀ j, 0 ≤ j → j < timer_count → j < NUM_TIMERS →
        you.elapsed_time ≤ you.next_timer_effect j) := by
  obtain ⟨b1, b2⟩ := tmod_200_bounds you.elapsed_time
  have eL : int32_of (you.elapsed_time - you.elapsed_time.tmod 200)
      = you.elapsed_time - you.elapsed_time.tmod 200 := by
    unfold int32_of
    by_cases h0 : 0 ≤ you.elapsed_time
    · have := b1 h0; omega
    · have := b2 (by omega); omega
  have eN : int32_of (you.elapsed_time - you.elapsed_time.tmod 200 + 200)
      = you.elapsed_time - you.elapsed_time.tmod 200 + 200 := by
    unfold int32_of
    by_cases h0 : 0 ≤ you.elapsed_time
    · have := b1 h0; omega
    · have := b2 (by omega); omega
  have hge : you.elapsed_time ≤ you.elapsed_time - you.elapsed_time.tmod 200 + 200 := by
    by_cases h0 : 0 ≤ you.elapsed_time
    · have := b1 h0; omega
    · have := b2 (by omega); omega
  obtain ⟨s1, s2, s3⟩ := tag_read_you_new_timers_loop_spec
    (you.elapsed_time - you.elapsed_time.tmod 200) (NUM_TIMERS - timer_count).toNat
    timer_count you
  have hnew : tag_read_you_new_timers NUM_TIMERS timer_count you
      = tag_read_you_new_timers_loop (you.elapsed_time - you.elapsed_time.tmod 200)
          (NUM_TIMERS - timer_count).toNat timer_count you := by
    unfold tag_read_you_new_timers
    rw [eL]
  rw [hnew]
  rw [eN] at s2
  refine ⟨fun j j1 j2 => ?_, fun j j1 => ?_, ?_⟩
  · rw [s1 j, s2 j, if_pos ⟨j1, by omega⟩, if_pos ⟨j1, by omega⟩]
    exact ⟨rfl, rfl, hge⟩
  · rw [s1 j, s2 j, if_neg (by omega), if_neg (by omega)]
    exact ⟨rfl, rfl⟩
  · rw [tag_read_you_verify_timers_loop_ok, s3]
    constructor
    · intro h j j0 j1 j2
      have := h j (by omega) (by omega)
      rw [s2 j, if_neg (by omega)] at this
      exact this
    · intro h j j0 j1
      rw [s2 j]
      by_cases hb : timer_count ≤ j ∧ j < timer_count + ↑(NUM_TIMERS - timer_count).toNat
      · rw [if_pos hb]; exact hge
      · rw [if_neg hb]
        exact h j (by omega) (by omega) (by omega)

theorem tag_read_you_new_timers_loop_input (last_20_turns : Int) :
    ∀ (n : Nat) (j : Int) (you : player_timers),
      (tag_read_you_new_timers_loop last_20_turns n j you).elapsed_time_at_last_input
        = you.elapsed_time_at_last_input := by
  intro n
  induction n with
  | zero => intro j you; rfl
  | succ n ih =>
    intro j you
    rw [tag_read_you_new_timers_loop, ih]

/-- The loop that reads the timers leaves the timers outside its range as they
were. -/
theorem tag_read_you_timers_loop_frame :
    ∀ (n : Nat) (j : Int) (th th' : reader) (you you' : player_timers),
      tag_read_you_timers_loop n j th you = .ok (you', th') →
      ∀ k, (k < j ∨ j + n ≤ k) →
        you'.last_timer_effect k = you.last_timer_effect k ∧
        you'.next_timer_effect k = you.next_timer_effect k := by
  intro n
  induction n with
  | zero =>
    intro j th th' you you' h k _
    simp only [tag_read_you_timers_loop, pure, Except.pure] at h
    injection h with h
    injection h with h1 _
    rw [← h1]
    exact ⟨rfl, rfl⟩
  | succ n ih =>
    intro j th th' you you' h k hk
    rw [tag_read_you_timers_loop] at h
    simp only [bind, Except.bind] at h
    cases h1 : unmarshallInt th with
    | error e => rw [h1] at h; exact Except.noConfusion h
    | ok r1 =>
      rw [h1] at h
      simp only at h
      cases h2 : unmarshallInt r1.2 with
      | error e => rw [h2] at h; exact Except.noConfusion h
      | ok r2 =>
        rw [h2] at h
        simp only at h
        obtain ⟨i1, i2⟩ := ih (j + 1) _ _ _ _ h k (by push_cast at hk; omega)
        rw [i1, i2]
        have hne : ¬ k = j := by push_cast at hk; omega
        simp only [hne, if_false]
        exact ⟨trivial, trivial⟩

/-- What `tag_read_you_timers` has done when it returns. -/
theorem tag_read_you_timers_ok (NUM_TIMERS : Int) (th th' : reader) (you you' : player_timers)
    (timer_count : Int)
    (h : tag_read_you_timers NUM_TIMERS th you = .ok ((timer_count, you'), th')) :
    timer_count ≤ NUM_TIMERS ∧
    ∀ k, (k < 0 ∨ timer_count ≤ k) →
      you'.last_timer_effect k = you.last_timer_effect k ∧
      you'.next_timer_effect k = you.next_timer_effect k := by
  unfold tag_read_you_timers at h
  simp only [bind, Except.bind] at h
  cases h1 : unmarshallByte th with
  | error e => rw [h1] at h; exact Except.noConfusion h
  | ok r1 =>
    rw [h1] at h
    simp only at h
    by_cases hc : r1.1 ≤ NUM_TIMERS
    · simp only [hc, not_true_eq_false, if_false] at h
      cases h2 : tag_read_you_timers_loop r1.1.toNat 0 r1.2 you with
      | error e => rw [h2] at h; exact Except.noConfusion h
      | ok r2 =>
        rw [h2] at h
        simp only [pure, Except.pure] at h
        injection h with h
        injection h with ha hb
        injection ha with hc1 hc2
        subst hc1
        subst hc2
        refine ⟨hc, fun k hk => ?_⟩
        exact tag_read_you_timers_loop_frame r1.1.toNat 0 r1.2 r2.2 you r2.1 h2 k
          (by omega)
    · simp only [hc, not_false_eq_true, if_true] at h
      exact Except.noConfusion h

/-- C29: in `tag_read_you`, when the statements that read the timers return
the count `timer_count` (which is then at most `NUM_TIMERS`, the timers from
`timer_count` on being untouched so far) and the elapsed time read is at most
2^31 - 1 - 200, the statements from "elapsed time" on set the elapsed time,
backfill every timer `j` with `timer_count ≤ j < NUM_TIMERS` with
`last_timer_effect = elapsed_time - elapsed_time % 200` and
`next_timer_effect` 200 more, which is not before the elapsed time, and leave
the timers below `timer_count` as read; the check for a timer scheduled in the
past passes, and these statements return this state, exactly when the check
passes on the timers the payload carries. -/
theorem backfilled_timers_are_not_in_the_past (NUM_TIMERS : Int) (th0 th1 th2 th3 : reader)
    (you0 you1 : player_timers) (timer_count e : Int)
    (hread : tag_read_you_timers NUM_TIMERS th0 you0 = .ok ((timer_count, you1), th1))
    (he : unmarshallInt th2 = .ok (e, th3))
    (h2 : e ≤ 2147483647 - 200) :
    timer_count ≤ NUM_TIMERS ∧
    (∀ k, (k < 0 ∨ timer_count ≤ k) →
      you1.last_timer_effect k = you0.last_timer_effect k ∧
      you1.next_timer_effect k = you0.next_timer_effect k) ∧
    ∃ you3 : player_timers,
      you3.elapsed_time = e ∧ you3.elapsed_time_at_last_input = e ∧
      (∀ j, timer_count ≤ j → j < NUM_TIMERS →
        you3.last_timer_effect j = e - e.tmod 200 ∧
        you3.next_timer_effect j = e - e.tmod 200 + 200 ∧
        e ≤ you3.next_timer_effect j) ∧
      (∀ j, j < timer_count →
        you3.last_timer_effect j = you1.last_timer_effect j ∧
        you3.next_timer_effect j = you1.next_timer_effect j) ∧
      (tag_read_you_elapsed_time NUM_TIMERS timer_count th2 you1 = .ok (you3, th3) ↔
        ∀ j, 0 ≤ j → j < timer_count → j < NUM_TIMERS → e ≤ you1.next_timer_effect j) ∧
      (∀ r, tag_read_you_elapsed_time NUM_TIMERS timer_count th2 you1 = .ok r →
        r = (you3, th3)) := by
  obtain ⟨hcount, hframe⟩ := tag_read_you_timers_ok NUM_TIMERS th0 th1 you0 you1 timer_count hread
  have h1 : -2147483648 ≤ e := by
    obtain ⟨y, hy⟩ := unmarshallInt_range th2 th3 e he
    rw [hy]; unfold int32_of; omega
  obtain ⟨s1, s2, s3⟩ := tag_read_you_new_timers_spec NUM_TIMERS timer_count
    { you1 with elapsed_time := e, elapsed_time_at_last_input := e } h1 h2
  have hrun : tag_read_you_elapsed_time NUM_TIMERS timer_count th2 you1
      = (match tag_read_you_verify_timers_loop NUM_TIMERS.toNat 0
            (tag_read_you_new_timers NUM_TIMERS timer_count
              { you1 with elapsed_time := e, elapsed_time_at_last_input := e }) with
         | .ok _ => .ok (tag_read_you_new_timers NUM_TIMERS timer_count
              { you1 with elapsed_time := e, elapsed_time_at_last_input := e }, th3)
         | .error err => .error err) := by
    simp only [tag_read_you_elapsed_time, he, bind, Except.bind, pure, Except.pure]
    generalize tag_read_you_verify_timers_loop NUM_TIMERS.toNat 0
      (tag_read_you_new_timers NUM_TIMERS timer_count
        { you1 with elapsed_time := e, elapsed_time_at_last_input := e }) = v
    cases v <;> rfl
  refine ⟨hcount, hframe, tag_read_you_new_timers NUM_TIMERS timer_count
    { you1 with elapsed_time := e, elapsed_time_at_last_input := e }, ?_, ?_, s1, s2, ?_, ?_⟩
  · exact (tag_read_you_new_timers_loop_spec _ _ _ _).2.2
  · exact tag_read_you_new_timers_loop_input _ _ _ _
  · rw [hrun, ← s3]
    cases tag_read_you_verify_timers_loop NUM_TIMERS.toNat 0
        (tag_read_you_new_timers NUM_TIMERS timer_count
          { you1 with elapsed_time := e, elapsed_time_at_last_input := e }) with
    | error err =>
      exact ⟨fun h => Except.noConfusion h, fun h => Except.noConfusion h⟩
    | ok u => exact ⟨fun _ => rfl, fun _ => rfl⟩
  · intro r hr
    rw [hrun] at hr
    cases hv : tag_read_you_verify_timers_loop NUM_TIMERS.toNat 0
        (tag_read_you_new_timers NUM_TIMERS timer_count
          { you1 with elapsed_time := e, elapsed_time_at_last_input := e }) with
    | error err => rw [hv] at hr; exact Except.noConfusion hr
    | ok u =>
      rw [hv] at hr
      injection hr with hr
      exact hr.symm

/-- Witness of C29: of three timers the payload carries one, set to fire at
5000, and the elapsed time read is 1234: the statements from "elapsed time" on
return, and the timer 2 is set to fire at 1400. -/
theorem backfilled_timers_are_not_in_the_past_witness :
    tag_read_you_timers 3 (reader.mk [1, 0, 0, 0, 0, 0, 0, 19, 136] 0 0 false false)
        ⟨fun _ => 0, fun _ => 0, 0, 0⟩
      = .ok ((1, ⟨fun k => if k = 0 then 0 else 0, fun k => if k = 0 then 5000 else 0, 0, 0⟩),
          reader.mk [1, 0, 0, 0, 0, 0, 0, 19, 136] 9 0 false false) ∧
    (tag_read_you_elapsed_time 3 1 (reader.mk [0, 0, 4, 210] 0 0 false false)
        ⟨fun k => if k = 0 then 0 else 0, fun k => if k = 0 then 5000 else 0, 0, 0⟩).map
      (fun r => (r.1.elapsed_time, r.1.next_timer_effect 2, r.2.read_offset))
      = .ok (1234, 1400, 4) := by
  obtain ⟨_, _, you3, e1, _, hb, _, hiff, _⟩ :=
    backfilled_timers_are_not_in_the_past 3
      (reader.mk [1, 0, 0, 0, 0, 0, 0, 19, 136] 0 0 false false)
      (reader.mk [1, 0, 0, 0, 0, 0, 0, 19, 136] 9 0 false false)
      (reader.mk [0, 0, 4, 210] 0 0 false false) (reader.mk [0, 0, 4, 210] 4 0 false false)
      ⟨fun _ => 0, fun _ => 0, 0, 0⟩
      ⟨fun k => if k = 0 then 0 else 0, fun k => if k = 0 then 5000 else 0, 0, 0⟩
      1 1234 rfl rfl (by decide)
  refine ⟨rfl, ?_⟩
  rw [hiff.mpr (fun j j0 j1 _ => by
    have hj : j = 0 := by omega
    subst hj
    decide)]
  show Except.ok (you3.elapsed_time, you3.next_timer_effect 2, 4) = _
  rw [e1, (hb 2 (by decide) (by decide)).2.1]
  rfl

/-! ## Writing the companion section -/

theorem fixup_bad_companions_eq_filter {C : Type} (invalid_monster_type : Int → Bool)
    (type_of : C → Int) (companion_list : List (Int × C)) :
    fixup_bad_companions invalid_monster_type type_of companion_list
      = companion_list.filter (fun i => !invalid_monster_type (type_of i.2)) := by
  induction companion_list with
  | nil => rfl
  | cons i rest ih =>
    rw [fixup_bad_companions, ih]
    by_cases h : invalid_monster_type (type_of i.2) = true
    · rw [if_pos h, List.filter_cons_of_neg (by simp [h])]
    · rw [if_neg h, List.filter_cons_of_pos (by simpa using h)]

/-- With a value encoder that never dies `marshallMap` writes what it writes
with the encoder taken as a function. -/
theorem marshallMap_or_die_of_ok {K V : Type} (km : writer → K → writer)
    (vm : writer → V → writer) (data : List (K × V)) (th : writer) :
    marshallMap_or_die th data km (fun w v => .ok (vm w v)) = .ok (marshallMap th data km vm) := by
  have hfold : ∀ (l : List (K × V)) (w : writer),
      l.foldlM (fun th entry => (Except.ok (vm (km th entry.1) entry.2) : Except error writer)) w
        = .ok (l.foldl (fun th entry => vm (km th entry.1) entry.2) w) := by
    intro l
    induction l with
    | nil => intro w; rfl
    | cons x l ih =>
      intro w
      rw [List.foldlM_cons, List.foldl_cons]
      simp only [bind, Except.bind]
      exact ih _
  unfold marshallMap_or_die marshallMap
  exact hfold _ _

/-- C30, as amended: writing the companion section removes from the companion
registry the entries whose monster type is invalid and nothing else: the
entries after the call are the entries before it whose monster type is valid,
in the same order, so a registry without an invalid entry is left unchanged;
and these are the entries written, whether the encoder of a companion can die
or not. -/
theorem companions_are_fixed_up_on_write {C : Type} (invalid_monster_type : Int → Bool)
    (type_of : C → Int) (marshall_companion : writer → C → Except error writer) (th : writer)
    (companion_list : List (Int × C)) :
    (tag_construct_companions invalid_monster_type type_of marshall_companion th
        companion_list).2
      = companion_list.filter (fun i => !invalid_monster_type (type_of i.2)) ∧
    (∀ i, i ∈ (tag_construct_companions invalid_monster_type type_of marshall_companion th
        companion_list).2 ↔ i ∈ companion_list ∧ invalid_monster_type (type_of i.2) = false) ∧
    ((∀ i ∈ companion_list, invalid_monster_type (type_of i.2) = false) →
      (tag_construct_companions invalid_monster_type type_of marshall_companion th
        companion_list).2 = companion_list) ∧
    (tag_construct_companions invalid_monster_type type_of marshall_companion th
        companion_list).1
      = marshallMap_or_die th
          (companion_list.filter (fun i => !invalid_monster_type (type_of i.2)))
          _marshall_as_int marshall_companion ∧
    (∀ encoder : writer → C → writer,
      (tag_construct_companions invalid_monster_type type_of
          (fun w comp => .ok (encoder w comp)) th companion_list).1
        = .ok (marshallMap th
            (companion_list.filter (fun i => !invalid_monster_type (type_of i.2)))
            _marshall_as_int encoder)) := by
  have e := fixup_bad_companions_eq_filter invalid_monster_type type_of companion_list
  refine ⟨e, fun i => ?_, fun h => ?_, ?_, fun encoder => ?_⟩
  · show i ∈ fixup_bad_companions invalid_monster_type type_of companion_list ↔ _
    rw [e, List.mem_filter]
    simp
  · show fixup_bad_companions invalid_monster_type type_of companion_list = _
    rw [e, List.filter_eq_self]
    intro i hi
    simp [h i hi]
  · show marshallMap_or_die th
      (fixup_bad_companions invalid_monster_type type_of companion_list)
      _marshall_as_int marshall_companion = _
    rw [e]
  · show marshallMap_or_die th
      (fixup_bad_companions invalid_monster_type type_of companion_list)
      _marshall_as_int (fun w comp => .ok (encoder w comp)) = _
    rw [e, marshallMap_or_die_of_ok]

/-- C30, the claim as stated fails: a registry whose one entry has an invalid
monster type (here a negative one) is empty after the section is written. -/
theorem bad_companion_is_dropped_on_write :
    (tag_construct_companions (fun t => decide (t < 0)) (fun (c : Int) => c)
        (fun w c => .ok (marshallInt w c)) writer.on_empty_buffer [(1, -5)]).2 = [] ∧
    (tag_construct_companions (fun t => decide (t < 0)) (fun (c : Int) => c)
        (fun w c => .ok (marshallInt w c)) writer.on_empty_buffer [(1, -5)]).1
      = .ok ⟨[0, 0, 0, 0], false⟩ := by
  constructor
  · rfl
  · show marshallMap_or_die writer.on_empty_buffer
      (fixup_bad_companions (fun t => decide (t < 0)) (fun (c : Int) => c) [(1, -5)])
      _marshall_as_int (fun w c => .ok (marshallInt w c)) = _
    rw [fixup_bad_companions_eq_filter]
    rfl

/-! ## Recalling a companion -/

/-- What `recall_offlevel_ally` does with a companion that is elsewhere, is
placed, and is alive once the effects of its location are applied. -/
theorem recall_offlevel_ally_of_placed {F P M T : Type} (c : recall_members F P M T)
    (roll : Int) (w : recall_world F P T) (mid : Int) (entry : Int × companion F P) (mons : M)
    (helse : companion_is_elsewhere c w.companion_list mid true = true)
    (hfind : w.companion_list.find? (fun entry => decide (entry.1 = mid)) = some entry)
    (hplace : c.place entry.2.mons true = some mons)
    (halive : c.alive (c.apply_location_effects mons (c.pos mons)) = true) :
    (recall_offlevel_ally c roll w mid).1 = true ∧
    ∀ (turns : Int) (healed : M),
      turns = int32_of (w.elapsed_time - entry.2.timestamp) →
      healed = c.heal (c.apply_location_effects mons (c.pos mons))
          (div_rand_round roll
            (int32_of (turns
              * c.off_level_regen_rate (c.apply_location_effects mons (c.pos mons)))) 100) →
      (recall_offlevel_ally c roll w mid).2.2
        = some (c.recall_orders
            (if turns ≥ 10 ∧ c.alive healed = true
             then c.timeout_enchantments (c.del_ench healed c.ENCH_CONFUSION true)
               (Int.tdiv turns 10)
             else healed)) := by
  refine ⟨?_, fun turns healed ht hh => ?_⟩
  · simp only [recall_offlevel_ally, helse, hfind, hplace, halive, Bool.not_true,
      Bool.false_eq_true, if_false]
  · subst ht
    subst hh
    simp only [recall_offlevel_ally, helse, hfind, hplace, halive, Bool.not_true,
      Bool.false_eq_true, if_false]

/-- A quotient that is whole is not rounded. -/
theorem div_rand_round_of_dvd (roll num : Int) (h : 100 ∣ num) :
    div_rand_round roll num 100 = num / 100 := by
  obtain ⟨k, rfl⟩ := h
  have e1 : Int.tmod (100 * k) 100 = 0 := by
    rw [Int.mul_comm]; exact Int.mul_tmod_left k 100
  have e2 : Int.tdiv (100 * k) 100 = k := Int.mul_tdiv_cancel_left k (by decide)
  simp only [div_rand_round, e1, e2, ne_eq, not_true_eq_false, if_false]
  omega

/-- A quotient is rounded to itself or to the next number above it. -/
theorem div_rand_round_bounds (roll num : Int) :
    Int.tdiv num 100 ≤ div_rand_round roll num 100 ∧
    div_rand_round roll num 100 ≤ Int.tdiv num 100 + 1 := by
  simp only [div_rand_round]
  split_ifs <;> omega

theorem int32_of_fits (x : Int) (h1 : -2147483648 ≤ x) (h2 : x ≤ 2147483647) :
    int32_of x = x := by
  unfold int32_of; omega

/-- C31, as amended: a companion that `recall_offlevel_ally` places and that is
alive once the effects of its location are applied is healed, before anything
else is done to it, by `div_rand_round` of the elapsed time (the game time less
the time of the snapshot) times its off-level regeneration rate over 100,
provided the elapsed time and that product are within the range of `int`; the
monster healed then has its enchantments timed out and gets its orders. When
the product is a multiple of 100 the amount is the quotient whatever number is
drawn, and after 1000 units of time it is 10 times the rate. -/
theorem recalled_ally_is_healed {F P M T : Type} (c : recall_members F P M T)
    (roll : Int) (w : recall_world F P T) (mid : Int) (entry : Int × companion F P) (mons : M)
    (helse : companion_is_elsewhere c w.companion_list mid true = true)
    (hfind : w.companion_list.find? (fun entry => decide (entry.1 = mid)) = some entry)
    (hplace : c.place entry.2.mons true = some mons)
    (halive : c.alive (c.apply_location_effects mons (c.pos mons)) = true)
    (ht1 : -2147483648 ≤ w.elapsed_time - entry.2.timestamp)
    (ht2 : w.elapsed_time - entry.2.timestamp ≤ 2147483647)
    (hp1 : -2147483648 ≤ (w.elapsed_time - entry.2.timestamp)
      * c.off_level_regen_rate (c.apply_location_effects mons (c.pos mons)))
    (hp2 : (w.elapsed_time - entry.2.timestamp)
      * c.off_level_regen_rate (c.apply_location_effects mons (c.pos mons)) ≤ 2147483647) :
    (recall_offlevel_ally c roll w mid).1 = true ∧
    (∀ healed : M,
      healed = c.heal (c.apply_location_effects mons (c.pos mons))
          (div_rand_round roll ((w.elapsed_time - entry.2.timestamp)
            * c.off_level_regen_rate (c.apply_location_effects mons (c.pos mons))) 100) →
      (recall_offlevel_ally c roll w mid).2.2
        = some (c.recall_orders
            (if w.elapsed_time - entry.2.timestamp ≥ 10 ∧ c.alive healed = true
             then c.timeout_enchantments (c.del_ench healed c.ENCH_CONFUSION true)
               (Int.tdiv (w.elapsed_time - entry.2.timestamp) 10)
             else healed))) ∧
    (100 ∣ (w.elapsed_time - entry.2.timestamp)
        * c.off_level_regen_rate (c.apply_location_effects mons (c.pos mons)) →
      ∀ drawn : Int,
        div_rand_round drawn ((w.elapsed_time - entry.2.timestamp)
            * c.off_level_regen_rate (c.apply_location_effects mons (c.pos mons))) 100
          = (w.elapsed_time - entry.2.timestamp)
            * c.off_level_regen_rate (c.apply_location_effects mons (c.pos mons)) / 100) ∧
    (w.elapsed_time - entry.2.timestamp = 1000 →
      ∀ drawn : Int,
        div_rand_round drawn ((w.elapsed_time - entry.2.timestamp)
            * c.off_level_regen_rate (c.apply_location_effects mons (c.pos mons))) 100
          = 10 * c.off_level_regen_rate (c.apply_location_effects mons (c.pos mons))) := by
  obtain ⟨h1, h2⟩ := recall_offlevel_ally_of_placed c roll w mid entry mons helse hfind hplace
    halive
  have et := int32_of_fits _ ht1 ht2
  have ep := int32_of_fits _ hp1 hp2
  refine ⟨h1, ?_, fun hd drawn => div_rand_round_of_dvd drawn _ hd, fun ht drawn => ?_⟩
  · intro healed hh
    have := h2 (int32_of (w.elapsed_time - entry.2.timestamp)) healed rfl
      (by rw [et, ep]; exact hh)
    rw [et] at this
    exact this
  · rw [ht, div_rand_round_of_dvd drawn _ ⟨10 * c.off_level_regen_rate
      (c.apply_location_effects mons (c.pos mons)), by ring⟩]
    omega

/-- Witness of C31: the companion 77, snapshotted at the game time 5000 with 20
hit points and recalled at the game time 6000 on a level where it regenerates
7 per 100 units of time. -/
theorem recalled_ally_is_healed_witness :
    (recall_offlevel_ally allies_of_hit_points 3 (world_of_one_companion 6000) 77).2.2
      = some ⟨90, false, 100⟩ ∧
    div_rand_round 3 ((6000 - 5000) * 7) 100 = 70 :=
  ⟨rfl, ((recalled_ally_is_healed allies_of_hit_points 3 (world_of_one_companion 6000) 77
      (77, ⟨⟨⟨20, ()⟩, 0, []⟩, ⟨0, 3⟩, 5000⟩) ⟨20, true, 0⟩ rfl rfl rfl rfl
      (by decide) (by decide) (by decide) (by decide)).2.2.2 rfl 3)⟩

/-- C31, the claim as stated fails: the companion 77, snapshotted at the game
time 5000 with 20 hit points, is recalled at the game time 1000005000 on a
level where it regenerates 7 per 100 units of time. The elapsed time is
1000000000 and its product with the rate does not fit an `int`: the companion
is healed by -15899345 and left with -15899325 hit points, where the elapsed
time times the rate over 100 is 70000000. -/
theorem recalled_ally_heal_overflows :
    (recall_offlevel_ally allies_of_hit_points 0 (world_of_one_companion 1000005000) 77).2.2
      = some ⟨20 + -15899345, true, 0⟩ ∧
    ((1000005000 : Int) - 5000) * 7 / 100 = 70000000 := by
  constructor
  · rfl
  · decide

/-- C32: a companion that `recall_offlevel_ally` places and that is alive
after the healing has its confusion removed and its timed enchantments moved
forward by the elapsed time over 10 steps when the elapsed time exceeds 10, and
has neither done when the elapsed time is below 10. The elapsed time is the
`int turns` of the code, the game time less the time of the snapshot, which it
equals whenever that difference is within the range of `int`. -/
theorem recalled_ally_enchantments_time_out {F P M T : Type} (c : recall_members F P M T)
    (roll : Int) (w : recall_world F P T) (mid : Int) (entry : Int × companion F P) (mons : M)
    (helse : companion_is_elsewhere c w.companion_list mid true = true)
    (hfind : w.companion_list.find? (fun entry => decide (entry.1 = mid)) = some entry)
    (hplace : c.place entry.2.mons true = some mons)
    (halive : c.alive (c.apply_location_effects mons (c.pos mons)) = true)
    (hhealed : c.alive (c.heal (c.apply_location_effects mons (c.pos mons))
        (div_rand_round roll (int32_of (int32_of (w.elapsed_time - entry.2.timestamp)
          * c.off_level_regen_rate (c.apply_location_effects mons (c.pos mons)))) 100))
        = true) :
    (10 < int32_of (w.elapsed_time - entry.2.timestamp) →
      (recall_offlevel_ally c roll w mid).2.2
        = some (c.recall_orders (c.timeout_enchantments
            (c.del_ench (c.heal (c.apply_location_effects mons (c.pos mons))
              (div_rand_round roll (int32_of (int32_of (w.elapsed_time - entry.2.timestamp)
                * c.off_level_regen_rate (c.apply_location_effects mons (c.pos mons)))) 100))
              c.ENCH_CONFUSION true)
            (int32_of (w.elapsed_time - entry.2.timestamp) / 10)))) ∧
    (int32_of (w.elapsed_time - entry.2.timestamp) < 10 →
      (recall_offlevel_ally c roll w mid).2.2
        = some (c.recall_orders (c.heal (c.apply_location_effects mons (c.pos mons))
              (div_rand_round roll (int32_of (int32_of (w.elapsed_time - entry.2.timestamp)
                * c.off_level_regen_rate (c.apply_location_effects mons (c.pos mons))))
                100)))) ∧
    (-2147483648 ≤ w.elapsed_time - entry.2.timestamp →
      w.elapsed_time - entry.2.timestamp ≤ 2147483647 →
      int32_of (w.elapsed_time - entry.2.timestamp)
        = w.elapsed_time - entry.2.timestamp) := by
  obtain ⟨_, h2⟩ := recall_offlevel_ally_of_placed c roll w mid entry mons helse hfind hplace
    halive
  have h3 := h2 _ _ rfl rfl
  refine ⟨fun ht => ?_, fun ht => ?_, fun f1 f2 => int32_of_fits _ f1 f2⟩
  · have e : Int.tdiv (int32_of (w.elapsed_time - entry.2.timestamp)) 10
        = int32_of (w.elapsed_time - entry.2.timestamp) / 10 := by
      obtain ⟨n, hn⟩ := Int.eq_ofNat_of_zero_le
        (show 0 ≤ int32_of (w.elapsed_time - entry.2.timestamp) by omega)
      rw [hn]; rfl
    rw [h3, if_pos ⟨by omega, hhealed⟩, e]
  · rw [h3, if_neg (fun h => by omega)]

/-- Witness of C32: the companion 77, snapshotted at the game time 5000, is
recalled once at the game time 5025, when it loses its confusion and its
enchantments move 2 steps, and once at the game time 5005, when it stays
confused. -/
theorem recalled_ally_enchantments_time_out_witness :
    (recall_offlevel_ally allies_of_hit_points 0 (world_of_one_companion 5025) 77).2.2
      = some ⟨22, false, 2⟩ ∧
    (recall_offlevel_ally allies_of_hit_points 0 (world_of_one_companion 5005) 77).2.2
      = some ⟨21, true, 0⟩ :=
  ⟨(recalled_ally_enchantments_time_out allies_of_hit_points 0 (world_of_one_companion 5025) 77
      (77, ⟨⟨⟨20, ()⟩, 0, []⟩, ⟨0, 3⟩, 5000⟩) ⟨20, true, 0⟩ rfl rfl rfl rfl rfl).1 (by decide),
   (recalled_ally_enchantments_time_out allies_of_hit_points 0 (world_of_one_companion 5005) 77
      (77, ⟨⟨⟨20, ()⟩, 0, []⟩, ⟨0, 3⟩, 5000⟩) ⟨20, true, 0⟩ rfl rfl rfl rfl rfl).2.1 (by decide)⟩

/-! ## Companions whose monster type is not valid -/

/-- C33: `fixup_bad_companions` removes exactly the entries whose stored
monster has an invalid type: the registry after it is the registry before it
without these entries, in the same order, the entries kept being unchanged.
`tag_construct_companions` writes the registry so fixed up with
`marshall_companion`, and no entry it writes has an invalid type: the outcome
of the write, the bytes or the `die`, is the one of the write in which the type
assertion of `marshall_follower` holds of every type, and `marshall_follower`
does on every companion written what it does when no type is invalid. -/
theorem fixup_bad_companions_removes_invalid {F P : Type} (c : monster_members F)
    (ci : item_members level_id P) (th : writer)
    (companion_list : List (Int × companion F P)) :
    fixup_bad_companions c.invalid_monster_type (fun comp => comp.mons.mons.type) companion_list
      = companion_list.filter (fun i => !c.invalid_monster_type i.2.mons.mons.type) ∧
    (∀ i, i ∈ fixup_bad_companions c.invalid_monster_type
        (fun (comp : companion F P) => comp.mons.mons.type) companion_list
      ↔ i ∈ companion_list ∧ c.invalid_monster_type i.2.mons.mons.type = false) ∧
    List.Sublist (fixup_bad_companions c.invalid_monster_type
        (fun (comp : companion F P) => comp.mons.mons.type) companion_list) companion_list ∧
    tag_construct_companions c.invalid_monster_type
        (fun (comp : companion F P) => comp.mons.mons.type) (marshall_companion c ci) th
        companion_list
      = (marshallMap_or_die th
          (fixup_bad_companions c.invalid_monster_type
            (fun (comp : companion F P) => comp.mons.mons.type) companion_list)
          _marshall_as_int
          (marshall_companion { c with invalid_monster_type := fun _ => false } ci),
         fixup_bad_companions c.invalid_monster_type
            (fun (comp : companion F P) => comp.mons.mons.type) companion_list) ∧
    (∀ i ∈ (tag_construct_companions c.invalid_monster_type
          (fun (comp : companion F P) => comp.mons.mons.type) (marshall_companion c ci) th
          companion_list).2,
        c.invalid_monster_type i.2.mons.mons.type = false ∧
        ∀ w : writer, marshall_follower c ci w i.2.mons
          = marshall_follower { c with invalid_monster_type := fun _ => false } ci w i.2.mons) := by
  have e := fixup_bad_companions_eq_filter c.invalid_monster_type
    (fun (comp : companion F P) => comp.mons.mons.type) companion_list
  have hmem : ∀ i, i ∈ fixup_bad_companions c.invalid_monster_type
        (fun (comp : companion F P) => comp.mons.mons.type) companion_list
      ↔ i ∈ companion_list ∧ c.invalid_monster_type i.2.mons.mons.type = false := by
    intro i
    rw [e, List.mem_filter]
    simp
  have hfollower : ∀ (comp : companion F P), c.invalid_monster_type comp.mons.mons.type = false →
      ∀ w : writer, marshall_follower c ci w comp.mons
        = marshall_follower { c with invalid_monster_type := fun _ => false } ci w comp.mons := by
    intro comp hv w
    simp only [marshall_follower, marshallMonster, hv]
  have hfold : ∀ (l : List (Int × companion F P)) (w : writer),
      (∀ i ∈ l, c.invalid_monster_type i.2.mons.mons.type = false) →
      l.foldlM (fun th entry => marshall_companion c ci (_marshall_as_int th entry.1) entry.2) w
        = l.foldlM (fun th entry =>
            marshall_companion { c with invalid_monster_type := fun _ => false } ci
              (_marshall_as_int th entry.1) entry.2) w := by
    intro l
    induction l with
    | nil => intro w _; rfl
    | cons x l ih =>
      intro w hl
      have hx : marshall_companion c ci (_marshall_as_int w x.1) x.2
          = marshall_companion { c with invalid_monster_type := fun _ => false } ci
              (_marshall_as_int w x.1) x.2 := by
        simp only [marshall_companion,
          hfollower x.2 (hl x (List.mem_cons_self _ _)) (_marshall_as_int w x.1)]
      rw [List.foldlM_cons, List.foldlM_cons, hx]
      simp only [bind, Except.bind]
      cases marshall_companion { c with invalid_monster_type := fun _ => false } ci
          (_marshall_as_int w x.1) x.2 with
      | error err => rfl
      | ok w1 => exact ih w1 (fun i hi => hl i (List.mem_cons_of_mem _ hi))
  refine ⟨e, hmem, ?_, ?_, ?_⟩
  · rw [e]; exact List.filter_sublist _
  · show (marshallMap_or_die th _ _ _, _) = _
    congr 1
    unfold marshallMap_or_die
    exact hfold _ _ (fun i hi => ((hmem i).1 hi).2)
  · intro i hi
    have hv : c.invalid_monster_type i.2.mons.mons.type = false := ((hmem i).1 hi).2
    exact ⟨hv, hfollower i.2 hv⟩

/-- C33 at the registry of an invalid and a valid companion: the section is
written without a `die` and holds the valid companion alone, the registry is
left with it, and `marshallMap` on the registry as it was dies on the type
assertion of `marshall_follower`. -/
theorem fixup_bad_companions_removes_invalid_witness :
    (tag_construct_companions monsters_of_valid_types.invalid_monster_type
        (fun (comp : companion Unit Unit) => comp.mons.mons.type)
        (marshall_companion monsters_of_valid_types items_of_level_ids)
        writer.on_empty_buffer registry_of_two).1
      = .ok ⟨[0, 0, 0, 1, 0, 0, 0, 2, 0, 7, 0, 0, 0, 0, 0, 3, 0, 0, 19, 136], false⟩ ∧
    (fixup_bad_companions monsters_of_valid_types.invalid_monster_type
        (fun (comp : companion Unit Unit) => comp.mons.mons.type) registry_of_two).map Prod.fst
      = [2] ∧
    marshallMap_or_die writer.on_empty_buffer registry_of_two _marshall_as_int
        (marshall_companion monsters_of_valid_types items_of_level_ids)
      = .error (error.die "ASSERT(!invalid_monster_type(f.mons.type))") := by
  have h := fixup_bad_companions_removes_invalid monsters_of_valid_types items_of_level_ids
    writer.on_empty_buffer registry_of_two
  refine ⟨?_, ?_, ?_⟩
  · rw [h.2.2.2.1]
    rfl
  · rw [h.1]
    rfl
  · rfl

/-! ## Monster enchantments -/

/-- The 4-byte form of a value that fits is read back as that value. -/
theorem unmarshallInt_of_value (x : Int) (h1 : -2147483648 ≤ x) (h2 : x ≤ 2147483647)
    (th : reader) (rest : List byte)
    (h : th.remaining = toByte (bits32 x / 16777216) :: toByte (bits32 x / 65536)
          :: toByte (bits32 x / 256) :: toByte (bits32 x) :: rest) :
    unmarshallInt th = .ok (x, th.skip 4) ∧ (th.skip 4).remaining = rest := by
  have r := (round_trips_int x h1 h2).2 th rest (by rw [output_marshallInt]; exact h)
  rw [output_marshallInt] at r
  exact r

/-- The bytes `marshall_mon_enchant` appends. -/
theorem marshall_mon_enchant_bytes (INFINITE_DURATION : Int) (me : mon_enchant) (w : writer)
    (hw : w.failed = false) :
    marshall_mon_enchant INFINITE_DURATION w me
      = ⟨w.pbuf ++ [toByte (bits32 me.ench / 256), toByte (bits32 me.ench),
          toByte (bits32 me.degree / 256), toByte (bits32 me.degree),
          toByte (bits32 me.who / 256), toByte (bits32 me.who),
          toByte (bits32 (int32_of me.source) / 16777216),
          toByte (bits32 (int32_of me.source) / 65536),
          toByte (bits32 (int32_of me.source) / 256), toByte (bits32 (int32_of me.source)),
          toByte (bits32 (min me.duration INFINITE_DURATION) / 256),
          toByte (bits32 (min me.duration INFINITE_DURATION)),
          toByte (bits32 (min me.maxduration INFINITE_DURATION) / 256),
          toByte (bits32 (min me.maxduration INFINITE_DURATION))], false⟩ := by
  simp only [marshall_mon_enchant]
  rw [marshallShort_bytes _ _ hw, marshallShort_bytes _ _ rfl, marshallShort_bytes _ _ rfl,
    marshallInt_bytes _ _ rfl, marshallShort_bytes _ _ rfl, marshallShort_bytes _ _ rfl]
  simp

/-- C34: for an enchantment whose `ench`, `degree` and `who` fit in 16 bits and
whose durations are at least -32768, with `INFINITE_DURATION` a 16-bit value,
`unmarshall_mon_enchant` on the bytes of `marshall_mon_enchant` returns the
same `ench`, `degree`, `who` and `source`, and each duration capped at
`INFINITE_DURATION`; what is read is the enchantment written exactly when both
durations are at most `INFINITE_DURATION`. -/
theorem mon_enchant_round_trip (INFINITE_DURATION : Int) (hI1 : -32768 ≤ INFINITE_DURATION)
    (hI2 : INFINITE_DURATION ≤ 32767) (me : mon_enchant)
    (he1 : -32768 ≤ me.ench) (he2 : me.ench ≤ 32767)
    (hd1 : -32768 ≤ me.degree) (hd2 : me.degree ≤ 32767)
    (hw1 : -32768 ≤ me.who) (hw2 : me.who ≤ 32767)
    (hs : me.source < 4294967296)
    (hdu : -32768 ≤ me.duration) (hma : -32768 ≤ me.maxduration) :
    codec_pair (output (fun t => marshall_mon_enchant INFINITE_DURATION t me))
      (fun w => .ok (marshall_mon_enchant INFINITE_DURATION w me)) unmarshall_mon_enchant
      { me with duration := min me.duration INFINITE_DURATION,
                maxduration := min me.maxduration INFINITE_DURATION } ∧
    (({ me with duration := min me.duration INFINITE_DURATION,
                maxduration := min me.maxduration INFINITE_DURATION } : mon_enchant) = me
      ↔ me.duration ≤ INFINITE_DURATION ∧ me.maxduration ≤ INFINITE_DURATION) := by
  have hout : output (fun t => marshall_mon_enchant INFINITE_DURATION t me)
      = [toByte (bits32 me.ench / 256), toByte (bits32 me.ench),
          toByte (bits32 me.degree / 256), toByte (bits32 me.degree),
          toByte (bits32 me.who / 256), toByte (bits32 me.who),
          toByte (bits32 (int32_of me.source) / 16777216),
          toByte (bits32 (int32_of me.source) / 65536),
          toByte (bits32 (int32_of me.source) / 256), toByte (bits32 (int32_of me.source)),
          toByte (bits32 (min me.duration INFINITE_DURATION) / 256),
          toByte (bits32 (min me.duration INFINITE_DURATION)),
          toByte (bits32 (min me.maxduration INFINITE_DURATION) / 256),
          toByte (bits32 (min me.maxduration INFINITE_DURATION))] := by
    simp only [output]
    rw [marshall_mon_enchant_bytes _ _ _ rfl]
    rfl
  refine ⟨⟨fun w hw => ?_, fun th rest h => ?_⟩, ?_⟩
  · show Except.ok (marshall_mon_enchant INFINITE_DURATION w me) = _
    rw [hout, marshall_mon_enchant_bytes _ _ _ hw]
  · rw [hout] at h ⊢
    have hsrc : bits32 (int32_of (me.source : Int)) = me.source := by
      unfold bits32 int32_of; omega
    obtain ⟨r1, m1⟩ := unmarshallShort_of_value me.ench he1 he2 th _ h
    obtain ⟨r2, m2⟩ := unmarshallShort_of_value me.degree hd1 hd2 _ _ m1
    obtain ⟨r3, m3⟩ := unmarshallShort_of_value me.who hw1 hw2 _ _ m2
    obtain ⟨r4, m4⟩ := unmarshallInt_of_value (int32_of me.source)
      (by unfold int32_of; omega) (by unfold int32_of; omega) _ _ m3
    obtain ⟨r5, m5⟩ := unmarshallShort_of_value (min me.duration INFINITE_DURATION)
      (by omega) (by omega) _ _ m4
    obtain ⟨r6, m6⟩ := unmarshallShort_of_value (min me.maxduration INFINITE_DURATION)
      (by omega) (by omega) _ _ m5
    simp only [skip_skip] at m6
    refine ⟨?_, m6⟩
    simp only [unmarshall_mon_enchant, r1, r2, r3, r4, r5, r6, bind, Except.bind, pure,
      Except.pure, hsrc]
    simp only [skip_skip]
    rfl
  · cases me
    simp only [mon_enchant.mk.injEq, true_and, and_true, min_eq_left_iff]

/-- Witness of C34, with `INFINITE_DURATION` at 30000: the enchantment whose
duration is 31000 is read back with the duration 30000, its other members
unchanged, among them a negative `maxduration` and a source above 2^31. -/
theorem mon_enchant_round_trip_witness :
    codec_pair (output (fun t => marshall_mon_enchant 30000 t enchant_of_long_duration))
      (fun w => .ok (marshall_mon_enchant 30000 w enchant_of_long_duration))
      unmarshall_mon_enchant ⟨5, 2, 30000, -3, 1, 4000000000⟩ :=
  (mon_enchant_round_trip 30000 (by decide) (by decide) enchant_of_long_duration
    (by decide) (by decide) (by decide) (by decide) (by decide) (by decide) (by decide)
    (by decide) (by decide)).1

/-! ## Ghost records -/

/-- The byte `marshallByte` writes for a number below 256 is read back, through
`int8_t`, as that number. -/
theorem unmarshallByte_of_unsigned (n : Nat) (hn : n ≤ 255) (th : reader) (rest : List byte)
    (h : th.remaining = toByte (bits8 (n : Int)) :: rest) :
    (∃ v, unmarshallByte th = .ok (v, th.skip 1) ∧ bits8 v = n) ∧
    (th.skip 1).remaining = rest := by
  obtain ⟨r1, h1⟩ := readByte_of_remaining th _ _ h
  refine ⟨⟨int8_of ((toByte (bits8 (n : Int))).val : Int), ?_, ?_⟩, h1⟩
  · simp only [unmarshallByte, r1, bind, Except.bind, pure, Except.pure]
  · rw [toByte_val]; unfold bits8 int8_of; omega

/-- The byte `marshallByte` writes for a value that fits is read back as it. -/
theorem unmarshallByte_of_value (x : Int) (h1 : -128 ≤ x) (h2 : x ≤ 127) (th : reader)
    (rest : List byte) (h : th.remaining = toByte (bits8 x) :: rest) :
    unmarshallByte th = .ok (x, th.skip 1) ∧ (th.skip 1).remaining = rest := by
  obtain ⟨r1, m1⟩ := readByte_of_remaining th _ _ h
  refine ⟨?_, m1⟩
  have e : int8_of ((toByte (bits8 x)).val : Int) = x := by
    rw [toByte_val]; unfold bits8 int8_of; omega
  simp only [unmarshallByte, r1, bind, Except.bind, pure, Except.pure, e]

theorem getMinorVersion_ok (th : reader) (I : Int) (h : th.minorVersion ≠ I) :
    th.getMinorVersion I = .ok th.minorVersion := by
  unfold reader.getMinorVersion
  rw [if_neg (by simpa using h)]

theorem reads_current_format_skip (c : spell_members) (d : ghost_members) (th : reader)
    (n : Nat) (h : reads_current_format c d th) : reads_current_format c d (th.skip n) := h

/-- The bytes `marshallSpells` writes for one slot. -/
theorem marshallSpells_slot_appends (s : mon_spell_slot) :
    appends (fun (th : writer) (slot : mon_spell_slot) =>
      marshallShort (marshallByte (marshallShort th slot.spell) slot.freq) slot.flags) s ∧
    output (fun t => marshallShort (marshallByte (marshallShort t s.spell) s.freq) s.flags)
      = slot_layout s := by
  have hout : output
      (fun t => marshallShort (marshallByte (marshallShort t s.spell) s.freq) s.flags)
      = slot_layout s := by
    simp only [output]
    rw [marshallShort_bytes _ _ rfl, marshallByte_ok _ _ rfl, marshallShort_bytes _ _ rfl]
    rfl
  refine ⟨fun w hw => ?_, hout⟩
  show marshallShort (marshallByte (marshallShort w s.spell) s.freq) s.flags = _
  rw [hout, marshallShort_bytes _ _ hw, marshallByte_ok _ _ rfl, marshallShort_bytes _ _ rfl]
  simp [slot_layout]

/-- A slot of the current format is read back with its spell as
`spell_as_read` gives it, and its frequency and flags as written. -/
theorem unmarshallSpells_slot_of_layout (c : spell_members) (d : ghost_members)
    (s : mon_spell_slot)
    (hs : -32768 ≤ s.spell ∧ s.spell ≤ 32767 ∧ s.freq ≤ 255 ∧ s.flags ≤ 32767)
    (th : reader) (rest : List byte) (hv : reads_current_format c d th)
    (h : th.remaining = slot_layout s ++ rest) :
    unmarshallSpells_slot c th
      = .ok ({ s with spell := spell_as_read c s.spell }, th.skip (slot_layout s).length) ∧
    (th.skip (slot_layout s).length).remaining = rest := by
  obtain ⟨hinv, _, _, _, _, _, hmal, hslots, hdem⟩ := hv
  obtain ⟨r1, m1⟩ := unmarshallShort_of_value s.spell hs.1 hs.2.1 th _ h
  obtain ⟨⟨v, r2, e2⟩, m2⟩ := unmarshallByte_of_unsigned s.freq hs.2.2.1 _ _ m1
  obtain ⟨r3, m3⟩ := unmarshallShort_of_value (s.flags : Int) (by omega) (by omega) _ _ m2
  have g0 := getMinorVersion_ok th c.TAG_MINOR_INVALID hinv
  have g1 : reader.getMinorVersion (th.skip 2) c.TAG_MINOR_INVALID = .ok th.minorVersion := g0
  have g3 : reader.getMinorVersion (((th.skip 2).skip 1).skip 2) c.TAG_MINOR_INVALID
      = .ok th.minorVersion := g0
  have eflags : bits32 (s.flags : Int) = s.flags := by
    unfold bits32; omega
  simp only [skip_skip] at m3
  refine ⟨?_, m3⟩
  simp only [unmarshallSpells_slot, unmarshallSpellType, r1, r2, r3, g1, g3, bind, Except.bind,
    pure, Except.pure, e2, eflags, ge_iff_le, hslots, if_true,
    if_neg (not_lt.2 hmal), if_neg (not_lt.2 hdem), not_lt.2 hmal, false_and, if_false]
  simp only [skip_skip]
  rfl

/-- The loop of `unmarshall_vector` on elements written in a row, each read back
as `f` of what was written, by a decoder that needs the reader to stay `good`. -/
theorem unmarshall_vector_loop_as_read {α β : Type} (bytes : α → List byte) (f : α → β)
    (um : reader → Except error (β × reader)) (good : reader → Prop)
    (hgood : ∀ (th : reader) (n : Nat), good th → good (th.skip n)) :
    ∀ (xs : List α) (vec : List β) (th : reader) (rest : List byte), good th →
      (∀ x ∈ xs, ∀ (th : reader) (rest : List byte), good th →
        th.remaining = bytes x ++ rest →
        um th = .ok (f x, th.skip (bytes x).length) ∧
        (th.skip (bytes x).length).remaining = rest) →
      th.remaining = xs.flatMap bytes ++ rest →
      unmarshall_vector_loop um xs.length th vec
        = .ok (vec ++ xs.map f, th.skip (xs.flatMap bytes).length) ∧
      (th.skip (xs.flatMap bytes).length).remaining = rest := by
  intro xs
  induction xs with
  | nil =>
    intro vec th rest _ _ h
    have e : th.skip 0 = th := rfl
    simp only [List.flatMap_nil, List.length_nil, List.map_nil, List.append_nil, e]
    exact ⟨rfl, by simpa using h⟩
  | cons x xs ih =>
    intro vec th rest hg hrt h
    rw [List.flatMap_cons, List.append_assoc] at h
    obtain ⟨r1, h1⟩ := hrt x (List.mem_cons_self _ _) th _ hg h
    obtain ⟨r2, h2⟩ := ih (vec ++ [f x]) _ rest (hgood _ _ hg)
      (fun y hy => hrt y (List.mem_cons_of_mem _ hy)) h1
    rw [skip_skip] at r2 h2
    rw [List.flatMap_cons, List.length_append]
    refine ⟨?_, h2⟩
    rw [List.length_cons, unmarshall_vector_loop]
    simp only [r1, bind, Except.bind, r2]
    simp

/-- The bytes `marshallSpells` appends for at most 255 slots. -/
theorem marshallSpells_bytes (spells : List mon_spell_slot) (hlen : spells.length ≤ 255)
    (w : writer) (hw : w.failed = false) :
    marshallSpells w spells
      = ⟨w.pbuf ++ (toByte (bits8 ((spells.length % 256 : Nat) : Int))
          :: spells.flatMap slot_layout), false⟩ := by
  have e : spells.take (spells.length % 256) = spells := by
    rw [Nat.mod_eq_of_lt (by omega), List.take_length]
  have hf : (fun x => output (fun t =>
      marshallShort (marshallByte (marshallShort t x.spell) x.freq) x.flags)) = slot_layout :=
    funext (fun x => (marshallSpells_slot_appends x).2)
  simp only [marshallSpells, e]
  rw [marshallByte_ok _ _ hw,
    foldl_appends (fun (th : writer) (slot : mon_spell_slot) =>
      marshallShort (marshallByte (marshallShort th slot.spell) slot.freq) slot.flags)
      spells _ rfl (fun x _ => (marshallSpells_slot_appends x).1), hf]
  simp

/-- The spells of the current format are read back slot by slot, each spell as
`spell_as_read` gives it. -/
theorem unmarshallSpells_of_layout (c : spell_members) (d : ghost_members)
    (spells : List mon_spell_slot) (hlen : spells.length ≤ 255)
    (hs : ∀ s ∈ spells, -32768 ≤ s.spell ∧ s.spell ≤ 32767 ∧ s.freq ≤ 255 ∧ s.flags ≤ 32767)
    (hd : Nat) (th : reader) (rest : List byte) (hv : reads_current_format c d th)
    (h : th.remaining = (toByte (bits8 ((spells.length % 256 : Nat) : Int))
          :: spells.flatMap slot_layout) ++ rest) :
    unmarshallSpells c th hd
      = .ok (spells.map (fun s => { s with spell := spell_as_read c s.spell }),
          th.skip (1 + (spells.flatMap slot_layout).length)) ∧
    (th.skip (1 + (spells.flatMap slot_layout).length)).remaining = rest := by
  have hv0 := hv
  obtain ⟨hinv, _, _, _, _, harb, _, hslots, _⟩ := hv
  obtain ⟨⟨v, r1, e1⟩, m1⟩ := unmarshallByte_of_unsigned (spells.length % 256) (by omega) th _ h
  rw [Nat.mod_eq_of_lt (by omega)] at e1
  obtain ⟨r2, m2⟩ := unmarshall_vector_loop_as_read slot_layout
    (fun s => ({ s with spell := spell_as_read c s.spell } : mon_spell_slot))
    (unmarshallSpells_slot c) (reads_current_format c d)
    (fun th n hg => reads_current_format_skip c d th n hg) spells [] (th.skip 1) rest
    (reads_current_format_skip c d th 1 hv0)
    (fun s hsm th rest hg hr => unmarshallSpells_slot_of_layout c d s (hs s hsm) th rest hg hr)
    m1
  have g0 := getMinorVersion_ok th c.TAG_MINOR_INVALID hinv
  have g2 : reader.getMinorVersion ((th.skip 1).skip (spells.flatMap slot_layout).length)
      c.TAG_MINOR_INVALID = .ok th.minorVersion := g0
  simp only [skip_skip] at m2
  refine ⟨?_, m2⟩
  simp only [unmarshallSpells, g0, r1, e1, r2, g2, bind, Except.bind, pure, Except.pure,
    if_neg (not_lt.2 harb), if_neg (not_lt.2 hslots), List.nil_append]
  simp only [skip_skip]

theorem marshallShort_mk (buf : List byte) (x : Int) :
    marshallShort ⟨buf, false⟩ x
      = ⟨buf ++ [toByte (bits32 x / 256), toByte (bits32 x)], false⟩ :=
  marshallShort_bytes _ _ rfl

theorem marshallInt_mk (buf : List byte) (x : Int) :
    marshallInt ⟨buf, false⟩ x
      = ⟨buf ++ [toByte (bits32 x / 16777216), toByte (bits32 x / 65536),
                 toByte (bits32 x / 256), toByte (bits32 x)], false⟩ :=
  marshallInt_bytes _ _ rfl

theorem marshallByte_mk (buf : List byte) (x : Int) :
    marshallByte ⟨buf, false⟩ x = ⟨buf ++ [toByte (bits8 x)], false⟩ :=
  marshallByte_ok _ _ rfl

theorem writeByte_mk (buf : List byte) (b : byte) :
    writer.writeByte ⟨buf, false⟩ b = ⟨buf ++ [b], false⟩ :=
  writeByte_ok _ _ rfl

/-- The bytes `marshallGhost` appends for a ghost whose fields fit. -/
theorem marshallGhost_bytes (g : ghost_demon) (hg : ghost_fits g) (w : writer)
    (hw : w.failed = false) :
    marshallGhost w g = .ok ⟨w.pbuf ++ ghost_layout g, false⟩ := by
  obtain ⟨hname, _, _, _, _, _, _, _, _, _, _, _, _, _, _, _, _, _, hlen, _⟩ := hg
  simp only [marshallGhost, (string2_round_trip g.name hname).1 w hw, bind, Except.bind, pure,
    Except.pure, marshallBoolean, marshallShort_mk, marshallByte_mk, marshallInt_mk,
    writeByte_mk]
  rw [marshallSpells_bytes _ hlen _ rfl]
  simp [ghost_layout]

theorem getMinorVersion_skip (th : reader) (n : Nat) (I : Int) :
    (th.skip n).getMinorVersion I = th.getMinorVersion I := rfl

/-- What `unmarshallGhost` returns on the bytes of a ghost whose fields fit,
read at a minor version of the current format. -/
theorem unmarshallGhost_of_layout (c : spell_members) (d : ghost_members) (g : ghost_demon)
    (hg : ghost_fits g) (th : reader) (rest : List byte) (hv : reads_current_format c d th)
    (h : th.remaining = ghost_layout g ++ rest) :
    unmarshallGhost c d th
      = .ok ({ g with
                move_energy :=
                  if g.move_energy < d.FASTEST_PLAYER_MOVE_SPEED ∨ g.move_energy > 15 then 10
                  else g.move_energy,
                spells := g.spells.map (fun s => { s with spell := spell_as_read c s.spell }) },
          th.skip (ghost_layout g).length) ∧
    (th.skip (ghost_layout g).length).remaining = rest := by
  have hv0 := hv
  obtain ⟨hinv, hE, hC, hL, hF, _, _, _, _⟩ := hv
  obtain ⟨hname, hsp, hjob, hrel, hbs, hbsl, hxl, hhp, hev, hac, hdam, hspd, hme, hbr, hat,
    haf, hres, hcol, hlen, hslots⟩ := hg
  have h0 := h
  simp only [ghost_layout, List.append_assoc, List.cons_append, List.nil_append] at h0
  obtain ⟨r0, m0⟩ := (string2_round_trip g.name hname).2 th _ h0
  obtain ⟨r1, m1⟩ := unmarshallShort_of_value g.species hsp.1 hsp.2 _ _ m0
  simp only [skip_skip] at r1 m1
  obtain ⟨r2, m2⟩ := unmarshallShort_of_value g.job hjob.1 hjob.2 _ _ m1
  simp only [skip_skip] at r2 m2
  obtain ⟨r3, m3⟩ := unmarshallByte_of_value g.religion hrel.1 hrel.2 _ _ m2
  simp only [skip_skip] at r3 m3
  obtain ⟨r4, m4⟩ := unmarshallShort_of_value g.best_skill hbs.1 hbs.2 _ _ m3
  simp only [skip_skip] at r4 m4
  obtain ⟨r5, m5⟩ := unmarshallShort_of_value g.best_skill_level hbsl.1 hbsl.2 _ _ m4
  simp only [skip_skip] at r5 m5
  obtain ⟨r6, m6⟩ := unmarshallShort_of_value g.xl hxl.1 hxl.2 _ _ m5
  simp only [skip_skip] at r6 m6
  obtain ⟨r7, m7⟩ := unmarshallShort_of_value g.max_hp hhp.1 hhp.2 _ _ m6
  simp only [skip_skip] at r7 m7
  obtain ⟨r8, m8⟩ := unmarshallShort_of_value g.ev hev.1 hev.2 _ _ m7
  simp only [skip_skip] at r8 m8
  obtain ⟨r9, m9⟩ := unmarshallShort_of_value g.ac hac.1 hac.2 _ _ m8
  simp only [skip_skip] at r9 m9
  obtain ⟨r10, m10⟩ := unmarshallShort_of_value g.damage hdam.1 hdam.2 _ _ m9
  simp only [skip_skip] at r10 m10
  obtain ⟨r11, m11⟩ := unmarshallShort_of_value g.speed hspd.1 hspd.2 _ _ m10
  simp only [skip_skip] at r11 m11
  obtain ⟨r12, m12⟩ := unmarshallShort_of_value g.move_energy hme.1 hme.2 _ _ m11
  simp only [skip_skip] at r12 m12
  obtain ⟨r13, m13⟩ := unmarshallByte_of_value (if g.see_invis then 1 else 0)
    (by split_ifs <;> omega) (by split_ifs <;> omega) _ _ m12
  simp only [skip_skip] at r13 m13
  obtain ⟨r14, m14⟩ := unmarshallShort_of_value g.brand hbr.1 hbr.2 _ _ m13
  simp only [skip_skip] at r14 m14
  obtain ⟨r15, m15⟩ := unmarshallShort_of_value g.att_type hat.1 hat.2 _ _ m14
  simp only [skip_skip] at r15 m15
  obtain ⟨r16, m16⟩ := unmarshallShort_of_value g.att_flav haf.1 haf.2 _ _ m15
  simp only [skip_skip] at r16 m16
  obtain ⟨r17, m17⟩ := unmarshallInt_of_value g.resists hres.1 hres.2 _ _ m16
  simp only [skip_skip] at r17 m17
  obtain ⟨⟨v, r18, e18⟩, m18⟩ := unmarshallByte_of_unsigned g.colour hcol _ _ m17
  simp only [skip_skip] at r18 m18
  obtain ⟨r19, m19⟩ := (round_trips_boolean g.flies).2 _ _
    (show _ = output (fun t => marshallBoolean t g.flies) ++ _ from m18)
  have e19 : (output (fun t => marshallBoolean t g.flies)).length = 1 := rfl
  rw [e19] at r19 m19
  simp only [skip_skip] at r19 m19
  obtain ⟨r20, m20⟩ := unmarshallSpells_of_layout c d g.spells hlen hslots (bits32 g.xl) _ rest
    (reads_current_format_skip c d th _ hv0) m19
  simp only [skip_skip] at r20
  have g0 := getMinorVersion_ok th c.TAG_MINOR_INVALID hinv
  have esee : decide ((if g.see_invis = true then (1 : Int) else 0) ≠ 0) = g.see_invis := by
    cases g.see_invis <;> rfl
  have elen : (ghost_layout g).length
      = 2 + g.name.length + 2 + 2 + 1 + 2 + 2 + 2 + 2 + 2 + 2 + 2 + 2 + 2 + 1 + 2 + 2 + 2 + 4
        + 1 + 1 + (1 + (g.spells.flatMap slot_layout).length) := by
    simp only [ghost_layout, List.length_append, List.length_cons, List.length_nil]
    omega
  simp only [skip_skip] at m20
  rw [elen]
  refine ⟨?_, m20⟩
  simp only [unmarshallGhost, r0, r1, r2, r3, r4, r5, r6, r7, r8, r9, r10, r11, r12, r13, r14,
    r15, r16, r17, r18, r19, r20, getMinorVersion_skip, g0, bind, Except.bind, pure, Except.pure,
    if_neg (not_lt.2 hE), if_neg (not_lt.2 hC), if_neg (not_lt.2 hL), if_neg (not_lt.2 hF),
    e18, esee]

/-- C35, as amended: on the bytes `marshallGhost` writes for a ghost whose
fields fit, read at a minor version of the current format, `unmarshallGhost`
consumes exactly these bytes and returns the ghost with `move_energy` repaired
(the stored value when it lies between `FASTEST_PLAYER_MOVE_SPEED` and 15, and
10 otherwise) and every other field as stored, but for the spells of the spell
slots: a slot that holds `SPELL_FAKE_RAKSHASA_SUMMON` is returned with
`SPELL_PHANTOM_MIRROR` and one that holds `SPELL_SUNRAY` with
`SPELL_STONE_ARROW`, so the ghost is otherwise as stored when no slot holds
either. -/
theorem ghost_is_read_with_energy_repaired (c : spell_members) (d : ghost_members)
    (g : ghost_demon) (hg : ghost_fits g) :
    (∀ w : writer, w.failed = false →
      marshallGhost w g = .ok ⟨w.pbuf ++ ghost_layout g, false⟩) ∧
    (∀ (th : reader) (rest : List byte), reads_current_format c d th →
      th.remaining = ghost_layout g ++ rest →
      unmarshallGhost c d th
        = .ok ({ g with
                  move_energy :=
                    if d.FASTEST_PLAYER_MOVE_SPEED ≤ g.move_energy ∧ g.move_energy ≤ 15
                    then g.move_energy else 10,
                  spells := g.spells.map
                    (fun s => { s with spell := spell_as_read c s.spell }) },
            th.skip (ghost_layout g).length) ∧
      (th.skip (ghost_layout g).length).remaining = rest) ∧
    ((∀ s ∈ g.spells, s.spell ≠ c.SPELL_FAKE_RAKSHASA_SUMMON ∧ s.spell ≠ c.SPELL_SUNRAY) →
      g.spells.map (fun s => { s with spell := spell_as_read c s.spell }) = g.spells) := by
  refine ⟨fun w hw => marshallGhost_bytes g hg w hw, fun th rest hv h => ?_, fun hs => ?_⟩
  · obtain ⟨r, m⟩ := unmarshallGhost_of_layout c d g hg th rest hv h
    refine ⟨?_, m⟩
    rw [r]
    by_cases hme : d.FASTEST_PLAYER_MOVE_SPEED ≤ g.move_energy ∧ g.move_energy ≤ 15
    · rw [if_pos hme, if_neg (by omega)]
    · rw [if_neg hme, if_pos (by omega)]
  · conv_rhs => rw [← List.map_id g.spells]
    apply List.map_congr_left
    intro s hsm
    obtain ⟨h1, h2⟩ := hs s hsm
    simp only [spell_as_read, if_neg h1, if_neg h2, id]

/-- Witness of C35, as amended: the ghost with the move energy 3, below the
fastest player at 6, and the spell 1 in its one slot is read back with the
move energy 10 and the same slot. -/
theorem ghost_is_read_with_energy_repaired_witness :
    (unmarshallGhost spells_of_numbered_constants ghosts_of_minor_0
        (reader.mk (ghost_layout (ghost_of_one_spell 3 1)) 0 0 false false)).map
      (fun r => (r.1.move_energy, r.1.spells)) = .ok (10, [⟨1, 10, 0⟩]) :=
  congrArg (Except.map (fun r => (r.1.move_energy, r.1.spells)))
    ((ghost_is_read_with_energy_repaired spells_of_numbered_constants ghosts_of_minor_0
      (ghost_of_one_spell 3 1)
      (by unfold ghost_fits; decide)).2.1
      (reader.mk (ghost_layout (ghost_of_one_spell 3 1)) 0 0 false false) []
      (by unfold reads_current_format; decide)
      (remaining_at_start _ 0 false false)).1

/-- C35, the claim as stated fails: the ghost whose one spell slot holds
`SPELL_SUNRAY` (here 5), written by `marshallGhost` and read at the minor
version of the writer, comes back with `SPELL_STONE_ARROW` (here 6) in that
slot. -/
theorem ghost_spell_is_not_read_as_stored :
    marshallGhost writer.on_empty_buffer (ghost_of_one_spell 10 5)
      = .ok ⟨ghost_layout (ghost_of_one_spell 10 5), false⟩ ∧
    (ghost_of_one_spell 10 5).spells = [⟨5, 10, 0⟩] ∧
    (unmarshallGhost spells_of_numbered_constants ghosts_of_minor_0
        (reader.mk (ghost_layout (ghost_of_one_spell 10 5)) 0 0 false false)).map
      (fun r => (r.1.move_energy, r.1.spells)) = .ok (10, [⟨6, 10, 0⟩]) := by
  refine ⟨by rfl, rfl, by rfl⟩

/-! ## Reading a map into a map that is not empty -/

theorem map_insert_keys {K V : Type} [LinearOrder K] (p : K × V) (k : K) :
    ∀ d : List (K × V),
      k ∈ (map_insert d p).map Prod.fst ↔ k ∈ d.map Prod.fst ∨ k = p.1 := by
  intro d
  induction d with
  | nil => simp [map_insert]
  | cons q d ih =>
    rw [map_insert]
    split_ifs with h1 h2
    · simp only [List.map_cons, List.mem_cons]; tauto
    · simp only [List.map_cons, List.mem_cons]
      constructor
      · intro h; exact Or.inl h
      · rintro (h | h)
        · exact h
        · exact Or.inl (h.trans h2)
    · simp only [List.map_cons, List.mem_cons, ih]; tauto

/-- Inserting a pair into a map keeps the entries of the map, and adds the pair
exactly when its key is not a key of the map. -/
theorem map_insert_mem {K V : Type} [LinearOrder K] (p e : K × V) :
    ∀ d : List (K × V), List.Pairwise (fun a b => a.1 < b.1) d →
      (e ∈ map_insert d p ↔ e ∈ d ∨ (e = p ∧ p.1 ∉ d.map Prod.fst)) := by
  intro d
  induction d with
  | nil => intro _; simp [map_insert]
  | cons q d ih =>
    intro hd
    rw [List.pairwise_cons] at hd
    rw [map_insert]
    split_ifs with h1 h2
    · have hk : p.1 ∉ (q :: d).map Prod.fst := by
        simp only [List.map_cons, List.mem_cons, List.mem_map, not_or, not_exists, not_and]
        refine ⟨ne_of_lt h1, fun x hx hxe => ?_⟩
        have := hd.1 x hx
        rw [hxe] at this
        exact absurd (lt_trans h1 this) (lt_irrefl _)
      simp only [List.mem_cons]
      constructor
      · rintro (h | h | h)
        · exact Or.inr ⟨h, hk⟩
        · exact Or.inl (Or.inl h)
        · exact Or.inl (Or.inr h)
      · rintro ((h | h) | ⟨h, _⟩)
        · exact Or.inr (Or.inl h)
        · exact Or.inr (Or.inr h)
        · exact Or.inl h
    · have hk : p.1 ∈ (q :: d).map Prod.fst := by
        simp only [List.map_cons, List.mem_cons]; exact Or.inl h2
      constructor
      · intro h; exact Or.inl h
      · rintro (h | ⟨_, h⟩)
        · exact h
        · exact absurd hk h
    · simp only [List.mem_cons, ih hd.2, List.map_cons, not_or]
      constructor
      · rintro (h | h | ⟨h, hn⟩)
        · exact Or.inl (Or.inl h)
        · exact Or.inl (Or.inr h)
        · exact Or.inr ⟨h, h2, hn⟩
      · rintro ((h | h) | ⟨h, _, hn⟩)
        · exact Or.inl h
        · exact Or.inr (Or.inl h)
        · exact Or.inr (Or.inr ⟨h, hn⟩)

theorem map_insert_sorted {K V : Type} [LinearOrder K] (p : K × V) :
    ∀ d : List (K × V), List.Pairwise (fun a b => a.1 < b.1) d →
      List.Pairwise (fun a b => a.1 < b.1) (map_insert d p) := by
  intro d
  induction d with
  | nil => intro _; simp [map_insert]
  | cons q d ih =>
    intro hd
    have hd0 := hd
    rw [List.pairwise_cons] at hd
    rw [map_insert]
    split_ifs with h1 h2
    · rw [List.pairwise_cons]
      refine ⟨fun x hx => ?_, hd0⟩
      rcases List.mem_cons.1 hx with h | h
      · rw [h]; exact h1
      · exact lt_trans h1 (hd.1 x h)
    · exact hd0
    · rw [List.pairwise_cons]
      refine ⟨fun x hx => ?_, ih hd.2⟩
      rcases (map_insert_mem p x d hd.2).1 hx with h | ⟨h, _⟩
      · exact hd.1 x h
      · rw [h]
        exact lt_of_le_of_ne (not_lt.1 h1) (fun hc => h2 hc.symm)

/-- Inserting pairs one after the other into a map: the map stays sorted, its
entries stay, and an entry of the result that is not one of the map is the
first of the pairs that has its key, a key the map did not have. -/
theorem foldl_map_insert {K V : Type} [LinearOrder K] :
    ∀ (pairs d : List (K × V)), List.Pairwise (fun a b => a.1 < b.1) d →
      List.Pairwise (fun a b => a.1 < b.1) (pairs.foldl map_insert d) ∧
      ∀ e, e ∈ pairs.foldl map_insert d
        ↔ e ∈ d ∨ (e.1 ∉ d.map Prod.fst
            ∧ pairs.find? (fun p => decide (p.1 = e.1)) = some e) := by
  intro pairs
  induction pairs with
  | nil => intro d hd; exact ⟨hd, fun e => by simp⟩
  | cons p ps ih =>
    intro d hd
    obtain ⟨hs, hm⟩ := ih (map_insert d p) (map_insert_sorted p d hd)
    refine ⟨hs, fun e => ?_⟩
    rw [List.foldl_cons, hm e, map_insert_mem p e d hd, map_insert_keys p e.1 d]
    by_cases hk : p.1 = e.1
    · rw [List.find?_cons_of_pos _ (by simpa using hk)]
      constructor
      · rintro ((h | ⟨h, hn⟩) | ⟨hn, _⟩)
        · exact Or.inl h
        · exact Or.inr ⟨by rw [h]; exact hn, by rw [h]⟩
        · exact absurd (Or.inr hk.symm) hn
      · rintro (h | ⟨hn, h⟩)
        · exact Or.inl (Or.inl h)
        · have hpe : p = e := Option.some.inj h
          exact Or.inl (Or.inr ⟨hpe.symm, by rw [hpe]; exact hn⟩)
    · rw [List.find?_cons_of_neg _ (by simpa using hk)]
      constructor
      · rintro ((h | ⟨h, _⟩) | ⟨hn, h⟩)
        · exact Or.inl h
        · exact absurd (by rw [h]) hk
        · exact Or.inr ⟨fun hc => hn (Or.inl hc), h⟩
      · rintro (h | ⟨hn, h⟩)
        · exact Or.inl (Or.inl h)
        · refine Or.inr ⟨?_, h⟩
          rintro (hc | hc)
          · exact hn hc
          · exact hk hc.symm

/-- The loop of `unmarshallMap` reads the entries as the loop of
`unmarshall_vector` does, and inserts them in their order. -/
theorem unmarshallMap_loop_eq_vector {K V : Type} [LinearOrder K]
    (ku : reader → Except error (K × reader)) (vu : reader → Except error (V × reader))
    (d : List (K × V)) :
    ∀ (n : Nat) (th : reader) (vec : List (K × V)),
      unmarshallMap_loop ku vu n th (vec.foldl map_insert d)
        = (unmarshall_vector_loop (unmarshall_pair ku vu) n th vec).map
            (fun r => (r.1.foldl map_insert d, r.2)) := by
  intro n
  induction n with
  | zero => intro th vec; rfl
  | succ n ih =>
    intro th vec
    rw [unmarshallMap_loop, unmarshall_vector_loop]
    simp only [unmarshall_pair, bind, Except.bind, pure, Except.pure]
    cases hk : ku th with
    | error e => rfl
    | ok r1 =>
      simp only []
      cases hv : vu r1.2 with
      | error e => rfl
      | ok r2 =>
        simp only []
        have := ih r2.2 (vec ++ [(r1.1, r2.1)])
        rw [List.foldl_append] at this
        exact this

/-- C36: `unmarshallMap` does not clear its destination. It reads the count and
the pairs as `unmarshall_vector` reads them, and inserts the pairs in their
order into the destination `d`; when `d` is a map (its keys ascending), every
entry of `d` is an entry of the result, and an entry of the result that is not
one of `d` is the first decoded pair with its key, a key `d` did not have. The
result of `unmarshallSet` does not depend on its destination. -/
theorem unmarshallMap_keeps_destination {K V : Type} [LinearOrder K]
    (ku : reader → Except error (K × reader)) (vu : reader → Except error (V × reader))
    (th : reader) (d : List (K × V)) (hd : List.Pairwise (fun a b => a.1 < b.1) d) :
    unmarshallMap th d ku vu
      = (unmarshall_vector th (unmarshall_pair ku vu)).map
          (fun r => (r.1.foldl map_insert d, r.2)) ∧
    (∀ pairs : List (K × V),
      (∀ e ∈ d, e ∈ pairs.foldl map_insert d) ∧
      (∀ e, e ∈ pairs.foldl map_insert d
        ↔ e ∈ d ∨ (e.1 ∉ d.map Prod.fst
            ∧ pairs.find? (fun p => decide (p.1 = e.1)) = some e)) ∧
      List.Pairwise (fun a b => a.1 < b.1) (pairs.foldl map_insert d)) ∧
    (∀ (dset : List K), unmarshallSet th dset ku = unmarshallSet th [] ku) := by
  refine ⟨?_, fun pairs => ?_, fun _ => rfl⟩
  · unfold unmarshallMap unmarshall_vector
    simp only [bind, Except.bind]
    cases unmarshallInt th with
    | error e => rfl
    | ok r =>
      simp only []
      exact unmarshallMap_loop_eq_vector ku vu d r.1.toNat r.2 []
  · obtain ⟨hs, hm⟩ := foldl_map_insert pairs d hd
    exact ⟨fun e he => (hm e).2 (Or.inl he), hm, hs⟩

/-- Witness of C36: the stream of the count 3 and the pairs (5, 99), (3, 30) and
(3, 31), keys and values one byte each, read into the map of 1 to 10 and 5 to
50: both entries stay, and of the decoded pairs the first with the key 3 is
added. -/
theorem unmarshallMap_keeps_destination_witness :
    unmarshallMap (reader.mk [0, 0, 0, 3, 5, 99, 3, 30, 3, 31] 0 0 false false)
        [(1, 10), (5, 50)] unmarshallByte unmarshallByte
      = .ok ([(1, 10), (3, 30), (5, 50)],
          reader.mk [0, 0, 0, 3, 5, 99, 3, 30, 3, 31] 10 0 false false) ∧
    (∀ e ∈ [((1 : Int), (10 : Int)), (5, 50)],
      e ∈ [((5 : Int), (99 : Int)), (3, 30), (3, 31)].foldl map_insert [(1, 10), (5, 50)]) :=
  ⟨rfl, ((unmarshallMap_keeps_destination unmarshallByte unmarshallByte
      (reader.mk [0, 0, 0, 3, 5, 99, 3, 30, 3, 31] 0 0 false false)
      [((1 : Int), (10 : Int)), (5, 50)] (by simp)).2.1 [(5, 99), (3, 30), (3, 31)]).1⟩

/-! ## Runs that pass the end of the grid -/

/-- C37, what the code does: on a grid of one cell (width 1, height 1), every
cell 0 before, and the stream of the run length 2 and the value 7,
`_run_length_decode` consumes both bytes and assigns 7 to the cell (0, 0) and
to (0, 1), whose `y` is not below the height; the cell (0, 2) is left at 0. -/
theorem run_is_written_past_the_grid :
    (_run_length_decode (reader.mk [2, 7] 0 0 false false) unmarshallByte (fun _ _ => 0) 1 1).map
      (fun r => (r.1 0 0, r.1 0 1, r.1 0 2, r.2.read_offset)) = .ok (7, 7, 0, 2) ∧
    ¬ ((1 : Nat) < 1) := by
  constructor
  · rfl
  · decide

/-! ## The spells of a monster that is read -/

/-- A slot holding `SPELL_CORRUPT_BODY`, a spell that differs from the spells
the earlier branches test, is never rewritten: it is dropped for a zombie that
is not an enslaved soul, and kept as it is for every other monster. -/
theorem corrupt_body_is_kept {F : Type} (d : monster_spell_members F) (m : monster F)
    (spells : List mon_spell_slot) (slot : mon_spell_slot)
    (hs : slot.spell = d.SPELL_CORRUPT_BODY)
    (h1 : d.SPELL_CORRUPT_BODY ≠ d.SPELL_DRACONIAN_BREATH)
    (h2 : d.SPELL_CORRUPT_BODY ≠ d.SPELL_CREATE_TENTACLES)
    (h3 : d.SPELL_CORRUPT_BODY ≠ d.SPELL_CHANT_FIRE_STORM)
    (h4 : d.SPELL_CORRUPT_BODY ≠ d.SPELL_SERPENT_OF_HELL_BREATH_REMOVED)
    (h5 : d.SPELL_CORRUPT_BODY ≠ d.SPELL_DELAYED_FIREBALL)
    (h6 : d.SPELL_CORRUPT_BODY ≠ d.SPELL_MELEE) :
    unmarshallMonster_spell_slot d m spells slot
      = if d.mons_is_zombified m = true ∧ d.mons_enslaved_soul m = false then spells
        else spells ++ [slot] := by
  unfold unmarshallMonster_spell_slot
  by_cases hz : d.mons_is_zombified m = true ∧ d.mons_enslaved_soul m = false
  · rw [if_pos ⟨hz.1, hz.2, by rw [hs]; exact h2⟩, if_pos hz]
  · rw [if_neg (fun h => hz ⟨h.1, h.2.1⟩), if_neg (by rw [hs]; exact h1),
      if_neg (by rw [hs]; simp [h2]), if_neg (by rw [hs]; exact h3),
      if_neg (by rw [hs]; exact h4), if_pos (by rw [hs]; exact ⟨h5, h6⟩), if_neg hz]

/-- C38, what the code does: a monster that is not a zombie, read from a stream
of the current format whose one spell slot holds `SPELL_CORRUPT_BODY` (here 19,
with the frequency 20 and the flags 1), has that slot with `SPELL_CORRUPT_BODY`
after the spell fix-up of `unmarshallMonster`, not with
`SPELL_CORRUPTING_PULSE` (here 20). -/
theorem corrupt_body_is_read_back :
    unmarshallMonster_spells spells_of_numbered_constants monsters_of_numbered_spells
        (reader.mk [1, 0, 19, 20, 0, 1] 0 0 false false) ⟨0, ()⟩
      = .ok ([⟨19, 20, 1⟩], reader.mk [1, 0, 19, 20, 0, 1] 6 0 false false) ∧
    monsters_of_numbered_spells.SPELL_CORRUPT_BODY = 19 ∧
    monsters_of_numbered_spells.SPELL_CORRUPTING_PULSE = 20 ∧
    monsters_of_numbered_spells.mons_is_zombified ⟨0, ()⟩ = false := by
  refine ⟨by rfl, rfl, rfl, rfl⟩

/-! ## The caps on abominations -/

/-- From Invocations skill 3 on, the cap on large abominations is above the
cap on all abominations. -/
theorem large_abom_cap_above_total (skill : Int) (h : 3 ≤ skill) :
    _player_abomination_cap skill < _player_large_abom_cap skill := by
  have e : Int.tdiv skill 6 = skill / 6 := by
    obtain ⟨n, rfl⟩ := Int.eq_ofNat_of_zero_le (by omega : 0 ≤ skill)
    rfl
  have e3 : Int.tdiv 3 6 = 0 := rfl
  unfold _player_abomination_cap _player_large_abom_cap
  rw [if_neg (by omega), e, e3]
  omega

/-- From Invocations skill 3 on, the test against the cap on large
abominations never decides `player_allowed_abom`: its answer for a large
abomination is the one for a small one counted over the large ones only. -/
theorem large_abom_cap_never_refuses {F C : Type} (small large_type : Int)
    (monster_by_mid : Int → Option (monster F)) (stored : C → monster F) (skill : Int)
    (h : 3 ≤ skill) (companion_list : List (Int × C)) :
    player_allowed_abom small large_type monster_by_mid stored skill companion_list true
      = decide ((companion_list.foldl
          (fun (abom_count : Int) entry =>
            if (match monster_by_mid entry.1 with
                | some mons => mons
                | none => stored entry.2).type = large_type
            then abom_count + 1 else abom_count) 0) < _player_abomination_cap skill) := by
  have hc := large_abom_cap_above_total skill h
  simp only [player_allowed_abom, Bool.not_true, Bool.false_and, Bool.true_and, ge_iff_le,
    Bool.false_eq_true, if_false]
  by_cases hlt : (companion_list.foldl
          (fun (abom_count : Int) entry =>
            if (match monster_by_mid entry.1 with
                | some mons => mons
                | none => stored entry.2).type = large_type
            then abom_count + 1 else abom_count) 0) < _player_abomination_cap skill
  · rw [if_neg (by omega), if_neg (by simp; omega)]
    simp [hlt]
  · rw [if_pos (by omega)]
    simp [hlt]

/-- C39, what the code does: at Invocations skill 3 the cap on large
abominations is 4 and the cap on all abominations is 3, so the large cap is
not at most the total cap; with one large abomination in the registry a
further large one is allowed, and with three it is the total cap that
refuses. -/
theorem large_abom_cap_at_skill_3 :
    _player_large_abom_cap 3 = 4 ∧ _player_abomination_cap 3 = 3 ∧
    ¬ (_player_large_abom_cap 3 ≤ _player_abomination_cap 3) ∧
    player_allowed_abom 1 2 (fun _ => (none : Option (monster Unit)))
      (fun (c : monster Unit) => c) 3 [(10, ⟨2, ()⟩)] true = true ∧
    player_allowed_abom 1 2 (fun _ => (none : Option (monster Unit)))
      (fun (c : monster Unit) => c) 3 [(10, ⟨2, ()⟩), (11, ⟨2, ()⟩), (12, ⟨2, ()⟩)] true
      = false := by
  refine ⟨by decide, by decide, by decide, by decide, by decide⟩

end Crawl
